import Mathlib

/-!
# BAli-Phy: alignment utilities, parameter names, caches and sampler

A shallow embedding of the alignment utilities of `alignment-util.C`, of the start-up
checks of `bali-phy.C`, of the parameter search and of the names and values of a
`SuperModel` in `model.C`, of the reads of `matcache.H` and `substitution-index.H`, of the
construction of the sampler in `setup-mcmc.C`, of the bit helpers of `bits.H` and of the
shuffles of `util-random.H`, with the data they work on, followed by theorems about them.

Conventions of the embedding.

* A C++ function that can stop early (a failed `assert`, `std::abort`, a thrown
  `myexception`, a read outside a `std::vector` or a matrix) returns
  `Except Failure α`; the failure says which of these happened. Assertions are
  executed, as in a build without `NDEBUG`.
* The body of a loop is a definition of its own, named after the loop variable; a loop
  is a fold of its body over the range of the loop variable.
* Row and column indices are natural numbers; cell codes are integers.
* `int` and `long int` counters are unbounded integers, except the counter `mismatch` of
  `asymmetric_pairs_distance`: it is an `int` of 32 bits that counts pairs of cells, and an
  increment of it wraps around modulo `2^32` (`int_wrap`), as the machine addition does.
* A `std::string` is a `String`, read through its list of characters; a `double` that is
  only compared, negated and copied is a rational number.
* A function of the program that is not among the sources (`split`, `convertTo`,
  `remove_empty_columns`, `compute_mapping`, the virtual `recalc`) is an argument of the
  functions that call it; the numbers that `myrandom` draws are a function of the iteration.
-/

namespace BaliPhy

/-- The ways in which a function of the program stops without a result. -/
inductive Failure where
  /-- An `assert(...)` was false. -/
  | assertion : Failure
  /-- A vector, bitset or matrix was read or written outside its range. -/
  | out_of_range : Failure
  /-- The program called `std::abort()`. -/
  | abort : Failure
  /-- A `myexception` with this message was thrown. -/
  | exception (msg : String) : Failure
  deriving DecidableEq, Repr

namespace alphabet

/-- Modelled from the spec: the sentinel code `alphabet::gap` (the class `alphabet`
is declared in `alphabet.H`, which is not among the sources). `get_SM` compares the
same cells with the literal `-1`. -/
def gap : Int := -1

/-- Modelled from the spec: the sentinel code `alphabet::not_gap`, "present but
unknown state" (declared in `alphabet.H`, not among the sources). -/
def not_gap : Int := -2

/-- Modelled from the spec: the sentinel code `alphabet::unknown`, "missing"
(declared in `alphabet.H`, not among the sources). -/
def unknown : Int := -3

/-- Modelled from the spec: `is_feature`, a cell that is "neither gap nor unknown". -/
def is_feature (l : Int) : Bool := l != gap && l != unknown

end alphabet

/-- Modelled from the spec: the three sizes of an alphabet that `check_letters_OK`
reads (`a.size()`, `a.n_letters()`, `a.n_letter_classes()`); the class is declared
in `alphabet.H`, which is not among the sources. -/
structure Alphabet where
  size : Int
  n_letters : Int
  n_letter_classes : Int
  deriving DecidableEq, Repr

/-- Modelled from the spec: an alignment, "a rectangular matrix with `L` columns and
`N` rows (sequences)" (the class is declared in `alignment.H`, which is not among
the sources). `cell column i` is `A(column,i)`, `name i` is `A.seq(i).name`; only
the entries with `column < length` and `i < n_sequences` belong to the alignment. -/
structure alignment where
  get_alphabet : Alphabet
  n_sequences : Nat
  length : Nat
  name : Nat → String
  cell : Nat → Nat → Int

namespace alignment

/-- `A.gap(column,i)`: the cell is a gap. -/
def gap (A : alignment) (column i : Nat) : Bool := A.cell column i == alphabet.gap

/-- `A.unknown(column,i)`: the cell is unknown. -/
def unknown (A : alignment) (column i : Nat) : Bool := A.cell column i == alphabet.unknown

/-- `A.character(column,i)`: the cell is a feature, neither gap nor unknown. -/
def character (A : alignment) (column i : Nat) : Bool :=
  alphabet.is_feature (A.cell column i)

/-- `A.seqlength(i)`: "the number of cells in row `i` that are `is_feature`". -/
def seqlength (A : alignment) (i : Nat) : Nat :=
  (List.range A.length).foldl (fun n column => if A.character column i then n + 1 else n) 0

/-- `A(column,i) = v`. -/
def set (A : alignment) (column i : Nat) (v : Int) : alignment :=
  ⟨A.get_alphabet, A.n_sequences, A.length, A.name,
    fun c j => if c = column ∧ j = i then v else A.cell c j⟩

/-- `A.seq(i) = s` for a sequence with the name `s`. -/
def set_name (A : alignment) (i : Nat) (s : String) : alignment :=
  ⟨A.get_alphabet, A.n_sequences, A.length, fun j => if j = i then s else A.name j, A.cell⟩

end alignment

/-- A `ublas::matrix<int>` with `size1` rows and `size2` columns of the matrix; in this
program the first index is an alignment column and the second a sequence. -/
structure matrix where
  size1 : Nat
  size2 : Nat
  data : Nat → Nat → Int

namespace matrix

/-- `M(c,i)` as an rvalue, for indices that are not known to be in range. -/
def read (m : matrix) (c i : Nat) : Except Failure Int :=
  if c < m.size1 ∧ i < m.size2 then .ok (m.data c i) else .error Failure.out_of_range

/-- `M(c,i) = v`. -/
def set (m : matrix) (c i : Nat) (v : Int) : matrix :=
  ⟨m.size1, m.size2, fun c' i' => if c' = c ∧ i' = i then v else m.data c' i'⟩

end matrix

/-- `v[k]` for a `std::vector` and an `int` index. -/
def vec_at {α : Type} (v : List α) (k : Int) : Except Failure α :=
  if 0 ≤ k then
    match v.get? k.toNat with
    | some x => .ok x
    | none => .error Failure.out_of_range
  else .error Failure.out_of_range

/-- A `for` loop over the indices in `l` whose body may execute `return r`
(`some r`) or fall through to the next iteration (`none`). -/
def for_return {ρ : Type} (l : List Nat) (body : Nat → Except Failure (Option ρ)) :
    Except Failure (Option ρ) :=
  match l with
  | [] => .ok none
  | x :: xs =>
    match body x with
    | .error e => .error e
    | .ok (some r) => .ok (some r)
    | .ok none => for_return xs body

/-- A `boost::dynamic_bitset<>`: the list of its bits. -/
abbrev dynamic_bitset := List Bool

/-- `b[i]` as an rvalue. -/
def bit (b : dynamic_bitset) (i : Nat) : Bool := b.getD i false

/-- `a.intersects(b)`: some bit is set in both. -/
def intersects (a b : dynamic_bitset) : Bool :=
  (List.range a.length).any fun i => bit a i && bit b i

/-- Body of the loop over `column` in `column_lookup`: `columns.push_back(column)`. -/
def column_lookup_step (A : alignment) (i : Nat) (columns : List Nat) (column : Nat) :
    List Nat :=
  if A.character column i then columns ++ [column] else columns

/-- `column_lookup(A, nleaves)`: for each of the first `nleaves` sequences (all of them
when `nleaves` is `-1`), the columns that hold its features, in column order. -/
def column_lookup (A : alignment) (nleaves : Int) : List (List Nat) :=
  let n := if nleaves = -1 then A.n_sequences else nleaves.toNat
  (List.range n).map fun i => (List.range A.length).foldl (column_lookup_step A i) []

/-- Body of the loop over `column` in `M`, for the sequence `i`: the loop state is
the matrix `A2` and the counter `pos`. -/
def M_column_step (A1 : alignment) (i : Nat) (st : matrix × Int) (column : Nat) :
    matrix × Int :=
  if A1.character column i then (st.1.set column i st.2, st.2 + 1)
  else (st.1.set column i (A1.cell column i), st.2)

/-- Body of the loop over `i` in `M`: `pos` starts at 0 and the columns are scanned.
The closing `assert(pos == A1.seqlength(i))` is not a step of the model: it always
holds (`M_pos_eq_seqlength`). -/
def M_row_step (A1 : alignment) (A2 : matrix) (i : Nat) : matrix :=
  ((List.range A1.length).foldl (M_column_step A1 i) (A2, 0)).1

/-- `M(A1)`: replace each letter with its position in its sequence. -/
def M (A1 : alignment) : matrix :=
  (List.range A1.n_sequences).foldl (M_row_step A1) ⟨A1.length, A1.n_sequences, fun _ _ => 0⟩

/-- `A_match(M1,column,s1,s2,M2,column_indices)`: is the homology
`A1(column,s1)::A1(column,s2)` preserved in `A2`? -/
def A_match (M1 : matrix) (column s1 s2 : Nat) (M2 : matrix)
    (column_indices : List (List Nat)) : Except Failure Bool := do
  let a ← M1.read column s1
  let b ← M1.read column s2
  if a = alphabet.gap ∧ b = alphabet.gap then
    pure true
  else
    -- std::swap(s1,s2) when M1(column,s1) is a gap
    let t1 := if a = alphabet.gap then s2 else s1
    let t2 := if a = alphabet.gap then s1 else s2
    let row ← vec_at column_indices t1
    let k ← M1.read column t1
    let column2 ← vec_at row k
    let x ← M2.read column2 t2
    let y ← M1.read column t2
    pure (x == y)

/-- Body of the loops over sequences in `A_constant` that compare the lengths. -/
def A_constant_length_step (A1 A2 : alignment) (ignore : dynamic_bitset) (i : Nat) :
    Except Failure (Option Bool) :=
  if bit ignore i then .ok none
  else if A1.seqlength i ≠ A2.seqlength i then .ok (some false)
  else .ok none

/-- Body of the loop over `s2` in `A_constant`. -/
def A_constant_s2_step (M1 M2 : matrix) (column_indices : List (List Nat))
    (ignore : dynamic_bitset) (column s1 s2 : Nat) : Except Failure (Option Bool) :=
  if bit ignore s2 then .ok none
  else
    match A_match M1 column s1 s2 M2 column_indices with
    | .error e => .error e
    | .ok m => if m then .ok none else .ok (some false)

/-- Body of the loop over `s1` in `A_constant`. -/
def A_constant_s1_step (A1 : alignment) (M1 M2 : matrix) (column_indices : List (List Nat))
    (ignore : dynamic_bitset) (column s1 : Nat) : Except Failure (Option Bool) :=
  if bit ignore s1 then .ok none
  else
    for_return (List.range' (s1 + 1) (A1.n_sequences - (s1 + 1)))
      (A_constant_s2_step M1 M2 column_indices ignore column s1)

/-- `A_constant(A1,A2,ignore)`: is every homology of `A1` between sequences that are
not ignored also in `A2`? -/
def A_constant (A1 A2 : alignment) (ignore : dynamic_bitset) : Except Failure Bool :=
  if A1.n_sequences ≠ A2.n_sequences then .error Failure.assertion
  else if ¬ A1.n_sequences ≤ ignore.length then .error Failure.assertion
  else
    let M1 := M A1
    let M2 := M A2
    let column_indices := column_lookup A2 (-1)
    match for_return (List.range M1.size2) (A_constant_length_step A1 A2 ignore) with
    | .error e => .error e
    | .ok (some r) => .ok r
    | .ok none =>
      match for_return (List.range A1.length) (fun column =>
          for_return (List.range A1.n_sequences)
            (A_constant_s1_step A1 M1 M2 column_indices ignore column)) with
      | .error e => .error e
      | .ok (some r) => .ok r
      | .ok none => .ok true

/-- The value of an `int` of 32 bits in two's complement that is given the integer `x`:
`x` reduced modulo `2^32` into the range from `-2^31` to `2^31 - 1`. -/
def int_wrap (x : Int) : Int := (x + 2 ^ 31) % 2 ^ 32 - 2 ^ 31

/-- Body of the loop over `j` in `asymmetric_pairs_distance`; each `mismatch++` is an
increment of the `int` counter. -/
def pairs_j_step (M1 M2 : matrix) (column_indices2 : List (List Nat)) (column i : Nat)
    (mismatch : Int) (j : Nat) : Except Failure Int :=
  if M1.data column i = alphabet.unknown ∨ M1.data column j = alphabet.unknown then
    .ok mismatch
  else if M1.data column i ≠ alphabet.gap ∨ M1.data column j ≠ alphabet.gap then
    match A_match M1 column i j M2 column_indices2 with
    | .error e => .error e
    | .ok m =>
      if m then .ok mismatch
      else
        let mismatch1 :=
          if M1.data column i ≠ alphabet.gap then int_wrap (mismatch + 1) else mismatch
        .ok (if M1.data column j ≠ alphabet.gap then int_wrap (mismatch1 + 1) else mismatch1)
  else .ok mismatch

/-- Body of the loop over `i` in `asymmetric_pairs_distance`. -/
def pairs_i_step (M1 M2 : matrix) (column_indices2 : List (List Nat)) (column : Nat)
    (mismatch : Int) (i : Nat) : Except Failure Int :=
  (List.range i).foldlM (pairs_j_step M1 M2 column_indices2 column i) mismatch

/-- Body of the loop over `column` in `asymmetric_pairs_distance`. -/
def pairs_column_step (M1 M2 : matrix) (column_indices2 : List (List Nat))
    (mismatch : Int) (column : Nat) : Except Failure Int :=
  (List.range M1.size2).foldlM (pairs_i_step M1 M2 column_indices2 column) mismatch

/-- `asymmetric_pairs_distance(M1,M2,column_indices2)`: the counter is `int mismatch=0`,
and the function returns it as a `long int`. -/
def asymmetric_pairs_distance_M (M1 M2 : matrix) (column_indices2 : List (List Nat)) :
    Except Failure Int :=
  (List.range M1.size1).foldlM (pairs_column_step M1 M2 column_indices2) 0

/-- `asymmetric_pairs_distance(A1,A2)`. -/
def asymmetric_pairs_distance (A1 A2 : alignment) : Except Failure Int :=
  asymmetric_pairs_distance_M (M A1) (M A2) (column_lookup A2 (-1))

/-- `pairs_distance(A1,A2)`. -/
def pairs_distance (A1 A2 : alignment) : Except Failure Int :=
  match asymmetric_pairs_distance A1 A2 with
  | .error e => .error e
  | .ok d12 =>
    match asymmetric_pairs_distance A2 A1 with
    | .error e => .error e
    | .ok d21 => .ok (d12 + d21)

/-- Body of the loop in `get_splitgroup_columns`: the label of sequence `i`. -/
def splitgroup_label (M1 : matrix) (column : Nat) (columns : List (List Nat)) (i : Nat) :
    Except Failure Int :=
  if M1.data column i = alphabet.gap ∨ M1.data column i = alphabet.unknown then
    .ok (M1.data column i)
  else
    match vec_at columns i with
    | .error e => .error e
    | .ok row =>
      match vec_at row (M1.data column i) with
      | .error e => .error e
      | .ok c => .ok (c : Int)

/-- `get_splitgroup_columns(M1,column,M2,columns)`: for each sequence, the column of the
second alignment that holds its letter of this column, or its gap / unknown code. -/
def get_splitgroup_columns (M1 : matrix) (column : Nat) (_M2 : matrix)
    (columns : List (List Nat)) : Except Failure (List Int) :=
  (List.range M1.size2).mapM (splitgroup_label M1 column columns)

/-- Body of the loop that collects `uniq` in `asymmetric_splits_distance`. -/
def uniq_step (uniq : List Int) (x : Int) : List Int :=
  if x ≠ alphabet.unknown ∧ x ≠ alphabet.gap ∧ ¬ uniq.contains x then uniq ++ [x] else uniq

/-- Body of the loop over `column` in `asymmetric_splits_distance`. -/
def splits_column_step (M1 M2 : matrix) (column_indices2 : List (List Nat))
    (distance : Int) (column : Nat) : Except Failure Int :=
  match get_splitgroup_columns M1 column M2 column_indices2 with
  | .error e => .error e
  | .ok columns =>
    let uniq := columns.foldl uniq_step []
    let splits : Int := uniq.length
    let delta := splits - 1
    if delta ≥ 0 then .ok (distance + delta) else .error Failure.assertion

/-- Body of the loop over `column` in `asymmetric_splits_distance2`. -/
def splits2_column_step (M1 M2 : matrix) (column_indices2 : List (List Nat))
    (distance : Int) (column : Nat) : Except Failure Int :=
  match get_splitgroup_columns M1 column M2 column_indices2 with
  | .error e => .error e
  | .ok columns =>
    let uniq := columns.foldl uniq_step []
    let splits : Int := uniq.length
    let delta := Int.tdiv (splits * (splits - 1)) 2
    if delta ≥ 0 then .ok (distance + delta) else .error Failure.assertion

/-- `asymmetric_splits_distance(M1,M2,column_indices2)`. -/
def asymmetric_splits_distance_M (M1 M2 : matrix) (column_indices2 : List (List Nat)) :
    Except Failure Int :=
  (List.range M1.size1).foldlM (splits_column_step M1 M2 column_indices2) 0

/-- `asymmetric_splits_distance2(M1,M2,column_indices2)`. -/
def asymmetric_splits_distance2_M (M1 M2 : matrix) (column_indices2 : List (List Nat)) :
    Except Failure Int :=
  (List.range M1.size1).foldlM (splits2_column_step M1 M2 column_indices2) 0

/-- `asymmetric_splits_distance(A1,A2)`. -/
def asymmetric_splits_distance (A1 A2 : alignment) : Except Failure Int :=
  asymmetric_splits_distance_M (M A1) (M A2) (column_lookup A2 (-1))

/-- `asymmetric_splits_distance2(A1,A2)`. -/
def asymmetric_splits_distance2 (A1 A2 : alignment) : Except Failure Int :=
  asymmetric_splits_distance2_M (M A1) (M A2) (column_lookup A2 (-1))

/-- `splits_distance(A1,A2)`. -/
def splits_distance (A1 A2 : alignment) : Except Failure Int :=
  match asymmetric_splits_distance A1 A2 with
  | .error e => .error e
  | .ok d12 =>
    match asymmetric_splits_distance A2 A1 with
    | .error e => .error e
    | .ok d21 => .ok (d12 + d21)

/-- `splits_distance2(A1,A2)`. -/
def splits_distance2 (A1 A2 : alignment) : Except Failure Int :=
  match asymmetric_splits_distance2 A1 A2 with
  | .error e => .error e
  | .ok d12 =>
    match asymmetric_splits_distance2 A2 A1 with
    | .error e => .error e
    | .ok d21 => .ok (d12 + d21)

/-- Body of the loop over `c` in `shuffle_alignment`: `A2(c,i) = A(c,j)`. -/
def shuffle_cell_step (A : alignment) (i j : Nat) (A2 : alignment) (c : Nat) : alignment :=
  A2.set c i (A.cell c j)

/-- Body of the loop over `i` in `shuffle_alignment`, with `j = order[i]`. -/
def shuffle_row_step (A : alignment) (order : List Nat) (A2 : alignment) (i : Nat) :
    Except Failure alignment :=
  match order.get? i with
  | none => .error Failure.out_of_range
  | some j =>
    if j < A.n_sequences then
      .ok ((List.range A.length).foldl (shuffle_cell_step A i j) (A2.set_name i (A.name j)))
    else .error Failure.assertion

/-- `shuffle_alignment(A,order)`: the alignment whose row `i` is row `order[i]` of `A`. -/
def shuffle_alignment (A : alignment) (order : List Nat) : Except Failure alignment :=
  (List.range order.length).foldlM (shuffle_row_step A order)
    ⟨A.get_alphabet, order.length, A.length, fun _ => "", fun _ _ => 0⟩

/-- Modelled from the spec: the class `Tree` (declared in `tree.H`, which is not among
the sources), "an unrooted tree with `n_leaves` labelled terminal nodes" numbered
`0 .. n_leaves-1`, followed by the internal nodes `n_leaves .. n_nodes-1`. The unrooted
tree is stored by hanging it from one of its nodes, `root`: `parent n` is the neighbour
of `n` on the way to `root`, and `parent root = root`. -/
structure Tree where
  n_leaves : Nat
  n_nodes : Nat
  root : Nat
  parent : Nat → Nat

namespace Tree

/-- Modelled from the spec: `T[n].neighbors()`, "the 3 (or fewer for leaves) adjacent
nodes" of `n`: its parent, unless `n` is the root, and its children. -/
def neighbors (T : Tree) (n : Nat) : List Nat :=
  (if n = T.root then [] else [T.parent n]) ++
    (List.range T.n_nodes).filter fun u => u != T.root && T.parent u == n

/-- Is `a` on the way from `x` to the root (`x` itself included)? At most `fuel` steps
are followed. -/
def climbs (T : Tree) (fuel a x : Nat) : Bool :=
  match fuel with
  | 0 => a == x
  | fuel + 1 => a == x || climbs T fuel a (T.parent x)

/-- Modelled from the spec: `T.partition(n1,n2)` for a neighbour `n2` of `n1` (declared
in `tree.H`, which is not among the sources): the mask of the "behind-subtree" that hangs
off `n1` through `n2`, that is, of the nodes reached from `n1` through `n2`. The mask has
one bit for every node, leaf or internal: `present.intersects(group)` combines it with a
mask of `n_nodes` bits, and `all_characters_connected` is documented to "check that any
two present nodes are connected by a path of present nodes". -/
def partition (T : Tree) (n1 n2 : Nat) : dynamic_bitset :=
  (List.range T.n_nodes).map fun x =>
    if n1 ≠ T.root ∧ n2 = T.parent n1 then !(T.climbs T.n_nodes n1 x)
    else T.climbs T.n_nodes n2 x

/-- Modelled from the spec: a fully resolved ("binary") tree. Every node hangs from the
root, the first `n_leaves` nodes are terminal and every other node has degree 3. -/
def is_binary (T : Tree) : Prop :=
  T.n_leaves ≤ T.n_nodes ∧ T.root < T.n_nodes ∧ T.parent T.root = T.root ∧
  (∀ v, v < T.n_nodes → T.parent v < T.n_nodes ∧ T.parent^[T.n_nodes] v = T.root) ∧
  (∀ v, v < T.n_leaves → (T.neighbors v).length ≤ 1) ∧
  (∀ v, v < T.n_nodes → T.n_leaves ≤ v → (T.neighbors v).length = 3)

instance (T : Tree) : Decidable T.is_binary := by
  unfold is_binary
  infer_instance

end Tree

/-- The number of subtrees attached to `n1` that hold a present node: the loop over
`neighbors` in `connect_all_characters` and `all_characters_connected`. -/
def count_subtrees (T : Tree) (present : dynamic_bitset) (n1 : Nat) (neighbors : List Nat) :
    Int :=
  neighbors.foldl
    (fun total n2 => if intersects present (T.partition n1 n2) then total + 1 else total) 0

/-- Body of the loop over the internal nodes `n1` in `all_characters_connected`. -/
def all_connected_step (T : Tree) (present ignore : dynamic_bitset) (n1 : Nat) :
    Except Failure (Option Bool) :=
  if bit present n1 || bit ignore n1 then .ok none
  else
    let neighbors := T.neighbors n1
    if neighbors.length ≠ 3 then .error Failure.assertion
    else if count_subtrees T present n1 neighbors > 1 then .ok (some false)
    else .ok none

/-- Body of the loop over `_ignore` in `all_characters_connected`: the node `n` is made
absent and marked as ignored. The loop state is `(present, ignore)`. -/
def ignore_step (st : dynamic_bitset × dynamic_bitset) (n : Nat) :
    Except Failure (dynamic_bitset × dynamic_bitset) :=
  if n < st.1.length then .ok (st.1.set n false, st.2.set n true)
  else .error Failure.out_of_range

/-- `all_characters_connected(T,present,_ignore)`: "check that any two present nodes are
connected by a path of present nodes". -/
def all_characters_connected (T : Tree) (present : dynamic_bitset) (_ignore : List Nat) :
    Except Failure Bool :=
  if present.length ≠ T.n_nodes then .error Failure.assertion
  else
    match _ignore.foldlM ignore_step (present, List.replicate present.length false) with
    | .error e => .error e
    | .ok (present, ignore) =>
      match for_return (List.range' T.n_leaves (T.n_nodes - T.n_leaves))
          (all_connected_step T present ignore) with
      | .error e => .error e
      | .ok (some r) => .ok r
      | .ok none => .ok true

/-- Body of the loop over the internal nodes `n1` in `connect_all_characters`. -/
def connect_step (T : Tree) (present : dynamic_bitset) (n1 : Nat) :
    Except Failure dynamic_bitset :=
  if bit present n1 then .ok present
  else
    let neighbors := T.neighbors n1
    if neighbors.length ≠ 3 then .error Failure.assertion
    else if count_subtrees T present n1 neighbors > 1 then .ok (present.set n1 true)
    else .ok present

/-- The loop of `connect_all_characters`, before its closing assertion. -/
def connect_loop (T : Tree) (present : dynamic_bitset) : Except Failure dynamic_bitset :=
  (List.range' T.n_leaves (T.n_nodes - T.n_leaves)).foldlM (connect_step T) present

/-- `connect_all_characters(T,present)`; the result is the new value of `present`. -/
def connect_all_characters (T : Tree) (present : dynamic_bitset) :
    Except Failure dynamic_bitset :=
  if present.length ≠ T.n_nodes then .error Failure.assertion
  else
    match connect_loop T present with
    | .error e => .error e
    | .ok present =>
      match all_characters_connected T present [] with
      | .error e => .error e
      | .ok true => .ok present
      | .ok false => .error Failure.assertion

/-- The presence mask of a column: `present[i] = not A.gap(column,i)` for every node. -/
def column_present (A : alignment) (T : Tree) (column : Nat) : dynamic_bitset :=
  (List.range T.n_nodes).map fun i => !A.gap column i

/-- Body of the loop over the internal nodes `i` that writes the present characters of
`connect_leaf_characters` into the alignment. -/
def connect_leaf_write_step (present : dynamic_bitset) (column : Nat) (A : alignment)
    (i : Nat) : alignment :=
  if bit present i then A.set column i alphabet.not_gap else A

/-- Body of the loop over `column` in `connect_leaf_characters`. -/
def connect_leaf_column_step (T : Tree) (A : alignment) (column : Nat) :
    Except Failure alignment :=
  match connect_all_characters T (column_present A T column) with
  | .error e => .error e
  | .ok present =>
    .ok ((List.range' T.n_leaves (T.n_nodes - T.n_leaves)).foldl
      (connect_leaf_write_step present column) A)

/-- `connect_leaf_characters(A,T)`; the result is the new value of `A`. -/
def connect_leaf_characters (A : alignment) (T : Tree) : Except Failure alignment :=
  if A.n_sequences ≠ T.n_nodes then .error Failure.assertion
  else (List.range A.length).foldlM (connect_leaf_column_step T) A

/-- The message of the exception of `check_internal_nodes_connected`. -/
def inconsistent_message (column : Nat) : String :=
  "Internal node states are inconsistent in column " ++ toString column

/-- Body of the loop over `column` in `check_internal_nodes_connected`. -/
def check_connected_step (A : alignment) (T : Tree) (ignore : List Nat) (_u : Unit)
    (column : Nat) : Except Failure Unit :=
  match all_characters_connected T (column_present A T column) ignore with
  | .error e => .error e
  | .ok true => .ok ()
  | .ok false => .error (Failure.exception (inconsistent_message column))

/-- `check_internal_nodes_connected(A,T,ignore)`: "check that internal node states are
consistent". -/
def check_internal_nodes_connected (A : alignment) (T : Tree) (ignore : List Nat) :
    Except Failure Unit :=
  if A.n_sequences = T.n_leaves then .ok ()
  else if A.n_sequences ≠ T.n_nodes then .error Failure.assertion
  else (List.range A.length).foldlM (check_connected_step A T ignore) ()

/-- The message of the exception of `check_internal_sequences_composition`. -/
def illegal_index_message (A : alignment) (column i : Nat) : String :=
  "Found a illegal index " ++ toString (A.cell column i) ++ "in column " ++ toString column ++
    " of internal sequence '" ++ A.name i ++ "': only - and * are allowed"

/-- Body of the loop over `i` in `check_internal_sequences_composition`. -/
def composition_i_step (A : alignment) (column : Nat) (_u : Unit) (i : Nat) :
    Except Failure Unit :=
  if A.cell column i = alphabet.gap then .ok ()
  else if A.cell column i = alphabet.not_gap then .ok ()
  else .error (Failure.exception (illegal_index_message A column i))

/-- Body of the loop over `column` in `check_internal_sequences_composition`. -/
def composition_column_step (A : alignment) (n_leaves : Nat) (_u : Unit) (column : Nat) :
    Except Failure Unit :=
  (List.range' n_leaves (A.n_sequences - n_leaves)).foldlM (composition_i_step A column) ()

/-- `check_internal_sequences_composition(A,n_leaves)`: "check that internal nodes don't
have letters (or anything wierder!)". -/
def check_internal_sequences_composition (A : alignment) (n_leaves : Nat) :
    Except Failure Unit :=
  (List.range A.length).foldlM (composition_column_step A n_leaves) ()

/-- The test of one cell in `check_letters_OK`: is the code `x` legal? -/
def letter_OK (a : Alphabet) (x : Int) : Bool :=
  if x ≥ 0 ∧ x < a.size then true
  else if x ≥ a.n_letters ∧ x < a.n_letter_classes then true
  else if x = alphabet.gap then true
  else if x = alphabet.not_gap then true
  else if x = alphabet.unknown then true
  else false

/-- Body of the loops of `check_letters_OK`: the flag `bad` after looking at `A(i,j)`. -/
def letters_step (A : alignment) (i : Nat) (bad : Bool) (j : Nat) : Bool :=
  if letter_OK A.get_alphabet (A.cell i j) then bad else true

/-- `check_letters_OK(A)`: aborts when some cell holds an illegal code. -/
def check_letters_OK (A : alignment) : Except Failure Unit :=
  let bad := (List.range A.length).foldl
    (fun bad i => (List.range A.n_sequences).foldl (letters_step A i) bad) false
  if bad then .error Failure.abort else .ok ()

/-! ## Adding and removing the internal rows of an alignment -/

/-- Modelled from the spec: the static predicate `alphabet::is_letter_class`, "is this code
a letter or a letter class" (declared in `alphabet.H`, which is not among the sources).
It has no alphabet to look at, and `check_letters_OK` places the letters and the letter
classes at the codes from 0 on, below the sentinel codes. -/
def alphabet.is_letter_class (l : Int) : Bool := decide (l ≥ 0)

/-- `A.del_sequence(k)`: row `k` is taken out and the rows after it move up. -/
def alignment.del_sequence (A : alignment) (k : Nat) : alignment :=
  ⟨A.get_alphabet, A.n_sequences - 1, A.length,
    fun j => if j < k then A.name j else A.name (j + 1),
    fun c j => if j < k then A.cell c j else A.cell c (j + 1)⟩

/-- `A.add_sequence(s)` for a sequence `s` with the name `name` and no letters: a row is
added below the others. Its cells are whatever the cell function holds there; `add_internal`
overwrites them. -/
def alignment.add_sequence (A : alignment) (name : String) : alignment :=
  ⟨A.get_alphabet, A.n_sequences + 1, A.length,
    fun j => if j = A.n_sequences then name else A.name j, A.cell⟩

/-- A `for` loop over the indices in `l` whose body may execute `break`: the body returns
the new state and whether it left the loop. -/
def for_break {σ : Type} (l : List Nat) (body : σ → Nat → σ × Bool) (s : σ) : σ :=
  match l with
  | [] => s
  | x :: xs => if (body s x).2 then (body s x).1 else for_break xs body (body s x).1

/-- Body of the loop over `column` in `chop_internal`; the state is `internal_nodes`. -/
def chop_column_step (A : alignment) (i : Nat) (internal_nodes : Bool) (column : Nat) :
    Bool × Bool :=
  if alphabet.is_letter_class (A.cell column i) then (false, true) else (internal_nodes, false)

/-- Body of the loop over `i` in `chop_internal`; the state is `internal_nodes`. -/
def chop_row_step (A : alignment) (internal_nodes : Bool) (i : Nat) : Bool × Bool :=
  if (A.name i).data.length = 0 ∨ (A.name i).data.getD 0 default ≠ 'A' then (false, true)
  else (for_break (List.range A.length) (chop_column_step A i) internal_nodes, false)

/-- `chop_internal(A, keep_empty_columns)`. The function `remove_empty_columns`, which is
not among the sources, is a parameter. The loop `while(A.n_sequences() > N)` runs
`A.n_sequences() - N` times. -/
def chop_internal (remove_empty_columns : alignment → alignment) (A : alignment)
    (keep_empty_columns : Bool) : alignment :=
  let N := (A.n_sequences + 2) / 2
  let internal_nodes :=
    for_break (List.range' N (A.n_sequences - N)) (chop_row_step A) true
  if ¬ internal_nodes then A
  else
    let A1 := (List.range (A.n_sequences - N)).foldl (fun B _ => B.del_sequence N) A
    if ¬ keep_empty_columns then remove_empty_columns A1 else A1

/-- The message of the exception of `add_internal`. -/
def add_internal_message : String :=
  "Number of sequence in alignment doesn't match number of leaves in tree" ++
    "- can't add internal sequences"

/-- Body of the first loop of `add_internal`: the empty sequence named `A<i>` is added. -/
def add_internal_name_step (A : alignment) (i : Nat) : alignment :=
  A.add_sequence ("A" ++ toString i)

/-- Body of the loop over `column` in `add_internal`: the rows of the internal nodes are
set to gaps. -/
def add_internal_gap_step (T : Tree) (A : alignment) (column : Nat) : alignment :=
  (List.range' T.n_leaves (T.n_nodes - T.n_leaves)).foldl
    (fun B i => B.set column i alphabet.gap) A

/-- `add_internal(A,T)`. -/
def add_internal (A : alignment) (T : Tree) : Except Failure alignment :=
  if A.n_sequences ≠ T.n_leaves then .error (Failure.exception add_internal_message)
  else
    let A1 := (List.range' T.n_leaves (T.n_nodes - T.n_leaves)).foldl add_internal_name_step A
    .ok ((List.range A1.length).foldl (add_internal_gap_step T) A1)

/-! ## Checks at start-up (`bali-phy.C`) -/

/-- The string `forbidden` of `check_alignment_names`. -/
def forbidden : String := "();:\"'[]&,"

/-- The message of the exception of `check_alignment_names`. -/
def illegal_character_message (name : String) (c : Char) : String :=
  "Sequence name '" ++ name ++ "' contains illegal character '" ++ String.singleton c ++ "'"

/-- Body of the loop over `pos` in `check_alignment_names`. -/
def names_pos_step (name : String) (c : Nat) (_u : Unit) (pos : Nat) : Except Failure Unit :=
  if name.data.getD pos default = forbidden.data.getD c default then
    .error (Failure.exception (illegal_character_message name (forbidden.data.getD c default)))
  else .ok ()

/-- Body of the loop over `c` in `check_alignment_names`. -/
def names_c_step (name : String) (_u : Unit) (c : Nat) : Except Failure Unit :=
  (List.range name.data.length).foldlM (names_pos_step name c) ()

/-- Body of the loop over `j` in `check_alignment_names`. -/
def names_j_step (name : String) (_u : Unit) (_j : Nat) : Except Failure Unit :=
  (List.range forbidden.data.length).foldlM (names_c_step name) ()

/-- Body of the loop over `i` in `check_alignment_names`. -/
def names_i_step (A : alignment) (_u : Unit) (i : Nat) : Except Failure Unit :=
  (List.range (A.name i).data.length).foldlM (names_j_step (A.name i)) ()

/-- `check_alignment_names(A)`. -/
def check_alignment_names (A : alignment) : Except Failure Unit :=
  (List.range A.n_sequences).foldlM (names_i_step A) ()

/-- The message of the exception of `check_alignment_values`; `unknown_letter`,
`gap_letter` and `wildcard` are the members of the alphabet with these names (the class
`alphabet` is declared in `alphabet.H`, which is not among the sources). -/
def unknown_value_message (filename unknown_letter name gap_letter wildcard : String) :
    String :=
  "Alignment file '" ++ filename ++ "' has a '" ++ unknown_letter ++ "' in sequence '" ++
    name ++ "'.\n (Please replace with gap character '" ++ gap_letter ++ "' or wildcard '" ++
    wildcard ++ "'.)"

/-- Body of the loop over `j` in `check_alignment_values`. -/
def values_j_step (A : alignment) (filename unknown_letter gap_letter wildcard : String)
    (i : Nat) (_u : Unit) (j : Nat) : Except Failure Unit :=
  if A.unknown j i then
    .error (Failure.exception
      (unknown_value_message filename unknown_letter (A.name i) gap_letter wildcard))
  else .ok ()

/-- Body of the loop over `i` in `check_alignment_values`. -/
def values_i_step (A : alignment) (filename unknown_letter gap_letter wildcard : String)
    (_u : Unit) (i : Nat) : Except Failure Unit :=
  (List.range A.length).foldlM
    (values_j_step A filename unknown_letter gap_letter wildcard i) ()

/-- `check_alignment_values(A,filename)`: an alignment with an unknown cell is refused when
it is loaded. The letters of the alphabet that the message quotes are arguments. -/
def check_alignment_values (A : alignment)
    (filename unknown_letter gap_letter wildcard : String) : Except Failure Unit :=
  (List.range A.n_sequences).foldlM
    (values_i_step A filename unknown_letter gap_letter wildcard) ()

/-- Body of the first loop of `sanitize_branch_lengths`: the smallest positive length so
far, starting from `0.000001`. -/
def min_branch_step (lengths : List ℚ) (min_branch : ℚ) (i : Nat) : ℚ :=
  if lengths.getD i 0 > 0 then min min_branch (lengths.getD i 0) else min_branch

/-- Body of the second loop of `sanitize_branch_lengths`. -/
def sanitize_step (min_branch : ℚ) (lengths : List ℚ) (i : Nat) : List ℚ :=
  let lengths1 := if lengths.getD i 0 = 0 then lengths.set i min_branch else lengths
  if lengths1.getD i 0 < 0 then lengths1.set i (- lengths1.getD i 0) else lengths1

/-- `sanitize_branch_lengths(T)` on the list of the branch lengths of `T`, entry `i`
being `T.branch(i).length()`. A `double` is a rational number here: the function only
compares, negates and copies lengths, which is exact on finite doubles. -/
def sanitize_branch_lengths (lengths : List ℚ) : List ℚ :=
  let min_branch := (List.range lengths.length).foldl (min_branch_step lengths) (1 / 1000000)
  (List.range lengths.length).foldl (sanitize_step min_branch) lengths

/-! ## Parameter names (`model.C`) -/

/-- A `Parameter`: its name, value and whether it is fixed (the bounds play no part
here). -/
structure Parameter where
  name : String
  value : ℚ
  fixed : Bool

/-- A `Model`, as far as its list of parameters goes. -/
structure Model where
  parameters_ : List Parameter

namespace Model

/-- `M.n_parameters()`. -/
def n_parameters (M : Model) : Nat := M.parameters_.length

/-- `M.parameter_name(i)`. -/
def parameter_name (M : Model) (i : Nat) : String := (M.parameters_.getD i ⟨"", 0, false⟩).name

/-- `M.get_parameter_values()`. -/
def get_parameter_values (M : Model) : List ℚ :=
  (List.range M.n_parameters).map fun i => (M.parameters_.getD i ⟨"", 0, false⟩).value

end Model

/-- `find_parameter(M,name)`: the first index with this name, or `-1`. -/
def find_parameter (M : Model) (name : String) : Int :=
  match for_return (List.range M.n_parameters)
      (fun i => if M.parameter_name i = name then .ok (some (i : Int)) else .ok none) with
  | .ok (some i) => i
  | _ => -1

/-- `match(s1,s2)`: does the string `s1` match the pattern `s2`? -/
def string_match (s1 s2 : String) : Bool :=
  if s2.data.length ≠ 0 ∧ s2.data.getD (s2.data.length - 1) default = '*' then
    let L := s2.data.length - 1
    if L > s1.data.length then false
    else s1.data.take L == s2.data.take L
  else s1 == s2

/-- The end of an iteration of the loop in `parameters_with_extension`, from
`if (not match(path1.back(),path2.back())) continue;` on, for the `path1` that the
erasures have left. `path1.back()` on an empty vector stops with `out_of_range`. -/
def extension_tail (path2 : List String) (indices : List Nat) (i : Nat)
    (path1 : List String) : Except Failure (List Nat) :=
  match path1.getLast? with
  | none => .error Failure.out_of_range
  | some back1 =>
    if ¬ string_match back1 (path2.getLastD "") then .ok indices
    else if path1.dropLast = path2.dropLast then .ok (indices ++ [i])
    else .ok indices

/-- Body of the loop over `i` in `parameters_with_extension`; the state is `indices`.
`path1.erase(path1.begin())` on an empty vector stops with `out_of_range`. -/
def extension_step (split : String → List String) (M : Model) (complete_match : Bool)
    (path2 : List String) (indices : List Nat) (i : Nat) : Except Failure (List Nat) :=
  let path1 := split (M.parameter_name i)
  if (path2.getD 0 "").data.length = 0 then
    match path1 with
    | [] => .error Failure.out_of_range
    | _ :: rest => extension_tail path2 indices i rest
  else if path2.length > path1.length then .ok indices
  else if ¬ complete_match then
    extension_tail path2 indices i (path1.drop (path1.length - path2.length))
  else extension_tail path2 indices i path1

/-- `parameters_with_extension(M,name)`. The function `split(s,"::")`, which is not among
the sources, is a parameter. -/
def parameters_with_extension (split : String → List String) (M : Model) (name : String) :
    Except Failure (List Nat) :=
  let complete_match := decide (name.data.length ≠ 0 ∧ name.data.getD 0 default = '^')
  let name1 := if complete_match then String.mk (name.data.drop 1) else name
  let path2 := split name1
  if path2.length = 0 then .ok []
  else (List.range M.n_parameters).foldlM (extension_step split M complete_match path2) []

/-! ## Parameters set on the command line (`bali-phy.C`) -/

/-- Modelled from the spec: the class `Parameters` (declared in `parameters.H`, which is
not among the sources), as far as `set_parameters` uses it: a model with its "flat
vector of named scalars with per-parameter `fixed` flag" and the map `keys` from names to
values. -/
structure Parameters extends Model where
  keys : List (String × ℚ)

namespace Parameters

/-- Modelled from the spec: `P.set_fixed(p,f)`, which sets the `fixed` flag of parameter
`p` (declared in `model.H`, which is not among the sources). -/
def set_fixed (P : Parameters) (p : Nat) (f : Bool) : Parameters :=
  ⟨⟨P.parameters_.modify (fun x => ⟨x.name, x.value, f⟩) p⟩, P.keys⟩

/-- `P.set_parameter_values(p)`: every parameter gets its value from `p`; the sizes are
asserted to agree. The recalculation that follows changes no parameter. -/
def set_parameter_values (P : Parameters) (p : List ℚ) : Except Failure Parameters :=
  if P.parameters_.length ≠ p.length then .error Failure.assertion
  else
    .ok ⟨⟨(List.range P.parameters_.length).foldl
      (fun ps i => ps.modify (fun x => ⟨x.name, p.getD i 0, x.fixed⟩) i) P.parameters_⟩, P.keys⟩

/-- `P.keys[name] = value` on the `std::map`: the entry of `name` is replaced or added. -/
def set_key (P : Parameters) (name : String) (value : ℚ) : Parameters :=
  ⟨P.toModel, (P.keys.filter fun kv => kv.1 ≠ name) ++ [(name, value)]⟩

end Parameters

/-- A `for` loop over the indices in `l` on a state that is changed in place: when the
body throws, the loop stops and the state is as the body left it. -/
def for_state {σ : Type} (l : List Nat) (body : σ → Nat → σ × Option Failure) (s : σ) :
    σ × Option Failure :=
  match l with
  | [] => (s, none)
  | x :: xs =>
    match (body s x).2 with
    | some e => ((body s x).1, some e)
    | none => for_state xs body (body s x).1

/-- Body of the loops of `set_parameters` that "separate out 'set' operations": the
state is the list `fix` (or `unfix`) and the list `doset`. -/
def separate_step (split : String → List String) (st : List String × List String)
    (i : Nat) : List String × List String :=
  let parse := split (st.1.getD i "")
  if parse.length > 1 then (st.1.set i (parse.getD 0 ""), st.2 ++ [st.1.getD i ""]) else st

/-- The message of the exception of the loops that fix and unfix parameters. -/
def cannot_find_message (name what : String) : String :=
  "Can't find parameter '" ++ name ++ "' to " ++ what ++ "."

/-- Body of the loops of `set_parameters` that fix (`f = true`, `what = "fix"`) and unfix
(`f = false`, `what = "unfix"`) parameters. -/
def fix_step (names : List String) (f : Bool) (what : String) (P : Parameters) (i : Nat) :
    Parameters × Option Failure :=
  let p := find_parameter P.toModel (names.getD i "")
  if p ≠ -1 then (P.set_fixed p.toNat f, none)
  else (P, some (Failure.exception (cannot_find_message (names.getD i "") what)))

/-- The message of the exception for an option that is not of the form `name=value`. -/
def ill_formed_message (s : String) : String :=
  "Ill-formed initial condition '" ++ s ++ "'."

/-- Body of the loop of `set_parameters` that sets parameters: the state is the vector
`parameters` and `P`. The functions `split(s,'=')` and `convertTo<double>`, which are not
among the sources, are parameters. -/
def set_step (split : String → List String) (convertTo : String → Except Failure ℚ)
    (doset : List String) (st : List ℚ × Parameters) (i : Nat) :
    (List ℚ × Parameters) × Option Failure :=
  let parse := split (doset.getD i "")
  if parse.length ≠ 2 then (st, some (Failure.exception (ill_formed_message (doset.getD i ""))))
  else
    let name := parse.getD 0 ""
    match convertTo (parse.getD 1 "") with
    | .error e => (st, some e)
    | .ok value =>
      let p := find_parameter st.2.toModel name
      if p ≠ -1 then ((st.1.set p.toNat value, st.2), none)
      else ((st.1, st.2.set_key name value), none)

/-- `set_parameters(P,args)`: the result is `P` as the call leaves it and the failure it
threw, if any. The three lists are the values of the options `fix`, `unfix` and `set`,
empty for an option that is not given. -/
def set_parameters (split : String → List String) (convertTo : String → Except Failure ℚ)
    (P : Parameters) (fix unfix doset : List String) : Parameters × Option Failure :=
  let s1 := (List.range fix.length).foldl (separate_step split) (fix, doset)
  let s2 := (List.range unfix.length).foldl (separate_step split) (unfix, s1.2)
  let fix := s1.1
  let unfix := s2.1
  let doset := s2.2
  match for_state (List.range fix.length) (fix_step fix true "fix") P with
  | (P, some e) => (P, some e)
  | (P, none) =>
    match for_state (List.range unfix.length) (fix_step unfix false "unfix") P with
    | (P, some e) => (P, some e)
    | (P, none) =>
      match for_state (List.range doset.length) (set_step split convertTo doset)
          (P.get_parameter_values, P) with
      | (st, some e) => (st.2, some e)
      | (st, none) =>
        match st.2.set_parameter_values st.1 with
        | .error e => (st.2, some e)
        | .ok P => (P, none)

/-! ## The cache of transition matrices (`matcache.H`) -/

/-- The class `MatCache`, over the type `Matrix` of the cached matrices:
`transition_P_[b][r]` is the matrix of branch `b` and rate class `r`. -/
structure MatCache (Matrix : Type) where
  n_branches_ : Int
  n_models_ : Int
  n_states_ : Int
  transition_P_ : List (List Matrix)

namespace MatCache

/-- Modelled from the spec: `MatCache::n_branches()`, which is defined in `matcache.C` (not
among the sources): the number of branches that the cache is indexed by. -/
def n_branches {Matrix : Type} (C : MatCache Matrix) : Int := C.n_branches_

/-- `MatCache::transition_P(b,r)` in a build without `NDEBUG`: the assertion
`b < n_branches()` is executed before the line `if (b == n_branches()) b--;`. -/
def transition_P {Matrix : Type} (C : MatCache Matrix) (b r : Int) : Except Failure Matrix :=
  if ¬ b < C.n_branches then .error Failure.assertion
  else
    let b1 := if b = C.n_branches then b - 1 else b
    match vec_at C.transition_P_ b1 with
    | .error e => .error e
    | .ok row => vec_at row r

/-- `MatCache::transition_P(b,r)` in a build with `NDEBUG`: the lines between
`#ifndef NDEBUG` and `#endif` are not compiled, and `transition_P_[b][r]` is read. -/
def transition_P_NDEBUG {Matrix : Type} (C : MatCache Matrix) (b r : Int) :
    Except Failure Matrix :=
  match vec_at C.transition_P_ b with
  | .error e => .error e
  | .ok row => vec_at row r

end MatCache

/-! ## The index of the sub-alignments (`substitution-index.H`) -/

namespace subA_index_t

/-- `I(0,b)` for an `int` index `b` of the matrix that a `subA_index_t` is. -/
def row0 (I : matrix) (b : Int) : Except Failure Int :=
  if 0 ≤ b then I.read 0 b.toNat else .error Failure.out_of_range

/-- `subA_index_t::branch_index_valid(b)`: `operator()(0,b) != -1`. -/
def branch_index_valid (I : matrix) (b : Int) : Except Failure Bool :=
  match row0 I b with
  | .error e => .error e
  | .ok v => .ok (v != -1)

/-- `subA_index_t::branch_index_length(b)`, with its two assertions. -/
def branch_index_length (I : matrix) (b : Int) : Except Failure Int :=
  if ¬ (0 ≤ b ∧ b < I.size2) then .error Failure.assertion
  else
    match branch_index_valid I b with
    | .error e => .error e
    | .ok false => .error Failure.assertion
    | .ok true => row0 I b

/-- Modelled from the spec: the constructor `subA_index_t(s1,s2)`, defined in
`substitution-index.C` (not among the sources). "Each branch index is either valid or
invalid", and `branch_index_valid` reads the mark of an invalid index as `-1` in row 0: a
new index has every branch invalid. -/
def construct (s1 s2 : Nat) : matrix := ⟨s1, s2, fun _ _ => -1⟩

/-- Modelled from the spec: `invalidate_one_branch(b)`, defined in `substitution-index.C`
(not among the sources): the index of branch `b` becomes invalid. -/
def invalidate_one_branch (I : matrix) (b : Nat) : matrix := I.set 0 b (-1)

/-- Modelled from the spec: `update_one_branch(A,T,b)`, defined in `substitution-index.C`
(not among the sources): the index of branch `b` becomes valid; its "column-count field" in
row 0 is the number `l` of columns of the sub-alignment, and the row of a column of the
alignment holds the name `names c` that the column has in the sub-alignment. -/
def update_one_branch (I : matrix) (b : Nat) (l : Nat) (names : Nat → Int) : matrix :=
  ⟨I.size1, I.size2, fun c i => if i = b then (if c = 0 then (l : Int) else names c)
    else I.data c i⟩

end subA_index_t

/-! ## The branches toward a node (`alignment-util.C`) -/

/-- Modelled from the spec: a `const_branchview`, a directed branch of the tree, by the
node it leaves and the node it points to (the class is declared in `tree.H`, which is not
among the sources). -/
structure const_branchview where
  source : Nat
  target : Nat
  deriving DecidableEq, Repr

/-- `b.reverse()`: "the oppositely directed branch". -/
def const_branchview.reverse (b : const_branchview) : const_branchview := ⟨b.target, b.source⟩

/-- Body of the first loop of `branches_toward_from_node`:
`branches.push_back(branches[i])`. -/
def toward_push_step (branches : List const_branchview) (i : Nat) :
    Except Failure (List const_branchview) :=
  match vec_at branches i with
  | .error e => .error e
  | .ok b => .ok (branches ++ [b])

/-- Body of the second loop of `branches_toward_from_node`:
`branches[i] = branches[branches.size()-1-i].reverse()`. -/
def toward_reverse_step (branches : List const_branchview) (i : Nat) :
    Except Failure (List const_branchview) :=
  match vec_at branches ((branches.length : Int) - 1 - i) with
  | .error e => .error e
  | .ok b => if i < branches.length then .ok (branches.set i b.reverse)
    else .error Failure.out_of_range

/-- `branches_toward_from_node(T,n)`, for the list `from_node` that
`branches_from_node(T,n)` returns (a function of `tree.C`, not among the sources) and the
number `T.n_branches()`. -/
def branches_toward_from_node (from_node : List const_branchview) (n_branches : Nat) :
    Except Failure (List const_branchview) :=
  match (List.range n_branches).foldlM toward_push_step from_node.reverse with
  | .error e => .error e
  | .ok branches => (List.range n_branches).foldlM toward_reverse_step branches

/-! ## The preserved homologies (`alignment-util.C`) -/

/-- Body of the loop over `i` in `homologies_total`. -/
def total_i_step (M1 : matrix) (column : Nat) (total : Int) (i : Nat) : Int :=
  if M1.data column i ≠ alphabet.gap ∧ M1.data column i ≠ alphabet.unknown then total + 1
  else total

/-- Body of the loop over `column` in `homologies_total`. -/
def total_column_step (M1 : matrix) (total : Int) (column : Nat) : Int :=
  (List.range M1.size2).foldl (total_i_step M1 column) total

/-- `homologies_total(M1)`: the number of cells that are neither gap nor unknown. -/
def homologies_total (M1 : matrix) : Int :=
  (List.range M1.size1).foldl (total_column_step M1) 0

/-- Body of the loop over `j` in `homologies_preserved`; the state is `(match, mismatch)`. -/
def preserved_j_step (M1 M2 : matrix) (column_indices2 : List (List Nat)) (column i : Nat)
    (st : Int × Int) (j : Nat) : Except Failure (Int × Int) :=
  if j ≠ i then
    match A_match M1 column i j M2 column_indices2 with
    | .error e => .error e
    | .ok m => if m then .ok (st.1 + 1, st.2) else .ok (st.1, st.2 + 1)
  else .ok st

/-- Body of the loop over `i` in `homologies_preserved`. -/
def preserved_i_step (M1 M2 : matrix) (column_indices2 : List (List Nat)) (column : Nat)
    (st : Int × Int) (i : Nat) : Except Failure (Int × Int) :=
  if M1.data column i ≠ alphabet.gap ∧ M1.data column i ≠ alphabet.unknown then
    (List.range M1.size2).foldlM (preserved_j_step M1 M2 column_indices2 column i) st
  else .ok st

/-- Body of the loop over `column` in `homologies_preserved`. -/
def preserved_column_step (M1 M2 : matrix) (column_indices2 : List (List Nat))
    (st : Int × Int) (column : Nat) : Except Failure (Int × Int) :=
  (List.range M1.size2).foldlM (preserved_i_step M1 M2 column_indices2 column) st

/-- `homologies_preserved(M1,M2,column_indices2)`, with its two closing assertions. -/
def homologies_preserved (M1 M2 : matrix) (column_indices2 : List (List Nat)) :
    Except Failure Int :=
  match (List.range M1.size1).foldlM (preserved_column_step M1 M2 column_indices2) (0, 0) with
  | .error e => .error e
  | .ok st =>
    if homologies_total M1 ≠ homologies_total M2 then .error Failure.assertion
    else if homologies_total M1 ≠ st.1 + st.2 then .error Failure.assertion
    else .ok st.1

/-! ## The minimal connection of the leaf characters (`alignment-util.C`) -/

/-- Body of the loop over the internal nodes `i` that writes the characters of
`minimally_connect_leaf_characters` into the alignment. -/
def minimally_connect_write_step (present : dynamic_bitset) (column : Nat) (A : alignment)
    (i : Nat) : alignment :=
  if bit present i then A.set column i alphabet.not_gap else A.set column i alphabet.gap

/-- Body of the loop over `column` in `minimally_connect_leaf_characters`. -/
def minimally_connect_column_step (T : Tree) (A : alignment) (column : Nat) :
    Except Failure alignment :=
  match connect_all_characters T (column_present A T column) with
  | .error e => .error e
  | .ok present =>
    .ok ((List.range' T.n_leaves (T.n_nodes - T.n_leaves)).foldl
      (minimally_connect_write_step present column) A)

/-- The loop of `minimally_connect_leaf_characters(A,T)`, up to the call of
`remove_empty_columns`; the result is the value of `A` at that point. -/
def minimally_connect_loop (A : alignment) (T : Tree) : Except Failure alignment :=
  if A.n_sequences ≠ T.n_nodes then .error Failure.assertion
  else (List.range A.length).foldlM (minimally_connect_column_step T) A

/-- `minimally_connect_leaf_characters(A,T)`; the result is the new value of `A`. -/
def minimally_connect_leaf_characters (remove_empty_columns : alignment → alignment)
    (A : alignment) (T : Tree) : Except Failure alignment :=
  match minimally_connect_loop A T with
  | .error e => .error e
  | .ok B => .ok (remove_empty_columns B)

/-! ## The moves of the sampler (`mcmc.H`, `setup-mcmc.C`) -/

/-- The classes `Move` and `MoveGroup` of `mcmc.H` as one tree: the name, the attributes,
the flag `enabled_`, and for a group the submoves `moves` with their weights `lambda` (both
empty for a move that is not a group). -/
inductive Move where
  | mk (name : String) (attributes : List String) (enabled_ : Bool) (moves : List Move)
      (lambda : List ℚ) : Move

namespace Move

/-- The member `name`. -/
def name : Move → String
  | .mk n _ _ _ _ => n

/-- The member `attributes`. -/
def attributes : Move → List String
  | .mk _ a _ _ _ => a

/-- `enabled()`. -/
def enabled : Move → Bool
  | .mk _ _ e _ _ => e

/-- The member `moves` of a group. -/
def moves : Move → List Move
  | .mk _ _ _ ms _ => ms

/-- The member `lambda` of a group. -/
def lambda : Move → List ℚ
  | .mk _ _ _ _ l => l

/-- Modelled from the spec: the constructor `Move(s)`, defined in `mcmc.C` (not among the
sources): a move called `s`, enabled, without attributes and without submoves. -/
def create (s : String) : Move := .mk s [] true [] []

/-- Modelled from the spec: `MoveGroupBase::add(l,m)`, defined in `mcmc.C` (not among the
sources): the move `m` becomes the last submove, with the weight `l`. -/
def add (g : Move) (l : ℚ) (m : Move) : Move :=
  .mk g.name g.attributes g.enabled (g.moves ++ [m]) (g.lambda ++ [l])

mutual
/-- Modelled from the spec: `enable(s)` and `disable(s)`, defined in `mcmc.C` (not among
the sources), as `set_enabled f s` with `f` true or false: "Enable this move or any submove
with name or attribute 's'"; it "accepts a name or one of the move's declared attribute
tags and propagates recursively into child moves". -/
def set_enabled (f : Bool) (s : String) : Move → Move
  | .mk n a e ms l => .mk n a (if n = s ∨ s ∈ a then f else e) (set_enabled_all f s ms) l
/-- The submoves of a group under `set_enabled`. -/
def set_enabled_all (f : Bool) (s : String) : List Move → List Move
  | [] => []
  | m :: ms => set_enabled f s m :: set_enabled_all f s ms
end

end Move

/-- Modelled from the spec: `P.keys[name]` for the map `keys` of `Parameters`: the value
under the key, and 0 for a key that the map does not hold (the map then gets the key with
the value 0, which no function of the model reads). -/
def Parameters.key (P : Parameters) (name : String) : ℚ :=
  match P.keys.find? (fun kv => kv.1 = name) with
  | some kv => kv.2
  | none => 0

/-- The part "Construct the sampler" of `do_sampling`: the sampler with its groups, before
the moves are disabled and enabled. The arguments are `P.n_imodels()`, the five groups that
`get_alignment_moves(P)`, `get_tree_moves(P)`, `get_parameter_MH_but_no_slice_moves(P)`,
`get_parameter_slice_moves(P)` and `get_parameter_MH_moves(P)` return, and the value of
`log(P.T->n_branches())`. -/
def do_sampling_construct (P : Parameters) (n_imodels : Nat)
    (alignment_moves tree_moves MH_but_no_slice_moves slice_moves MH_moves : Move)
    (log_n_branches : ℚ) : Move :=
  let has_imodel := decide (n_imodels > 0)
  let sampler := Move.create "sampler"
  let sampler := if has_imodel then sampler.add 1 alignment_moves else sampler
  let sampler := sampler.add 2 tree_moves
  let sampler := sampler.add (5 + log_n_branches) MH_but_no_slice_moves
  let sampler :=
    if P.key "enable_MH_sampling" > 1 / 2 then sampler.add (5 + log_n_branches) MH_moves
    else sampler.add 1 MH_moves
  if P.key "disable_slice_sampling" < 1 / 2 then sampler.add 1 slice_moves else sampler

/-- The sampler that `do_sampling` runs: the constructed sampler after the loops over
`disable` and `enable`. `disable_arg` and `enable_arg` are the options `disable` and
`enable` of the command line, when they are given, and `split` cuts them at the commas. -/
def do_sampling_sampler (split : String → List String) (disable_arg enable_arg : Option String)
    (P : Parameters) (n_imodels : Nat)
    (alignment_moves tree_moves MH_but_no_slice_moves slice_moves MH_moves : Move)
    (log_n_branches : ℚ) : Move :=
  let sampler := do_sampling_construct P n_imodels alignment_moves tree_moves
    MH_but_no_slice_moves slice_moves MH_moves log_n_branches
  let disable := match disable_arg with
    | some s => split s
    | none => []
  let enable := match enable_arg with
    | some s => split s
    | none => []
  let sampler := (List.range disable.length).foldl
    (fun s i => s.set_enabled false (disable.getD i "")) sampler
  (List.range enable.length).foldl (fun s i => s.set_enabled true (enable.getD i "")) sampler

/-! ## The names of the parameters of a `SuperModel` (`model.C`) -/

/-- The class `SuperModel`: a `Model` with, for each parameter, its short name and the
index of the sub-model it belongs to (`-1` for a parameter of the `SuperModel` itself), and
for each sub-model the index of its first parameter and its prefix (the class is declared
in `model.H`, which is not among the sources). -/
structure SuperModel extends Model where
  short_parameter_names : List String
  model_of_index : List Int
  first_index_of_model : List Nat
  model_prefix : List String

/-- `M.get_parameter(i)`: `parameters_[i]`. -/
def Model.get_parameter (M : Model) (i : Nat) : Parameter := M.parameters_.getD i ⟨"", 0, false⟩

namespace SuperModel

/-- `n_submodels()`. -/
def n_submodels (S : SuperModel) : Nat := S.first_index_of_model.length

/-- `parameters_[i].name = s`. -/
def set_name (S : SuperModel) (i : Nat) (s : String) : SuperModel :=
  ⟨⟨S.parameters_.modify (fun p => ⟨s, p.value, p.fixed⟩) i⟩, S.short_parameter_names,
    S.model_of_index, S.first_index_of_model, S.model_prefix⟩

/-- `SuperModel::add_parameter(P)`, with its assertion. -/
def add_parameter (S : SuperModel) (P : Parameter) : Except Failure SuperModel :=
  let m : Int := (S.first_index_of_model.length : Int) - 1
  let S1 : SuperModel := ⟨⟨S.parameters_ ++ [P]⟩, S.short_parameter_names ++ [P.name],
    S.model_of_index ++ [m], S.first_index_of_model, S.model_prefix⟩
  if S1.parameters_.length = S1.short_parameter_names.length then .ok S1
  else .error Failure.assertion

/-- `if (m != -1) add_prefix[m] = 1;`, for the vector `add_prefix` of `prefix_names`, which
is `prefix_marks` here. -/
def mark_model (prefix_marks : List Int) (m : Int) : List Int :=
  if m ≠ -1 then prefix_marks.set m.toNat 1 else prefix_marks

/-- Body of the loop over `j` in the first loop of `prefix_names`. -/
def prefix_j_step (S : SuperModel) (i : Nat) (prefix_marks : List Int) (j : Nat) : List Int :=
  if S.short_parameter_names.getD i "" = S.short_parameter_names.getD j "" then
    let m1 := S.model_of_index.getD i 0
    let m2 := S.model_of_index.getD j 0
    mark_model (mark_model prefix_marks m1) m2
  else prefix_marks

/-- Body of the loop over `i` in the first loop of `prefix_names`. -/
def prefix_i_step (S : SuperModel) (prefix_marks : List Int) (i : Nat) : List Int :=
  (List.range i).foldl (prefix_j_step S i) prefix_marks

/-- Body of the loop over `i` in the second loop of `prefix_names`, for the sub-model `m`. -/
def prefix_name_step (prefix_marks : List Int) (m : Nat) (S : SuperModel) (i : Nat) :
    SuperModel :=
  let index := S.first_index_of_model.getD m 0
  let pre := S.model_prefix.getD m ""
  if prefix_marks.getD m 0 ≠ 0 then
    S.set_name (index + i) (pre ++ S.short_parameter_names.getD (index + i) "")
  else S.set_name (index + i) (S.short_parameter_names.getD (index + i) "")

/-- Body of the loop over `m` in the second loop of `prefix_names`; `SubModels m` is the
number `SubModels(m).n_parameters()`. -/
def prefix_m_step (SubModels : Nat → Nat) (prefix_marks : List Int) (S : SuperModel)
    (m : Nat) : SuperModel :=
  (List.range (SubModels m)).foldl (prefix_name_step prefix_marks m) S

/-- `SuperModel::prefix_names()`. The sub-models are kept by the classes that derive from
`SuperModel`; `SubModels m` is the number `SubModels(m).n_parameters()`. The vectors are
read and written inside their ranges in the states that `add_submodel` builds. -/
def prefix_names (SubModels : Nat → Nat) (S : SuperModel) : Except Failure SuperModel :=
  if S.n_parameters ≠ S.short_parameter_names.length then .error Failure.assertion
  else if S.n_submodels ≤ 1 then .ok S
  else
    let prefix_marks := (List.range S.n_parameters).foldl (prefix_i_step S)
      (List.replicate S.n_submodels 0)
    .ok ((List.range S.n_submodels).foldl (prefix_m_step SubModels prefix_marks) S)

/-- Body of the loop over `j` in the check for duplicate names of `add_submodel`. -/
def duplicate_j_step (i : Nat) (S : SuperModel) (j : Nat) : SuperModel :=
  if S.parameter_name i = S.parameter_name j then
    let S1 :=
      if S.model_of_index.getD i 0 ≠ -1 then
        S.set_name i (S.model_prefix.getD (S.model_of_index.getD i 0).toNat "" ++
          S.parameter_name i)
      else S
    if S1.model_of_index.getD j 0 ≠ -1 then
      S1.set_name j (S1.model_prefix.getD (S1.model_of_index.getD j 0).toNat "" ++
        S1.parameter_name j)
    else S1
  else S

/-- Body of the loop over `i` in the check for duplicate names of `add_submodel`. -/
def duplicate_i_step (first : Nat) (S : SuperModel) (i : Nat) : SuperModel :=
  (List.range first).foldl (duplicate_j_step i) S

/-- The state of `add_submodel(prefix,M)` when it calls `prefix_names()`: the prefix and
the first index are stored and the parameters of `M` are added. -/
def add_submodel_parameters (S : SuperModel) (pre : String) (M : Model) :
    Except Failure SuperModel :=
  let S1 : SuperModel := ⟨S.toModel, S.short_parameter_names, S.model_of_index,
    S.first_index_of_model ++ [S.n_parameters], S.model_prefix ++ [pre ++ "::"]⟩
  (List.range M.n_parameters).foldlM (fun S2 i => S2.add_parameter (M.get_parameter i)) S1

/-- `SuperModel::add_submodel(prefix,M)`; the result is the new state of the `SuperModel`. -/
def add_submodel (SubModels : Nat → Nat) (S : SuperModel) (pre : String) (M : Model) :
    Except Failure SuperModel :=
  match add_submodel_parameters S pre M with
  | .error e => .error e
  | .ok S2 =>
    match prefix_names SubModels S2 with
    | .error e => .error e
    | .ok S3 =>
      let first := S3.first_index_of_model.getLastD 0
      .ok ((List.range' first (S3.n_parameters - first)).foldl (duplicate_i_step first) S3)

end SuperModel

/-! ## Bit helpers (`bits.H`) -/

/-- `bitset(m,b)`: `m&(1<<b)`, read as a `bool`. An `int` is an integer in two's
complement; for `0 <= b < 31` the shift `1<<b` does not overflow, and `&`, `|` and `~` do
not leave the range of `int`. -/
def bitset (m : Int) (b : Nat) : Bool := decide (Int.land m (1 <<< (b : Int)) ≠ 0)

/-- `bits_present(i,m)`: `(i&m) == m`. -/
def bits_present (i m : Int) : Bool := decide (Int.land i m = m)

/-- `clearbit(m,b)`: `m&(~(1<<b))`. -/
def clearbit (m : Int) (b : Nat) : Int := Int.land m (Int.lnot (1 <<< (b : Int)))

/-- `setbit(m,b)`: `m|(1<<b)`. -/
def setbit (m : Int) (b : Nat) : Int := Int.lor m (1 <<< (b : Int))

/-- `setbit(m,b,c)`: the bit is set when `c` holds. -/
def setbit_if (m : Int) (b : Nat) (c : Bool) : Int := if c then setbit m b else m

/-- Body of the loop of `num_bits`; the state is `sum`. -/
def num_bits_step (n : Int) (sum : Int) (i : Nat) : Int := if bitset n i then sum + 1 else sum

/-- `num_bits(n)`. -/
def num_bits (n : Int) : Int := (List.range 6).foldl (num_bits_step n) 0

/-! ## Random shuffles (`util-random.H`) -/

/-- Body of the loop of `random_shuffle`; the state is `v`. The generator `myrandom` of
`rng.H` is not among the sources: `myrandom i` is the number that the call
`myrandom(i+1)` of the iteration `i` returns. -/
def random_shuffle_step {T : Type} (myrandom : Nat → Int) (v : List T) (i : Nat) :
    Except Failure (List T) :=
  let l := myrandom i
  if l < i then
    match vec_at v l, vec_at v i with
    | .ok a, .ok b => .ok ((v.set l.toNat b).set i a)
    | _, _ => .error Failure.out_of_range
  else .ok v

/-- `random_shuffle(v)`; the result is the new state of `v`. -/
def random_shuffle {T : Type} (myrandom : Nat → Int) (v : List T) : Except Failure (List T) :=
  (List.range' 1 (v.length - 1)).foldlM (random_shuffle_step myrandom) v

/-- `randomize(v)`: the state of the argument `v` after the call and the vector that is
returned. -/
def randomize {T : Type} (myrandom : Nat → Int) (v : List T) :
    Except Failure (List T × List T) :=
  let v2 := v
  match random_shuffle myrandom v2 with
  | .ok v2 => .ok (v, v2)
  | .error e => .error e

/-! ## Reading a sample of alignments (`alignment-util.C`) -/

/-- Modelled from the spec: `sequence_names(A)`, the names of the sequences of the
alignment in the order of its rows (the function is not among the sources). -/
def sequence_names (A : alignment) : List String := (List.range A.n_sequences).map A.name

/-- `reorder_sequences(A,order)`. -/
def reorder_sequences (A : alignment) (order : List Nat) : Except Failure alignment :=
  shuffle_alignment A order

/-- The local variables of `load_alignments` that its reading loop changes. -/
structure load_state where
  alignments : List alignment
  subsample : Int
  total : Int
  nth : Int
  skip : Int
  n1 : List String

/-- The loop "Remove every other alignment" of `load_alignments`, from the iterator `loc`
on: the first alignment of the rest is erased and the next one is stepped over. `kept` are
the alignments before `loc`; the result is the list and `total`. -/
def remove_every_other : List alignment → List alignment → Int → List alignment × Int
  | [], kept, total => (kept, total)
  | [_], kept, total => (kept, total - 1)
  | _ :: b :: rest, kept, total => remove_every_other rest (kept ++ [b]) (total - 1)

/-- The part of the body of the reading loop of `load_alignments` from "strip out empty
columns" on, for the alignment `A` that was read. The functions `remove_empty_columns` and
`compute_mapping`, which are not among the sources, are parameters. -/
def load_store (remove_empty_columns : alignment → alignment)
    (compute_mapping : List String → List String → Except Failure (List Nat))
    (maxalignments : Int) (s : load_state) (A : alignment) : Except Failure load_state :=
  let A := remove_empty_columns A
  if A.n_sequences = 0 then
    .error (Failure.exception "Alignment didn't contain any sequences!")
  else
    let n2 := sequence_names A
    let reordered : Except Failure alignment :=
      if s.n1 ≠ n2 then
        if n2.length < s.n1.length then
          .error (Failure.exception "Read in alignment with too few sequences!")
        else
          match compute_mapping s.n1 n2 with
          | .error e => .error e
          | .ok new_order => reorder_sequences A new_order
      else .ok A
    match reordered with
    | .error e => .error e
    | .ok A =>
      let alignments := s.alignments ++ [A]
      let total := s.total + 1
      if total > 2 * maxalignments then
        let r := remove_every_other alignments [] total
        .ok ⟨r.1, s.subsample * 2, r.2, s.nth, s.skip, s.n1⟩
      else .ok ⟨alignments, s.subsample, total, s.nth, s.skip, s.n1⟩

/-- Body of the reading loop of `load_alignments`, for one alignment of the stream: `block`
is the alignment that reading it gives, or `none` when reading it throws. The result says
whether the loop is left by `break`. The lines between the alignments, which the loop
steps over, are left out. -/
def load_step (remove_empty_columns : alignment → alignment)
    (compute_mapping : List String → List String → Except Failure (List Nat))
    (maxalignments : Int) (s : load_state) (block : Option alignment) :
    Except Failure (load_state × Bool) :=
  if s.skip > 0 then .ok (⟨s.alignments, s.subsample, s.total, s.nth, s.skip - 1, s.n1⟩, false)
  else
    let nth := s.nth + 1
    let s1 : load_state := ⟨s.alignments, s.subsample, s.total, nth, s.skip, s.n1⟩
    if nth % s.subsample ≠ 0 then .ok (s1, false)
    else
      match block with
      | none => .ok (s1, true)
      | some A =>
        let s2 : load_state :=
          if s1.alignments.length = 0 then
            ⟨s1.alignments, s1.subsample, s1.total, s1.nth, s1.skip, sequence_names A⟩
          else s1
        match load_store remove_empty_columns compute_mapping maxalignments s2 A with
        | .error e => .error e
        | .ok s3 => .ok (s3, false)

/-- The reading loop of `load_alignments` over the alignments of the stream. -/
def load_loop (remove_empty_columns : alignment → alignment)
    (compute_mapping : List String → List String → Except Failure (List Nat))
    (maxalignments : Int) : List (Option alignment) → load_state → Except Failure load_state
  | [], s => .ok s
  | block :: rest, s =>
    match load_step remove_empty_columns compute_mapping maxalignments s block with
    | .error e => .error e
    | .ok (s1, true) => .ok s1
    | .ok (s1, false) => load_loop remove_empty_columns compute_mapping maxalignments rest s1

/-- `kill[i] = int( double(i+0.5)*total/extra)`: the product and the quotient are
positive, and for the sizes of a list of alignments (below `2^26`) the `double` holds
them without rounding, so that the conversion to `int` gives the integer part of
`(2*i+1)*total / (2*extra)`. -/
def kill_index (total extra : Int) (i : Nat) : Int := ((2 * (i : Int) + 1) * total) / (2 * extra)

/-- The thinning loop of `load_alignments`, from the iterator `loc` on, with the counter
`i`: `kept` are the alignments before `loc`; the result is the list, `kill` and `total`.
`kill.back()` on an empty vector stops with `out_of_range`. -/
def thinning_loop : List alignment → List alignment → List Int → Int → Int →
    Except Failure (List alignment × List Int × Int)
  | [], kept, kill, _, total => .ok (kept, kill, total)
  | a :: rest, kept, kill, i, total =>
    match kill.getLast? with
    | none => .error Failure.out_of_range
    | some back =>
      if i = back then thinning_loop rest kept kill.dropLast (i + 1) (total - 1)
      else thinning_loop rest (kept ++ [a]) kill (i + 1) total

/-- `load_alignments(ifile,alphabets,skip,maxalignments)`: `ifile` is the list of the
alignments of the stream, each one as reading it gives it (`none` when reading it
throws). -/
def load_alignments (remove_empty_columns : alignment → alignment)
    (compute_mapping : List String → List String → Except Failure (List Nat))
    (ifile : List (Option alignment)) (skip maxalignments : Int) :
    Except Failure (List alignment) :=
  match load_loop remove_empty_columns compute_mapping maxalignments ifile
      ⟨[], 1, 0, 0, skip, []⟩ with
  | .error e => .error e
  | .ok s =>
    if s.total > maxalignments then
      if ¬ s.total ≤ maxalignments * 2 then .error Failure.assertion
      else
        let extra := s.total - maxalignments
        let kill := ((List.range extra.toNat).map (kill_index s.total extra)).reverse
        match thinning_loop s.alignments [] kill 0 s.total with
        | .error e => .error e
        | .ok r => if r.2.1.length = 0 then .ok r.1 else .error Failure.assertion
    else .ok s.alignments

/-! ## The parameters of a `SuperModel` itself (`model.C`) -/

/-- `v.insert(v.begin()+I, x)`; an iterator behind the end of `v` stops with
`out_of_range`. -/
def vector_insert {α : Type} (v : List α) (I : Nat) (x : α) : Except Failure (List α) :=
  if I ≤ v.length then .ok (v.take I ++ x :: v.drop I) else .error Failure.out_of_range

namespace SuperModel

/-- `n_super_parameters()`. -/
def n_super_parameters (S : SuperModel) : Nat :=
  if S.n_submodels = 0 then S.n_parameters else S.first_index_of_model.getD 0 0

/-- Body of the loop of `add_super_parameter`: `first_index_of_model[i]++`. -/
def first_index_step (first_index_of_model : List Nat) (i : Nat) : List Nat :=
  first_index_of_model.set i (first_index_of_model.getD i 0 + 1)

/-- `SuperModel::add_super_parameter(P)`; the result is the new state of the
`SuperModel`. -/
def add_super_parameter (S : SuperModel) (P : Parameter) : Except Failure SuperModel :=
  let I := S.n_super_parameters
  match vector_insert S.parameters_ I P, vector_insert S.short_parameter_names I P.name,
      vector_insert S.model_of_index I (-1) with
  | .ok parameters_, .ok short_parameter_names, .ok model_of_index =>
    .ok ⟨⟨parameters_⟩, short_parameter_names, model_of_index,
      (List.range S.first_index_of_model.length).foldl first_index_step S.first_index_of_model,
      S.model_prefix⟩
  | _, _, _ => .error Failure.out_of_range

end SuperModel

/-! ## The values of the parameters of a `SuperModel` and of its sub-models (`model.C`) -/

/-- `parameters_[i].value = v`; an index outside the vector stops with `out_of_range`. -/
def Model.set_value (M : Model) (i : Nat) (v : ℚ) : Except Failure Model :=
  if i < M.parameters_.length then
    .ok ⟨M.parameters_.modify (fun q => ⟨q.name, v, q.fixed⟩) i⟩
  else .error Failure.out_of_range

/-- Body of the loop of `Model::set_parameter_values(indices,p)`:
`parameters_[indices[i]].value = *p`, and `p++`. The iterator `p` is the vector `values`
with the position `p`; reading behind its end stops with `out_of_range`. -/
def Model.set_parameter_values_step (indices : List Nat) (values : List ℚ) (st : Model × Nat)
    (i : Nat) : Except Failure (Model × Nat) :=
  match values.get? st.2 with
  | none => .error Failure.out_of_range
  | some v =>
    match st.1.set_value (indices.getD i 0) v with
    | .error e => .error e
    | .ok M => .ok (M, st.2 + 1)

/-- `Model::set_parameter_values(indices,p)` for an iterator `p`; the result is the new
state of the model and of `p`. The virtual function `recalc` of the model is a parameter. -/
def Model.set_parameter_values (recalc : List Nat → Model → Model) (M : Model)
    (indices : List Nat) (values : List ℚ) (p : Nat) : Except Failure (Model × Nat) :=
  if ¬ indices.length ≤ M.parameters_.length then .error Failure.assertion
  else
    match (List.range indices.length).foldlM (Model.set_parameter_values_step indices values)
        (M, p) with
    | .error e => .error e
    | .ok st => .ok (recalc indices st.1, st.2)

namespace SuperModel

/-- `parameters_[i].value = v` in a `SuperModel`. -/
def set_value (S : SuperModel) (i : Nat) (v : ℚ) : Except Failure SuperModel :=
  match S.toModel.set_value i v with
  | .error e => .error e
  | .ok M => .ok ⟨M, S.short_parameter_names, S.model_of_index, S.first_index_of_model,
      S.model_prefix⟩

/-- Body of the first loop of `write_values`, with its assertions; `*(p+i)` is read. -/
def write_values_step (indices : List Nat) (values : List ℚ) (p : Nat) (S : SuperModel)
    (i : Nat) : Except Failure SuperModel :=
  if ¬ indices.getD i 0 < S.n_parameters then .error Failure.assertion
  else if i > 0 ∧ ¬ indices.getD (i - 1) 0 < indices.getD i 0 then .error Failure.assertion
  else
    match values.get? (p + i) with
    | none => .error Failure.out_of_range
    | some v => S.set_value (indices.getD i 0) v

/-- The loop `while(i<indices.size() and model_of_index[indices[i]] == -1)` of
`write_values`, on the indices from `i` on: the result is the new `i` and `p`. -/
def write_values_skip (S : SuperModel) : List Nat → Nat → Nat → Nat × Nat
  | [], i, p => (i, p)
  | x :: rest, i, p =>
    if S.model_of_index.getD x 0 = -1 then write_values_skip S rest (i + 1) (p + 1) else (i, p)

/-- The inner loop `for(;i<indices.size() and model_of_index[indices[i]] == m;i++)` of
`write_values`, on the indices from `i` on: the result is `sub_indices` and the indices that
are left. -/
def write_values_collect (S : SuperModel) (m : Int) (offset : Nat) :
    List Nat → List Nat → List Nat × List Nat
  | [], sub_indices => (sub_indices, [])
  | x :: rest, sub_indices =>
    if S.model_of_index.getD x 0 = m then
      write_values_collect S m offset rest (sub_indices ++ [x - offset])
    else (sub_indices, x :: rest)

/-- The loop "push values down into sub-models" of `write_values`, on the indices from `i`
on. `SubModels` are the sub-models `SubModels(0)`, `SubModels(1)`, ... that the class
deriving from `SuperModel` keeps; the result is their new state and the new `p`. Each
iteration takes at least one index, so that `fuel` iterations are enough when `fuel` is the
number of the indices (with less fuel the model stops with `abort`). An index `m` outside
`first_index_of_model` or the sub-models stops with `out_of_range`. -/
def write_values_push (recalc : List Nat → Model → Model) (S : SuperModel) (values : List ℚ) :
    Nat → List Nat → List Model → Nat → Except Failure (List Model × Nat)
  | _, [], SubModels, p => .ok (SubModels, p)
  | 0, _ :: _, _, _ => .error Failure.abort
  | fuel + 1, x :: rest, SubModels, p =>
    let m := S.model_of_index.getD x 0
    match vec_at S.first_index_of_model m, vec_at SubModels m with
    | .ok offset, .ok sub =>
      let r := write_values_collect S m offset (x :: rest) []
      match sub.set_parameter_values recalc r.1 values p with
      | .error e => .error e
      | .ok st => write_values_push recalc S values fuel r.2 (SubModels.set m.toNat st.1) st.2
    | _, _ => .error Failure.out_of_range

/-- `SuperModel::write_values(indices,p)`; the result is the new state of the `SuperModel`,
of its sub-models and of `p`. -/
def write_values (recalc : List Nat → Model → Model) (S : SuperModel) (SubModels : List Model)
    (indices : List Nat) (values : List ℚ) (p : Nat) :
    Except Failure (SuperModel × List Model × Nat) :=
  match (List.range indices.length).foldlM (write_values_step indices values p) S with
  | .error e => .error e
  | .ok S1 =>
    let ip := write_values_skip S1 indices 0 p
    match write_values_push recalc S1 values indices.length (indices.drop ip.1) SubModels
        ip.2 with
    | .error e => .error e
    | .ok r => .ok (S1, r.1, r.2)

/-- `SuperModel::set_parameter_values(indices,p)` for an iterator `p`. The virtual function
`recalc` of the `SuperModel`, which may look at the sub-models, is the parameter
`recalc_all`, and the one of the sub-models is `recalc`. -/
def set_parameter_values (recalc : List Nat → Model → Model)
    (recalc_all : List Nat → SuperModel × List Model → SuperModel × List Model)
    (S : SuperModel) (SubModels : List Model) (indices : List Nat) (values : List ℚ) (p : Nat) :
    Except Failure (SuperModel × List Model × Nat) :=
  if ¬ indices.length ≤ S.n_parameters then .error Failure.assertion
  else
    match write_values recalc S SubModels indices values p with
    | .error e => .error e
    | .ok r => .ok ((recalc_all indices (r.1, r.2.1)).1, (recalc_all indices (r.1, r.2.1)).2, r.2.2)

/-- `SuperModel::set_parameter_values(indices,p)` for a vector `p`. -/
def set_parameter_values_vector (recalc : List Nat → Model → Model)
    (recalc_all : List Nat → SuperModel × List Model → SuperModel × List Model)
    (S : SuperModel) (SubModels : List Model) (indices : List Nat) (p : List ℚ) :
    Except Failure (SuperModel × List Model) :=
  if indices.length ≠ p.length then .error Failure.assertion
  else
    match set_parameter_values recalc recalc_all S SubModels indices p 0 with
    | .error e => .error e
    | .ok r => .ok (r.1, r.2.1)

end SuperModel

/-! ## Definitions used to state and prove the properties -/

/-- Number of feature cells of row `i` in the columns before `c`. -/
def feature_count (A : alignment) (i c : Nat) : Nat :=
  ((List.range c).filter fun k => A.character k i).length

/-- Value that `M` writes into cell `(c,i)`. -/
def M_value (A : alignment) (c i : Nat) : Int :=
  if A.character c i then (feature_count A i c : Int) else A.cell c i

/-- The letters of sequence `i` with the gaps and unknowns taken out. -/
def ungapped (A : alignment) (i : Nat) : List Int :=
  ((List.range A.length).filter fun c => A.character c i).map fun c => A.cell c i

/-- The label that `get_splitgroup_columns` gives to sequence `i` in column `c` of `M(A1)`
when the lookup table is the one of `A2`. -/
def label_value (A1 A2 : alignment) (c i : Nat) : Int :=
  if M_value A1 c i = alphabet.gap ∨ M_value A1 c i = alphabet.unknown then M_value A1 c i
  else ((((List.range A2.length).filter fun k => A2.character k i).getD
    (feature_count A1 i c) 0 : Nat) : Int)

/-- An alignment over the alphabet `a` given by the list of its rows; a missing cell
reads as a gap. -/
def alignment.of_rows (a : Alphabet) (L : Nat) (names : List String) (rows : List (List Int)) :
    alignment :=
  ⟨a, rows.length, L, fun i => names.getD i "", fun c i => (rows.getD i []).getD c alphabet.gap⟩

/-- A DNA-like alphabet: four letters and no letter classes besides them. -/
def dna : Alphabet := ⟨4, 4, 4⟩

/-- Two sequences `AC` and `GT` aligned as `A-C` over `GT-`. -/
def two_rows_a : alignment := alignment.of_rows dna 3 ["s0", "s1"] [[0, -1, 1], [2, 3, -1]]

/-- The same two sequences aligned as `-AC` over `GT-`. -/
def two_rows_b : alignment := alignment.of_rows dna 3 ["s0", "s1"] [[-1, 0, 1], [2, 3, -1]]

/-- The inverse of a permutation `perm` of `0 .. n-1`: entry `i` is the place of `i` in
`perm`. -/
def inverse (perm : List Nat) : List Nat :=
  (List.range perm.length).map fun i => perm.indexOf i

/-- The homology round trip: shuffle the rows of `A1` with `perm`, shuffle them back with
the inverse of `perm`, and compare the result with `A1` by `A_constant` with nothing
ignored. -/
def round_trip (A1 : alignment) (perm : List Nat) : Except Failure Bool :=
  match shuffle_alignment A1 perm with
  | .error e => .error e
  | .ok A2 =>
    match shuffle_alignment A2 (inverse perm) with
    | .error e => .error e
    | .ok A3 => A_constant A1 A3 (List.replicate A1.n_sequences false)

/-- Two alignments with the same size and the same cells. -/
def same_cells (A B : alignment) : Prop :=
  A.n_sequences = B.n_sequences ∧ A.length = B.length ∧
  ∀ c i, c < A.length → i < A.n_sequences → A.cell c i = B.cell c i

namespace Tree

/-- The node `a` lies on the way from `x` to the root (`x` itself included). -/
def anc (T : Tree) (a x : Nat) : Prop := ∃ k, T.parent^[k] x = a

/-- The node `x` lies in the subtree that hangs off `n1` through its neighbour `n2`. -/
def behind (T : Tree) (n1 n2 x : Nat) : Prop :=
  if n1 ≠ T.root ∧ n2 = T.parent n1 then ¬ T.anc n1 x else T.anc n2 x

/-- The nodes `u` and `v` are joined by a branch of the tree. -/
def adjacent (T : Tree) (u v : Nat) : Prop := v ∈ T.neighbors u

end Tree

/-- The nodes `u` and `v` are joined by a path in the tree all of whose nodes are
present. -/
inductive joined (T : Tree) (present : dynamic_bitset) : Nat → Nat → Prop where
  | single (u : Nat) : u < T.n_nodes → bit present u = true → joined T present u u
  | step (u v w : Nat) : u < T.n_nodes → bit present u = true → T.adjacent u v →
      joined T present v w → joined T present u w

/-- The present nodes form a connected set: "any two present nodes are connected by a
path of present nodes". -/
def present_connected (T : Tree) (present : dynamic_bitset) : Prop :=
  ∀ u v, u < T.n_nodes → v < T.n_nodes → bit present u = true → bit present v = true →
    joined T present u v

/-- The subtree that hangs off `n1` through `n2` holds a present node. -/
def subtree_present (T : Tree) (present : dynamic_bitset) (n1 n2 : Nat) : Prop :=
  ∃ x, x < T.n_nodes ∧ bit present x = true ∧ T.behind n1 n2 x

/-- More than one of the subtrees that hang off `n1` holds a present node. -/
def several_subtrees_present (T : Tree) (present : dynamic_bitset) (n1 : Nat) : Prop :=
  ∃ k1 k2, k1 ∈ T.neighbors n1 ∧ k2 ∈ T.neighbors n1 ∧ k1 ≠ k2 ∧
    subtree_present T present n1 k1 ∧ subtree_present T present n1 k2

/-- The test of `all_characters_connected` with nothing ignored: no absent internal node
has present nodes in more than one of the subtrees that hang off it. -/
def locally_connected (T : Tree) (present : dynamic_bitset) : Prop :=
  ∀ w, T.n_leaves ≤ w → w < T.n_nodes → bit present w = false →
    ¬ several_subtrees_present T present w

/-- The number of subtrees hanging off `n1` that hold a present node, counted on the
masks `T.partition(n1,n2)` as the two loops do. -/
def subtrees_with_present (T : Tree) (present : dynamic_bitset) (n1 : Nat) : Nat :=
  ((T.neighbors n1).filter fun n2 => intersects present (T.partition n1 n2)).length

/-- Four leaves `0 .. 3` and two internal nodes: `0` and `1` hang from `4`, `2` and `3`
from `5`, and `4` and `5` are joined; the tree is stored hanging from `5`. -/
def four_leaf_tree : Tree :=
  ⟨4, 6, 5, fun v => match v with
    | 0 => 4
    | 1 => 4
    | _ => 5⟩

/-- The mask that `connect_all_characters` returns for column `c` of `A` (empty when it
does not return). -/
def connected_mask (T : Tree) (A : alignment) (c : Nat) : dynamic_bitset :=
  match connect_all_characters T (column_present A T c) with
  | .ok r => r
  | .error _ => []

/-- One column on the tree with four leaves in which the leaves `0` and `2` hold the
letter `A` and every other node a gap. -/
def two_leaves_present : alignment :=
  alignment.of_rows dna 1 ["s0", "s1", "s2", "s3", "A4", "A5"] [[0], [-1], [0], [-1], [-1], [-1]]

/-- The legal codes of a cell over the alphabet `a`: "a letter, letter class, `gap`,
`not_gap`, or `unknown`". -/
def legal_code (a : Alphabet) (x : Int) : Prop :=
  (0 ≤ x ∧ x < a.size) ∨ (a.n_letters ≤ x ∧ x < a.n_letter_classes) ∨
    x = alphabet.gap ∨ x = alphabet.not_gap ∨ x = alphabet.unknown


/-- `chop_internal` keeps looking at row `i`: its name starts with `A` and no cell of it is
a letter or a letter class. -/
def chop_row_ok (A : alignment) (i : Nat) : Bool :=
  decide ((A.name i).data.head? = some 'A') &&
    (List.range A.length).all fun c => !alphabet.is_letter_class (A.cell c i)

/-- Three leaf rows and two rows named as internal ones; the last one holds an `unknown`
cell. -/
def chop_example : alignment :=
  alignment.of_rows dna 2 ["a", "b", "c", "A3", "A4"] [[0, 1], [2, -1], [3, 3], [-1, -1], [-3, -1]]

/-- The ten characters that a sequence name may not contain. -/
def forbidden_characters : List Char :=
  ['(', ')', ';', ':', Char.ofNat 34, Char.ofNat 39, '[', ']', '&', ',']

/-- Three clean names, one of them empty. -/
def clean_names : alignment := alignment.of_rows dna 1 ["human", "", "A_3"] [[0], [1], [2]]

/-- The floor of `sanitize_branch_lengths`: the smaller of `0.000001` and the smallest
positive length. -/
def min_branch (lengths : List ℚ) : ℚ :=
  (List.range lengths.length).foldl (min_branch_step lengths) (1 / 1000000)

/-- A splitter at `::`, to instantiate `split` in the examples: `cur` holds the characters
of the current piece, last one first. -/
def split_colons : List Char → List Char → List String
  | ':' :: ':' :: rest, cur => String.mk cur.reverse :: split_colons rest []
  | c :: rest, cur => split_colons rest (c :: cur)
  | [], cur => [String.mk cur.reverse]

/-- A model with the parameters `mu`, `HKY::kappa`, `TN::kappa`, `kappa` and
`X::HKY::kappa2`. -/
def five_parameters : Model :=
  ⟨[⟨"mu", 1, false⟩, ⟨"HKY::kappa", 2, false⟩, ⟨"TN::kappa", 3, false⟩, ⟨"kappa", 4, false⟩,
    ⟨"X::HKY::kappa2", 5, false⟩]⟩

/-- The name that `set_parameters` takes from an entry of `fix` or `unfix`: the first piece
when the entry holds a `=`, the entry itself otherwise. -/
def option_name (split : String → List String) (s : String) : String :=
  if (split s).length > 1 then (split s).getD 0 "" else s

/-- The entries that `set_parameters` reads as initial conditions: those of `set`, then
the entries of `fix` and of `unfix` that hold a `=`. -/
def all_doset (split : String → List String) (fix unfix doset : List String) : List String :=
  doset ++ (fix.filter fun s => decide ((split s).length > 1)) ++
    (unfix.filter fun s => decide ((split s).length > 1))

/-- A splitter at `=`, to instantiate `split` in the examples. -/
def split_equals (s : String) : List String := (s.data.splitOn '=').map String.mk

/-- A reader of numbers that knows `"3"` only, to instantiate `convertTo` in the examples. -/
def read_three (s : String) : Except Failure ℚ :=
  if s = "3" then .ok 3 else .error (Failure.exception "bad number")

/-- Parameters `mu = 1` and `kappa = 2`, the second one fixed, and no keys. -/
def two_parameters : Parameters := ⟨⟨[⟨"mu", 1, false⟩, ⟨"kappa", 2, true⟩]⟩, []⟩

/-- The names and the values of the parameters, without the `fixed` flags. -/
def Parameters.names_and_values (P : Parameters) : List (String × ℚ) :=
  P.parameters_.map fun q => (q.name, q.value)

/-- The indices that the constructor, `invalidate_one_branch` and `update_one_branch`
build, for a matrix with a row 0. -/
inductive subA_index_t.reachable : matrix → Prop where
  | construct (s1 s2 : Nat) (h : 0 < s1) : subA_index_t.reachable (subA_index_t.construct s1 s2)
  | invalidate (I : matrix) (b : Nat) (h : subA_index_t.reachable I) :
      subA_index_t.reachable (subA_index_t.invalidate_one_branch I b)
  | update (I : matrix) (b l : Nat) (names : Nat → Int) (h : subA_index_t.reachable I) :
      subA_index_t.reachable (subA_index_t.update_one_branch I b l names)

/-- An index for three columns and two branches in which branch 1 has been updated to a
sub-alignment of two columns. -/
def index_example : matrix :=
  subA_index_t.update_one_branch (subA_index_t.construct 4 2) 1 2 (fun c => (c : Int) - 2)

/-- The branches that leave node 4 of the tree with the leaves 0 to 3 and the internal
nodes 4 (next to 0, 1 and 5) and 5 (next to 2, 3 and 4), each after the branch it
continues. -/
def from_node_4 : List const_branchview := [⟨4, 0⟩, ⟨4, 1⟩, ⟨4, 5⟩, ⟨5, 2⟩, ⟨5, 3⟩]

/-- The branch `c` is immediately behind the branch `b`: it points to the node that `b`
leaves and is not the reverse of `b`. -/
def const_branchview.is_child (c b : const_branchview) : Bool :=
  decide (c.target = b.source ∧ c.source ≠ b.target)

/-- The sequences `A` and `C` with an empty column after them. -/
def empty_column : alignment := alignment.of_rows dna 2 ["s0", "s1"] [[0, -1], [1, -1]]

/-- The sequences `A` and `C` in one column. -/
def one_column : alignment := alignment.of_rows dna 1 ["s0", "s1"] [[0], [1]]

/-- Three sequences of one letter in one column. -/
def three_rows : alignment := alignment.of_rows dna 1 ["s0", "s1", "s2"] [[0], [1], [2]]

mutual
/-- The moves of a tree of moves: the move itself and the moves of its submoves. -/
def Move.all_moves : Move → List Move
  | .mk n a e ms l => .mk n a e ms l :: Move.all_moves_list ms
/-- The moves of the trees of a list. -/
def Move.all_moves_list : List Move → List Move
  | [] => []
  | m :: ms => Move.all_moves m ++ Move.all_moves_list ms
end

/-- A group called `n` with one submove called `n_sub`, which has the attribute `x`. -/
def example_group (n : String) : Move := .mk n [] true [.mk (n ++ "_sub") ["x"] true [] []] [1]

/-- Parameters with the key `disable_slice_sampling` set to 1. -/
def no_slice_parameters : Parameters := ⟨⟨[]⟩, [("disable_slice_sampling", 1)]⟩

/-- A splitter at `,`, to instantiate `split` in the examples. -/
def split_commas (s : String) : List String := (s.data.splitOn ',').map String.mk

/-- Following the words of the claim: 1 for a triple `(c, i, j)` with `i ≠ j` in which cell
`(c, i)` of `M1` is a letter position (neither gap nor unknown), cell `(c, j)` is not
unknown, and `A_match(M1, c, i, j, M2, idx2)` is false; 0 for any other triple. -/
def mismatched_pair (M1 M2 : matrix) (idx2 : List (List Nat)) (c i j : Nat) : Int :=
  if i ≠ j ∧ M1.data c i ≠ alphabet.gap ∧ M1.data c i ≠ alphabet.unknown ∧
      M1.data c j ≠ alphabet.unknown then
    match A_match M1 c i j M2 idx2 with
    | .ok false => 1
    | _ => 0
  else 0

/-- Following the words of the claim: the number of ordered pairs that are mismatched, the
count of the triples `(c, i, j)` of a column and two rows of `M1` that `mismatched_pair`
counts. -/
def mismatched_ordered_pairs (M1 M2 : matrix) (idx2 : List (List Nat)) : Int :=
  ((List.range M1.size1).map fun c =>
    ((List.range M1.size2).map fun i =>
      ((List.range M1.size2).map fun j => mismatched_pair M1 M2 idx2 c i j).sum).sum).sum

/-- All of `n` sequences of `L` letters `A` aligned column by column. -/
def full_rows (n L : Nat) : alignment :=
  ⟨dna, n, L, fun i => "s" ++ toString i, fun _ _ => 0⟩

/-- The same `n` sequences of `L` letters `A` with no two of them aligned: sequence `i` is
shifted to the right by `i` columns, so it lies in the columns `i` to `i + L - 1`, and every
other cell is a gap. -/
def shifted_rows (n L : Nat) : alignment :=
  ⟨dna, n, n + L - 1, fun i => "s" ++ toString i,
    fun c i => if i ≤ c ∧ c < i + L then 0 else alphabet.gap⟩

/-- The states of a `SuperModel` that `add_parameter`, `add_super_parameter` and
`add_submodel` build, for sub-models with `SubModels m` parameters: the vectors on the
parameters have the same length; a parameter either belongs to the `SuperModel` itself and
carries its short name, or lies in the block of its sub-model; and the block of each
sub-model lies inside the parameters and belongs to it. -/
def SuperModel.well_formed (SubModels : Nat → Nat) (S : SuperModel) : Prop :=
  S.short_parameter_names.length = S.parameters_.length ∧
  S.model_of_index.length = S.parameters_.length ∧
  S.model_prefix.length = S.first_index_of_model.length ∧
  (∀ i, i < S.parameters_.length →
    (S.model_of_index.getD i 0 = -1 ∧
      S.parameter_name i = S.short_parameter_names.getD i "") ∨
    (∃ m, m < S.n_submodels ∧ S.model_of_index.getD i 0 = (m : Int) ∧
      S.first_index_of_model.getD m 0 ≤ i ∧
      i < S.first_index_of_model.getD m 0 + SubModels m)) ∧
  (∀ m, m < S.n_submodels → ∀ i, i < SubModels m →
    S.first_index_of_model.getD m 0 + i < S.parameters_.length ∧
    S.model_of_index.getD (S.first_index_of_model.getD m 0 + i) 0 = (m : Int))

/-- The state of `add_submodel(prefix,M)` when its check for duplicate names starts, after
the call of `prefix_names()`. -/
def SuperModel.before_duplicate_check (SubModels : Nat → Nat) (S : SuperModel) (pre : String)
    (M : Model) : Except Failure SuperModel :=
  match S.add_submodel_parameters pre M with
  | .error e => .error e
  | .ok S2 => SuperModel.prefix_names SubModels S2

/-- The names and the short names of the parameters of a state, when there is one. -/
def SuperModel.names_of (r : Except Failure SuperModel) : Option (List String × List String) :=
  match r with
  | .ok S => some (S.parameters_.map (fun p => p.name), S.short_parameter_names)
  | .error _ => none

/-- A model with one parameter, called `n`. -/
def one_parameter (n : String) : Model := ⟨[⟨n, 0, false⟩]⟩

/-- A `SuperModel` without parameters and sub-models. -/
def SuperModel.empty : SuperModel := ⟨⟨[]⟩, [], [], [], []⟩

/-- The `SuperModel` with the sub-models `S`, `T` and `U`, added in this order, of one
parameter each: `x`, `x` and `S::x`. -/
def three_submodels : Except Failure SuperModel :=
  match SuperModel.add_submodel (fun _ => 1) SuperModel.empty "S" (one_parameter "x") with
  | .error e => .error e
  | .ok S1 =>
    match SuperModel.add_submodel (fun _ => 1) S1 "T" (one_parameter "x") with
    | .error e => .error e
    | .ok S2 => SuperModel.add_submodel (fun _ => 1) S2 "U" (one_parameter "S::x")

/-- A `SuperModel` with the parameter `mu` of its own and the sub-model `S` with the
parameter `x`. -/
def one_submodel : SuperModel := ⟨⟨[⟨"mu", 0, false⟩, ⟨"x", 0, false⟩]⟩, ["mu", "x"], [-1, 0],
  [1], ["S::"]⟩

/-- The state that `add_submodel(prefix,M)` has when it calls `prefix_names()`, written
out: the parameters of `M` follow the parameters of `S`, with their names as short names and
in the new sub-model. -/
def SuperModel.with_parameters (S : SuperModel) (pre : String) (M : Model) : SuperModel :=
  ⟨⟨S.parameters_ ++ M.parameters_⟩,
    S.short_parameter_names ++ M.parameters_.map (fun p => p.name),
    S.model_of_index ++ List.replicate M.n_parameters (S.n_submodels : Int),
    S.first_index_of_model ++ [S.n_parameters], S.model_prefix ++ [pre ++ "::"]⟩

/-- Two parameters have the same short name, and one of them belongs to the sub-model
`m`: the collision for which `prefix_names` gives the names of `m` their prefix. -/
def SuperModel.collides (S : SuperModel) (m : Nat) : Prop :=
  ∃ a b, b < a ∧ a < S.parameters_.length ∧
    S.short_parameter_names.getD a "" = S.short_parameter_names.getD b "" ∧
    (S.model_of_index.getD a 0 = (m : Int) ∨ S.model_of_index.getD b 0 = (m : Int))

/-- The state `R` differs from `S` in the names of the parameters at most. -/
def SuperModel.same_but_names (R S : SuperModel) : Prop :=
  R.short_parameter_names = S.short_parameter_names ∧ R.model_of_index = S.model_of_index ∧
  R.first_index_of_model = S.first_index_of_model ∧ R.model_prefix = S.model_prefix ∧
  R.parameters_.length = S.parameters_.length

/-- The name that the second loop of `prefix_names` writes for the parameter `k` of the
sub-model `m`. -/
def SuperModel.new_name (prefix_marks : List Int) (S : SuperModel) (m k : Nat) : String :=
  if prefix_marks.getD m 0 ≠ 0 then
    S.model_prefix.getD m "" ++ S.short_parameter_names.getD k ""
  else S.short_parameter_names.getD k ""
/-- Four leaf rows of two columns. -/
def four_rows : alignment :=
  alignment.of_rows dna 2 ["a", "b", "c", "d"] [[0, 1], [2, -1], [-1, 3], [0, 0]]

/-- The counters that the reading loop keeps: `total` is the number of stored alignments
and stays at most `2*maxalignments`. -/
def load_state.counted (maxalignments : Int) (s : load_state) : Prop :=
  s.total = (s.alignments.length : Int) ∧ s.total ≤ 2 * maxalignments

/-- A call that builds a `SuperModel`. -/
inductive SuperModel.Call where
  | add_super_parameter (P : Parameter) : SuperModel.Call
  | add_submodel (pre : String) (M : Model) : SuperModel.Call

/-- The parameters that the calls of `add_super_parameter` among `calls` add. -/
def SuperModel.supers : List SuperModel.Call → List Parameter
  | [] => []
  | .add_super_parameter P :: cs => P :: SuperModel.supers cs
  | .add_submodel _ _ :: cs => SuperModel.supers cs

/-- The sub-models that the calls of `add_submodel` among `calls` add. -/
def SuperModel.sub_models : List SuperModel.Call → List Model
  | [] => []
  | .add_super_parameter _ :: cs => SuperModel.sub_models cs
  | .add_submodel _ M :: cs => M :: SuperModel.sub_models cs

/-- The prefixes that the calls of `add_submodel` among `calls` pass. -/
def SuperModel.prefixes : List SuperModel.Call → List String
  | [] => []
  | .add_super_parameter _ :: cs => SuperModel.prefixes cs
  | .add_submodel pre _ :: cs => pre :: SuperModel.prefixes cs

/-- One call, in the state `S`. -/
def SuperModel.call (SubModels : Nat → Nat) (S : SuperModel) :
    SuperModel.Call → Except Failure SuperModel
  | .add_super_parameter P => S.add_super_parameter P
  | .add_submodel pre M => SuperModel.add_submodel SubModels S pre M

/-- The calls `calls`, one after the other, from the state `S` on. -/
def SuperModel.run (SubModels : Nat → Nat) (calls : List SuperModel.Call) (S : SuperModel) :
    Except Failure SuperModel :=
  calls.foldlM (SuperModel.call SubModels) S

/-- The number of parameters of the sub-model `m` among the sub-models that `calls` add. -/
def SuperModel.sizes (calls : List SuperModel.Call) (m : Nat) : Nat :=
  ((SuperModel.sub_models calls).getD m ⟨[]⟩).n_parameters

/-- The state of a `SuperModel` after the calls `calls` on a new `SuperModel`;
`SubModels(m)` is the sub-model that the call number `m` of `add_submodel` has added. -/
def SuperModel.after (calls : List SuperModel.Call) : Except Failure SuperModel :=
  SuperModel.run (SuperModel.sizes calls) calls SuperModel.empty

/-- The layout of the indices of a `SuperModel` whose sub-model `m` has `SubModels m`
parameters: the vectors on the parameters have the same length, the parameters of the
`SuperModel` itself are the first `n_super_parameters()` ones, and the parameters of each
sub-model are those of its block. -/
def SuperModel.layout (SubModels : Nat → Nat) (S : SuperModel) : Prop :=
  S.short_parameter_names.length = S.parameters_.length ∧
  S.model_of_index.length = S.parameters_.length ∧
  S.model_prefix.length = S.first_index_of_model.length ∧
  S.n_super_parameters ≤ S.parameters_.length ∧
  (∀ i, i < S.parameters_.length →
    (S.model_of_index.getD i 0 = -1 ↔ i < S.n_super_parameters)) ∧
  (∀ m, m < S.n_submodels → ∀ i, i < S.parameters_.length →
    (S.model_of_index.getD i 0 = (m : Int) ↔
      S.first_index_of_model.getD m 0 ≤ i ∧ i < S.first_index_of_model.getD m 0 + SubModels m)) ∧
  (∀ m, m < S.n_submodels →
    S.n_super_parameters ≤ S.first_index_of_model.getD m 0 ∧
    S.first_index_of_model.getD m 0 + SubModels m ≤ S.parameters_.length) ∧
  (∀ i, i < S.parameters_.length →
    S.model_of_index.getD i 0 = -1 ∨
      ∃ m, m < S.n_submodels ∧ S.model_of_index.getD i 0 = (m : Int))

/-- The states that the calls `done` build, for sub-models with `SubModels m` parameters:
the layout of the indices holds, the parameters of the `SuperModel` itself carry their short
names, and the short names and the prefixes are those that the calls have passed. -/
def SuperModel.built (SubModels : Nat → Nat) (done : List SuperModel.Call) (S : SuperModel) :
    Prop :=
  S.layout SubModels ∧
  (∀ i, i < S.n_super_parameters → S.parameter_name i = S.short_parameter_names.getD i "") ∧
  S.n_super_parameters = (SuperModel.supers done).length ∧
  (∀ i, i < S.n_super_parameters →
    S.short_parameter_names.getD i "" = ((SuperModel.supers done).getD i ⟨"", 0, false⟩).name) ∧
  S.n_submodels = (SuperModel.sub_models done).length ∧
  (∀ m, m < S.n_submodels →
    SubModels m = ((SuperModel.sub_models done).getD m ⟨[]⟩).n_parameters ∧
    ∀ j, j < SubModels m →
      S.short_parameter_names.getD (S.first_index_of_model.getD m 0 + j) "" =
        (((SuperModel.sub_models done).getD m ⟨[]⟩).parameters_.getD j ⟨"", 0, false⟩).name) ∧
  (∀ m, m < S.n_submodels →
    S.model_prefix.getD m "" = (SuperModel.prefixes done).getD m "" ++ "::")

/-- The string `s` contains `::`. -/
def contains_colons (s : String) : Prop := [':', ':'] <:+: s.data

instance (s : String) : Decidable (contains_colons s) := by
  unfold contains_colons
  infer_instance

/-- The string `s` ends with `:`. -/
def ends_with_colon (s : String) : Prop := s.data.getLast? = some ':'

instance (s : String) : Decidable (ends_with_colon s) := by
  unfold ends_with_colon
  infer_instance

/-- The conditions of C32 on the calls that build a `SuperModel`: the names of the
parameters of the `SuperModel` itself are distinct, the names of the parameters of each
sub-model are distinct, the prefixes are distinct, and no name and no prefix contains
`::`. -/
def SuperModel.distinct_names (calls : List SuperModel.Call) : Prop :=
  ((SuperModel.supers calls).map fun p => p.name).Nodup ∧
  (∀ M, M ∈ SuperModel.sub_models calls → (M.parameters_.map fun p => p.name).Nodup) ∧
  (SuperModel.prefixes calls).Nodup ∧
  (∀ P, P ∈ SuperModel.supers calls → ¬ contains_colons P.name) ∧
  (∀ M, M ∈ SuperModel.sub_models calls → ∀ p, p ∈ M.parameters_ → ¬ contains_colons p.name) ∧
  (∀ pre, pre ∈ SuperModel.prefixes calls → ¬ contains_colons pre)

/-- The names of the parameters of a state, when there is one. -/
def SuperModel.parameter_names (r : Except Failure SuperModel) : Option (List String) :=
  match r with
  | .ok S => some (S.parameters_.map fun p => p.name)
  | .error _ => none

/-- Three calls of `add_submodel`: the prefix `a:` with the parameters `b` and `x`, the
prefix `a` with the parameters `:b` and `x`, and the prefix `c` with the parameter `y`. -/
def colon_calls : List SuperModel.Call :=
  [.add_submodel "a:" ⟨[⟨"b", 0, false⟩, ⟨"x", 0, false⟩]⟩,
    .add_submodel "a" ⟨[⟨":b", 0, false⟩, ⟨"x", 0, false⟩]⟩,
    .add_submodel "c" ⟨[⟨"y", 0, false⟩]⟩]

/-- A call of `add_super_parameter` for `mu` and a call of `add_submodel` with the prefix
`S` and the parameters `mu` and `x`. -/
def plain_calls : List SuperModel.Call :=
  [.add_super_parameter ⟨"mu", 0, false⟩,
    .add_submodel "S" ⟨[⟨"mu", 0, false⟩, ⟨"x", 0, false⟩]⟩]

/-- No prefix that the calls pass ends with `:`. -/
def SuperModel.plain_prefixes (calls : List SuperModel.Call) : Prop :=
  ∀ pre, pre ∈ SuperModel.prefixes calls → ¬ ends_with_colon pre

/-- The value of the parameter `i` of a model: `parameters_[i].value`. -/
def Model.get_parameter_value (M : Model) (i : Nat) : ℚ := (M.get_parameter i).value

/-- A `SuperModel` with the parameters `mu` and `nu` of its own and two sub-models with two
parameters each. -/
def two_submodels : SuperModel :=
  ⟨⟨[⟨"mu", 1, false⟩, ⟨"nu", 2, false⟩, ⟨"a", 3, false⟩, ⟨"b", 4, false⟩, ⟨"c", 5, false⟩,
    ⟨"d", 6, false⟩]⟩, ["mu", "nu", "a", "b", "c", "d"], [-1, -1, 0, 0, 1, 1], [2, 4],
    ["S::", "T::"]⟩

/-- The two sub-models of `two_submodels`. -/
def two_submodels_models : List Model :=
  [⟨[⟨"a", 3, false⟩, ⟨"b", 4, false⟩]⟩, ⟨[⟨"c", 5, false⟩, ⟨"d", 6, false⟩]⟩]

/-! ## Lemmas on loops, `M`, `column_lookup` and `A_match` -/

theorem foldl_range_inv {σ : Type} (f : σ → Nat → σ) (P : Nat → σ → Prop) (s0 : σ) (n : Nat)
    (h0 : P 0 s0) (hs : ∀ k s, k < n → P k s → P (k + 1) (f s k)) :
    P n ((List.range n).foldl f s0) := by
  induction n with
  | zero => simpa using h0
  | succ n ih =>
    rw [List.range_succ, List.foldl_append]
    simp only [List.foldl_cons, List.foldl_nil]
    exact hs n _ (Nat.lt_succ_self n) (ih (fun k s hk hp => hs k s (Nat.lt_succ_of_lt hk) hp))

/-- A loop in which every iteration succeeds and keeps `P` succeeds and ends in `P`. -/
theorem foldlM_ok_inv {σ α : Type} (f : σ → α → Except Failure σ) (P : σ → Prop)
    (l : List α) (s : σ) (hP : P s)
    (h : ∀ s x, x ∈ l → P s → ∃ s', f s x = .ok s' ∧ P s') :
    ∃ r, l.foldlM f s = .ok r ∧ P r := by
  induction l generalizing s with
  | nil => exact ⟨s, rfl, hP⟩
  | cons x xs ih =>
    obtain ⟨s', hs', hP'⟩ := h s x (List.mem_cons_self x xs) hP
    obtain ⟨r, hr, hPr⟩ := ih s' hP' (fun s y hy hp => h s y (List.mem_cons_of_mem x hy) hp)
    refine ⟨r, ?_, hPr⟩
    simp only [List.foldlM_cons, hs']
    exact hr

/-- A loop in which no iteration changes the state returns the initial state. -/
theorem foldlM_unit_ok_iff {α : Type} (f : Unit → α → Except Failure Unit) (l : List α) :
    l.foldlM f () = .ok () ↔ ∀ x, x ∈ l → f () x = .ok () := by
  induction l with
  | nil => simp [pure, Except.pure]
  | cons x xs ih =>
    rw [List.foldlM_cons]
    cases hx : f () x with
    | error e =>
      constructor
      · intro h; cases h
      · intro h
        have := h x (List.mem_cons_self x xs)
        rw [hx] at this
        cases this
    | ok u =>
      show xs.foldlM f u = .ok () ↔ _
      constructor
      · intro h y hy
        rcases List.mem_cons.1 hy with rfl | hy
        · exact hx
        · exact ih.1 h y hy
      · intro h
        exact ih.2 (fun y hy => h y (List.mem_cons_of_mem x hy))

theorem foldlM_ok_const {σ α : Type} (f : σ → α → Except Failure σ)
    (l : List α) (s : σ) (h : ∀ x, x ∈ l → f s x = .ok s) :
    l.foldlM f s = .ok s := by
  obtain ⟨r, hr, hPr⟩ := foldlM_ok_inv f (fun t => t = s) l s rfl
    (fun t x hx ht => ⟨s, by rw [ht]; exact h x hx, rfl⟩)
  rw [hr, hPr]



theorem column_lookup_row (A : alignment) (i k : Nat) :
    (List.range k).foldl (column_lookup_step A i) [] =
      (List.range k).filter fun c => A.character c i := by
  refine foldl_range_inv (column_lookup_step A i)
    (fun k r => r = (List.range k).filter fun c => A.character c i) [] k ?_ ?_
  · simp
  · intro k s _ hs
    rw [List.range_succ, List.filter_append, ← hs]
    unfold column_lookup_step
    by_cases h : A.character k i <;> simp [h]

theorem column_lookup_get (A : alignment) (i : Nat) (hi : i < A.n_sequences) :
    (column_lookup A (-1)).get? i = some ((List.range A.length).filter fun c => A.character c i) := by
  unfold column_lookup
  simp [hi, column_lookup_row]

theorem filter_range_get (p : Nat → Bool) (L c : Nat) (hc : c < L) (hp : p c = true) :
    ((List.range L).filter p).get? ((List.range c).filter p).length = some c := by
  obtain ⟨d, rfl⟩ : ∃ d, L = c + (d + 1) := ⟨L - c - 1, by omega⟩
  rw [List.range_add, List.filter_append, List.range_succ_eq_map, List.get?_eq_getElem?,
    List.getElem?_append_right (le_refl _)]
  simp [hp]

theorem filter_range_lt (p : Nat → Bool) (L k x : Nat)
    (h : ((List.range L).filter p).get? k = some x) : x < L := by
  have hm : x ∈ (List.range L).filter p := List.get?_mem h
  have := (List.mem_filter.mp hm).1
  exact List.mem_range.mp this

theorem feature_count_lt (A : alignment) (i c : Nat) (hc : c < A.length)
    (hp : A.character c i = true) : feature_count A i c < feature_count A i A.length := by
  have h := filter_range_get (fun k => A.character k i) A.length c hc hp
  have := List.get?_eq_some.mp h
  obtain ⟨hlt, _⟩ := this
  exact hlt

theorem seqlength_eq (A : alignment) (i : Nat) : A.seqlength i = feature_count A i A.length := by
  unfold alignment.seqlength
  refine foldl_range_inv _ (fun k r => r = feature_count A i k) 0 A.length ?_ ?_
  · simp [feature_count]
  · intro k s _ hs
    unfold feature_count at *
    rw [List.range_succ, List.filter_append, hs]
    by_cases h : A.character k i <;> simp [h]

theorem feature_count_succ (A : alignment) (i c : Nat) :
    feature_count A i (c + 1) = feature_count A i c + (if A.character c i then 1 else 0) := by
  unfold feature_count
  rw [List.range_succ, List.filter_append]
  by_cases h : A.character c i <;> simp [h]


theorem M_inner (A1 : alignment) (i : Nat) (A2 : matrix) (k : Nat) :
    ((List.range k).foldl (M_column_step A1 i) (A2, 0)).2 = (feature_count A1 i k : Int) ∧
    ((List.range k).foldl (M_column_step A1 i) (A2, 0)).1.size1 = A2.size1 ∧
    ((List.range k).foldl (M_column_step A1 i) (A2, 0)).1.size2 = A2.size2 ∧
      ∀ c' i', ((List.range k).foldl (M_column_step A1 i) (A2, 0)).1.data c' i' =
        if i' = i ∧ c' < k then M_value A1 c' i' else A2.data c' i' := by
  refine foldl_range_inv (M_column_step A1 i)
    (fun k r => r.2 = (feature_count A1 i k : Int) ∧ r.1.size1 = A2.size1 ∧ r.1.size2 = A2.size2 ∧
      ∀ c' i', r.1.data c' i' = if i' = i ∧ c' < k then M_value A1 c' i' else A2.data c' i')
    (A2, 0) k ?_ ?_
  · simp [feature_count]
  · rintro k ⟨m, p⟩ - ⟨h1, h2, h3, h4⟩
    simp only at h1 h2 h3 h4
    subst h1
    have key : ∀ (v : Int) (c' i' : Nat), v = M_value A1 k i →
        (m.set k i v).data c' i' =
          if i' = i ∧ c' < k + 1 then M_value A1 c' i' else A2.data c' i' := by
      intro v c' i' hv
      simp only [matrix.set]
      by_cases hq : c' = k ∧ i' = i
      · obtain ⟨rfl, rfl⟩ := hq
        simp [hv]
      · rw [if_neg hq, h4]
        by_cases hi : i' = i
        · subst hi
          have : c' ≠ k := fun h => hq ⟨h, rfl⟩
          have h5 : (c' < k + 1) ↔ c' < k := by omega
          simp [h5]
        · simp [hi]
    by_cases hc : A1.character k i
    · simp only [M_column_step, hc, if_true]
      refine ⟨?_, h2, h3, ?_⟩
      · rw [feature_count_succ]; simp [hc]
      · intro c' i'
        exact key _ c' i' (by simp [M_value, hc])
    · simp only [M_column_step, hc]
      refine ⟨?_, h2, h3, ?_⟩
      · simp only [Bool.false_eq_true, if_false]; rw [feature_count_succ]; simp [hc]
      · intro c' i'
        simp only [Bool.false_eq_true, if_false]
        exact key _ c' i' (by simp [M_value, hc])

/-- The assertion that closes the loop over `i` in `M`: `pos == A1.seqlength(i)`. -/
theorem M_pos_eq_seqlength (A1 : alignment) (i : Nat) (A2 : matrix) :
    ((List.range A1.length).foldl (M_column_step A1 i) (A2, 0)).2 = (A1.seqlength i : Int) := by
  rw [(M_inner A1 i A2 A1.length).1, seqlength_eq]

theorem M_outer (A1 : alignment) (n : Nat) :
    ((List.range n).foldl (M_row_step A1) ⟨A1.length, A1.n_sequences, fun _ _ => 0⟩).size1
      = A1.length ∧
    ((List.range n).foldl (M_row_step A1) ⟨A1.length, A1.n_sequences, fun _ _ => 0⟩).size2
      = A1.n_sequences ∧
    ∀ c i, ((List.range n).foldl (M_row_step A1) ⟨A1.length, A1.n_sequences, fun _ _ => 0⟩).data c i
      = if i < n ∧ c < A1.length then M_value A1 c i else 0 := by
  refine foldl_range_inv (M_row_step A1)
    (fun n r => r.size1 = A1.length ∧ r.size2 = A1.n_sequences ∧
      ∀ c i, r.data c i = if i < n ∧ c < A1.length then M_value A1 c i else 0)
    _ n ?_ ?_
  · simp
  · rintro n r - ⟨h1, h2, h3⟩
    obtain ⟨-, g2, g3, g4⟩ := M_inner A1 n r A1.length
    refine ⟨g2.trans h1, g3.trans h2, ?_⟩
    intro c i
    unfold M_row_step
    rw [g4, h3]
    by_cases hi : i = n
    · subst hi
      by_cases hc : c < A1.length <;> simp [hc]
    · have h5 : (i < n + 1) ↔ i < n := by omega
      simp [hi, h5]

theorem M_size1 (A : alignment) : (M A).size1 = A.length := (M_outer A A.n_sequences).1

theorem M_size2 (A : alignment) : (M A).size2 = A.n_sequences := (M_outer A A.n_sequences).2.1

theorem M_data (A : alignment) (c i : Nat) (hc : c < A.length) (hi : i < A.n_sequences) :
    (M A).data c i = M_value A c i := by
  have h := (M_outer A A.n_sequences).2.2 c i
  simp only [hi, hc, and_self, if_true] at h
  exact h

theorem feature_cell (A : alignment) (c i : Nat) :
    A.character c i = true ↔ A.cell c i ≠ alphabet.gap ∧ A.cell c i ≠ alphabet.unknown := by
  simp [alignment.character, alphabet.is_feature]

theorem M_value_eq_gap (A : alignment) (c i : Nat) :
    M_value A c i = alphabet.gap ↔ A.cell c i = alphabet.gap := by
  unfold M_value
  by_cases h : A.character c i = true
  · rw [if_pos h]
    have h' := (feature_cell A c i).mp h
    constructor
    · intro h2; simp only [alphabet.gap] at h2; omega
    · intro h2; exact absurd h2 h'.1
  · rw [if_neg h]

theorem M_value_eq_unknown (A : alignment) (c i : Nat) :
    M_value A c i = alphabet.unknown ↔ A.cell c i = alphabet.unknown := by
  unfold M_value
  by_cases h : A.character c i = true
  · rw [if_pos h]
    have h' := (feature_cell A c i).mp h
    constructor
    · intro h2; simp only [alphabet.unknown] at h2; omega
    · intro h2; exact absurd h2 h'.2
  · rw [if_neg h]

theorem M_read (A : alignment) (c i : Nat) (hc : c < A.length) (hi : i < A.n_sequences) :
    (M A).read c i = .ok (M_value A c i) := by
  simp [matrix.read, M_size1, M_size2, hc, hi, M_data]

/-- The lookup of `A_match` once `s1` holds a feature: the other alignment is read in the
column that holds the same letter of `s1`. -/
theorem A_match_feature (A1 A2 : alignment) (c s1 s2 : Nat)
    (hN : A1.n_sequences = A2.n_sequences)
    (hlen : A1.seqlength s1 = A2.seqlength s1)
    (hc : c < A1.length) (h1 : s1 < A1.n_sequences) (h2 : s2 < A1.n_sequences)
    (hf : A1.character c s1 = true) :
    ∃ c2, c2 < A2.length ∧
      ((List.range A2.length).filter fun k => A2.character k s1).get? (feature_count A1 s1 c)
        = some c2 ∧
      A_match (M A1) c s1 s2 (M A2) (column_lookup A2 (-1))
        = .ok (M_value A2 c2 s2 == M_value A1 c s2) := by
  have hcnt : feature_count A1 s1 c < feature_count A2 s1 A2.length := by
    rw [← seqlength_eq, ← hlen, seqlength_eq]
    exact feature_count_lt A1 s1 c hc hf
  have hlt : feature_count A1 s1 c <
      ((List.range A2.length).filter fun k => A2.character k s1).length := hcnt
  obtain ⟨c2, hc2⟩ : ∃ c2, ((List.range A2.length).filter fun k => A2.character k s1).get?
      (feature_count A1 s1 c) = some c2 := ⟨_, List.get?_eq_get hlt⟩
  have hc2lt : c2 < A2.length := filter_range_lt _ _ _ _ hc2
  refine ⟨c2, hc2lt, hc2, ?_⟩
  have hg : M_value A1 c s1 ≠ alphabet.gap := by
    rw [Ne, M_value_eq_gap]; exact ((feature_cell A1 c s1).mp hf).1
  have hv : M_value A1 c s1 = (feature_count A1 s1 c : Int) := by simp [M_value, hf]
  have hrow := column_lookup_get A2 s1 (hN ▸ h1)
  rw [hv] at hg
  unfold A_match
  simp only [M_read A1 c s1 hc h1, M_read A1 c s2 hc h2, bind, Except.bind, hg, false_and,
    if_false, vec_at, Int.toNat_ofNat, Int.ofNat_nonneg, if_true, hrow, hv, hc2,
    M_read A2 c2 s2 hc2lt (hN ▸ h2), pure, Except.pure]

theorem seqlength_eq_ungapped (A : alignment) (i : Nat) :
    A.seqlength i = (ungapped A i).length := by
  rw [seqlength_eq]; simp [ungapped, feature_count]

theorem A_match_gap_swap (M1 M2 : matrix) (ci : List (List Nat)) (c s1 s2 : Nat) (b : Int)
    (ha : M1.read c s1 = .ok alphabet.gap) (hb : M1.read c s2 = .ok b)
    (hbg : b ≠ alphabet.gap) :
    A_match M1 c s1 s2 M2 ci = A_match M1 c s2 s1 M2 ci := by
  unfold A_match
  simp [ha, hb, hbg, bind, Except.bind]

theorem A_match_both_gap (M1 M2 : matrix) (ci : List (List Nat)) (c s1 s2 : Nat)
    (ha : M1.read c s1 = .ok alphabet.gap) (hb : M1.read c s2 = .ok alphabet.gap) :
    A_match M1 c s1 s2 M2 ci = .ok true := by
  unfold A_match
  simp [ha, hb, bind, Except.bind, pure, Except.pure]

/-- On matrices of two alignments with the same sequence lengths `A_match` reads inside
the matrices and the lookup table, whenever neither cell is unknown. -/
theorem A_match_ok (A1 A2 : alignment) (c s1 s2 : Nat)
    (hN : A1.n_sequences = A2.n_sequences)
    (hlen : ∀ i, i < A1.n_sequences → A1.seqlength i = A2.seqlength i)
    (hc : c < A1.length) (h1 : s1 < A1.n_sequences) (h2 : s2 < A1.n_sequences)
    (hu1 : A1.cell c s1 ≠ alphabet.unknown) (hu2 : A1.cell c s2 ≠ alphabet.unknown) :
    ∃ b, A_match (M A1) c s1 s2 (M A2) (column_lookup A2 (-1)) = .ok b := by
  by_cases hg1 : A1.cell c s1 = alphabet.gap
  · have ha : (M A1).read c s1 = .ok alphabet.gap := by
      rw [M_read A1 c s1 hc h1, (M_value_eq_gap A1 c s1).mpr hg1]
    by_cases hg2 : A1.cell c s2 = alphabet.gap
    · have hb : (M A1).read c s2 = .ok alphabet.gap := by
        rw [M_read A1 c s2 hc h2, (M_value_eq_gap A1 c s2).mpr hg2]
      exact ⟨true, A_match_both_gap _ _ _ _ _ _ ha hb⟩
    · have hb := M_read A1 c s2 hc h2
      have hbg : M_value A1 c s2 ≠ alphabet.gap := fun h => hg2 ((M_value_eq_gap A1 c s2).mp h)
      rw [A_match_gap_swap _ _ _ _ _ _ _ ha hb hbg]
      obtain ⟨c2, -, -, h⟩ := A_match_feature A1 A2 c s2 s1 hN (hlen s2 h2) hc h2 h1
        ((feature_cell A1 c s2).mpr ⟨hg2, hu2⟩)
      exact ⟨_, h⟩
  · obtain ⟨c2, -, -, h⟩ := A_match_feature A1 A2 c s1 s2 hN (hlen s1 h1) hc h1 h2
      ((feature_cell A1 c s1).mpr ⟨hg1, hu1⟩)
    exact ⟨_, h⟩

theorem A_match_feature_self (A : alignment) (c s1 s2 : Nat)
    (hc : c < A.length) (h1 : s1 < A.n_sequences) (h2 : s2 < A.n_sequences)
    (hf : A.character c s1 = true) :
    A_match (M A) c s1 s2 (M A) (column_lookup A (-1)) = .ok true := by
  obtain ⟨c2, -, hget, h⟩ := A_match_feature A A c s1 s2 rfl rfl hc h1 h2 hf
  have hself := filter_range_get (fun k => A.character k s1) A.length c hc hf
  have hcc : c2 = c := by
    unfold feature_count at hget
    rw [hself] at hget
    exact (Option.some.inj hget).symm
  rw [h, hcc]; simp

/-- Every homology of an alignment is preserved in the alignment itself. -/
theorem A_match_self (A : alignment) (c s1 s2 : Nat)
    (hc : c < A.length) (h1 : s1 < A.n_sequences) (h2 : s2 < A.n_sequences)
    (hu1 : A.cell c s1 ≠ alphabet.unknown) (hu2 : A.cell c s2 ≠ alphabet.unknown) :
    A_match (M A) c s1 s2 (M A) (column_lookup A (-1)) = .ok true := by
  by_cases hg1 : A.cell c s1 = alphabet.gap
  · have ha : (M A).read c s1 = .ok alphabet.gap := by
      rw [M_read A c s1 hc h1, (M_value_eq_gap A c s1).mpr hg1]
    by_cases hg2 : A.cell c s2 = alphabet.gap
    · have hb : (M A).read c s2 = .ok alphabet.gap := by
        rw [M_read A c s2 hc h2, (M_value_eq_gap A c s2).mpr hg2]
      exact A_match_both_gap _ _ _ _ _ _ ha hb
    · have hb := M_read A c s2 hc h2
      have hbg : M_value A c s2 ≠ alphabet.gap := fun h => hg2 ((M_value_eq_gap A c s2).mp h)
      rw [A_match_gap_swap _ _ _ _ _ _ _ ha hb hbg]
      exact A_match_feature_self A c s2 s1 hc h2 h1 ((feature_cell A c s2).mpr ⟨hg2, hu2⟩)
  · exact A_match_feature_self A c s1 s2 hc h1 h2 ((feature_cell A c s1).mpr ⟨hg1, hu1⟩)

theorem pairs_j_step_ok (A1 A2 : alignment) (c i j : Nat) (m : Int)
    (hN : A1.n_sequences = A2.n_sequences)
    (hlen : ∀ i, i < A1.n_sequences → A1.seqlength i = A2.seqlength i)
    (hc : c < A1.length) (hi : i < A1.n_sequences) (hj : j < A1.n_sequences) :
    ∃ m', pairs_j_step (M A1) (M A2) (column_lookup A2 (-1)) c i m j = .ok m' := by
  unfold pairs_j_step
  rw [M_data A1 c i hc hi, M_data A1 c j hc hj]
  by_cases hu : M_value A1 c i = alphabet.unknown ∨ M_value A1 c j = alphabet.unknown
  · rw [if_pos hu]; exact ⟨_, rfl⟩
  · rw [if_neg hu]
    split
    · push_neg at hu
      obtain ⟨b, hb⟩ := A_match_ok A1 A2 c i j hN hlen hc hi hj
        (fun h => hu.1 ((M_value_eq_unknown A1 c i).mpr h))
        (fun h => hu.2 ((M_value_eq_unknown A1 c j).mpr h))
      rw [hb]
      cases b <;> exact ⟨_, rfl⟩
    · exact ⟨_, rfl⟩

theorem asymmetric_pairs_distance_ok (A1 A2 : alignment)
    (hN : A1.n_sequences = A2.n_sequences)
    (hlen : ∀ i, i < A1.n_sequences → A1.seqlength i = A2.seqlength i) :
    ∃ d, asymmetric_pairs_distance A1 A2 = .ok d := by
  have hj : ∀ c i, c < A1.length → i < A1.n_sequences → ∀ (s : Int) (j : Nat),
      j ∈ List.range i → True →
      ∃ s', pairs_j_step (M A1) (M A2) (column_lookup A2 (-1)) c i s j = .ok s' ∧ True := by
    intro c i hc hi s j hj _
    rw [List.mem_range] at hj
    obtain ⟨m', hm'⟩ := pairs_j_step_ok A1 A2 c i j s hN hlen hc hi (lt_trans hj hi)
    exact ⟨m', hm', trivial⟩
  have hi : ∀ c, c < A1.length → ∀ (s : Int) (i : Nat), i ∈ List.range (M A1).size2 → True →
      ∃ s', pairs_i_step (M A1) (M A2) (column_lookup A2 (-1)) c s i = .ok s' ∧ True := by
    intro c hc s i hi _
    rw [List.mem_range, M_size2] at hi
    exact foldlM_ok_inv _ (fun _ => True) (List.range i) s trivial (hj c i hc hi)
  have hc : ∀ (s : Int) (c : Nat), c ∈ List.range (M A1).size1 → True →
      ∃ s', pairs_column_step (M A1) (M A2) (column_lookup A2 (-1)) s c = .ok s' ∧ True := by
    intro s c hc _
    rw [List.mem_range, M_size1] at hc
    exact foldlM_ok_inv _ (fun _ => True) (List.range (M A1).size2) s trivial (hi c hc)
  obtain ⟨r, hr, -⟩ := foldlM_ok_inv (pairs_column_step (M A1) (M A2) (column_lookup A2 (-1)))
    (fun _ => True) (List.range (M A1).size1) 0 trivial hc
  exact ⟨r, hr⟩

theorem pairs_j_step_self (A : alignment) (c i j : Nat) (m : Int)
    (hc : c < A.length) (hi : i < A.n_sequences) (hj : j < A.n_sequences) :
    pairs_j_step (M A) (M A) (column_lookup A (-1)) c i m j = .ok m := by
  unfold pairs_j_step
  rw [M_data A c i hc hi, M_data A c j hc hj]
  by_cases hu : M_value A c i = alphabet.unknown ∨ M_value A c j = alphabet.unknown
  · rw [if_pos hu]
  · rw [if_neg hu]
    split
    · push_neg at hu
      rw [A_match_self A c i j hc hi hj
        (fun h => hu.1 ((M_value_eq_unknown A c i).mpr h))
        (fun h => hu.2 ((M_value_eq_unknown A c j).mpr h))]
      rfl
    · rfl

theorem asymmetric_pairs_distance_self (A : alignment) :
    asymmetric_pairs_distance A A = .ok 0 := by
  unfold asymmetric_pairs_distance asymmetric_pairs_distance_M
  apply foldlM_ok_const
  intro c hc
  rw [List.mem_range, M_size1] at hc
  unfold pairs_column_step
  apply foldlM_ok_const
  intro i hi
  rw [List.mem_range, M_size2] at hi
  unfold pairs_i_step
  apply foldlM_ok_const
  intro j hj
  rw [List.mem_range] at hj
  exact pairs_j_step_self A c i j 0 hc hi (lt_trans hj hi)


theorem mapM_ok {α β : Type} (f : α → Except Failure β) (g : α → β) (l : List α)
    (h : ∀ x, x ∈ l → f x = .ok (g x)) : l.mapM f = .ok (l.map g) := by
  induction l with
  | nil => rfl
  | cons x xs ih =>
    rw [List.mapM_cons, h x (List.mem_cons_self x xs),
      ih (fun y hy => h y (List.mem_cons_of_mem x hy))]
    rfl

/-- A loop whose iterations either succeed or stop with the failure `e` does the same. -/
theorem foldlM_ok_or {σ α : Type} (f : σ → α → Except Failure σ) (e : Failure)
    (l : List α) (s : σ)
    (h : ∀ s x, x ∈ l → (∃ s', f s x = .ok s') ∨ f s x = .error e) :
    (∃ r, l.foldlM f s = .ok r) ∨ l.foldlM f s = .error e := by
  induction l generalizing s with
  | nil => exact Or.inl ⟨s, rfl⟩
  | cons x xs ih =>
    rcases h s x (List.mem_cons_self x xs) with ⟨s', hs'⟩ | he
    · simp only [List.foldlM_cons, hs']
      exact ih s' (fun s y hy => h s y (List.mem_cons_of_mem x hy))
    · right
      simp only [List.foldlM_cons, he]
      rfl

theorem splitgroup_label_ok (A1 A2 : alignment) (c i : Nat)
    (hN : A1.n_sequences = A2.n_sequences)
    (hlen : ∀ i, i < A1.n_sequences → A1.seqlength i = A2.seqlength i)
    (hc : c < A1.length) (hi : i < A1.n_sequences) :
    splitgroup_label (M A1) c (column_lookup A2 (-1)) i = .ok (label_value A1 A2 c i) := by
  unfold splitgroup_label label_value
  rw [M_data A1 c i hc hi]
  by_cases hg : M_value A1 c i = alphabet.gap ∨ M_value A1 c i = alphabet.unknown
  · rw [if_pos hg, if_pos hg]
  · rw [if_neg hg, if_neg hg]
    push_neg at hg
    have hf : A1.character c i = true := (feature_cell A1 c i).mpr
      ⟨fun h => hg.1 ((M_value_eq_gap A1 c i).mpr h),
       fun h => hg.2 ((M_value_eq_unknown A1 c i).mpr h)⟩
    have hcnt : feature_count A1 i c <
        ((List.range A2.length).filter fun k => A2.character k i).length := by
      have : feature_count A1 i c < feature_count A2 i A2.length := by
        rw [← seqlength_eq, ← hlen i hi, seqlength_eq]
        exact feature_count_lt A1 i c hc hf
      exact this
    have hv : M_value A1 c i = (feature_count A1 i c : Int) := by simp [M_value, hf]
    have hrow := column_lookup_get A2 i (hN ▸ hi)
    simp only [vec_at, Int.ofNat_nonneg, if_true, Int.toNat_ofNat, hrow, hv,
      List.get?_eq_get hcnt, List.getD_eq_getElem _ _ hcnt]
    rfl

theorem get_splitgroup_columns_ok (A1 A2 : alignment) (c : Nat)
    (hN : A1.n_sequences = A2.n_sequences)
    (hlen : ∀ i, i < A1.n_sequences → A1.seqlength i = A2.seqlength i)
    (hc : c < A1.length) :
    get_splitgroup_columns (M A1) c (M A2) (column_lookup A2 (-1)) =
      .ok ((List.range A1.n_sequences).map (label_value A1 A2 c)) := by
  unfold get_splitgroup_columns
  rw [M_size2]
  apply mapM_ok
  intro i hi
  exact splitgroup_label_ok A1 A2 c i hN hlen hc (List.mem_range.mp hi)

theorem asymmetric_splits_distance_res (A1 A2 : alignment)
    (hN : A1.n_sequences = A2.n_sequences)
    (hlen : ∀ i, i < A1.n_sequences → A1.seqlength i = A2.seqlength i) :
    (∃ d, asymmetric_splits_distance A1 A2 = .ok d) ∨
      asymmetric_splits_distance A1 A2 = .error Failure.assertion := by
  unfold asymmetric_splits_distance asymmetric_splits_distance_M
  apply foldlM_ok_or
  intro s c hc
  rw [List.mem_range, M_size1] at hc
  unfold splits_column_step
  rw [get_splitgroup_columns_ok A1 A2 c hN hlen hc]
  dsimp only
  split
  · exact Or.inl ⟨_, rfl⟩
  · exact Or.inr rfl

theorem asymmetric_splits_distance2_ok (A1 A2 : alignment)
    (hN : A1.n_sequences = A2.n_sequences)
    (hlen : ∀ i, i < A1.n_sequences → A1.seqlength i = A2.seqlength i) :
    ∃ d, asymmetric_splits_distance2 A1 A2 = .ok d := by
  unfold asymmetric_splits_distance2 asymmetric_splits_distance2_M
  obtain ⟨r, hr, -⟩ := foldlM_ok_inv (splits2_column_step (M A1) (M A2) (column_lookup A2 (-1)))
    (fun _ => True) (List.range (M A1).size1) 0 trivial (by
      intro s c hc _
      rw [List.mem_range, M_size1] at hc
      unfold splits2_column_step
      rw [get_splitgroup_columns_ok A1 A2 c hN hlen hc]
      dsimp only
      have hnn : Int.tdiv
          ((((List.map (label_value A1 A2 c) (List.range A1.n_sequences)).foldl uniq_step
            []).length : Int) * (((List.map (label_value A1 A2 c)
            (List.range A1.n_sequences)).foldl uniq_step []).length - 1)) 2 ≥ 0 := by
        generalize ((List.map (label_value A1 A2 c) (List.range A1.n_sequences)).foldl
          uniq_step []).length = n
        apply Int.tdiv_nonneg _ (by norm_num)
        cases n with
        | zero => simp
        | succ n =>
          apply mul_nonneg
          · exact Int.ofNat_nonneg _
          · push_cast; omega
      rw [if_pos hnn]
      exact ⟨_, rfl, trivial⟩)
  exact ⟨r, hr⟩


theorem uniq_step_mem (acc : List Int) (x y : Int) (h : y ∈ acc) : y ∈ uniq_step acc x := by
  unfold uniq_step
  split
  · exact List.mem_append_left _ h
  · exact h

theorem uniq_foldl_mem (l : List Int) (acc : List Int) (y : Int) (h : y ∈ acc) :
    y ∈ l.foldl uniq_step acc := by
  induction l generalizing acc with
  | nil => exact h
  | cons x xs ih => exact ih _ (uniq_step_mem acc x y h)

theorem uniq_foldl_mem_of_mem (l : List Int) (acc : List Int) (x : Int) (hx : x ∈ l)
    (hu : x ≠ alphabet.unknown) (hg : x ≠ alphabet.gap) : x ∈ l.foldl uniq_step acc := by
  induction l generalizing acc with
  | nil => cases hx
  | cons y ys ih =>
    rcases List.mem_cons.mp hx with rfl | hmem
    · rw [List.foldl_cons]
      apply uniq_foldl_mem
      unfold uniq_step
      by_cases hc : x ∈ acc
      · simp [hu, hg, hc]
      · simp [hu, hg, hc]
    · exact ih _ hmem

theorem label_value_feature (A1 A2 : alignment) (c i : Nat) (hf : A1.character c i = true) :
    label_value A1 A2 c i ≠ alphabet.unknown ∧ label_value A1 A2 c i ≠ alphabet.gap := by
  have h := (feature_cell A1 c i).mp hf
  have h1 : ¬ (M_value A1 c i = alphabet.gap ∨ M_value A1 c i = alphabet.unknown) := by
    rw [M_value_eq_gap, M_value_eq_unknown]; tauto
  unfold label_value
  rw [if_neg h1]
  simp only [alphabet.unknown, alphabet.gap]
  constructor <;> omega

theorem asymmetric_splits_distance_ok (A1 A2 : alignment)
    (hN : A1.n_sequences = A2.n_sequences)
    (hlen : ∀ i, i < A1.n_sequences → A1.seqlength i = A2.seqlength i)
    (hcol : ∀ c, c < A1.length → ∃ i, i < A1.n_sequences ∧ A1.character c i = true) :
    ∃ d, asymmetric_splits_distance A1 A2 = .ok d := by
  unfold asymmetric_splits_distance asymmetric_splits_distance_M
  obtain ⟨r, hr, -⟩ := foldlM_ok_inv (splits_column_step (M A1) (M A2) (column_lookup A2 (-1)))
    (fun _ => True) (List.range (M A1).size1) 0 trivial (by
      intro s c hc _
      rw [List.mem_range, M_size1] at hc
      unfold splits_column_step
      rw [get_splitgroup_columns_ok A1 A2 c hN hlen hc]
      dsimp only
      obtain ⟨i, hi, hf⟩ := hcol c hc
      have hl := label_value_feature A1 A2 c i hf
      have hmem : label_value A1 A2 c i ∈
          (List.map (label_value A1 A2 c) (List.range A1.n_sequences)).foldl uniq_step [] :=
        uniq_foldl_mem_of_mem _ _ _
          (List.mem_map.mpr ⟨i, List.mem_range.mpr hi, rfl⟩) hl.1 hl.2
      have hpos := List.length_pos_of_mem hmem
      have hnn : (((List.map (label_value A1 A2 c) (List.range A1.n_sequences)).foldl uniq_step
            []).length : Int) - 1 ≥ 0 := by omega
      rw [if_pos hnn]
      exact ⟨_, rfl, trivial⟩)
  exact ⟨r, hr⟩

/-! ## Lemmas on `shuffle_alignment` and `A_constant` -/

theorem shuffle_cells (A : alignment) (i j : Nat) (A2 : alignment) (k : Nat) :
    ((List.range k).foldl (shuffle_cell_step A i j) A2).get_alphabet = A2.get_alphabet ∧
    ((List.range k).foldl (shuffle_cell_step A i j) A2).n_sequences = A2.n_sequences ∧
    ((List.range k).foldl (shuffle_cell_step A i j) A2).length = A2.length ∧
    ((List.range k).foldl (shuffle_cell_step A i j) A2).name = A2.name ∧
    ∀ c r, ((List.range k).foldl (shuffle_cell_step A i j) A2).cell c r =
      if c < k ∧ r = i then A.cell c j else A2.cell c r := by
  refine foldl_range_inv (shuffle_cell_step A i j)
    (fun k B => B.get_alphabet = A2.get_alphabet ∧ B.n_sequences = A2.n_sequences ∧
      B.length = A2.length ∧ B.name = A2.name ∧
      ∀ c r, B.cell c r = if c < k ∧ r = i then A.cell c j else A2.cell c r) A2 k ?_ ?_
  · simp
  · rintro k B - ⟨h1, h2, h3, h4, h5⟩
    refine ⟨h1, h2, h3, h4, ?_⟩
    intro c r
    simp only [shuffle_cell_step, alignment.set, h5]
    by_cases hr : r = i
    · by_cases hc : c = k
      · simp [hr, hc]
      · have : (c < k + 1) ↔ c < k := by omega
        simp [hr, hc, this]
    · simp [hr]

/-- What `shuffle_alignment` returns when every entry of `order` is a row of `A`. -/
theorem shuffle_alignment_spec (A : alignment) (order : List Nat)
    (h : ∀ j, j ∈ order → j < A.n_sequences) :
    ∃ A2, shuffle_alignment A order = .ok A2 ∧ A2.get_alphabet = A.get_alphabet ∧
      A2.n_sequences = order.length ∧ A2.length = A.length ∧
      ∀ i, i < order.length →
        A2.name i = A.name (order.getD i 0) ∧
        ∀ c, c < A.length → A2.cell c i = A.cell c (order.getD i 0) := by
  unfold shuffle_alignment
  have key : ∀ k, k ≤ order.length → ∃ A2,
      (List.range k).foldlM (shuffle_row_step A order)
        ⟨A.get_alphabet, order.length, A.length, fun _ => "", fun _ _ => 0⟩ = .ok A2 ∧
      A2.get_alphabet = A.get_alphabet ∧ A2.n_sequences = order.length ∧
      A2.length = A.length ∧
      ∀ i, i < k → A2.name i = A.name (order.getD i 0) ∧
        ∀ c, c < A.length → A2.cell c i = A.cell c (order.getD i 0) := by
    intro k
    induction k with
    | zero => intro _; exact ⟨_, rfl, rfl, rfl, rfl, fun i hi => absurd hi (Nat.not_lt_zero i)⟩
    | succ k ih =>
      intro hk
      obtain ⟨B, hB, g1, g2, g3, g4⟩ := ih (Nat.le_of_succ_le hk)
      have hklt : k < order.length := hk
      have hget : order.get? k = some (order.getD k 0) := by
        rw [List.get?_eq_getElem?, List.getD_eq_getElem?_getD, List.getElem?_eq_getElem hklt]
        rfl
      have hmem : order.getD k 0 ∈ order := List.get?_mem hget
      obtain ⟨c1, c2, c3, c4, c5⟩ := shuffle_cells A k (order.getD k 0)
        (B.set_name k (A.name (order.getD k 0))) A.length
      refine ⟨(List.range A.length).foldl (shuffle_cell_step A k (order.getD k 0))
        (B.set_name k (A.name (order.getD k 0))), ?_, ?_, ?_, ?_, ?_⟩
      · rw [List.range_succ, List.foldlM_append, hB]
        simp only [bind, Except.bind, List.foldlM_cons, List.foldlM_nil, shuffle_row_step, hget,
          h _ hmem, if_true]
        rfl
      · rw [c1]; exact g1
      · rw [c2]; exact g2
      · rw [c3]; exact g3
      · intro i hi
        rw [c4]
        constructor
        · simp only [alignment.set_name]
          by_cases hik : i = k
          · simp [hik]
          · simp only [hik, if_false]
            exact (g4 i (by omega)).1
        · intro c hc
          rw [c5]
          by_cases hik : i = k
          · simp [hik, hc]
          · simp only [hik, and_false, if_false, alignment.set_name]
            exact (g4 i (by omega)).2 c hc
  exact key order.length (le_refl _)

theorem for_return_none {ρ : Type} (l : List Nat) (body : Nat → Except Failure (Option ρ))
    (h : ∀ x, x ∈ l → body x = .ok none) : for_return l body = .ok none := by
  induction l with
  | nil => rfl
  | cons x xs ih =>
    simp only [for_return, h x (List.mem_cons_self x xs)]
    exact ih (fun y hy => h y (List.mem_cons_of_mem x hy))

theorem bit_replicate_false (n i : Nat) : bit (List.replicate n false) i = false := by
  unfold bit
  rw [List.getD_eq_getElem?_getD, List.getElem?_replicate]
  split <;> rfl

theorem same_cells_character (A B : alignment) (h : same_cells A B) (c i : Nat)
    (hc : c < A.length) (hi : i < A.n_sequences) : A.character c i = B.character c i := by
  unfold alignment.character
  rw [h.2.2 c i hc hi]

theorem same_cells_filter (A B : alignment) (h : same_cells A B) (i k : Nat)
    (hk : k ≤ A.length) (hi : i < A.n_sequences) :
    ((List.range k).filter fun c => A.character c i) =
      (List.range k).filter fun c => B.character c i := by
  apply List.filter_congr
  intro c hc
  exact same_cells_character A B h c i (lt_of_lt_of_le (List.mem_range.mp hc) hk) hi

theorem same_cells_M_value (A B : alignment) (h : same_cells A B) (c i : Nat)
    (hc : c < A.length) (hi : i < A.n_sequences) : M_value A c i = M_value B c i := by
  unfold M_value feature_count
  rw [same_cells_character A B h c i hc hi, same_cells_filter A B h i c (le_of_lt hc) hi,
    h.2.2 c i hc hi]

theorem same_cells_seqlength (A B : alignment) (h : same_cells A B) (i : Nat)
    (hi : i < A.n_sequences) : A.seqlength i = B.seqlength i := by
  rw [seqlength_eq, seqlength_eq]
  unfold feature_count
  rw [← h.2.1, same_cells_filter A B h i A.length (le_refl _) hi]

theorem A_match_same_feature (A B : alignment) (h : same_cells A B) (c s1 s2 : Nat)
    (hc : c < A.length) (h1 : s1 < A.n_sequences) (h2 : s2 < A.n_sequences)
    (hf : A.character c s1 = true) :
    A_match (M A) c s1 s2 (M B) (column_lookup B (-1)) = .ok true := by
  obtain ⟨c2, -, hget, hm⟩ := A_match_feature A B c s1 s2 h.1 (same_cells_seqlength A B h s1 h1)
    hc h1 h2 hf
  have hself := filter_range_get (fun k => A.character k s1) A.length c hc hf
  have hcc : c2 = c := by
    unfold feature_count at hget
    rw [← h.2.1, ← same_cells_filter A B h s1 A.length (le_refl _) h1, hself] at hget
    exact (Option.some.inj hget).symm
  rw [hm, hcc, same_cells_M_value A B h c s2 hc h2]; simp

theorem A_match_same (A B : alignment) (h : same_cells A B) (c s1 s2 : Nat)
    (hc : c < A.length) (h1 : s1 < A.n_sequences) (h2 : s2 < A.n_sequences)
    (hu1 : A.cell c s1 ≠ alphabet.unknown) (hu2 : A.cell c s2 ≠ alphabet.unknown) :
    A_match (M A) c s1 s2 (M B) (column_lookup B (-1)) = .ok true := by
  by_cases hg1 : A.cell c s1 = alphabet.gap
  · have ha : (M A).read c s1 = .ok alphabet.gap := by
      rw [M_read A c s1 hc h1, (M_value_eq_gap A c s1).mpr hg1]
    by_cases hg2 : A.cell c s2 = alphabet.gap
    · have hb : (M A).read c s2 = .ok alphabet.gap := by
        rw [M_read A c s2 hc h2, (M_value_eq_gap A c s2).mpr hg2]
      exact A_match_both_gap _ _ _ _ _ _ ha hb
    · have hb := M_read A c s2 hc h2
      have hbg : M_value A c s2 ≠ alphabet.gap := fun h => hg2 ((M_value_eq_gap A c s2).mp h)
      rw [A_match_gap_swap _ _ _ _ _ _ _ ha hb hbg]
      exact A_match_same_feature A B h c s2 s1 hc h2 h1 ((feature_cell A c s2).mpr ⟨hg2, hu2⟩)
  · exact A_match_same_feature A B h c s1 s2 hc h1 h2 ((feature_cell A c s1).mpr ⟨hg1, hu1⟩)

/-- `A_constant` accepts a copy of an alignment without unknown cells. -/
theorem A_constant_same (A B : alignment) (h : same_cells A B)
    (hu : ∀ c i, c < A.length → i < A.n_sequences → A.cell c i ≠ alphabet.unknown) :
    A_constant A B (List.replicate A.n_sequences false) = .ok true := by
  unfold A_constant
  have h1 : ¬ A.n_sequences ≠ B.n_sequences := not_not.mpr h.1
  have h2 : ¬ ¬ A.n_sequences ≤ (List.replicate A.n_sequences false).length := by simp
  rw [if_neg h1, if_neg h2]
  dsimp only
  rw [for_return_none _ _ (by
    intro i hi
    rw [List.mem_range, M_size2] at hi
    simp [A_constant_length_step, bit_replicate_false, same_cells_seqlength A B h i hi])]
  dsimp only
  rw [for_return_none _ _ (by
    intro c hc
    rw [List.mem_range] at hc
    apply for_return_none
    intro s1 hs1
    rw [List.mem_range] at hs1
    simp only [A_constant_s1_step, bit_replicate_false, Bool.false_eq_true, if_false]
    apply for_return_none
    intro s2 hs2
    rw [List.mem_range'_1] at hs2
    have hs2lt : s2 < A.n_sequences := by omega
    simp only [A_constant_s2_step, bit_replicate_false, Bool.false_eq_true, if_false,
      A_match_same A B h c s1 s2 hc hs1 hs2lt (hu c s1 hc hs1) (hu c s2 hc hs2lt), if_true])]

theorem shuffle_round_trip (A1 : alignment) (perm : List Nat)
    (hp : perm.Perm (List.range A1.n_sequences)) :
    ∃ A2 A3, shuffle_alignment A1 perm = .ok A2 ∧ shuffle_alignment A2 (inverse perm) = .ok A3 ∧
      same_cells A1 A3 ∧ ∀ i, i < A1.n_sequences → A3.name i = A1.name i := by
  have hlen : perm.length = A1.n_sequences := by rw [hp.length_eq, List.length_range]
  have hmem : ∀ j, j ∈ perm ↔ j < A1.n_sequences := by
    intro j; rw [hp.mem_iff, List.mem_range]
  obtain ⟨A2, hA2, -, a2, a3, a4⟩ := shuffle_alignment_spec A1 perm (fun j hj => (hmem j).mp hj)
  have hinvlen : (inverse perm).length = A1.n_sequences := by simp [inverse, hlen]
  have hinv : ∀ i, i < A1.n_sequences → (inverse perm).getD i 0 = perm.indexOf i := by
    intro i hi
    unfold inverse
    rw [List.getD_eq_getElem?_getD, List.getElem?_map, List.getElem?_range (by omega)]
    rfl
  have hidx : ∀ i, i < A1.n_sequences → perm.indexOf i < perm.length :=
    fun i hi => List.indexOf_lt_length.mpr ((hmem i).mpr hi)
  have hback : ∀ i, i < A1.n_sequences → perm.getD (perm.indexOf i) 0 = i := by
    intro i hi
    rw [List.getD_eq_getElem _ _ (hidx i hi)]
    exact List.getElem_indexOf (hidx i hi)
  obtain ⟨A3, hA3, -, b2, b3, b4⟩ := shuffle_alignment_spec A2 (inverse perm) (by
    intro j hj
    unfold inverse at hj
    rw [List.mem_map] at hj
    obtain ⟨i, hi, rfl⟩ := hj
    rw [List.mem_range, hlen] at hi
    rw [a2]; exact hidx i hi)
  refine ⟨A2, A3, hA2, hA3, ⟨?_, ?_, ?_⟩, ?_⟩
  · rw [b2, hinvlen]
  · rw [b3, a3]
  · intro c i hc hi
    rw [(b4 i (by omega)).2 c (by omega), hinv i hi,
      (a4 _ (hidx i hi)).2 c hc, hback i hi]
  · intro i hi
    rw [(b4 i (by omega)).1, hinv i hi, (a4 _ (hidx i hi)).1, hback i hi]

/-- The round trip succeeds on every alignment without unknown cells. -/
theorem round_trip_true (A1 : alignment) (perm : List Nat)
    (hp : perm.Perm (List.range A1.n_sequences))
    (hu : ∀ c i, c < A1.length → i < A1.n_sequences → A1.cell c i ≠ alphabet.unknown) :
    round_trip A1 perm = .ok true := by
  obtain ⟨A2, A3, h2, h3, hs, -⟩ := shuffle_round_trip A1 perm hp
  unfold round_trip
  rw [h2]
  dsimp only
  rw [h3]
  exact A_constant_same A1 A3 hs hu

theorem check_alignment_values_ok (A : alignment)
    (filename unknown_letter gap_letter wildcard : String) :
    check_alignment_values A filename unknown_letter gap_letter wildcard = .ok () ↔
      ∀ c i, c < A.length → i < A.n_sequences → A.cell c i ≠ alphabet.unknown := by
  unfold check_alignment_values
  rw [foldlM_unit_ok_iff]
  constructor
  · intro h c i hc hi
    have h1 := h i (List.mem_range.2 hi)
    unfold values_i_step at h1
    rw [foldlM_unit_ok_iff] at h1
    have h2 := h1 c (List.mem_range.2 hc)
    unfold values_j_step at h2
    intro hu
    rw [if_pos (by simp [alignment.unknown, hu])] at h2
    cases h2
  · intro h i hi
    unfold values_i_step
    rw [foldlM_unit_ok_iff]
    intro c hc
    unfold values_j_step
    rw [if_neg]
    have := h c i (List.mem_range.1 hc) (List.mem_range.1 hi)
    simpa [alignment.unknown] using this

/-! ## Lemmas on trees, `all_characters_connected` and `connect_all_characters` -/

namespace Tree

theorem anc_refl (T : Tree) (x : Nat) : T.anc x x := ⟨0, rfl⟩

theorem anc_trans (T : Tree) {a b x : Nat} (h1 : T.anc a b) (h2 : T.anc b x) : T.anc a x := by
  obtain ⟨k1, h1⟩ := h1
  obtain ⟨k2, h2⟩ := h2
  exact ⟨k1 + k2, by rw [Function.iterate_add_apply, h2, h1]⟩

theorem anc_parent_self (T : Tree) (x : Nat) : T.anc (T.parent x) x := ⟨1, rfl⟩

/-- An ancestor of `x` other than `x` is an ancestor of the parent of `x`. -/
theorem anc_step (T : Tree) {a x : Nat} (h : T.anc a x) (hne : a ≠ x) : T.anc a (T.parent x) := by
  obtain ⟨k, hk⟩ := h
  cases k with
  | zero => exact absurd hk.symm hne
  | succ k => exact ⟨k, by rw [← Function.iterate_succ_apply]; exact hk⟩

theorem iterate_root (T : Tree) (hT : T.is_binary) (k : Nat) : T.parent^[k] T.root = T.root :=
  Function.iterate_fixed hT.2.2.1 k

theorem anc_root_eq (T : Tree) (hT : T.is_binary) {a : Nat} (h : T.anc a T.root) :
    a = T.root := by
  obtain ⟨k, hk⟩ := h
  rw [iterate_root T hT] at hk
  exact hk.symm

theorem parent_lt (T : Tree) (hT : T.is_binary) {x : Nat} (hx : x < T.n_nodes) :
    T.parent x < T.n_nodes := (hT.2.2.2.1 x hx).1

theorem iterate_lt (T : Tree) (hT : T.is_binary) {x : Nat} (hx : x < T.n_nodes) (k : Nat) :
    T.parent^[k] x < T.n_nodes := by
  induction k with
  | zero => exact hx
  | succ k ih => rw [Function.iterate_succ_apply']; exact parent_lt T hT ih

theorem anc_lt (T : Tree) (hT : T.is_binary) {a x : Nat} (hx : x < T.n_nodes)
    (h : T.anc a x) : a < T.n_nodes := by
  obtain ⟨k, rfl⟩ := h
  exact iterate_lt T hT hx k

/-- From `n_nodes` steps on, the walk from any node towards the root stays at the root. -/
theorem iterate_ge (T : Tree) (hT : T.is_binary) {x : Nat} (hx : x < T.n_nodes) (k : Nat)
    (hk : T.n_nodes ≤ k) : T.parent^[k] x = T.root := by
  obtain ⟨d, rfl⟩ : ∃ d, k = d + T.n_nodes := ⟨k - T.n_nodes, by omega⟩
  rw [Function.iterate_add_apply, (hT.2.2.2.1 x hx).2, iterate_root T hT]

theorem root_anc (T : Tree) (hT : T.is_binary) {x : Nat} (hx : x < T.n_nodes) :
    T.anc T.root x := ⟨T.n_nodes, (hT.2.2.2.1 x hx).2⟩

/-- The walk towards the root does not come back: only the root is its own ancestor
after a positive number of steps. -/
theorem no_cycle (T : Tree) (hT : T.is_binary) {x : Nat} (hx : x < T.n_nodes) (k : Nat)
    (hk : 0 < k) (h : T.parent^[k] x = x) : x = T.root := by
  have hm : ∀ m, T.parent^[k * m] x = x := by
    intro m
    induction m with
    | zero => rfl
    | succ m ih => rw [Nat.mul_succ, Function.iterate_add_apply, h, ih]
  have := iterate_ge T hT hx (k * T.n_nodes) (Nat.le_mul_of_pos_left _ hk)
  rw [hm] at this
  exact this

theorem anc_antisymm (T : Tree) (hT : T.is_binary) {a x : Nat} (hx : x < T.n_nodes)
    (h1 : T.anc a x) (h2 : T.anc x a) : a = x := by
  obtain ⟨k1, h1⟩ := h1
  obtain ⟨k2, h2⟩ := h2
  by_cases hk : k1 + k2 = 0
  · have : k1 = 0 := by omega
    subst this
    exact h1.symm
  · have hcyc : T.parent^[k2 + k1] x = x := by rw [Function.iterate_add_apply, h1, h2]
    have hr := no_cycle T hT hx (k2 + k1) (by omega) hcyc
    rw [← h1, hr, iterate_root T hT]

theorem parent_ne_self (T : Tree) (hT : T.is_binary) {x : Nat} (hx : x < T.n_nodes)
    (hr : x ≠ T.root) : T.parent x ≠ x :=
  fun h => hr (no_cycle T hT hx 1 (by omega) h)

/-- The ancestors of a node form a chain. -/
theorem anc_chain (T : Tree) {a b x : Nat} (h1 : T.anc a x) (h2 : T.anc b x) :
    T.anc a b ∨ T.anc b a := by
  obtain ⟨k1, h1⟩ := h1
  obtain ⟨k2, h2⟩ := h2
  rcases Nat.le_total k1 k2 with h | h
  · right
    obtain ⟨d, rfl⟩ : ∃ d, k2 = d + k1 := ⟨k2 - k1, by omega⟩
    exact ⟨d, by rw [← h1, ← Function.iterate_add_apply]; exact h2⟩
  · left
    obtain ⟨d, rfl⟩ : ∃ d, k1 = d + k2 := ⟨k1 - k2, by omega⟩
    exact ⟨d, by rw [← h2, ← Function.iterate_add_apply]; exact h1⟩

/-- A strict ancestor of `x` is an ancestor of some child on the way to `x`. -/
theorem anc_child (T : Tree) (hT : T.is_binary) {a x : Nat} (hx : x < T.n_nodes)
    (h : T.anc a x) (hne : a ≠ x) :
    ∃ c, c < T.n_nodes ∧ c ≠ T.root ∧ T.parent c = a ∧ T.anc c x := by
  obtain ⟨k, hk⟩ := h
  induction k generalizing x with
  | zero => exact absurd hk.symm hne
  | succ k ih =>
    rw [Function.iterate_succ_apply] at hk
    by_cases hp : a = T.parent x
    · refine ⟨x, hx, ?_, hp.symm, anc_refl T x⟩
      intro hxr
      rw [hxr, hT.2.2.1] at hp
      exact hne (hp.trans hxr.symm)
    · obtain ⟨c, hc, hcr, hpc, hca⟩ := ih (parent_lt T hT hx) hp hk
      exact ⟨c, hc, hcr, hpc, anc_trans T hca (anc_parent_self T x)⟩

theorem climbs_iff (T : Tree) (fuel a x : Nat) :
    T.climbs fuel a x = true ↔ ∃ k, k ≤ fuel ∧ T.parent^[k] x = a := by
  induction fuel generalizing x with
  | zero =>
    simp only [climbs, beq_iff_eq, Nat.le_zero]
    constructor
    · intro h; exact ⟨0, rfl, h.symm⟩
    · rintro ⟨k, rfl, h⟩; exact h.symm
  | succ fuel ih =>
    simp only [climbs, Bool.or_eq_true, beq_iff_eq, ih]
    constructor
    · rintro (h | ⟨k, hk, h⟩)
      · exact ⟨0, Nat.zero_le _, h.symm⟩
      · exact ⟨k + 1, by omega, by rw [Function.iterate_succ_apply]; exact h⟩
    · rintro ⟨k, hk, h⟩
      cases k with
      | zero => left; exact h.symm
      | succ k => right; exact ⟨k, by omega, by rw [← Function.iterate_succ_apply]; exact h⟩

theorem climbs_iff_anc (T : Tree) (hT : T.is_binary) (a x : Nat) (hx : x < T.n_nodes) :
    T.climbs T.n_nodes a x = true ↔ T.anc a x := by
  rw [climbs_iff]
  constructor
  · rintro ⟨k, -, h⟩; exact ⟨k, h⟩
  · rintro ⟨k, h⟩
    by_cases hk : k ≤ T.n_nodes
    · exact ⟨k, hk, h⟩
    · refine ⟨T.n_nodes, le_refl _, ?_⟩
      rw [← h, iterate_ge T hT hx k (by omega), (hT.2.2.2.1 x hx).2]

theorem mem_neighbors (T : Tree) (w k : Nat) :
    k ∈ T.neighbors w ↔
      (w ≠ T.root ∧ k = T.parent w) ∨ (k < T.n_nodes ∧ k ≠ T.root ∧ T.parent k = w) := by
  unfold neighbors
  rw [List.mem_append, List.mem_filter, List.mem_range]
  by_cases hw : w = T.root
  · simp [hw]
  · simp [hw]

theorem neighbors_lt (T : Tree) (hT : T.is_binary) {w k : Nat} (hw : w < T.n_nodes)
    (hk : k ∈ T.neighbors w) : k < T.n_nodes := by
  rcases (mem_neighbors T w k).mp hk with ⟨-, rfl⟩ | ⟨h, -, -⟩
  · exact parent_lt T hT hw
  · exact h

theorem neighbors_nodup (T : Tree) (hT : T.is_binary) {w : Nat} (hw : w < T.n_nodes) :
    (T.neighbors w).Nodup := by
  unfold neighbors
  rw [List.nodup_append]
  refine ⟨?_, (List.nodup_range _).filter _, ?_⟩
  · split <;> simp
  · intro k hk1 hk2
    by_cases hwr : w = T.root
    · simp [hwr] at hk1
    · simp only [hwr, if_false, List.mem_singleton] at hk1
      rw [List.mem_filter] at hk2
      simp only [Bool.and_eq_true, bne_iff_ne, ne_eq, beq_iff_eq] at hk2
      obtain ⟨-, hkr, hpk⟩ := hk2
      have hcyc : T.parent^[2] w = w := by
        show T.parent (T.parent w) = w
        rw [← hk1, hpk]
      exact hwr (no_cycle T hT hw 2 (by omega) hcyc)

theorem adjacent_symm (T : Tree) {u v : Nat} (hu : u < T.n_nodes)
    (h : T.adjacent u v) : T.adjacent v u := by
  unfold adjacent at *
  rw [mem_neighbors] at *
  rcases h with ⟨hur, rfl⟩ | ⟨hv, hvr, hpv⟩
  · right; exact ⟨hu, hur, rfl⟩
  · left; exact ⟨hvr, hpv.symm⟩

/-- The subtree behind the branch to the parent: the nodes that do not hang from `w`. -/
theorem behind_parent (T : Tree) {w : Nat} (hwr : w ≠ T.root) (x : Nat) :
    T.behind w (T.parent w) x ↔ ¬ T.anc w x := by
  unfold behind
  rw [if_pos ⟨hwr, rfl⟩]

/-- The subtree behind the branch to a child: the nodes that hang from the child. -/
theorem behind_child (T : Tree) (hT : T.is_binary) {w k : Nat}
    (hk : k < T.n_nodes) (hkr : k ≠ T.root) (hpk : T.parent k = w) (x : Nat) :
    T.behind w k x ↔ T.anc k x := by
  unfold behind
  have : ¬ (w ≠ T.root ∧ k = T.parent w) := by
    rintro ⟨-, h⟩
    have hcyc : T.parent^[2] k = k := by
      show T.parent (T.parent k) = k
      rw [hpk, ← h]
    exact hkr (no_cycle T hT hk 2 (by omega) hcyc)
  rw [if_neg this]

end Tree
namespace Tree

/-- A neighbour of `w` is its parent or one of its children, and the subtree behind it
is read off accordingly. -/
theorem behind_cases (T : Tree) (hT : T.is_binary) {w k : Nat} (hk : k ∈ T.neighbors w) :
    (w ≠ T.root ∧ k = T.parent w ∧ ∀ x, (T.behind w k x ↔ ¬ T.anc w x)) ∨
    (k < T.n_nodes ∧ k ≠ T.root ∧ T.parent k = w ∧ ∀ x, (T.behind w k x ↔ T.anc k x)) := by
  rcases (mem_neighbors T w k).mp hk with ⟨hwr, rfl⟩ | ⟨hkn, hkr, hpk⟩
  · left; exact ⟨hwr, rfl, behind_parent T hwr⟩
  · right; exact ⟨hkn, hkr, hpk, behind_child T hT hkn hkr hpk⟩

/-- The subtrees that hang off a node are disjoint. -/
theorem behind_disjoint (T : Tree) (hT : T.is_binary) {w k1 k2 x : Nat}
    (h1 : k1 ∈ T.neighbors w) (h2 : k2 ∈ T.neighbors w) (hne : k1 ≠ k2)
    (b1 : T.behind w k1 x) (b2 : T.behind w k2 x) : False := by
  rcases behind_cases T hT h1 with ⟨-, e1, c1⟩ | ⟨n1, r1, p1, c1⟩ <;>
  rcases behind_cases T hT h2 with ⟨-, e2, c2⟩ | ⟨n2, r2, p2, c2⟩
  · exact hne (e1.trans e2.symm)
  · rw [c1] at b1; rw [c2] at b2
    exact b1 (anc_trans T (p2 ▸ anc_parent_self T k2) b2)
  · rw [c1] at b1; rw [c2] at b2
    exact b2 (anc_trans T (p1 ▸ anc_parent_self T k1) b1)
  · rw [c1] at b1; rw [c2] at b2
    have key : ∀ a b, a < T.n_nodes → a ≠ T.root → T.parent a = w → T.parent b = w →
        a ≠ b → T.anc a b → False := by
      intro a b ha har hpa hpb hab hanc
      have h3 : T.anc a w := hpb ▸ anc_step T hanc hab
      have h4 : T.anc w a := hpa ▸ anc_parent_self T a
      have h5 : w = a := anc_antisymm T hT ha h4 h3
      exact parent_ne_self T hT ha har (hpa.trans h5)
    rcases anc_chain T b1 b2 with h | h
    · exact key k1 k2 n1 r1 p1 p2 hne h
    · exact key k2 k1 n2 r2 p2 p1 (Ne.symm hne) h

/-- Every node other than `w` lies in one of the subtrees that hang off `w`. -/
theorem behind_cover (T : Tree) (hT : T.is_binary) {w x : Nat} (hx : x < T.n_nodes)
    (hne : x ≠ w) : ∃ k, k ∈ T.neighbors w ∧ T.behind w k x := by
  by_cases h : T.anc w x
  · obtain ⟨c, hc, hcr, hpc, hca⟩ := anc_child T hT hx h (Ne.symm hne)
    exact ⟨c, (mem_neighbors T w c).mpr (Or.inr ⟨hc, hcr, hpc⟩),
      (behind_child T hT hc hcr hpc x).mpr hca⟩
  · have hwr : w ≠ T.root := fun e => h (e ▸ root_anc T hT hx)
    exact ⟨T.parent w, (mem_neighbors T w _).mpr (Or.inl ⟨hwr, rfl⟩),
      (behind_parent T hwr x).mpr h⟩

/-- A node is in none of the subtrees that hang off it. -/
theorem not_behind_self (T : Tree) (hT : T.is_binary) {w k : Nat} (hk : k ∈ T.neighbors w) :
    ¬ T.behind w k w := by
  rcases behind_cases T hT hk with ⟨-, -, c⟩ | ⟨n1, r1, p1, c⟩
  · rw [c]; exact fun h => h (anc_refl T w)
  · rw [c]
    intro h
    have h4 : T.anc w k := p1 ▸ anc_parent_self T k
    have h5 : w = k := anc_antisymm T hT n1 h4 h
    exact parent_ne_self T hT n1 r1 (p1.trans h5)

/-- A neighbour of `w` lies in the subtree behind it. -/
theorem behind_neighbor (T : Tree) (hT : T.is_binary) {w k : Nat} (hw : w < T.n_nodes)
    (hk : k ∈ T.neighbors w) : T.behind w k k := by
  rcases behind_cases T hT hk with ⟨hwr, e, c⟩ | ⟨n1, r1, p1, c⟩
  · rw [c, e]
    intro h
    have h5 := anc_antisymm T hT (parent_lt T hT hw) h (anc_parent_self T w)
    exact parent_ne_self T hT hw hwr h5.symm
  · rw [c]; exact anc_refl T k

/-- A branch that does not touch `w` stays inside one subtree of `w`. -/
theorem behind_adjacent (T : Tree) (hT : T.is_binary) {w k x y : Nat}
    (hk : k ∈ T.neighbors w) (hb : T.behind w k x) (hadj : T.adjacent x y) (hyw : y ≠ w) :
    T.behind w k y := by
  unfold adjacent at hadj
  rw [mem_neighbors] at hadj
  rcases behind_cases T hT hk with ⟨-, -, c⟩ | ⟨n1, r1, p1, c⟩
  · rw [c] at hb ⊢
    rcases hadj with ⟨-, rfl⟩ | ⟨-, -, hpy⟩
    · exact fun h => hb (anc_trans T h (anc_parent_self T x))
    · exact fun h => hb (hpy ▸ anc_step T h (Ne.symm hyw))
  · rw [c] at hb ⊢
    rcases hadj with ⟨-, rfl⟩ | ⟨-, -, hpy⟩
    · by_cases hkx : k = x
      · exact absurd (hkx ▸ p1) hyw
      · exact anc_step T hb hkx
    · exact anc_trans T hb (hpy ▸ anc_parent_self T y)

/-- A subtree of `t` that does not hold `w` lies inside the subtree of `w` that
holds `t`. -/
theorem behind_nested (T : Tree) (hT : T.is_binary) {w t j k y : Nat}
    (hj : j ∈ T.neighbors t) (hk : k ∈ T.neighbors w)
    (hwt : T.behind w k t) (hnw : ¬ T.behind t j w) (hy : T.behind t j y) :
    T.behind w k y := by
  rcases behind_cases T hT hj with ⟨-, -, cj⟩ | ⟨nj, rj, pj, cj⟩ <;>
  rcases behind_cases T hT hk with ⟨-, -, ck⟩ | ⟨nk, rk, pk, ck⟩
  · rw [cj] at hnw hy; rw [ck] at hwt ⊢
    exact fun h => hy (anc_trans T (not_not.mp hnw) h)
  · rw [cj] at hnw hy; rw [ck] at hwt ⊢
    exfalso
    have h1 : T.anc t w := not_not.mp hnw
    have h2 : T.anc w k := pk ▸ anc_parent_self T k
    have h3 : T.anc w t := anc_trans T h2 hwt
    have hkw : T.anc k w := anc_trans T hwt h1
    have h5 : w = k := anc_antisymm T hT nk h2 hkw
    exact parent_ne_self T hT nk rk (pk.trans h5)
  · rw [cj] at hnw hy; rw [ck] at hwt ⊢
    intro h
    rcases anc_chain T h hy with h' | h'
    · by_cases hwj : w = j
      · exact hnw (hwj ▸ anc_refl T w)
      · exact hwt (pj ▸ anc_step T h' hwj)
    · exact hnw h'
  · rw [cj] at hnw hy; rw [ck] at hwt ⊢
    exact anc_trans T hwt (anc_trans T (pj ▸ anc_parent_self T j) hy)

end Tree

theorem bit_lt_length {b : dynamic_bitset} {i : Nat} (h : bit b i = true) : i < b.length := by
  unfold bit at h
  by_contra hlt
  rw [List.getD_eq_default _ _ (by omega)] at h
  exact Bool.false_ne_true h

theorem bit_map_range (n : Nat) (f : Nat → Bool) (x : Nat) :
    bit ((List.range n).map f) x = (decide (x < n) && f x) := by
  unfold bit
  by_cases hx : x < n
  · rw [List.getD_eq_getElem _ _ (by simpa using hx)]
    simp [hx]
  · rw [List.getD_eq_default _ _ (by simpa using hx)]
    simp [hx]

theorem bit_set (b : dynamic_bitset) (i j : Nat) (v : Bool) :
    bit (b.set i v) j = if i = j ∧ i < b.length then v else bit b j := by
  unfold bit
  rw [List.getD_eq_getElem?_getD, List.getD_eq_getElem?_getD, List.getElem?_set]
  by_cases hij : i = j
  · subst hij
    by_cases hi : i < b.length
    · simp [hi]
    · simp [hi, List.getElem?_eq_none (not_lt.mp hi)]
  · simp [hij]

theorem intersects_iff (a b : dynamic_bitset) :
    intersects a b = true ↔ ∃ x, bit a x = true ∧ bit b x = true := by
  unfold intersects
  rw [List.any_eq_true]
  constructor
  · rintro ⟨x, -, hx⟩
    rw [Bool.and_eq_true] at hx
    exact ⟨x, hx⟩
  · rintro ⟨x, h1, h2⟩
    exact ⟨x, List.mem_range.mpr (bit_lt_length h1), by rw [h1, h2]; rfl⟩

namespace Tree

theorem bit_partition (T : Tree) (hT : T.is_binary) (n1 n2 x : Nat) :
    bit (T.partition n1 n2) x = true ↔ x < T.n_nodes ∧ T.behind n1 n2 x := by
  unfold partition behind
  rw [bit_map_range, Bool.and_eq_true, decide_eq_true_iff]
  apply and_congr_right
  intro hx
  by_cases h : n1 ≠ T.root ∧ n2 = T.parent n1
  · rw [if_pos h, if_pos h, Bool.not_eq_true', ← climbs_iff_anc T hT n1 x hx]
    simp
  · rw [if_neg h, if_neg h, climbs_iff_anc T hT n2 x hx]

end Tree

theorem intersects_partition (T : Tree) (hT : T.is_binary) (present : dynamic_bitset)
    (n1 n2 : Nat) :
    intersects present (T.partition n1 n2) = true ↔ subtree_present T present n1 n2 := by
  rw [intersects_iff]
  unfold subtree_present
  constructor
  · rintro ⟨x, h1, h2⟩
    obtain ⟨hx, hb⟩ := (T.bit_partition hT n1 n2 x).mp h2
    exact ⟨x, hx, h1, hb⟩
  · rintro ⟨x, hx, h1, hb⟩
    exact ⟨x, h1, (T.bit_partition hT n1 n2 x).mpr ⟨hx, hb⟩⟩

theorem count_subtrees_eq (T : Tree) (present : dynamic_bitset) (n1 : Nat) (l : List Nat) :
    count_subtrees T present n1 l =
      ((l.filter fun n2 => intersects present (T.partition n1 n2)).length : Int) := by
  unfold count_subtrees
  have key : ∀ (l : List Nat) (acc : Int),
      l.foldl (fun total n2 =>
        if intersects present (T.partition n1 n2) then total + 1 else total) acc =
      acc + ((l.filter fun n2 => intersects present (T.partition n1 n2)).length : Int) := by
    intro l
    induction l with
    | nil => intro acc; simp
    | cons x xs ih =>
      intro acc
      rw [List.foldl_cons, ih]
      by_cases hx : intersects present (T.partition n1 x) = true
      · simp [hx, List.filter_cons]; omega
      · simp [hx, List.filter_cons]
  rw [key]; simp

theorem one_lt_length_iff {l : List Nat} (hl : l.Nodup) :
    1 < l.length ↔ ∃ a b, a ∈ l ∧ b ∈ l ∧ a ≠ b := by
  constructor
  · intro h
    match l, hl, h with
    | a :: b :: _, hl, _ =>
      refine ⟨a, b, List.mem_cons_self _ _, List.mem_cons_of_mem _ (List.mem_cons_self _ _), ?_⟩
      intro hab
      rw [List.nodup_cons] at hl
      exact hl.1 (hab ▸ List.mem_cons_self _ _)
  · rintro ⟨a, b, ha, hb, hab⟩
    match l, ha, hb with
    | [x], ha, hb =>
      rw [List.mem_singleton] at ha hb
      exact absurd (ha.trans hb.symm) hab
    | _ :: _ :: _, _, _ => simp

/-- The counter `total` of the two loops exceeds 1 exactly when two different subtrees
hold a present node. -/
theorem count_subtrees_gt_one (T : Tree) (hT : T.is_binary) (present : dynamic_bitset)
    (w : Nat) (hw : w < T.n_nodes) :
    count_subtrees T present w (T.neighbors w) > 1 ↔ several_subtrees_present T present w := by
  rw [count_subtrees_eq]
  have hnd : ((T.neighbors w).filter fun n2 =>
      intersects present (T.partition w n2)).Nodup := (T.neighbors_nodup hT hw).filter _
  have : (1 : Int) < (((T.neighbors w).filter fun n2 =>
      intersects present (T.partition w n2)).length : Int) ↔
      1 < ((T.neighbors w).filter fun n2 => intersects present (T.partition w n2)).length := by
    omega
  rw [gt_iff_lt, this, one_lt_length_iff hnd]
  unfold several_subtrees_present
  constructor
  · rintro ⟨a, b, ha, hb, hab⟩
    rw [List.mem_filter] at ha hb
    exact ⟨a, b, ha.1, hb.1, hab, (intersects_partition T hT present w a).mp ha.2,
      (intersects_partition T hT present w b).mp hb.2⟩
  · rintro ⟨a, b, ha, hb, hab, sa, sb⟩
    exact ⟨a, b, List.mem_filter.mpr ⟨ha, (intersects_partition T hT present w a).mpr sa⟩,
      List.mem_filter.mpr ⟨hb, (intersects_partition T hT present w b).mpr sb⟩, hab⟩


theorem for_return_any (l : List Nat) (body : Nat → Except Failure (Option Bool))
    (p : Nat → Bool) (h : ∀ x, x ∈ l → body x = .ok (if p x then some false else none)) :
    for_return l body = .ok (if l.any p then some false else none) := by
  induction l with
  | nil => rfl
  | cons x xs ih =>
    rw [for_return, h x (List.mem_cons_self x xs)]
    by_cases hp : p x = true
    · simp [hp]
    · simp only [hp, Bool.false_eq_true, if_false, List.any_cons, Bool.false_or]
      exact ih (fun y hy => h y (List.mem_cons_of_mem x hy))

theorem mem_internal (T : Tree) (w : Nat) :
    w ∈ List.range' T.n_leaves (T.n_nodes - T.n_leaves) ↔ T.n_leaves ≤ w ∧ w < T.n_nodes := by
  rw [List.mem_range'_1]
  omega

/-- With nothing ignored `all_characters_connected` returns, and its answer is the local
test on the absent internal nodes. -/
theorem all_characters_connected_spec (T : Tree) (hT : T.is_binary) (present : dynamic_bitset)
    (hlen : present.length = T.n_nodes) :
    ∃ b, all_characters_connected T present [] = .ok b ∧
      (b = true ↔ locally_connected T present) := by
  unfold all_characters_connected
  rw [if_neg (not_not.mpr hlen)]
  simp only [List.foldlM_nil, pure, Except.pure]
  have hstep : ∀ w, w ∈ List.range' T.n_leaves (T.n_nodes - T.n_leaves) →
      all_connected_step T present (List.replicate present.length false) w =
        .ok (if (!bit present w && decide (count_subtrees T present w (T.neighbors w) > 1))
          then some false else none) := by
    intro w hw
    rw [mem_internal] at hw
    unfold all_connected_step
    rw [bit_replicate_false]
    by_cases hp : bit present w = true
    · simp [hp]
    · have h3 : ¬ (T.neighbors w).length ≠ 3 := not_not.mpr (hT.2.2.2.2.2 w hw.2 hw.1)
      simp only [hp, Bool.false_or, Bool.false_eq_true, if_false, h3, Bool.not_false,
        Bool.true_and, decide_eq_true_eq]
      split <;> rfl
  rw [for_return_any _ _ _ hstep]
  by_cases hany : (List.range' T.n_leaves (T.n_nodes - T.n_leaves)).any (fun w =>
      !bit present w && decide (count_subtrees T present w (T.neighbors w) > 1)) = true
  · rw [if_pos hany]
    refine ⟨false, rfl, ?_⟩
    simp only [Bool.false_eq_true, false_iff]
    intro hloc
    rw [List.any_eq_true] at hany
    obtain ⟨w, hw, hb⟩ := hany
    rw [mem_internal] at hw
    rw [Bool.and_eq_true, Bool.not_eq_true', decide_eq_true_iff] at hb
    exact hloc w hw.1 hw.2 hb.1 ((count_subtrees_gt_one T hT present w hw.2).mp hb.2)
  · rw [if_neg hany]
    refine ⟨true, rfl, ?_⟩
    simp only [true_iff]
    intro w h1 h2 h3 h4
    apply hany
    rw [List.any_eq_true]
    refine ⟨w, (mem_internal T w).mpr ⟨h1, h2⟩, ?_⟩
    rw [Bool.and_eq_true, Bool.not_eq_true', decide_eq_true_iff]
    exact ⟨h3, (count_subtrees_gt_one T hT present w h2).mpr h4⟩

theorem joined_first {T : Tree} {present : dynamic_bitset} {u v : Nat}
    (h : joined T present u v) : u < T.n_nodes ∧ bit present u = true := by
  cases h with
  | single _ h1 h2 => exact ⟨h1, h2⟩
  | step _ _ _ h1 h2 _ _ => exact ⟨h1, h2⟩

theorem joined_last {T : Tree} {present : dynamic_bitset} {u v : Nat}
    (h : joined T present u v) : v < T.n_nodes ∧ bit present v = true := by
  induction h with
  | single _ h1 h2 => exact ⟨h1, h2⟩
  | step _ _ _ _ _ _ _ ih => exact ih

theorem joined_trans {T : Tree} {present : dynamic_bitset} {u v w : Nat}
    (h1 : joined T present u v) (h2 : joined T present v w) : joined T present u w := by
  induction h1 with
  | single _ _ _ => exact h2
  | step a b _ ha hp hadj _ ih => exact joined.step a b w ha hp hadj (ih h2)

theorem joined_symm {T : Tree} {present : dynamic_bitset} {u v : Nat}
    (h : joined T present u v) : joined T present v u := by
  induction h with
  | single a h1 h2 => exact joined.single a h1 h2
  | step a b c ha hp hadj hbc ih =>
    have hb := joined_first hbc
    exact joined_trans ih (joined.step b a a hb.1 hb.2 (T.adjacent_symm ha hadj)
      (joined.single a ha hp))

/-- A path of present nodes that starts in a subtree of an absent node stays in it. -/
theorem joined_behind (T : Tree) (hT : T.is_binary) (present : dynamic_bitset) {w k u v : Nat}
    (hk : k ∈ T.neighbors w) (hw : bit present w = false) (h : joined T present u v)
    (hb : T.behind w k u) : T.behind w k v := by
  induction h with
  | single _ _ _ => exact hb
  | step a b c _ _ hadj hbc ih =>
    have hbp := (joined_first hbc).2
    have hne : b ≠ w := by
      intro e
      rw [e, hw] at hbp
      exact Bool.false_ne_true hbp
    exact ih (T.behind_adjacent hT hk hb hadj hne)

theorem connected_locally (T : Tree) (hT : T.is_binary) (present : dynamic_bitset)
    (h : present_connected T present) : locally_connected T present := by
  intro w _ _ hp ⟨k1, k2, h1, h2, hne, ⟨x1, hx1, p1, b1⟩, ⟨x2, hx2, p2, b2⟩⟩
  have hj := h x1 x2 hx1 hx2 p1 p2
  exact T.behind_disjoint hT h1 h2 hne (joined_behind T hT present h1 hp hj b1) b2

/-- Towards a present node outside its subtree, the parent of a present node is that
node or is present. -/
theorem parent_present (T : Tree) (hT : T.is_binary) (present : dynamic_bitset)
    (hloc : locally_connected T present) {u v : Nat} (hu : u < T.n_nodes)
    (hv : v < T.n_nodes) (pu : bit present u = true) (pv : bit present v = true)
    (hna : ¬ T.anc u v) :
    u ≠ T.root ∧ (T.parent u = v ∨ bit present (T.parent u) = true) := by
  have hur : u ≠ T.root := fun e => hna (e ▸ T.root_anc hT hv)
  refine ⟨hur, ?_⟩
  by_contra hcon
  push_neg at hcon
  obtain ⟨hpv, hpp⟩ := hcon
  have hpp' : bit present (T.parent u) = false := by
    cases h : bit present (T.parent u)
    · rfl
    · exact absurd h hpp
  have hpn : T.parent u < T.n_nodes := T.parent_lt hT hu
  have hun : u ∈ T.neighbors (T.parent u) :=
    (T.mem_neighbors _ _).mpr (Or.inr ⟨hu, hur, rfl⟩)
  have hbu : T.behind (T.parent u) u u := T.behind_neighbor hT hpn hun
  obtain ⟨k, hk, hbk⟩ := T.behind_cover hT hv (Ne.symm hpv) (w := T.parent u)
  have hku : u ≠ k := by
    intro e
    rw [← e] at hbk
    exact hna ((T.behind_child hT hu hur rfl v).mp hbk)
  have hsev : several_subtrees_present T present (T.parent u) :=
    ⟨u, k, hun, hk, hku, ⟨u, hu, pu, hbu⟩, ⟨v, hv, pv, hbk⟩⟩
  have hint : T.n_leaves ≤ T.parent u := by
    by_contra hlt
    have hle := hT.2.2.2.2.1 (T.parent u) (by omega)
    have h2 := (one_lt_length_iff (T.neighbors_nodup hT hpn)).mpr ⟨u, k, hun, hk, hku⟩
    omega
  exact hloc _ hint hpn hpp' hsev

theorem locally_connected_joined (T : Tree) (hT : T.is_binary) (present : dynamic_bitset)
    (hloc : locally_connected T present) :
    ∀ m k1 k2 u v, k1 + k2 = m → T.parent^[k1] u = T.root → T.parent^[k2] v = T.root →
      u < T.n_nodes → v < T.n_nodes → bit present u = true → bit present v = true →
      joined T present u v := by
  have up : ∀ m, (∀ k1 k2 u v, k1 + k2 = m → T.parent^[k1] u = T.root →
      T.parent^[k2] v = T.root → u < T.n_nodes → v < T.n_nodes → bit present u = true →
      bit present v = true → joined T present u v) →
      ∀ k1 k2 u v, k1 + k2 = m + 1 → T.parent^[k1] u = T.root →
      T.parent^[k2] v = T.root → u < T.n_nodes → v < T.n_nodes → bit present u = true →
      bit present v = true → ¬ T.anc u v → joined T present u v := by
    intro m ih k1 k2 u v hm h1 h2 hu hv pu pv hna
    obtain ⟨hur, hor⟩ := parent_present T hT present hloc hu hv pu pv hna
    have hadj : T.adjacent u (T.parent u) := (T.mem_neighbors _ _).mpr (Or.inl ⟨hur, rfl⟩)
    rcases hor with hpv | hpp
    · exact joined.step u v v hu pu (hpv ▸ hadj) (joined.single v hv pv)
    · cases k1 with
      | zero => exact absurd h1 hur
      | succ k1 =>
        rw [Function.iterate_succ_apply] at h1
        exact joined.step u _ v hu pu hadj
          (ih k1 k2 _ v (by omega) h1 h2 (T.parent_lt hT hu) hv hpp pv)
  intro m
  induction m with
  | zero =>
    intro k1 k2 u v hm h1 h2 hu _ pu _
    have e1 : k1 = 0 := by omega
    have e2 : k2 = 0 := by omega
    subst e1 e2
    have : u = v := h1.trans h2.symm
    subst this
    exact joined.single u hu pu
  | succ m ih =>
    intro k1 k2 u v hm h1 h2 hu hv pu pv
    by_cases hna : T.anc u v
    · by_cases huv : u = v
      · subst huv; exact joined.single u hu pu
      · have hna' : ¬ T.anc v u := fun h => huv (T.anc_antisymm hT hv hna h)
        exact joined_symm (up m ih k2 k1 v u (by omega) h2 h1 hv hu pv pu hna')
    · exact up m ih k1 k2 u v hm h1 h2 hu hv pu pv hna

theorem locally_connected_iff (T : Tree) (hT : T.is_binary) (present : dynamic_bitset) :
    locally_connected T present ↔ present_connected T present := by
  constructor
  · intro hloc u v hu hv pu pv
    exact locally_connected_joined T hT present hloc (T.n_nodes + T.n_nodes) T.n_nodes
      T.n_nodes u v rfl (hT.2.2.2.1 u hu).2 (hT.2.2.2.1 v hv).2 hu hv pu pv
  · exact connected_locally T hT present


/-- Induction over a counted loop that starts at `lo` and whose iterations all succeed. -/
theorem foldlM_range'_inv {σ : Type} (f : σ → Nat → Except Failure σ) (P : Nat → σ → Prop)
    (len lo : Nat) (s0 : σ) (h0 : P lo s0)
    (hs : ∀ k s, lo ≤ k → k < lo + len → P k s → ∃ s', f s k = .ok s' ∧ P (k + 1) s') :
    ∃ r, (List.range' lo len).foldlM f s0 = .ok r ∧ P (lo + len) r := by
  induction len generalizing lo s0 with
  | zero => exact ⟨s0, rfl, h0⟩
  | succ len ih =>
    obtain ⟨s1, hs1, hP1⟩ := hs lo s0 (le_refl _) (by omega) h0
    obtain ⟨r, hr, hPr⟩ := ih (lo + 1) s1 hP1
      (fun k s hk1 hk2 hp => hs k s (by omega) (by omega) hp)
    refine ⟨r, ?_, by rw [show lo + (len + 1) = lo + 1 + len by omega]; exact hPr⟩
    rw [List.range'_succ, List.foldlM_cons, hs1]
    exact hr

/-- What one iteration of the loop of `connect_all_characters` does to `present`. -/
theorem connect_step_spec (T : Tree) (hT : T.is_binary) (present : dynamic_bitset) (t : Nat)
    (h1 : T.n_leaves ≤ t) (h2 : t < T.n_nodes) :
    (connect_step T present t = .ok present ∧
      (bit present t = true ∨ ¬ several_subtrees_present T present t)) ∨
    (connect_step T present t = .ok (present.set t true) ∧
      bit present t = false ∧ several_subtrees_present T present t) := by
  unfold connect_step
  by_cases hp : bit present t = true
  · left; simp [hp]
  · have h3 : ¬ (T.neighbors t).length ≠ 3 := not_not.mpr (hT.2.2.2.2.2 t h2 h1)
    simp only [hp, Bool.false_eq_true, if_false, h3]
    by_cases hc : count_subtrees T present t (T.neighbors t) > 1
    · right
      rw [if_pos hc]
      refine ⟨rfl, ?_, (count_subtrees_gt_one T hT present t h2).mp hc⟩
      trivial
    · left
      rw [if_neg hc]
      exact ⟨rfl, Or.inr (fun h => hc ((count_subtrees_gt_one T hT present t h2).mpr h))⟩

/-- Induction over the loop of `connect_all_characters`: the loop returns, and a property
kept by both outcomes of an iteration holds at its end. -/
theorem connect_loop_inv (T : Tree) (hT : T.is_binary) (present : dynamic_bitset)
    (hlen : present.length = T.n_nodes) (P : Nat → dynamic_bitset → Prop)
    (h0 : P T.n_leaves present)
    (hkeep : ∀ t q, T.n_leaves ≤ t → t < T.n_nodes → q.length = T.n_nodes → P t q →
      (bit q t = true ∨ ¬ several_subtrees_present T q t) → P (t + 1) q)
    (hset : ∀ t q, T.n_leaves ≤ t → t < T.n_nodes → q.length = T.n_nodes → P t q →
      bit q t = false → several_subtrees_present T q t → P (t + 1) (q.set t true)) :
    ∃ r, connect_loop T present = .ok r ∧ r.length = T.n_nodes ∧ P T.n_nodes r := by
  unfold connect_loop
  obtain ⟨r, hr, hPr⟩ := foldlM_range'_inv (connect_step T)
    (fun t q => q.length = T.n_nodes ∧ P t q) (T.n_nodes - T.n_leaves) T.n_leaves present
    ⟨hlen, h0⟩ (by
      intro t q h1 h2 ⟨hq, hP⟩
      have h2' : t < T.n_nodes := by omega
      rcases connect_step_spec T hT q t h1 h2' with ⟨e, hc⟩ | ⟨e, hc1, hc2⟩
      · exact ⟨q, e, hq, hkeep t q h1 h2' hq hP hc⟩
      · exact ⟨q.set t true, e, by rw [List.length_set]; exact hq,
          hset t q h1 h2' hq hP hc1 hc2⟩)
  have : T.n_leaves + (T.n_nodes - T.n_leaves) = T.n_nodes := by
    have := hT.1; omega
  rw [this] at hPr
  exact ⟨r, hr, hPr⟩

/-- A present node of `q` that is absent in `p` but has present nodes of `p` in two of
its subtrees adds nothing to the subtrees that already hold a present node. -/
theorem subtree_present_back (T : Tree) (hT : T.is_binary) (p q : dynamic_bitset)
    (hq : ∀ x, x < T.n_nodes → bit q x = true →
      bit p x = true ∨ several_subtrees_present T p x)
    {w k : Nat} (hk : k ∈ T.neighbors w) (h : subtree_present T q w k) :
    subtree_present T p w k := by
  obtain ⟨x, hx, qx, bx⟩ := h
  rcases hq x hx qx with px | ⟨j1, j2, hj1, hj2, hne, ⟨y1, hy1, py1, b1⟩, ⟨y2, hy2, py2, b2⟩⟩
  · exact ⟨x, hx, px, bx⟩
  · by_cases hw1 : T.behind x j1 w
    · have hw2 : ¬ T.behind x j2 w := fun h2 => T.behind_disjoint hT hj1 hj2 hne hw1 h2
      exact ⟨y2, hy2, py2, T.behind_nested hT hj2 hk bx hw2 b2⟩
    · exact ⟨y1, hy1, py1, T.behind_nested hT hj1 hk bx hw1 b1⟩

theorem several_present_back (T : Tree) (hT : T.is_binary) (p q : dynamic_bitset)
    (hq : ∀ x, x < T.n_nodes → bit q x = true →
      bit p x = true ∨ several_subtrees_present T p x)
    {w : Nat} (h : several_subtrees_present T q w) : several_subtrees_present T p w := by
  obtain ⟨k1, k2, h1, h2, hne, s1, s2⟩ := h
  exact ⟨k1, k2, h1, h2, hne, subtree_present_back T hT p q hq h1 s1,
    subtree_present_back T hT p q hq h2 s2⟩

theorem several_present_mono (T : Tree) (p q : dynamic_bitset)
    (hpq : ∀ x, bit p x = true → bit q x = true)
    {w : Nat} (h : several_subtrees_present T p w) : several_subtrees_present T q w := by
  obtain ⟨k1, k2, h1, h2, hne, ⟨x1, hx1, p1, b1⟩, ⟨x2, hx2, p2, b2⟩⟩ := h
  exact ⟨k1, k2, h1, h2, hne, ⟨x1, hx1, hpq x1 p1, b1⟩, ⟨x2, hx2, hpq x2 p2, b2⟩⟩

/-- After the loop of `connect_all_characters` the local test holds, whatever the input
mask was. -/
theorem connect_loop_locally_connected (T : Tree) (hT : T.is_binary)
    (present : dynamic_bitset) (hlen : present.length = T.n_nodes) :
    ∃ r, connect_loop T present = .ok r ∧ r.length = T.n_nodes ∧ locally_connected T r := by
  obtain ⟨r, hr, hrl, hP⟩ := connect_loop_inv T hT present hlen
    (fun t q => ∀ w, T.n_leaves ≤ w → w < t → bit q w = false →
      ¬ several_subtrees_present T q w)
    (fun w h1 h2 => absurd h1 (by omega))
    (by
      intro t q _ _ _ hP hc w hw1 hw2 hqw
      by_cases hwt : w = t
      · subst hwt
        rcases hc with hc | hc
        · rw [hc] at hqw; exact absurd hqw (by simp)
        · exact hc
      · exact hP w hw1 (by omega) hqw)
    (by
      intro t q _ ht hq hP hqt hsev w hw1 hw2 hqw
      rw [bit_set] at hqw
      by_cases hwt : t = w
      · rw [if_pos ⟨hwt, by omega⟩] at hqw; exact absurd hqw (by simp)
      · rw [if_neg (fun h => hwt h.1)] at hqw
        intro hs
        apply hP w hw1 (by omega) hqw
        apply several_present_back T hT q (q.set t true) _ hs
        intro x _ hx
        rw [bit_set] at hx
        by_cases hxt : t = x
        · right; exact hxt ▸ hsev
        · left; rw [if_neg (fun h => hxt h.1)] at hx; exact hx)
  exact ⟨r, hr, hrl, fun w h1 h2 => hP w h1 h2⟩

/-- `connect_all_characters` returns the mask that its loop computes: the closing
assertion holds. -/
theorem connect_all_characters_eq_loop (T : Tree) (hT : T.is_binary)
    (present : dynamic_bitset) (hlen : present.length = T.n_nodes) :
    ∃ r, connect_loop T present = .ok r ∧ connect_all_characters T present = .ok r ∧
      r.length = T.n_nodes ∧ locally_connected T r := by
  obtain ⟨r, hr, hrl, hloc⟩ := connect_loop_locally_connected T hT present hlen
  obtain ⟨b, hb, hiff⟩ := all_characters_connected_spec T hT r hrl
  have hbt : b = true := hiff.mpr hloc
  subst hbt
  refine ⟨r, hr, ?_, hrl, hloc⟩
  unfold connect_all_characters
  rw [if_neg (not_not.mpr hlen), hr]
  dsimp only
  rw [hb]


theorem subtrees_with_present_gt_one (T : Tree) (hT : T.is_binary) (present : dynamic_bitset)
    (w : Nat) (hw : w < T.n_nodes) :
    1 < subtrees_with_present T present w ↔ several_subtrees_present T present w := by
  rw [← count_subtrees_gt_one T hT present w hw, count_subtrees_eq]
  unfold subtrees_with_present
  omega

/-- Started on a mask with no internal node marked, the loop of `connect_all_characters`
marks an internal node exactly when two of its subtrees hold a marked leaf. -/
theorem connect_loop_leaves (T : Tree) (hT : T.is_binary) (present : dynamic_bitset)
    (hlen : present.length = T.n_nodes)
    (hleaf : ∀ w, w < T.n_nodes → T.n_leaves ≤ w → bit present w = false) :
    ∃ r, connect_loop T present = .ok r ∧ r.length = T.n_nodes ∧
      (∀ x, x < T.n_leaves → bit r x = bit present x) ∧
      (∀ w, T.n_leaves ≤ w → w < T.n_nodes →
        (bit r w = true ↔ several_subtrees_present T present w)) := by
  have hmono : ∀ t q, (∀ x, x < T.n_leaves ∨ t ≤ x → bit q x = bit present x) →
      ∀ x, bit present x = true → bit q x = true := by
    intro t q h x hx
    by_cases hc : x < T.n_leaves ∨ t ≤ x
    · rw [h x hc]; exact hx
    · push_neg at hc
      have := hleaf x (hlen ▸ bit_lt_length hx) hc.1
      rw [this] at hx
      exact absurd hx (by simp)
  have hback : ∀ t q, (∀ x, x < T.n_leaves ∨ t ≤ x → bit q x = bit present x) →
      (∀ w, T.n_leaves ≤ w → w < t → (bit q w = true ↔ several_subtrees_present T present w)) →
      ∀ x, x < T.n_nodes → bit q x = true →
        bit present x = true ∨ several_subtrees_present T present x := by
    intro t q h1 h2 x _ hx
    by_cases hc : x < T.n_leaves ∨ t ≤ x
    · left; rw [← h1 x hc]; exact hx
    · push_neg at hc
      right; exact (h2 x hc.1 hc.2).mp hx
  obtain ⟨r, hr, hrl, hP⟩ := connect_loop_inv T hT present hlen
    (fun t q => (∀ x, x < T.n_leaves ∨ t ≤ x → bit q x = bit present x) ∧
      (∀ w, T.n_leaves ≤ w → w < t → (bit q w = true ↔ several_subtrees_present T present w)))
    ⟨fun _ _ => rfl, fun w h1 h2 => absurd h1 (by omega)⟩
    (by
      intro t q ht1 ht2 _ ⟨h1, h2⟩ hc
      refine ⟨fun x hx => h1 x (by omega), ?_⟩
      intro w hw1 hw2
      by_cases hwt : w = t
      · subst hwt
        have hqf : bit q w = false := by rw [h1 w (Or.inr (le_refl _))]; exact hleaf w ht2 ht1
        have hns : ¬ several_subtrees_present T q w := by
          rcases hc with hc | hc
          · rw [hqf] at hc; exact absurd hc (by simp)
          · exact hc
        rw [hqf]
        constructor
        · intro h; exact absurd h (by simp)
        · intro h; exact absurd (several_present_mono T present q (hmono w q h1) h) hns
      · exact h2 w hw1 (by omega))
    (by
      intro t q ht1 ht2 hq ⟨h1, h2⟩ _ hsev
      refine ⟨?_, ?_⟩
      · intro x hx
        rw [bit_set, if_neg (by omega)]
        exact h1 x (by omega)
      · intro w hw1 hw2
        rw [bit_set]
        by_cases hwt : t = w
        · subst hwt
          rw [if_pos ⟨rfl, by omega⟩]
          simp only [true_iff]
          exact several_present_back T hT present q (hback t q h1 h2) hsev
        · rw [if_neg (fun h => hwt h.1)]
          exact h2 w hw1 (by omega))
  exact ⟨r, hr, hrl, fun x hx => hP.1 x (Or.inl hx), fun w h1 h2 => hP.2 w h1 h2⟩

/-! ## Lemmas on the checks and on `connect_leaf_characters` -/

theorem for_return_ok {ρ : Type} (l : List Nat) (body : Nat → Except Failure (Option ρ))
    (h : ∀ x, x ∈ l → ∃ o, body x = .ok o) : ∃ o, for_return l body = .ok o := by
  induction l with
  | nil => exact ⟨none, rfl⟩
  | cons x xs ih =>
    obtain ⟨o, ho⟩ := h x (List.mem_cons_self x xs)
    rw [for_return, ho]
    cases o with
    | none => exact ih (fun y hy => h y (List.mem_cons_of_mem x hy))
    | some r => exact ⟨some r, rfl⟩

theorem all_connected_step_ok (T : Tree) (hT : T.is_binary) (present ignore : dynamic_bitset)
    (w : Nat) (hw : w ∈ List.range' T.n_leaves (T.n_nodes - T.n_leaves)) :
    ∃ o, all_connected_step T present ignore w = .ok o := by
  rw [mem_internal] at hw
  unfold all_connected_step
  have h3 : ¬ (T.neighbors w).length ≠ 3 := not_not.mpr (hT.2.2.2.2.2 w hw.2 hw.1)
  split
  · exact ⟨_, rfl⟩
  · simp only [h3, if_false]
    split <;> exact ⟨_, rfl⟩

/-- On a binary tree `all_characters_connected` returns an answer for every mask of the
right size and every list of nodes to ignore. -/
theorem all_characters_connected_ok (T : Tree) (hT : T.is_binary) (present : dynamic_bitset)
    (ignore : List Nat) (hlen : present.length = T.n_nodes)
    (hig : ∀ n, n ∈ ignore → n < T.n_nodes) :
    ∃ b, all_characters_connected T present ignore = .ok b := by
  unfold all_characters_connected
  rw [if_neg (not_not.mpr hlen)]
  obtain ⟨st, hst, -⟩ := foldlM_ok_inv ignore_step (fun st => st.1.length = T.n_nodes)
    ignore (present, List.replicate present.length false) hlen (by
      intro st n hn hl
      have hlt : n < st.1.length := by rw [hl]; exact hig n hn
      refine ⟨(st.1.set n false, st.2.set n true), ?_, ?_⟩
      · unfold ignore_step; rw [if_pos hlt]
      · show (st.1.set n false).length = T.n_nodes
        rw [List.length_set]; exact hl)
  rw [hst]
  obtain ⟨p, q⟩ := st
  dsimp only
  obtain ⟨o, ho⟩ := for_return_ok _ (all_connected_step T p q)
    (fun w hw => all_connected_step_ok T hT p q w hw)
  rw [ho]
  cases o with
  | none => exact ⟨true, rfl⟩
  | some r => exact ⟨r, rfl⟩

/-- A loop that only checks: it succeeds when every iteration does, and it stops with
the failure of the first iteration that fails. -/
theorem foldlM_check (f : Unit → Nat → Except Failure Unit) (n : Nat) :
    ((∀ c, c < n → f () c = .ok ()) → (List.range n).foldlM f () = .ok ()) ∧
    (∀ c e, c < n → f () c = .error e → (∀ c', c' < c → f () c' = .ok ()) →
      (List.range n).foldlM f () = .error e) := by
  induction n with
  | zero =>
    exact ⟨fun _ => rfl, fun c e hc => absurd hc (Nat.not_lt_zero c)⟩
  | succ n ih =>
    constructor
    · intro h
      rw [List.range_succ, List.foldlM_append, ih.1 (fun c hc => h c (by omega))]
      simp only [bind, Except.bind, List.foldlM_cons, List.foldlM_nil, h n (by omega)]
      rfl
    · intro c e hc he hbefore
      rw [List.range_succ, List.foldlM_append]
      by_cases hcn : c = n
      · subst hcn
        rw [ih.1 hbefore]
        simp only [bind, Except.bind, List.foldlM_cons, List.foldlM_nil, he]
      · rw [ih.2 c e (by omega) he hbefore]
        rfl

theorem column_present_length (A : alignment) (T : Tree) (c : Nat) :
    (column_present A T c).length = T.n_nodes := by
  simp [column_present]


theorem foldl_range'_inv {σ : Type} (f : σ → Nat → σ) (P : Nat → σ → Prop)
    (len lo : Nat) (s0 : σ) (h0 : P lo s0)
    (hs : ∀ k s, lo ≤ k → k < lo + len → P k s → P (k + 1) (f s k)) :
    P (lo + len) ((List.range' lo len).foldl f s0) := by
  induction len generalizing lo s0 with
  | zero => exact h0
  | succ len ih =>
    rw [List.range'_succ, List.foldl_cons, show lo + (len + 1) = lo + 1 + len by omega]
    exact ih (lo + 1) _ (hs lo s0 (le_refl _) (by omega) h0)
      (fun k s hk1 hk2 hp => hs k s (by omega) (by omega) hp)

theorem foldlM_range_inv {σ : Type} (f : σ → Nat → Except Failure σ) (P : Nat → σ → Prop)
    (n : Nat) (s0 : σ) (h0 : P 0 s0)
    (hs : ∀ k s, k < n → P k s → ∃ s', f s k = .ok s' ∧ P (k + 1) s') :
    ∃ r, (List.range n).foldlM f s0 = .ok r ∧ P n r := by
  have := foldlM_range'_inv f P n 0 s0 h0 (fun k s _ hk hp => hs k s (by omega) hp)
  rw [List.range_eq_range']
  simpa using this

/-- The loop of `connect_all_characters` never clears a bit. -/
theorem connect_all_characters_mono (T : Tree) (hT : T.is_binary) (present : dynamic_bitset)
    (hlen : present.length = T.n_nodes) :
    ∃ r, connect_all_characters T present = .ok r ∧ r.length = T.n_nodes ∧
      ∀ x, bit present x = true → bit r x = true := by
  obtain ⟨r, hr, hrl, hP⟩ := connect_loop_inv T hT present hlen
    (fun _ q => ∀ x, bit present x = true → bit q x = true)
    (fun x hx => hx)
    (fun t q _ _ _ hP _ => hP)
    (by
      intro t q _ _ _ hP _ _ x hx
      rw [bit_set]
      split
      · rfl
      · exact hP x hx)
  obtain ⟨r', hr', hall, -, -⟩ := connect_all_characters_eq_loop T hT present hlen
  have e : r' = r := Except.ok.inj (hr'.symm.trans hr)
  subst e
  exact ⟨r', hall, hrl, hP⟩

/-- What the loop over the internal nodes writes into column `column`. -/
theorem connect_leaf_write (T : Tree) (present : dynamic_bitset) (column : Nat)
    (A : alignment) (hle : T.n_leaves ≤ T.n_nodes) :
    ((List.range' T.n_leaves (T.n_nodes - T.n_leaves)).foldl
        (connect_leaf_write_step present column) A).n_sequences = A.n_sequences ∧
    ((List.range' T.n_leaves (T.n_nodes - T.n_leaves)).foldl
        (connect_leaf_write_step present column) A).length = A.length ∧
    ∀ c i, ((List.range' T.n_leaves (T.n_nodes - T.n_leaves)).foldl
        (connect_leaf_write_step present column) A).cell c i =
      if c = column ∧ T.n_leaves ≤ i ∧ i < T.n_nodes ∧ bit present i = true
      then alphabet.not_gap else A.cell c i := by
  have h := foldl_range'_inv (connect_leaf_write_step present column)
    (fun t B => B.n_sequences = A.n_sequences ∧ B.length = A.length ∧
      ∀ c i, B.cell c i =
        if c = column ∧ T.n_leaves ≤ i ∧ i < t ∧ bit present i = true
        then alphabet.not_gap else A.cell c i)
    (T.n_nodes - T.n_leaves) T.n_leaves A
    ⟨rfl, rfl, fun c i => by rw [if_neg (by omega)]⟩
    (by
      rintro t B ht1 - ⟨h1, h2, h3⟩
      unfold connect_leaf_write_step
      by_cases hb : bit present t = true
      · rw [if_pos hb]
        refine ⟨h1, h2, ?_⟩
        intro c i
        simp only [alignment.set, h3]
        by_cases hq : c = column ∧ i = t
        · obtain ⟨rfl, rfl⟩ := hq
          simp [hb, ht1]
        · rw [if_neg hq]
          by_cases hi : i = t
          · have hc : c ≠ column := fun e => hq ⟨e, hi⟩
            simp [hc]
          · have : (i < t + 1) ↔ i < t := by omega
            simp only [this]
      · rw [if_neg hb]
        refine ⟨h1, h2, ?_⟩
        intro c i
        rw [h3]
        by_cases hi : i = t
        · subst hi
          simp [hb]
        · have : (i < t + 1) ↔ i < t := by omega
          simp only [this])
  have e : T.n_leaves + (T.n_nodes - T.n_leaves) = T.n_nodes := by omega
  rw [e] at h
  exact h

theorem column_present_congr (A B : alignment) (T : Tree) (c : Nat)
    (h : ∀ i, B.cell c i = A.cell c i) : column_present B T c = column_present A T c := by
  unfold column_present alignment.gap
  simp only [h]

/-- `connect_leaf_characters` returns, and each column of its result is the column of `A`
with `not_gap` written into the internal cells that `connect_all_characters` marks. -/
theorem connect_leaf_characters_cells (A : alignment) (T : Tree) (hT : T.is_binary)
    (hN : A.n_sequences = T.n_nodes) :
    ∃ B, connect_leaf_characters A T = .ok B ∧ B.n_sequences = A.n_sequences ∧
      B.length = A.length ∧
      ∀ c i, c < A.length → B.cell c i =
        if T.n_leaves ≤ i ∧ i < T.n_nodes ∧ bit (connected_mask T A c) i = true
        then alphabet.not_gap else A.cell c i := by
  unfold connect_leaf_characters
  rw [if_neg (not_not.mpr hN)]
  obtain ⟨B, hB, h1, h2, h3⟩ := foldlM_range_inv (connect_leaf_column_step T)
    (fun k B => B.n_sequences = A.n_sequences ∧ B.length = A.length ∧
      ∀ c i, B.cell c i =
        if c < k ∧ T.n_leaves ≤ i ∧ i < T.n_nodes ∧ bit (connected_mask T A c) i = true
        then alphabet.not_gap else A.cell c i)
    A.length A ⟨rfl, rfl, fun c i => by rw [if_neg (by omega)]⟩
    (by
      rintro k B - ⟨h1, h2, h3⟩
      have hcol : column_present B T k = column_present A T k :=
        column_present_congr A B T k (fun i => by rw [h3, if_neg (by omega)])
      obtain ⟨r, hr, -, -⟩ := connect_all_characters_mono T hT (column_present A T k)
        (column_present_length A T k)
      have hmask : connected_mask T A k = r := by
        unfold connected_mask; rw [hr]
      obtain ⟨w1, w2, w3⟩ := connect_leaf_write T r k B hT.1
      refine ⟨_, by unfold connect_leaf_column_step; rw [hcol, hr], w1.trans h1, w2.trans h2, ?_⟩
      intro c i
      rw [w3, h3]
      by_cases hck : c = k
      · subst hck
        rw [hmask]
        by_cases hq : T.n_leaves ≤ i ∧ i < T.n_nodes ∧ bit r i = true
        · rw [if_pos ⟨rfl, hq⟩, if_pos ⟨by omega, hq⟩]
        · rw [if_neg (fun h => hq h.2), if_neg (by omega), if_neg (fun h => hq h.2)]
      · rw [if_neg (fun h => hck h.1)]
        have : (c < k + 1) ↔ c < k := by omega
        simp only [this])
  refine ⟨B, hB, h1, h2, ?_⟩
  intro c i hc
  rw [h3]
  simp only [hc, true_and]


theorem letter_OK_iff (a : Alphabet) (x : Int) : letter_OK a x = true ↔ legal_code a x := by
  unfold letter_OK legal_code
  by_cases h1 : x ≥ 0 ∧ x < a.size
  · simp [h1]
  · by_cases h2 : x ≥ a.n_letters ∧ x < a.n_letter_classes
    · simp [h2]
    · by_cases h3 : x = alphabet.gap
      · simp [h3]
      · by_cases h4 : x = alphabet.not_gap
        · simp [h4]
        · by_cases h5 : x = alphabet.unknown
          · simp [h5]
          · rw [if_neg h1, if_neg h2, if_neg h3, if_neg h4, if_neg h5]
            simp only [Bool.false_eq_true, false_iff]
            rintro (h | h | h | h | h)
            · exact h1 h
            · exact h2 h
            · exact h3 h
            · exact h4 h
            · exact h5 h

theorem letters_row (A : alignment) (i n : Nat) (bad : Bool) :
    (List.range n).foldl (letters_step A i) bad =
      (bad || (List.range n).any fun j => !letter_OK A.get_alphabet (A.cell i j)) := by
  induction n with
  | zero => simp
  | succ n ih =>
    rw [List.range_succ, List.foldl_append, ih, List.any_append]
    simp only [List.foldl_cons, List.foldl_nil, letters_step, List.any_cons, List.any_nil,
      Bool.or_false]
    cases letter_OK A.get_alphabet (A.cell i n) <;> simp

theorem letters_all (A : alignment) (n : Nat) :
    (List.range n).foldl
        (fun bad i => (List.range A.n_sequences).foldl (letters_step A i) bad) false =
      (List.range n).any fun i =>
        (List.range A.n_sequences).any fun j => !letter_OK A.get_alphabet (A.cell i j) := by
  induction n with
  | zero => simp
  | succ n ih =>
    rw [List.range_succ, List.foldl_append, ih, List.any_append]
    simp only [List.foldl_cons, List.foldl_nil, letters_row, List.any_cons, List.any_nil,
      Bool.or_false]

theorem letters_bad_iff (A : alignment) :
    ((List.range A.length).foldl
        (fun bad i => (List.range A.n_sequences).foldl (letters_step A i) bad) false) = true ↔
      ∃ c i, c < A.length ∧ i < A.n_sequences ∧ ¬ legal_code A.get_alphabet (A.cell c i) := by
  rw [letters_all, List.any_eq_true]
  constructor
  · rintro ⟨c, hc, h⟩
    rw [List.any_eq_true] at h
    obtain ⟨i, hi, h⟩ := h
    refine ⟨c, i, List.mem_range.mp hc, List.mem_range.mp hi, ?_⟩
    rw [← letter_OK_iff]
    simpa using h
  · rintro ⟨c, i, hc, hi, h⟩
    refine ⟨c, List.mem_range.mpr hc, ?_⟩
    rw [List.any_eq_true]
    refine ⟨i, List.mem_range.mpr hi, ?_⟩
    rw [← letter_OK_iff] at h
    simpa using h

/-! ## The distances between alignments (C1, C2, C3) -/

/-- C1. For alignments `A1`, `A2` with the same number of rows and the same ungapped
sequences, `pairs_distance(A1,A2)` and `pairs_distance(A2,A1)` both return a value, and
the two values are equal. -/
theorem pairs_distance_symmetric (A1 A2 : alignment)
    (hN : A1.n_sequences = A2.n_sequences)
    (hseq : ∀ i, i < A1.n_sequences → ungapped A1 i = ungapped A2 i) :
    ∃ d, pairs_distance A1 A2 = .ok d ∧ pairs_distance A2 A1 = .ok d := by
  have hlen : ∀ i, i < A1.n_sequences → A1.seqlength i = A2.seqlength i := by
    intro i hi
    rw [seqlength_eq_ungapped, seqlength_eq_ungapped, hseq i hi]
  obtain ⟨d12, h12⟩ := asymmetric_pairs_distance_ok A1 A2 hN hlen
  obtain ⟨d21, h21⟩ := asymmetric_pairs_distance_ok A2 A1 hN.symm
    (fun i hi => (hlen i (hN ▸ hi)).symm)
  refine ⟨d12 + d21, ?_, ?_⟩
  · simp [pairs_distance, h12, h21]
  · simp [pairs_distance, h12, h21, add_comm]

/-- The instance of C1 at two alignments of the sequences `AC` and `GT`. -/
theorem pairs_distance_symmetric_witness :
    ∃ d, pairs_distance two_rows_a two_rows_b = .ok d ∧
      pairs_distance two_rows_b two_rows_a = .ok d :=
  pairs_distance_symmetric two_rows_a two_rows_b (by decide) (by decide)

/-- C2. For every alignment `A`, `pairs_distance(A,A)` returns 0, and
`A_match(M(A),c,i,j,M(A),column_lookup(A))` is true for every column `c` and all rows
`i`, `j` of `A` in which neither cell is `unknown`. -/
theorem pairs_distance_self (A : alignment) :
    pairs_distance A A = .ok 0 ∧
    ∀ c i j, c < A.length → i < A.n_sequences → j < A.n_sequences →
      A.cell c i ≠ alphabet.unknown → A.cell c j ≠ alphabet.unknown →
      A_match (M A) c i j (M A) (column_lookup A (-1)) = .ok true := by
  constructor
  · simp [pairs_distance, asymmetric_pairs_distance_self]
  · intro c i j hc hi hj hu1 hu2
    exact A_match_self A c i j hc hi hj hu1 hu2

/-- The instance of C2 at column 1 of the alignment `A-C` over `GT-`. -/
theorem pairs_distance_self_witness :
    A_match (M two_rows_a) 1 0 1 (M two_rows_a) (column_lookup two_rows_a (-1)) = .ok true :=
  (pairs_distance_self two_rows_a).2 1 0 1 (by decide) (by decide) (by decide) (by decide)
    (by decide)

/-- C3. For alignments `A1`, `A2` with the same number of rows and the same ungapped
sequences, `splits_distance(A1,A2)` and `splits_distance(A2,A1)` have the same outcome,
which is a value when no column of `A1` or `A2` is without a letter, and
`splits_distance2(A1,A2)` and `splits_distance2(A2,A1)` return the same value. -/
theorem splits_distance_symmetric (A1 A2 : alignment)
    (hN : A1.n_sequences = A2.n_sequences)
    (hseq : ∀ i, i < A1.n_sequences → ungapped A1 i = ungapped A2 i) :
    splits_distance A1 A2 = splits_distance A2 A1 ∧
    (∃ d, splits_distance2 A1 A2 = .ok d ∧ splits_distance2 A2 A1 = .ok d) ∧
    ((∀ c, c < A1.length → ∃ i, i < A1.n_sequences ∧ A1.character c i = true) →
     (∀ c, c < A2.length → ∃ i, i < A2.n_sequences ∧ A2.character c i = true) →
      ∃ d, splits_distance A1 A2 = .ok d ∧ splits_distance A2 A1 = .ok d) := by
  have hlen : ∀ i, i < A1.n_sequences → A1.seqlength i = A2.seqlength i := by
    intro i hi
    rw [seqlength_eq_ungapped, seqlength_eq_ungapped, hseq i hi]
  have hlen' : ∀ i, i < A2.n_sequences → A2.seqlength i = A1.seqlength i :=
    fun i hi => (hlen i (hN ▸ hi)).symm
  refine ⟨?_, ?_, ?_⟩
  · unfold splits_distance
    rcases asymmetric_splits_distance_res A1 A2 hN hlen with ⟨d12, h12⟩ | h12 <;>
    rcases asymmetric_splits_distance_res A2 A1 hN.symm hlen' with ⟨d21, h21⟩ | h21 <;>
    simp [h12, h21, add_comm]
  · obtain ⟨d12, h12⟩ := asymmetric_splits_distance2_ok A1 A2 hN hlen
    obtain ⟨d21, h21⟩ := asymmetric_splits_distance2_ok A2 A1 hN.symm hlen'
    refine ⟨d12 + d21, ?_, ?_⟩
    · simp [splits_distance2, h12, h21]
    · simp [splits_distance2, h12, h21, add_comm]
  · intro hc1 hc2
    obtain ⟨d12, h12⟩ := asymmetric_splits_distance_ok A1 A2 hN hlen hc1
    obtain ⟨d21, h21⟩ := asymmetric_splits_distance_ok A2 A1 hN.symm hlen' hc2
    refine ⟨d12 + d21, ?_, ?_⟩
    · simp [splits_distance, h12, h21]
    · simp [splits_distance, h12, h21, add_comm]

/-- The instance of C3 at two alignments of the sequences `AC` and `GT`. -/
theorem splits_distance_symmetric_witness :
    splits_distance two_rows_a two_rows_b = splits_distance two_rows_b two_rows_a ∧
    (∃ d, splits_distance2 two_rows_a two_rows_b = .ok d ∧
      splits_distance2 two_rows_b two_rows_a = .ok d) ∧
    ((∀ c, c < two_rows_a.length →
        ∃ i, i < two_rows_a.n_sequences ∧ two_rows_a.character c i = true) →
     (∀ c, c < two_rows_b.length →
        ∃ i, i < two_rows_b.n_sequences ∧ two_rows_b.character c i = true) →
      ∃ d, splits_distance two_rows_a two_rows_b = .ok d ∧
        splits_distance two_rows_b two_rows_a = .ok d) :=
  splits_distance_symmetric two_rows_a two_rows_b (by decide) (by decide)

/-! ## The homology round trip (C4) -/

/-- C4. The homology round trip: for an alignment `A1` that `check_alignment_values` lets
pass (no cell of it is unknown) and a permutation `perm` of its row indices,
`shuffle_alignment(A1, perm)` returns an alignment `A2`, `shuffle_alignment(A2, inverse(perm))`
returns an alignment `A3` with the sizes, the names and the cells of `A1`, and
`A_constant(A1, A3, ignore)` returns true for the all-false mask `ignore`. -/
theorem homology_round_trip (A1 : alignment) (perm : List Nat)
    (filename unknown_letter gap_letter wildcard : String)
    (hp : perm.Perm (List.range A1.n_sequences))
    (hv : check_alignment_values A1 filename unknown_letter gap_letter wildcard = .ok ()) :
    ∃ A2 A3, shuffle_alignment A1 perm = .ok A2 ∧
      shuffle_alignment A2 (inverse perm) = .ok A3 ∧
      same_cells A1 A3 ∧ (∀ i, i < A1.n_sequences → A3.name i = A1.name i) ∧
      A_constant A1 A3 (List.replicate A1.n_sequences false) = .ok true := by
  obtain ⟨A2, A3, h2, h3, hs, hn⟩ := shuffle_round_trip A1 perm hp
  exact ⟨A2, A3, h2, h3, hs, hn, A_constant_same A1 A3 hs
    ((check_alignment_values_ok A1 filename unknown_letter gap_letter wildcard).1 hv)⟩

/-- The instance of C4 at the two sequences `A-C` over `GT-`, exchanged and exchanged
back. -/
theorem homology_round_trip_witness :
    ∃ A2 A3, shuffle_alignment two_rows_a [1, 0] = .ok A2 ∧
      shuffle_alignment A2 (inverse [1, 0]) = .ok A3 ∧
      same_cells two_rows_a A3 ∧
      (∀ i, i < two_rows_a.n_sequences → A3.name i = two_rows_a.name i) ∧
      A_constant two_rows_a A3 (List.replicate two_rows_a.n_sequences false) = .ok true :=
  homology_round_trip two_rows_a [1, 0] "two.fasta" "?" "-" "N" (by decide) rfl

/-! ## Connected characters (C5, C6, C7) -/

/-- C5. On a binary tree and a mask in which no internal node is marked,
`connect_all_characters` returns a mask that agrees with the input on every leaf and marks
an internal node exactly when strictly more than one of the subtrees hanging off it holds a
present node; this holds for the subtrees counted on the input mask and counted on the
returned mask alike. -/
theorem connect_all_characters_from_leaves (T : Tree) (hT : T.is_binary)
    (present : dynamic_bitset) (hlen : present.length = T.n_nodes)
    (hleaf : ∀ w, w < T.n_nodes → T.n_leaves ≤ w → bit present w = false) :
    ∃ r, connect_all_characters T present = .ok r ∧ r.length = T.n_nodes ∧
      (∀ x, x < T.n_leaves → bit r x = bit present x) ∧
      (∀ w, w < T.n_nodes → T.n_leaves ≤ w →
        (bit r w = true ↔ 1 < subtrees_with_present T present w)) ∧
      (∀ w, w < T.n_nodes → T.n_leaves ≤ w →
        (bit r w = true ↔ 1 < subtrees_with_present T r w)) := by
  obtain ⟨r, hr, hrl, h1, h2⟩ := connect_loop_leaves T hT present hlen hleaf
  obtain ⟨r', hr', hall, -, -⟩ := connect_all_characters_eq_loop T hT present hlen
  have e : r' = r := Except.ok.inj (hr'.symm.trans hr)
  subst e
  have hmono : ∀ x, bit present x = true → bit r' x = true := by
    intro x hx
    by_cases hc : x < T.n_leaves
    · rw [h1 x hc]; exact hx
    · have := hleaf x (hlen ▸ bit_lt_length hx) (by omega)
      rw [this] at hx
      exact absurd hx (by simp)
  have hback : ∀ x, x < T.n_nodes → bit r' x = true →
      bit present x = true ∨ several_subtrees_present T present x := by
    intro x hx hb
    by_cases hc : x < T.n_leaves
    · left; rw [← h1 x hc]; exact hb
    · right; exact (h2 x (by omega) hx).mp hb
  refine ⟨r', hall, hrl, h1, ?_, ?_⟩
  · intro w hw1 hw2
    rw [subtrees_with_present_gt_one T hT present w hw1]
    exact h2 w hw2 hw1
  · intro w hw1 hw2
    rw [subtrees_with_present_gt_one T hT r' w hw1, h2 w hw2 hw1]
    exact ⟨several_present_mono T present r' hmono, several_present_back T hT present r' hback⟩

/-- The instance of C5 at the tree with four leaves and the leaves `0` and `2` present. -/
theorem connect_all_characters_from_leaves_witness :
    ∃ r, connect_all_characters four_leaf_tree [true, false, true, false, false, false] = .ok r ∧
      r.length = four_leaf_tree.n_nodes ∧
      (∀ x, x < four_leaf_tree.n_leaves →
        bit r x = bit [true, false, true, false, false, false] x) ∧
      (∀ w, w < four_leaf_tree.n_nodes → four_leaf_tree.n_leaves ≤ w →
        (bit r w = true ↔
          1 < subtrees_with_present four_leaf_tree [true, false, true, false, false, false] w)) ∧
      (∀ w, w < four_leaf_tree.n_nodes → four_leaf_tree.n_leaves ≤ w →
        (bit r w = true ↔ 1 < subtrees_with_present four_leaf_tree r w)) :=
  connect_all_characters_from_leaves four_leaf_tree (by decide)
    [true, false, true, false, false, false] (by decide) (by decide)

/-- C6. On a binary tree, `connect_all_characters` returns for every input mask of the
right size, marked internal nodes included: its closing assertion does not fail, and
`all_characters_connected` with nothing ignored is true of the returned mask. -/
theorem connect_all_characters_connected (T : Tree) (hT : T.is_binary)
    (present : dynamic_bitset) (hlen : present.length = T.n_nodes) :
    ∃ r, connect_all_characters T present = .ok r ∧
      all_characters_connected T r [] = .ok true := by
  obtain ⟨r, -, hall, hrl, hloc⟩ := connect_all_characters_eq_loop T hT present hlen
  obtain ⟨b, hb, hiff⟩ := all_characters_connected_spec T hT r hrl
  have hbt : b = true := hiff.mpr hloc
  subst hbt
  exact ⟨r, hall, hb⟩

/-- The instance of C6 at the tree with four leaves and a mask in which the internal
node `5` is present from the start. -/
theorem connect_all_characters_connected_witness :
    ∃ r, connect_all_characters four_leaf_tree [true, true, false, false, false, true] = .ok r ∧
      all_characters_connected four_leaf_tree r [] = .ok true :=
  connect_all_characters_connected four_leaf_tree (by decide)
    [true, true, false, false, false, true] (by decide)

/-- C7. On a binary tree and a mask of the right size, `all_characters_connected` with
nothing ignored returns, and it returns true exactly when any two present nodes are joined
by a path in the tree all of whose nodes are present. -/
theorem all_characters_connected_iff_connected (T : Tree) (hT : T.is_binary)
    (present : dynamic_bitset) (hlen : present.length = T.n_nodes) :
    ∃ b, all_characters_connected T present [] = .ok b ∧
      (b = true ↔ present_connected T present) := by
  obtain ⟨b, hb, hiff⟩ := all_characters_connected_spec T hT present hlen
  exact ⟨b, hb, hiff.trans (locally_connected_iff T hT present)⟩

/-- The instance of C7 at the tree with four leaves and the mask of the leaf `0` and the
internal node `5`. -/
theorem all_characters_connected_iff_connected_witness :
    ∃ b, all_characters_connected four_leaf_tree
        [true, false, false, false, false, true] [] = .ok b ∧
      (b = true ↔ present_connected four_leaf_tree [true, false, false, false, false, true]) :=
  all_characters_connected_iff_connected four_leaf_tree (by decide)
    [true, false, false, false, false, true] (by decide)

/-! ## The checks and `connect_leaf_characters` (C8, C9, C10) -/

/-- C8. `check_internal_nodes_connected(A,T,ignore)` returns without error when `A` has
exactly `T.n_leaves()` rows. Otherwise, for an alignment with `T.n_nodes()` rows on a binary
tree, either every column's presence mask passes `all_characters_connected` and the check
returns without error, or some column's mask fails it and the check throws the exception
that names the first such column. -/
theorem check_internal_nodes_connected_spec (A : alignment) (T : Tree) (ignore : List Nat) :
    (A.n_sequences = T.n_leaves → check_internal_nodes_connected A T ignore = .ok ()) ∧
    (A.n_sequences ≠ T.n_leaves → A.n_sequences = T.n_nodes → T.is_binary →
      (∀ n, n ∈ ignore → n < T.n_nodes) →
      ((∀ c, c < A.length →
          all_characters_connected T (column_present A T c) ignore = .ok true) ∧
        check_internal_nodes_connected A T ignore = .ok ()) ∨
      (∃ c, c < A.length ∧
        all_characters_connected T (column_present A T c) ignore = .ok false ∧
        (∀ c', c' < c →
          all_characters_connected T (column_present A T c') ignore = .ok true) ∧
        check_internal_nodes_connected A T ignore =
          .error (Failure.exception (inconsistent_message c)))) := by
  constructor
  · intro h
    unfold check_internal_nodes_connected
    rw [if_pos h]
  · intro hne hN hT hig
    unfold check_internal_nodes_connected
    rw [if_neg hne, if_neg (not_not.mpr hN)]
    have hdef : ∀ c, all_characters_connected T (column_present A T c) ignore = .ok true ∨
        all_characters_connected T (column_present A T c) ignore = .ok false := by
      intro c
      obtain ⟨b, hb⟩ := all_characters_connected_ok T hT (column_present A T c) ignore
        (column_present_length A T c) hig
      cases b
      · exact Or.inr hb
      · exact Or.inl hb
    have hchk := foldlM_check (check_connected_step A T ignore) A.length
    by_cases hall : ∀ c, c < A.length →
        all_characters_connected T (column_present A T c) ignore = .ok true
    · left
      refine ⟨hall, hchk.1 ?_⟩
      intro c hc
      unfold check_connected_step
      rw [hall c hc]
    · right
      push_neg at hall
      have hex : ∃ c, c < A.length ∧
          all_characters_connected T (column_present A T c) ignore ≠ .ok true := hall
      classical
      let c := Nat.find hex
      have hc : c < A.length ∧
          all_characters_connected T (column_present A T c) ignore ≠ .ok true :=
        Nat.find_spec hex
      have hmin : ∀ c', c' < c →
          all_characters_connected T (column_present A T c') ignore = .ok true := by
        intro c' hc'
        by_contra hcon
        exact Nat.find_min hex hc' ⟨by omega, hcon⟩
      have hfalse : all_characters_connected T (column_present A T c) ignore = .ok false := by
        rcases hdef c with h | h
        · exact absurd h hc.2
        · exact h
      refine ⟨c, hc.1, hfalse, hmin, hchk.2 c _ hc.1 ?_ ?_⟩
      · unfold check_connected_step
        rw [hfalse]
      · intro c' hc'
        unfold check_connected_step
        rw [hmin c' hc']

/-- The instance of C8 at one column on the tree with four leaves in which only the
leaves `0` and `2` are present. -/
theorem check_internal_nodes_connected_spec_witness :
    ((∀ c, c < two_leaves_present.length →
        all_characters_connected four_leaf_tree
          (column_present two_leaves_present four_leaf_tree c) [] = .ok true) ∧
      check_internal_nodes_connected two_leaves_present four_leaf_tree [] = .ok ()) ∨
    (∃ c, c < two_leaves_present.length ∧
      all_characters_connected four_leaf_tree
        (column_present two_leaves_present four_leaf_tree c) [] = .ok false ∧
      (∀ c', c' < c →
        all_characters_connected four_leaf_tree
          (column_present two_leaves_present four_leaf_tree c') [] = .ok true) ∧
      check_internal_nodes_connected two_leaves_present four_leaf_tree [] =
        .error (Failure.exception (inconsistent_message c))) :=
  (check_internal_nodes_connected_spec two_leaves_present four_leaf_tree []).2
    (by decide) (by decide) (by decide) (by simp)

theorem check_internal_sequences_composition_ok (A : alignment) (n_leaves : Nat) :
    check_internal_sequences_composition A n_leaves = .ok () ↔
      ∀ c i, c < A.length → n_leaves ≤ i → i < A.n_sequences →
        A.cell c i = alphabet.gap ∨ A.cell c i = alphabet.not_gap := by
  unfold check_internal_sequences_composition
  rw [foldlM_unit_ok_iff]
  constructor
  · intro h c i hc hi1 hi2
    have h1 := h c (List.mem_range.2 hc)
    unfold composition_column_step at h1
    rw [foldlM_unit_ok_iff] at h1
    have h2 := h1 i (by rw [List.mem_range'_1]; omega)
    unfold composition_i_step at h2
    by_cases hg : A.cell c i = alphabet.gap
    · exact Or.inl hg
    · by_cases hn : A.cell c i = alphabet.not_gap
      · exact Or.inr hn
      · rw [if_neg hg, if_neg hn] at h2
        cases h2
  · intro h c hc
    unfold composition_column_step
    rw [foldlM_unit_ok_iff]
    intro i hi
    rw [List.mem_range'_1] at hi
    unfold composition_i_step
    rcases h c i (List.mem_range.1 hc) hi.1 (by omega) with hg | hn
    · rw [if_pos hg]
    · by_cases hg : A.cell c i = alphabet.gap
      · rw [if_pos hg]
      · rw [if_neg hg, if_pos hn]

/-- On a binary tree and an alignment with `T.n_nodes()` rows,
`connect_leaf_characters` returns an alignment with the same rows and columns in which
every leaf cell is unchanged, every internal cell that held a gap holds a gap or
`not_gap`, and every internal cell that held another code holds `not_gap`; so an
internal cell that held `not_gap` is unchanged. -/
theorem connect_leaf_characters_internal_cells (A : alignment) (T : Tree) (hT : T.is_binary)
    (hN : A.n_sequences = T.n_nodes) :
    ∃ B, connect_leaf_characters A T = .ok B ∧ B.n_sequences = A.n_sequences ∧
      B.length = A.length ∧
      (∀ c i, c < A.length → i < T.n_leaves → B.cell c i = A.cell c i) ∧
      (∀ c i, c < A.length → i < T.n_nodes → T.n_leaves ≤ i →
        (A.cell c i = alphabet.gap →
          B.cell c i = alphabet.gap ∨ B.cell c i = alphabet.not_gap) ∧
        (A.cell c i ≠ alphabet.gap → B.cell c i = alphabet.not_gap) ∧
        (A.cell c i = alphabet.not_gap → B.cell c i = A.cell c i)) := by
  obtain ⟨B, hB, h1, h2, h3⟩ := connect_leaf_characters_cells A T hT hN
  refine ⟨B, hB, h1, h2, ?_, ?_⟩
  · intro c i hc hi
    rw [h3 c i hc, if_neg (by omega)]
  · intro c i hc hi1 hi2
    have hng : A.cell c i ≠ alphabet.gap → B.cell c i = alphabet.not_gap := by
      intro hg
      obtain ⟨r, hr, -, hmono⟩ := connect_all_characters_mono T hT (column_present A T c)
        (column_present_length A T c)
      have hmask : connected_mask T A c = r := by
        unfold connected_mask; rw [hr]
      have hp : bit (column_present A T c) i = true := by
        unfold column_present
        rw [bit_map_range]
        simp [hi1, alignment.gap, hg]
      rw [h3 c i hc, hmask, if_pos ⟨hi2, hi1, hmono i hp⟩]
    refine ⟨?_, hng, ?_⟩
    · intro hg
      rw [h3 c i hc]
      split
      · exact Or.inr rfl
      · exact Or.inl hg
    · intro hg
      rw [hg]
      apply hng
      rw [hg]
      decide

/-- C9. On a binary tree, for an alignment with one row per node of the tree whose
internal rows hold only gap and `not_gap` (it passes
`check_internal_sequences_composition`), `connect_leaf_characters` returns an alignment
with the rows and the columns of `A` in which every leaf cell is unchanged and no internal
cell that is not a gap is changed; an internal cell that is changed held a gap and holds
`not_gap` afterwards. -/
theorem connect_leaf_characters_only_adds (A : alignment) (T : Tree) (hT : T.is_binary)
    (hN : A.n_sequences = T.n_nodes)
    (hI : check_internal_sequences_composition A T.n_leaves = .ok ()) :
    ∃ B, connect_leaf_characters A T = .ok B ∧ B.n_sequences = A.n_sequences ∧
      B.length = A.length ∧
      (∀ c i, c < A.length → i < T.n_leaves → B.cell c i = A.cell c i) ∧
      (∀ c i, c < A.length → i < T.n_nodes → T.n_leaves ≤ i →
        (A.cell c i ≠ alphabet.gap → B.cell c i = A.cell c i) ∧
        (B.cell c i ≠ A.cell c i →
          A.cell c i = alphabet.gap ∧ B.cell c i = alphabet.not_gap)) := by
  obtain ⟨B, hB, h1, h2, h3, h4⟩ := connect_leaf_characters_internal_cells A T hT hN
  refine ⟨B, hB, h1, h2, h3, ?_⟩
  intro c i hc hi1 hi2
  obtain ⟨k1, k2, k3⟩ := h4 c i hc hi1 hi2
  have hadm := (check_internal_sequences_composition_ok A T.n_leaves).1 hI c i hc hi2
    (by omega)
  have hkeep : A.cell c i ≠ alphabet.gap → B.cell c i = A.cell c i := by
    intro hg
    rcases hadm with h | h
    · exact absurd h hg
    · exact k3 h
  refine ⟨hkeep, ?_⟩
  intro hne
  have hg : A.cell c i = alphabet.gap := by
    by_contra hg
    exact hne (hkeep hg)
  refine ⟨hg, ?_⟩
  rcases k1 hg with h | h
  · exact absurd (h.trans hg.symm) hne
  · exact h

/-- The instance of C9 at one column on the tree with four leaves in which only the
leaves `0` and `2` are present. -/
theorem connect_leaf_characters_only_adds_witness :
    ∃ B, connect_leaf_characters two_leaves_present four_leaf_tree = .ok B ∧
      B.n_sequences = two_leaves_present.n_sequences ∧
      B.length = two_leaves_present.length ∧
      (∀ c i, c < two_leaves_present.length → i < four_leaf_tree.n_leaves →
        B.cell c i = two_leaves_present.cell c i) ∧
      (∀ c i, c < two_leaves_present.length → i < four_leaf_tree.n_nodes →
        four_leaf_tree.n_leaves ≤ i →
        (two_leaves_present.cell c i ≠ alphabet.gap →
          B.cell c i = two_leaves_present.cell c i) ∧
        (B.cell c i ≠ two_leaves_present.cell c i →
          two_leaves_present.cell c i = alphabet.gap ∧ B.cell c i = alphabet.not_gap)) :=
  connect_leaf_characters_only_adds two_leaves_present four_leaf_tree (by decide) (by decide)
    rfl

/-- C10. `check_letters_OK(A)` returns exactly when every cell of `A` is a letter
(`0 <= x < a.size()`), a letter class (`a.n_letters() <= x < a.n_letter_classes()`),
`gap`, `not_gap` or `unknown`, and it aborts exactly when some cell holds another code. -/
theorem check_letters_OK_iff (A : alignment) :
    (check_letters_OK A = .ok () ↔
      ∀ c i, c < A.length → i < A.n_sequences → legal_code A.get_alphabet (A.cell c i)) ∧
    (check_letters_OK A = .error Failure.abort ↔
      ∃ c i, c < A.length ∧ i < A.n_sequences ∧ ¬ legal_code A.get_alphabet (A.cell c i)) := by
  have hbad := letters_bad_iff A
  unfold check_letters_OK
  by_cases hb : ((List.range A.length).foldl
        (fun bad i => (List.range A.n_sequences).foldl (letters_step A i) bad) false) = true
  · have hex := hbad.mp hb
    dsimp only
    rw [if_pos hb]
    constructor
    · constructor
      · intro h; cases h
      · intro hall
        obtain ⟨c, i, hc, hi, h⟩ := hex
        exact absurd (hall c i hc hi) h
    · exact ⟨fun _ => hex, fun _ => rfl⟩
  · have hnex := fun h => hb (hbad.mpr h)
    dsimp only
    rw [if_neg hb]
    constructor
    · constructor
      · intro _ c i hc hi
        by_contra h
        exact hnex ⟨c, i, hc, hi, h⟩
      · intro _; rfl
    · constructor
      · intro h; cases h
      · intro h; exact absurd h hnex


/-! ## Lemmas and theorems on `M`, `add_internal` and `chop_internal` (C11 to C14) -/

theorem for_break_column (A : alignment) (i : Nat) (l : List Nat) (b : Bool) :
    for_break l (chop_column_step A i) b =
      (b && l.all fun c => !alphabet.is_letter_class (A.cell c i)) := by
  induction l with
  | nil => simp [for_break]
  | cons x xs ih =>
    rw [for_break]
    by_cases h : alphabet.is_letter_class (A.cell x i) = true
    · simp [chop_column_step, h]
    · simp only [chop_column_step, h, Bool.false_eq_true, if_false]
      rw [ih]
      simp [h]

theorem chop_name_ok (s : String) :
    (s.data.length = 0 ∨ s.data.getD 0 default ≠ 'A') ↔ ¬ s.data.head? = some 'A' := by
  cases h : s.data with
  | nil => simp
  | cons a l => simp

theorem for_break_row (A : alignment) (l : List Nat) (b : Bool) :
    for_break l (chop_row_step A) b = (b && l.all fun i => chop_row_ok A i) := by
  induction l generalizing b with
  | nil => simp [for_break]
  | cons x xs ih =>
    rw [for_break]
    by_cases h : (A.name x).data.head? = some 'A'
    · have h2 : ¬ ((A.name x).data.length = 0 ∨ (A.name x).data.getD 0 default ≠ 'A') := by
        rw [chop_name_ok]; exact not_not.mpr h
      simp only [chop_row_step, h2, if_false, Bool.false_eq_true]
      rw [ih, for_break_column]
      simp [chop_row_ok, h, Bool.and_assoc]
    · have h2 : (A.name x).data.length = 0 ∨ (A.name x).data.getD 0 default ≠ 'A' := by
        rw [chop_name_ok]; exact h
      simp only [chop_row_step, h2, if_true]
      simp [chop_row_ok, h]

/-- The loop of `chop_internal` that deletes the rows from `N` on. -/
theorem chop_delete_inv (A : alignment) (N k : Nat) :
    ((List.range k).foldl (fun (B : alignment) _ => B.del_sequence N) A).n_sequences =
      A.n_sequences - k ∧
    ((List.range k).foldl (fun (B : alignment) _ => B.del_sequence N) A).length = A.length ∧
    ((List.range k).foldl (fun (B : alignment) _ => B.del_sequence N) A).get_alphabet =
      A.get_alphabet ∧
    ∀ i, i < N →
      ((List.range k).foldl (fun (B : alignment) _ => B.del_sequence N) A).name i = A.name i ∧
      ∀ c, ((List.range k).foldl (fun (B : alignment) _ => B.del_sequence N) A).cell c i =
        A.cell c i := by
  refine foldl_range_inv (fun (B : alignment) _ => B.del_sequence N)
    (fun t B => B.n_sequences = A.n_sequences - t ∧ B.length = A.length ∧
      B.get_alphabet = A.get_alphabet ∧
      ∀ i, i < N → B.name i = A.name i ∧ ∀ c, B.cell c i = A.cell c i)
    A k ⟨rfl, rfl, rfl, fun i _ => ⟨rfl, fun _ => rfl⟩⟩ ?_
  intro t B ht ⟨h1, h2, h3, h4⟩
  refine ⟨by simp only [alignment.del_sequence, h1]; omega, h2, h3, ?_⟩
  intro i hi
  simp only [alignment.del_sequence, if_pos hi]
  exact h4 i hi

/-- C11, with the second half as the code has it. With `N = (n_sequences + 2) / 2`:
if every row from `N` on has a name starting with `A` and holds no letter or letter class
(as when it holds only gap and not_gap cells), `chop_internal` drops those rows, keeps the
first `N` rows as they are, and then removes the empty columns unless `keep_empty_columns`
is set; if some row from `N` on has an empty name, a name starting otherwise, or a cell that
is a letter or a letter class (a code from 0 on), it returns `A` unchanged. -/
theorem chop_internal_drops_or_keeps (remove_empty_columns : alignment → alignment)
    (A : alignment) :
    ((∀ i, (A.n_sequences + 2) / 2 ≤ i → i < A.n_sequences →
        (A.name i).data.head? = some 'A' ∧ ∀ c, c < A.length → A.cell c i < 0) →
      ∃ D : alignment, D.n_sequences = min A.n_sequences ((A.n_sequences + 2) / 2) ∧
        D.length = A.length ∧ D.get_alphabet = A.get_alphabet ∧
        (∀ i, i < (A.n_sequences + 2) / 2 → D.name i = A.name i ∧ ∀ c, D.cell c i = A.cell c i) ∧
        chop_internal remove_empty_columns A true = D ∧
        chop_internal remove_empty_columns A false = remove_empty_columns D) ∧
    ((∃ i, (A.n_sequences + 2) / 2 ≤ i ∧ i < A.n_sequences ∧
        ((A.name i).data.head? ≠ some 'A' ∨ ∃ c, c < A.length ∧ 0 ≤ A.cell c i)) →
      ∀ keep_empty_columns, chop_internal remove_empty_columns A keep_empty_columns = A) ∧
    ∀ c i, (A.cell c i = alphabet.gap ∨ A.cell c i = alphabet.not_gap) → A.cell c i < 0 := by
  refine ⟨fun h => ?_, fun h keep => ?_, ?_⟩
  · have hb : for_break (List.range' ((A.n_sequences + 2) / 2)
        (A.n_sequences - (A.n_sequences + 2) / 2)) (chop_row_step A) true = true := by
      rw [for_break_row, Bool.true_and, List.all_eq_true]
      intro i hi
      rw [List.mem_range'_1] at hi
      obtain ⟨h1, h2⟩ := h i hi.1 (by omega)
      simp only [chop_row_ok, Bool.and_eq_true, decide_eq_true_eq, List.all_eq_true,
        List.mem_range, Bool.not_eq_true', alphabet.is_letter_class, decide_eq_false_iff_not]
      exact ⟨h1, fun c hc => by have := h2 c hc; omega⟩
    obtain ⟨g1, g2, g3, g4⟩ :=
      chop_delete_inv A ((A.n_sequences + 2) / 2) (A.n_sequences - (A.n_sequences + 2) / 2)
    refine ⟨_, ?_, g2, g3, g4, ?_, ?_⟩
    · rw [g1]; omega
    · simp only [chop_internal, hb, not_true_eq_false, if_false]
    · simp only [chop_internal, hb, not_true_eq_false, if_false, Bool.false_eq_true,
        not_false_eq_true, if_true]
  · obtain ⟨i, h1, h2, h3⟩ := h
    have hb : for_break (List.range' ((A.n_sequences + 2) / 2)
        (A.n_sequences - (A.n_sequences + 2) / 2)) (chop_row_step A) true = false := by
      rw [for_break_row, Bool.true_and, List.all_eq_false]
      refine ⟨i, ?_, ?_⟩
      · rw [List.mem_range'_1]; omega
      · rcases h3 with h3 | ⟨c, hc, h3⟩
        · simp [chop_row_ok, h3]
        · simp only [chop_row_ok, Bool.and_eq_true, decide_eq_true_eq, List.all_eq_true,
            List.mem_range, Bool.not_eq_true', alphabet.is_letter_class,
            decide_eq_false_iff_not, not_and, not_forall]
          intro _
          exact ⟨c, hc, by omega⟩
    simp only [chop_internal, hb, Bool.false_eq_true, not_false_eq_true, if_true]
  · intro c i h
    rcases h with h | h <;> rw [h] <;> decide

/-- A row named `A4` that holds an `unknown` cell, which is neither gap nor not_gap, is
dropped all the same: the claim C11 as it stands says the alignment comes back unchanged. -/
theorem chop_internal_drops_unknown_row :
    chop_example.n_sequences = 5 ∧
    chop_example.cell 0 4 = alphabet.unknown ∧
    chop_example.cell 0 4 ≠ alphabet.gap ∧ chop_example.cell 0 4 ≠ alphabet.not_gap ∧
    (chop_internal id chop_example true).n_sequences = 3 ∧
    chop_internal id chop_example true ≠ chop_example := by
  refine ⟨rfl, rfl, by decide, by decide, by decide, ?_⟩
  intro h
  have h2 : (chop_internal id chop_example true).n_sequences = chop_example.n_sequences := by
    rw [h]
  revert h2
  decide

/-- The loop of `add_internal` that adds the rows: after the rows up to `t` the alignment
has `t` rows, the new ones named `A<index>`, and the cells are untouched. -/
theorem add_internal_names_inv (A : alignment) (lo len : Nat) (h : A.n_sequences = lo) :
    ((List.range' lo len).foldl add_internal_name_step A).n_sequences = lo + len ∧
    ((List.range' lo len).foldl add_internal_name_step A).length = A.length ∧
    ((List.range' lo len).foldl add_internal_name_step A).get_alphabet = A.get_alphabet ∧
    ((List.range' lo len).foldl add_internal_name_step A).cell = A.cell ∧
    ∀ j, ((List.range' lo len).foldl add_internal_name_step A).name j =
      if lo ≤ j ∧ j < lo + len then "A" ++ toString j else A.name j := by
  refine foldl_range'_inv add_internal_name_step
    (fun t B => B.n_sequences = t ∧ B.length = A.length ∧ B.get_alphabet = A.get_alphabet ∧
      B.cell = A.cell ∧
      ∀ j, B.name j = if lo ≤ j ∧ j < t then "A" ++ toString j else A.name j)
    len lo A ⟨h, rfl, rfl, rfl, ?_⟩ ?_
  · intro j
    rw [if_neg (by omega)]
  · intro k B hk1 hk2 ⟨h1, h2, h3, h4, h5⟩
    refine ⟨by simp [add_internal_name_step, alignment.add_sequence, h1], h2, h3, h4, ?_⟩
    intro j
    simp only [add_internal_name_step, alignment.add_sequence, h1, h5]
    by_cases hj : j = k
    · subst hj
      rw [if_pos rfl, if_pos (by omega)]
    · rw [if_neg hj]
      by_cases hj2 : lo ≤ j ∧ j < k
      · rw [if_pos hj2, if_pos (by omega)]
      · rw [if_neg hj2, if_neg (by omega)]

/-- The inner loop of `add_internal`: the cells of one column in the rows from `lo` on are
set to the gap. -/
theorem add_internal_gap_step_inv (T : Tree) (B : alignment) (column : Nat) :
    (add_internal_gap_step T B column).n_sequences = B.n_sequences ∧
    (add_internal_gap_step T B column).length = B.length ∧
    (add_internal_gap_step T B column).get_alphabet = B.get_alphabet ∧
    (add_internal_gap_step T B column).name = B.name ∧
    ∀ c i, (add_internal_gap_step T B column).cell c i =
      if c = column ∧ T.n_leaves ≤ i ∧ i < T.n_leaves + (T.n_nodes - T.n_leaves)
      then alphabet.gap else B.cell c i := by
  unfold add_internal_gap_step
  refine foldl_range'_inv (fun (B : alignment) i => B.set column i alphabet.gap)
    (fun t D => D.n_sequences = B.n_sequences ∧ D.length = B.length ∧
      D.get_alphabet = B.get_alphabet ∧ D.name = B.name ∧
      ∀ c i, D.cell c i = if c = column ∧ T.n_leaves ≤ i ∧ i < t then alphabet.gap
        else B.cell c i)
    (T.n_nodes - T.n_leaves) T.n_leaves B ⟨rfl, rfl, rfl, rfl, ?_⟩ ?_
  · intro c i
    rw [if_neg (by omega)]
  · intro k D hk1 hk2 ⟨h1, h2, h3, h4, h5⟩
    refine ⟨h1, h2, h3, h4, ?_⟩
    intro c i
    simp only [alignment.set, h5]
    by_cases hc : c = column ∧ i = k
    · rw [if_pos hc, if_pos ⟨hc.1, by omega, by omega⟩]
    · rw [if_neg hc]
      by_cases hc2 : c = column ∧ T.n_leaves ≤ i ∧ i < k
      · rw [if_pos hc2, if_pos ⟨hc2.1, hc2.2.1, by omega⟩]
      · rw [if_neg hc2, if_neg]
        intro h
        rcases h with ⟨h6, h7, h8⟩
        by_cases h9 : i = k
        · exact hc ⟨h6, h9⟩
        · exact hc2 ⟨h6, h7, by omega⟩

/-- The outer loop of `add_internal` over the columns. -/
theorem add_internal_gaps_inv (T : Tree) (B : alignment) (n : Nat) :
    ((List.range n).foldl (add_internal_gap_step T) B).n_sequences = B.n_sequences ∧
    ((List.range n).foldl (add_internal_gap_step T) B).length = B.length ∧
    ((List.range n).foldl (add_internal_gap_step T) B).get_alphabet = B.get_alphabet ∧
    ((List.range n).foldl (add_internal_gap_step T) B).name = B.name ∧
    ∀ c i, ((List.range n).foldl (add_internal_gap_step T) B).cell c i =
      if c < n ∧ T.n_leaves ≤ i ∧ i < T.n_leaves + (T.n_nodes - T.n_leaves)
      then alphabet.gap else B.cell c i := by
  refine foldl_range_inv (add_internal_gap_step T)
    (fun t D => D.n_sequences = B.n_sequences ∧ D.length = B.length ∧
      D.get_alphabet = B.get_alphabet ∧ D.name = B.name ∧
      ∀ c i, D.cell c i =
        if c < t ∧ T.n_leaves ≤ i ∧ i < T.n_leaves + (T.n_nodes - T.n_leaves)
        then alphabet.gap else B.cell c i)
    B n ⟨rfl, rfl, rfl, rfl, ?_⟩ ?_
  · intro c i
    rw [if_neg (by omega)]
  · intro k D hk ⟨h1, h2, h3, h4, h5⟩
    obtain ⟨g1, g2, g3, g4, g5⟩ := add_internal_gap_step_inv T D k
    refine ⟨g1.trans h1, g2.trans h2, g3.trans h3, g4.trans h4, ?_⟩
    intro c i
    rw [g5, h5]
    by_cases hc : c = k ∧ T.n_leaves ≤ i ∧ i < T.n_leaves + (T.n_nodes - T.n_leaves)
    · rw [if_pos hc, if_pos ⟨by omega, hc.2⟩]
    · rw [if_neg hc]
      by_cases hc2 : c < k ∧ T.n_leaves ≤ i ∧ i < T.n_leaves + (T.n_nodes - T.n_leaves)
      · rw [if_pos hc2, if_pos ⟨by omega, hc2.2⟩]
      · rw [if_neg hc2, if_neg]
        intro h
        rcases h with ⟨h6, h7⟩
        by_cases h9 : c = k
        · exact hc ⟨h9, h7⟩
        · exact hc2 ⟨by omega, h7⟩

/-- C12. When the alignment has as many rows as the tree has leaves, `add_internal`
returns: it appends one row per internal node `i` (from `n_leaves` to `n_nodes - 1`), named
`"A"` followed by the decimal `i` and holding a gap in every column, and it leaves the
length, the alphabet and the leaf rows as they are. -/
theorem add_internal_appends_gap_rows (A : alignment) (T : Tree)
    (hA : A.n_sequences = T.n_leaves) (hT : T.n_leaves ≤ T.n_nodes) :
    ∃ B, add_internal A T = .ok B ∧
      B.n_sequences = T.n_nodes ∧ B.length = A.length ∧ B.get_alphabet = A.get_alphabet ∧
      (∀ i, i < T.n_leaves → B.name i = A.name i ∧ ∀ c, B.cell c i = A.cell c i) ∧
      ∀ i, T.n_leaves ≤ i → i < T.n_nodes →
        B.name i = "A" ++ toString i ∧ ∀ c, c < B.length → B.cell c i = alphabet.gap := by
  obtain ⟨h1, h2, h3, h4, h5⟩ :=
    add_internal_names_inv A T.n_leaves (T.n_nodes - T.n_leaves) hA
  obtain ⟨g1, g2, g3, g4, g5⟩ := add_internal_gaps_inv T
    ((List.range' T.n_leaves (T.n_nodes - T.n_leaves)).foldl add_internal_name_step A)
    ((List.range' T.n_leaves (T.n_nodes - T.n_leaves)).foldl add_internal_name_step A).length
  refine ⟨_, by rw [add_internal, if_neg (by simpa using hA)], ?_, ?_, ?_, ?_, ?_⟩
  · dsimp only
    rw [g1, h1]; omega
  · dsimp only
    rw [g2, h2]
  · dsimp only
    rw [g3, h3]
  · intro i hi
    rw [g4, h5, if_neg (by omega)]
    refine ⟨rfl, fun c => ?_⟩
    rw [g5, if_neg (by omega), h4]
  · intro i hi1 hi2
    rw [g4, h5, if_pos (by omega)]
    refine ⟨rfl, fun c hc => ?_⟩
    rw [g2] at hc
    rw [g5, if_pos ⟨hc, by omega, by omega⟩]

/-- The instance of C12 at the alignment `A-C` over `GT-` and a tree with two leaves and
one internal node. -/
theorem add_internal_appends_gap_rows_witness :
    ∃ B, add_internal two_rows_a ⟨2, 3, 2, fun _ => 2⟩ = .ok B ∧
      B.n_sequences = 3 ∧ B.length = two_rows_a.length ∧
      B.get_alphabet = two_rows_a.get_alphabet ∧
      (∀ i, i < 2 → B.name i = two_rows_a.name i ∧ ∀ c, B.cell c i = two_rows_a.cell c i) ∧
      ∀ i, 2 ≤ i → i < 3 →
        B.name i = "A" ++ toString i ∧ ∀ c, c < B.length → B.cell c i = alphabet.gap :=
  add_internal_appends_gap_rows two_rows_a ⟨2, 3, 2, fun _ => 2⟩ (by decide) (by decide)

/-- C13. `add_internal` throws its exception "Number of sequence in alignment doesn't match
number of leaves in tree- can't add internal sequences" exactly when the number of rows
differs from the number of leaves; otherwise it returns an alignment. -/
theorem add_internal_throws_iff (A : alignment) (T : Tree) :
    (A.n_sequences ≠ T.n_leaves →
      add_internal A T = .error (Failure.exception add_internal_message)) ∧
    (A.n_sequences = T.n_leaves → ∃ B, add_internal A T = .ok B) ∧
    add_internal_message =
      "Number of sequence in alignment doesn't match number of leaves in tree- can't add internal sequences" := by
  refine ⟨fun h => ?_, fun h => ?_, by decide⟩
  · rw [add_internal, if_pos h]
  · exact ⟨_, by rw [add_internal, if_neg (by simpa using h)]⟩

theorem map_count_filter_range (p : Nat → Bool) (n : Nat) :
    ((List.range n).filter p).map (fun c => ((List.range c).filter p).length) =
      List.range ((List.range n).filter p).length := by
  induction n with
  | zero => rfl
  | succ n ih =>
    rw [List.range_succ, List.filter_append, List.map_append, ih]
    by_cases h : p n = true
    · simp [h, List.range_succ]
    · simp [h]

/-- C14. `M(A)` has the size of `A`; it replaces each feature cell `(c,i)` by the number of
feature cells of row `i` in the columns before `c` and leaves every other cell with its
code, so that the feature cells of row `i`, read in column order, hold
`0, 1, ..., seqlength(i)-1`. -/
theorem M_positions (A : alignment) :
    (M A).size1 = A.length ∧ (M A).size2 = A.n_sequences ∧
    ∀ i, i < A.n_sequences →
      (∀ c, c < A.length →
        (A.character c i = true →
          (M A).data c i = (((List.range c).filter fun k => A.character k i).length : Int)) ∧
        (A.character c i = false → (M A).data c i = A.cell c i)) ∧
      (((List.range A.length).filter fun c => A.character c i).map fun c => (M A).data c i) =
        (List.range (A.seqlength i)).map fun (k : Nat) => (k : Int) := by
  refine ⟨M_size1 A, M_size2 A, ?_⟩
  intro i hi
  constructor
  · intro c hc
    rw [M_data A c i hc hi]
    constructor
    · intro h; simp [M_value, h, feature_count]
    · intro h; simp [M_value, h]
  · have h1 : (((List.range A.length).filter fun c => A.character c i).map
        fun c => (M A).data c i) =
        (((List.range A.length).filter fun c => A.character c i).map
          fun c => ((((List.range c).filter fun k => A.character k i).length : Nat) : Int)) := by
      apply List.map_congr_left
      intro c hc
      rw [List.mem_filter, List.mem_range] at hc
      rw [M_data A c i hc.1 hi]
      simp [M_value, hc.2, feature_count]
    rw [h1, seqlength_eq]
    unfold feature_count
    rw [← map_count_filter_range (fun c => A.character c i) A.length, List.map_map]
    rfl

/-- The instance of C14 at row 0 of the alignment `A-C` over `GT-`. -/
theorem M_positions_witness :
    (∀ c, c < two_rows_a.length →
        (two_rows_a.character c 0 = true →
          (M two_rows_a).data c 0 =
            (((List.range c).filter fun k => two_rows_a.character k 0).length : Int)) ∧
        (two_rows_a.character c 0 = false → (M two_rows_a).data c 0 = two_rows_a.cell c 0)) ∧
      (((List.range two_rows_a.length).filter fun c => two_rows_a.character c 0).map
          fun c => (M two_rows_a).data c 0) =
        (List.range (two_rows_a.seqlength 0)).map fun (k : Nat) => (k : Int) :=
  (M_positions two_rows_a).2.2 0 (by decide)


/-! ## Lemmas and theorems on the checks at start-up (C15, C16) -/

theorem except_unit_cases (x : Except Failure Unit) : x = .ok () ∨ ∃ e, x = .error e := by
  cases x with
  | ok u => exact Or.inl rfl
  | error e => exact Or.inr ⟨e, rfl⟩

/-- A checking loop returns exactly when every iteration returns; otherwise it ends in the
failure of some iteration. -/
theorem foldlM_check_iff (f : Unit → Nat → Except Failure Unit) (n : Nat) :
    ((List.range n).foldlM f () = .ok () ↔ ∀ c, c < n → f () c = .ok ()) ∧
    ((List.range n).foldlM f () = .ok () ∨
      ∃ c e, c < n ∧ f () c = .error e ∧ (List.range n).foldlM f () = .error e) := by
  classical
  by_cases h : ∀ c, c < n → f () c = .ok ()
  · exact ⟨⟨fun _ => h, fun _ => (foldlM_check f n).1 h⟩, Or.inl ((foldlM_check f n).1 h)⟩
  · have hex : ∃ c, c < n ∧ f () c ≠ .ok () := by
      by_contra hne
      exact h (fun c hc => by_contra fun hc2 => hne ⟨c, hc, hc2⟩)
    have hmin : ∀ c', c' < Nat.find hex → f () c' = .ok () := by
      intro c' hc'
      by_contra hc2
      exact Nat.find_min hex hc' ⟨lt_trans hc' (Nat.find_spec hex).1, hc2⟩
    rcases except_unit_cases (f () (Nat.find hex)) with h1 | ⟨e, h1⟩
    · exact absurd h1 (Nat.find_spec hex).2
    · have h2 := (foldlM_check f n).2 (Nat.find hex) e (Nat.find_spec hex).1 h1 hmin
      refine ⟨⟨fun h3 => ?_, fun h3 => absurd h3 h⟩, Or.inr ⟨_, e, (Nat.find_spec hex).1, h1, h2⟩⟩
      rw [h2] at h3
      cases h3

theorem forbidden_data : forbidden.data = forbidden_characters := by decide

theorem names_pos_loop (name : String) (c : Nat) :
    ((List.range name.data.length).foldlM (names_pos_step name c) () = .ok () ↔
      forbidden.data.getD c default ∉ name.data) ∧
    ((List.range name.data.length).foldlM (names_pos_step name c) () = .ok () ∨
      (List.range name.data.length).foldlM (names_pos_step name c) () =
        .error (Failure.exception
          (illegal_character_message name (forbidden.data.getD c default)))) := by
  obtain ⟨h1, h2⟩ := foldlM_check_iff (names_pos_step name c) name.data.length
  constructor
  · rw [h1]
    constructor
    · intro h hmem
      obtain ⟨pos, hpos, hget⟩ := List.getElem_of_mem hmem
      have := h pos hpos
      rw [names_pos_step, if_pos (by rw [List.getD_eq_getElem _ _ hpos, hget])] at this
      cases this
    · intro h pos hpos
      rw [names_pos_step, if_neg]
      intro heq
      apply h
      rw [← heq, List.getD_eq_getElem _ _ hpos]
      exact List.getElem_mem hpos
  · rcases h2 with h2 | ⟨pos, e, hpos, he, h2⟩
    · exact Or.inl h2
    · right
      rw [h2, ← he]
      unfold names_pos_step
      split
      · rfl
      · rename_i hne
        rw [names_pos_step, if_neg hne] at he
        cases he

theorem names_c_loop (name : String) :
    ((List.range forbidden.data.length).foldlM (names_c_step name) () = .ok () ↔
      ∀ ch, ch ∈ name.data → ch ∉ forbidden_characters) ∧
    ((List.range forbidden.data.length).foldlM (names_c_step name) () = .ok () ∨
      ∃ ch, ch ∈ forbidden_characters ∧
        (List.range forbidden.data.length).foldlM (names_c_step name) () =
          .error (Failure.exception (illegal_character_message name ch))) := by
  obtain ⟨h1, h2⟩ := foldlM_check_iff (names_c_step name) forbidden.data.length
  constructor
  · rw [h1]
    constructor
    · intro h ch hch hf
      rw [← forbidden_data] at hf
      obtain ⟨c, hc, hget⟩ := List.getElem_of_mem hf
      have := ((names_pos_loop name c).1).mp (h c hc)
      rw [List.getD_eq_getElem _ _ hc, hget] at this
      exact this hch
    · intro h c hc
      apply ((names_pos_loop name c).1).mpr
      intro hmem
      apply h _ hmem
      rw [← forbidden_data, List.getD_eq_getElem _ _ hc]
      exact List.getElem_mem hc
  · rcases h2 with h2 | ⟨c, e, hc, he, h2⟩
    · exact Or.inl h2
    · right
      refine ⟨forbidden.data.getD c default, ?_, ?_⟩
      · rw [← forbidden_data, List.getD_eq_getElem _ _ hc]
        exact List.getElem_mem hc
      · rw [h2, ← he]
        rcases (names_pos_loop name c).2 with h3 | h3
        · rw [names_c_step, h3] at he
          cases he
        · exact h3

theorem names_i_loop (A : alignment) (i : Nat) :
    (names_i_step A () i = .ok () ↔ ∀ ch, ch ∈ (A.name i).data → ch ∉ forbidden_characters) ∧
    (names_i_step A () i = .ok () ∨
      ∃ ch, ch ∈ forbidden_characters ∧
        names_i_step A () i =
          .error (Failure.exception (illegal_character_message (A.name i) ch))) := by
  obtain ⟨h1, h2⟩ := foldlM_check_iff (names_j_step (A.name i)) (A.name i).data.length
  obtain ⟨g1, g2⟩ := names_c_loop (A.name i)
  constructor
  · rw [names_i_step, h1]
    constructor
    · intro h ch hch
      have hpos : 0 < (A.name i).data.length := List.length_pos_of_mem hch
      exact g1.mp (h 0 hpos) ch hch
    · intro h c _
      exact g1.mpr h
  · rcases h2 with h2 | ⟨c, e, hc, he, h2⟩
    · exact Or.inl h2
    · right
      rcases g2 with g2 | ⟨ch, hch, g2⟩
      · rw [names_j_step, g2] at he
        cases he
      · refine ⟨ch, hch, ?_⟩
        rw [names_i_step, h2, ← he]
        exact g2

/-- C15. `check_alignment_names` returns exactly when no sequence name contains one of the
ten characters `( ) ; : " ' [ ] & ,`; otherwise it throws an exception that names a
sequence and a character of that list. A name without characters passes. -/
theorem check_alignment_names_iff (A : alignment) :
    (check_alignment_names A = .ok () ↔
      ∀ i, i < A.n_sequences → ∀ ch, ch ∈ (A.name i).data → ch ∉ forbidden_characters) ∧
    (check_alignment_names A = .ok () ∨
      ∃ i ch, i < A.n_sequences ∧ ch ∈ forbidden_characters ∧
        check_alignment_names A =
          .error (Failure.exception (illegal_character_message (A.name i) ch))) ∧
    (∀ i, i < A.n_sequences → A.name i = "" → names_i_step A () i = .ok ()) ∧
    forbidden.data = forbidden_characters := by
  obtain ⟨h1, h2⟩ := foldlM_check_iff (names_i_step A) A.n_sequences
  refine ⟨?_, ?_, ?_, forbidden_data⟩
  · rw [check_alignment_names, h1]
    constructor
    · intro h i hi
      exact (names_i_loop A i).1.mp (h i hi)
    · intro h i hi
      exact (names_i_loop A i).1.mpr (h i hi)
  · rcases h2 with h2 | ⟨i, e, hi, he, h2⟩
    · exact Or.inl h2
    · right
      rcases (names_i_loop A i).2 with g | ⟨ch, hch, g⟩
      · rw [g] at he
        cases he
      · refine ⟨i, ch, hi, hch, ?_⟩
        rw [check_alignment_names, h2, ← he]
        exact g
  · intro i _ hname
    apply (names_i_loop A i).1.mpr
    rw [hname]
    intro ch hch
    cases hch

theorem min_branch_inv (lengths : List ℚ) (n : Nat) :
    0 < (List.range n).foldl (min_branch_step lengths) (1 / 1000000) ∧
    (List.range n).foldl (min_branch_step lengths) (1 / 1000000) ≤ 1 / 1000000 ∧
    (∀ i, i < n → 0 < lengths.getD i 0 →
      (List.range n).foldl (min_branch_step lengths) (1 / 1000000) ≤ lengths.getD i 0) ∧
    ((List.range n).foldl (min_branch_step lengths) (1 / 1000000) = 1 / 1000000 ∨
      ∃ i, i < n ∧ 0 < lengths.getD i 0 ∧
        (List.range n).foldl (min_branch_step lengths) (1 / 1000000) = lengths.getD i 0) := by
  refine foldl_range_inv (min_branch_step lengths)
    (fun t m => 0 < m ∧ m ≤ 1 / 1000000 ∧ (∀ i, i < t → 0 < lengths.getD i 0 →
      m ≤ lengths.getD i 0) ∧
      (m = 1 / 1000000 ∨ ∃ i, i < t ∧ 0 < lengths.getD i 0 ∧ m = lengths.getD i 0))
    (1 / 1000000) n ⟨by norm_num, le_refl _, fun i hi => absurd hi (Nat.not_lt_zero i),
      Or.inl rfl⟩ ?_
  intro k m hk ⟨h1, h2, h3, h4⟩
  unfold min_branch_step
  by_cases hpos : lengths.getD k 0 > 0
  · rw [if_pos hpos]
    refine ⟨lt_min h1 hpos, le_trans (min_le_left _ _) h2, ?_, ?_⟩
    · intro i hi hi2
      by_cases hik : i = k
      · subst hik; exact min_le_right _ _
      · exact le_trans (min_le_left _ _) (h3 i (by omega) hi2)
    · rcases le_total m (lengths.getD k 0) with hle | hle
      · rw [min_eq_left hle]
        rcases h4 with h4 | ⟨i, hi, hi2, hi3⟩
        · exact Or.inl h4
        · exact Or.inr ⟨i, by omega, hi2, hi3⟩
      · rw [min_eq_right hle]
        exact Or.inr ⟨k, by omega, hpos, rfl⟩
  · rw [if_neg hpos]
    refine ⟨h1, h2, ?_, ?_⟩
    · intro i hi hi2
      by_cases hik : i = k
      · subst hik; exact absurd hi2 hpos
      · exact h3 i (by omega) hi2
    · rcases h4 with h4 | ⟨i, hi, hi2, hi3⟩
      · exact Or.inl h4
      · exact Or.inr ⟨i, by omega, hi2, hi3⟩

theorem getD_set_rat (l : List ℚ) (i j : Nat) (v : ℚ) (hi : i < l.length) :
    (l.set i v).getD j 0 = if j = i then v else l.getD j 0 := by
  rw [List.getD_eq_getElem?_getD, List.getD_eq_getElem?_getD, List.getElem?_set]
  by_cases h : i = j
  · subst h
    simp [hi]
  · rw [if_neg h, if_neg (fun h2 => h h2.symm)]

/-- The second loop of `sanitize_branch_lengths`: the lengths before `t` are sanitized, the
others are as they were. -/
theorem sanitize_loop_inv (m : ℚ) (hm : 0 < m) (lengths : List ℚ) (n : Nat)
    (hn : n ≤ lengths.length) :
    ((List.range n).foldl (sanitize_step m) lengths).length = lengths.length ∧
    ∀ i, ((List.range n).foldl (sanitize_step m) lengths).getD i 0 =
      if i < n then
        (if lengths.getD i 0 = 0 then m
          else if lengths.getD i 0 < 0 then - lengths.getD i 0 else lengths.getD i 0)
      else lengths.getD i 0 := by
  refine foldl_range_inv (sanitize_step m)
    (fun t r => r.length = lengths.length ∧ ∀ i, r.getD i 0 =
      if i < t then
        (if lengths.getD i 0 = 0 then m
          else if lengths.getD i 0 < 0 then - lengths.getD i 0 else lengths.getD i 0)
      else lengths.getD i 0)
    lengths n ⟨rfl, fun i => by rw [if_neg (Nat.not_lt_zero i)]⟩ ?_
  intro k r hk ⟨h1, h2⟩
  have hkr : k < r.length := by omega
  have hrk : r.getD k 0 = lengths.getD k 0 := by rw [h2, if_neg (lt_irrefl k)]
  unfold sanitize_step
  by_cases h0 : lengths.getD k 0 = 0
  · have e1 : (if r.getD k 0 = 0 then r.set k m else r) = r.set k m := by
      rw [if_pos (by rw [hrk]; exact h0)]
    simp only [e1]
    have e2 : ¬ (r.set k m).getD k 0 < 0 := by
      rw [getD_set_rat r k k m hkr, if_pos rfl]
      exact not_lt.mpr (le_of_lt hm)
    rw [if_neg e2]
    refine ⟨by rw [List.length_set]; exact h1, fun i => ?_⟩
    rw [getD_set_rat r k i m hkr]
    by_cases hik : i = k
    · subst hik
      rw [if_pos rfl, if_pos (by omega), if_pos h0]
    · rw [if_neg hik, h2]
      by_cases hlt : i < k
      · rw [if_pos hlt, if_pos (show i < k + 1 by omega)]
      · rw [if_neg hlt, if_neg (show ¬ i < k + 1 by omega)]
  · have e1 : (if r.getD k 0 = 0 then r.set k m else r) = r := by
      rw [if_neg (by rw [hrk]; exact h0)]
    simp only [e1]
    by_cases hneg : lengths.getD k 0 < 0
    · rw [if_pos (by rw [hrk]; exact hneg)]
      refine ⟨by rw [List.length_set]; exact h1, fun i => ?_⟩
      rw [getD_set_rat r k i _ hkr]
      by_cases hik : i = k
      · subst hik
        rw [if_pos rfl, if_pos (by omega), if_neg h0, if_pos hneg, hrk]
      · rw [if_neg hik, h2]
        by_cases hlt : i < k
        · rw [if_pos hlt, if_pos (show i < k + 1 by omega)]
        · rw [if_neg hlt, if_neg (show ¬ i < k + 1 by omega)]
    · rw [if_neg (by rw [hrk]; exact hneg)]
      refine ⟨h1, fun i => ?_⟩
      rw [h2]
      by_cases hik : i = k
      · subst hik
        rw [if_neg (lt_irrefl i), if_pos (show i < i + 1 by omega), if_neg h0, if_neg hneg]
      · by_cases hlt : i < k
        · rw [if_pos hlt, if_pos (show i < k + 1 by omega)]
        · rw [if_neg hlt, if_neg (show ¬ i < k + 1 by omega)]

/-- C16, with the negative lengths as the code has them. `sanitize_branch_lengths` keeps
the number of branches and every positive length; it sets a zero length to the floor
`min_branch`, the smaller of `0.000001` and the smallest positive length; it replaces a
negative length by its absolute value, whatever the floor is. Every length is strictly
positive afterwards. -/
theorem sanitize_branch_lengths_positive (lengths : List ℚ) :
    (0 < min_branch lengths ∧ min_branch lengths ≤ 1 / 1000000 ∧
      (∀ i, i < lengths.length → 0 < lengths.getD i 0 → min_branch lengths ≤ lengths.getD i 0) ∧
      (min_branch lengths = 1 / 1000000 ∨
        ∃ i, i < lengths.length ∧ 0 < lengths.getD i 0 ∧
          min_branch lengths = lengths.getD i 0)) ∧
    (sanitize_branch_lengths lengths).length = lengths.length ∧
    ∀ i, i < lengths.length →
      (0 < lengths.getD i 0 → (sanitize_branch_lengths lengths).getD i 0 = lengths.getD i 0) ∧
      (lengths.getD i 0 = 0 → (sanitize_branch_lengths lengths).getD i 0 = min_branch lengths) ∧
      (lengths.getD i 0 < 0 → (sanitize_branch_lengths lengths).getD i 0 = - lengths.getD i 0) ∧
      0 < (sanitize_branch_lengths lengths).getD i 0 := by
  have hm := min_branch_inv lengths lengths.length
  obtain ⟨h1, h2⟩ := sanitize_loop_inv (min_branch lengths) hm.1 lengths lengths.length
    (le_refl _)
  refine ⟨hm, h1, ?_⟩
  intro i hi
  have h3 : (sanitize_branch_lengths lengths).getD i 0 =
      (if lengths.getD i 0 = 0 then min_branch lengths
        else if lengths.getD i 0 < 0 then - lengths.getD i 0 else lengths.getD i 0) := by
    have := h2 i
    rw [if_pos hi] at this
    exact this
  rw [h3]
  refine ⟨fun h => ?_, fun h => ?_, fun h => ?_, ?_⟩
  · rw [if_neg (ne_of_gt h), if_neg (not_lt.mpr (le_of_lt h))]
  · rw [if_pos h]
  · rw [if_neg (ne_of_lt h), if_pos h]
  · by_cases h0 : lengths.getD i 0 = 0
    · rw [if_pos h0]; exact hm.1
    · rw [if_neg h0]
      by_cases hneg : lengths.getD i 0 < 0
      · rw [if_pos hneg]; linarith
      · rw [if_neg hneg]
        exact lt_of_le_of_ne (not_lt.mp hneg) (fun h => h0 h.symm)

/-- A negative length comes back as its absolute value, which here is below the floor
`0.000001`: the claim C16 as it stands says it is at least the floor, and rounded to it. -/
theorem sanitize_negative_below_floor :
    sanitize_branch_lengths [-(1 / 1073741824)] = [1 / 1073741824] ∧
    min_branch [-(1 / 1073741824)] = 1 / 1000000 ∧
    (1 / 1073741824 : ℚ) < 1 / 1000000 := by
  refine ⟨?_, ?_, by norm_num⟩
  · norm_num [sanitize_branch_lengths, sanitize_step, min_branch_step, List.range_succ]
  · norm_num [min_branch, min_branch_step, List.range_succ]

/-! ## Lemmas and theorems on the parameter names (C17 to C19) -/

theorem getD_length_sub_one (l : List Char) (p : List Char) (c : Char) (h : l = p ++ [c]) :
    l.length ≠ 0 ∧ l.getD (l.length - 1) default = c ∧ l.take (l.length - 1) = p := by
  subst h
  refine ⟨by simp, ?_, ?_⟩
  · rw [List.getD_eq_getElem?_getD]
    simp
  · simp

theorem ends_in_star (l : List Char)
    (h : l.length ≠ 0 ∧ l.getD (l.length - 1) default = '*') :
    l = l.take (l.length - 1) ++ ['*'] := by
  obtain ⟨h1, h2⟩ := h
  have hne : l ≠ [] := fun h => h1 (by rw [h]; rfl)
  have h3 := List.dropLast_append_getLast hne
  have h4 : l.getLast hne = '*' := by
    rw [List.getLast_eq_getElem, ← h2, List.getD_eq_getElem _ _ (by omega)]
  rw [h4, List.dropLast_eq_take] at h3
  exact h3.symm

/-- C17. `match(s1,s2)` is true exactly when either `s2` ends in `*` and `s2` without that
last character is a prefix of `s1`, or `s2` does not end in `*` and `s1 = s2`. The pattern
`*` matches every string and the empty pattern matches the empty string only. -/
theorem string_match_iff (s1 s2 : String) :
    (string_match s1 s2 = true ↔
      ((∃ p, s2.data = p ++ ['*'] ∧ p <+: s1.data) ∨
        ((¬ ∃ p, s2.data = p ++ ['*']) ∧ s1 = s2))) ∧
    string_match s1 "*" = true ∧
    (string_match s1 "" = true ↔ s1 = "") := by
  have main : ∀ t1 t2 : String, (string_match t1 t2 = true ↔
      ((∃ p, t2.data = p ++ ['*'] ∧ p <+: t1.data) ∨
        ((¬ ∃ p, t2.data = p ++ ['*']) ∧ t1 = t2))) := by
    intro t1 t2
    unfold string_match
    by_cases h : t2.data.length ≠ 0 ∧ t2.data.getD (t2.data.length - 1) default = '*'
    · rw [if_pos h]
      have h2 := ends_in_star t2.data h
      constructor
      · intro hm
        left
        refine ⟨_, h2, ?_⟩
        by_cases hL : t2.data.length - 1 > t1.data.length
        · simp only [hL, if_true, Bool.false_eq_true] at hm
        · simp only [hL, if_false, beq_iff_eq] at hm
          rw [← hm]
          exact List.take_prefix _ _
      · intro hm
        rcases hm with ⟨p, hp, hpre⟩ | ⟨hno, _⟩
        · obtain ⟨_, _, h5⟩ := getD_length_sub_one t2.data p '*' hp
          have hlen : p.length = t2.data.length - 1 := by rw [hp]; simp
          have hle : p.length ≤ t1.data.length := hpre.length_le
          rw [if_neg (by omega)]
          rw [beq_iff_eq, h5, ← hlen]
          exact List.prefix_iff_eq_take.mp hpre |>.symm
        · exact absurd ⟨_, h2⟩ hno
    · rw [if_neg h]
      constructor
      · intro hm
        right
        refine ⟨?_, by simpa using hm⟩
        rintro ⟨p, hp⟩
        obtain ⟨g1, g2, _⟩ := getD_length_sub_one t2.data p '*' hp
        exact h ⟨g1, g2⟩
      · intro hm
        rcases hm with ⟨p, hp, _⟩ | ⟨_, heq⟩
        · obtain ⟨g1, g2, _⟩ := getD_length_sub_one t2.data p '*' hp
          exact absurd ⟨g1, g2⟩ h
        · simpa using heq
  refine ⟨main s1 s2, ?_, ?_⟩
  · rw [main]
    left
    exact ⟨[], rfl, List.nil_prefix⟩
  · rw [main]
    constructor
    · intro h
      rcases h with ⟨p, hp, _⟩ | ⟨_, h⟩
      · cases p <;> cases hp
      · exact h
    · intro h
      right
      refine ⟨?_, h⟩
      rintro ⟨p, hp⟩
      cases p <;> cases hp

theorem string_data_length_zero (s : String) : s.data.length = 0 ↔ s = "" := by
  constructor
  · intro h
    have h2 : s.data = [] := List.length_eq_zero.mp h
    exact String.ext h2
  · intro h
    rw [h]
    rfl

theorem getLast?_eq_getLastD (l : List String) (h : l ≠ []) :
    l.getLast? = some (l.getLastD "") := by
  cases l with
  | nil => exact absurd rfl h
  | cons a t => simp [List.getLast?_cons]

/-- The test at the end of one iteration of `parameters_with_extension`, on the path
`path1` that is left of the parameter name. -/
theorem extension_continue (path1 path2 : List String) (indices : List Nat) (i : Nat)
    (h : path1 ≠ []) :
    extension_tail path2 indices i path1 =
      .ok (if (decide (path1.dropLast = path2.dropLast) &&
          string_match (path1.getLastD "") (path2.getLastD "")) = true
        then indices ++ [i] else indices) := by
  unfold extension_tail
  rw [getLast?_eq_getLastD path1 h]
  dsimp only
  by_cases hm : string_match (path1.getLastD "") (path2.getLastD "") = true
  · by_cases hd : path1.dropLast = path2.dropLast
    · rw [if_neg (not_not.mpr hm), if_pos hd, if_pos (by rw [hm, decide_eq_true hd]; rfl)]
    · rw [if_neg (not_not.mpr hm), if_neg hd, if_neg (by rw [decide_eq_false hd]; simp)]
  · rw [if_pos hm, if_neg (by rw [Bool.not_eq_true] at hm; rw [hm]; simp)]

theorem extension_step_anchored (split : String → List String) (M : Model)
    (path2 : List String) (hp : ∃ h t, path2 = h :: t ∧ h ≠ "") (indices : List Nat) (i : Nat) :
    extension_step split M true path2 indices i =
      .ok (if (decide ((split (M.parameter_name i)).length = path2.length) &&
          decide ((split (M.parameter_name i)).dropLast = path2.dropLast) &&
          string_match ((split (M.parameter_name i)).getLastD "") (path2.getLastD "")) = true
        then indices ++ [i] else indices) := by
  obtain ⟨h, t, hp1, hp2⟩ := hp
  have h0 : ¬ (path2.getD 0 "").data.length = 0 := by
    rw [string_data_length_zero, hp1]
    exact hp2
  have hlen2 : 1 ≤ path2.length := by rw [hp1]; simp
  unfold extension_step
  simp only [h0, if_false]
  by_cases hgt : path2.length > (split (M.parameter_name i)).length
  · rw [if_pos hgt, if_neg]
    simp only [Bool.and_eq_true, decide_eq_true_eq, not_and]
    intro hl
    omega
  · rw [if_neg hgt]
    have hne : split (M.parameter_name i) ≠ [] := by
      intro h3
      rw [h3] at hgt
      simp only [List.length_nil] at hgt
      omega
    simp only [Bool.not_true, Bool.false_eq_true, not_true_eq_false, if_false]
    rw [extension_continue _ path2 indices i hne]
    congr 1
    by_cases hd : (split (M.parameter_name i)).dropLast = path2.dropLast
    · have hl : (split (M.parameter_name i)).length = path2.length := by
        have := congrArg List.length hd
        rw [List.length_dropLast, List.length_dropLast] at this
        have h4 : 1 ≤ (split (M.parameter_name i)).length := by omega
        omega
      simp [hd, hl]
    · simp [hd]

theorem extension_step_unanchored (split : String → List String) (M : Model)
    (path2 : List String) (hp : ∃ h t, path2 = h :: t ∧ h ≠ "") (indices : List Nat) (i : Nat) :
    extension_step split M false path2 indices i =
      .ok (if (decide (path2.length ≤ (split (M.parameter_name i)).length) &&
          decide (((split (M.parameter_name i)).drop
            ((split (M.parameter_name i)).length - path2.length)).dropLast = path2.dropLast) &&
          string_match ((split (M.parameter_name i)).getLastD "") (path2.getLastD "")) = true
        then indices ++ [i] else indices) := by
  obtain ⟨h, t, hp1, hp2⟩ := hp
  have h0 : ¬ (path2.getD 0 "").data.length = 0 := by
    rw [string_data_length_zero, hp1]
    exact hp2
  have hlen2 : 1 ≤ path2.length := by rw [hp1]; simp
  unfold extension_step
  simp only [h0, if_false]
  by_cases hgt : path2.length > (split (M.parameter_name i)).length
  · rw [if_pos hgt, if_neg]
    simp only [Bool.and_eq_true, decide_eq_true_eq, not_and]
    intro hl
    omega
  · rw [if_neg hgt]
    have hne : (split (M.parameter_name i)).drop
        ((split (M.parameter_name i)).length - path2.length) ≠ [] := by
      intro h3
      have := congrArg List.length h3
      rw [List.length_drop] at this
      simp at this
      omega
    have hlast : ((split (M.parameter_name i)).drop
        ((split (M.parameter_name i)).length - path2.length)).getLastD "" =
        (split (M.parameter_name i)).getLastD "" := by
      rw [List.getLastD_eq_getLast?, List.getLastD_eq_getLast?, List.getLast?_drop, if_neg]
      omega
    simp only [Bool.false_eq_true, not_false_eq_true, if_true]
    rw [extension_continue _ path2 indices i hne, hlast]
    congr 1
    have hle : path2.length ≤ (split (M.parameter_name i)).length := by omega
    simp [hle]

/-- A loop that appends the index of every iteration that passes a test gathers the
indices that pass it, in increasing order. -/
theorem foldlM_filter (f : List Nat → Nat → Except Failure (List Nat)) (p : Nat → Bool)
    (hf : ∀ indices i, f indices i = .ok (if p i = true then indices ++ [i] else indices))
    (n : Nat) :
    (List.range n).foldlM f [] = .ok ((List.range n).filter p) := by
  induction n with
  | zero => rfl
  | succ n ih =>
    rw [List.range_succ, List.foldlM_append, ih]
    simp only [bind, Except.bind, List.foldlM_cons, List.foldlM_nil, hf, List.filter_append]
    by_cases h : p n = true
    · simp [h, pure, Except.pure]
    · simp [h, pure, Except.pure]

theorem drop_caret (p : String) : String.mk (("^" ++ p).data.drop 1) = p := by
  rw [String.data_append]
  rfl

/-- C18. For a pattern `^p` where the first component of `p` is not empty,
`parameters_with_extension` returns, in increasing order, exactly the indices of the
parameters whose name has as many components as `p`, agrees with `p` on every component
but the last, and has a last component that matches the last component of `p`. -/
theorem parameters_with_extension_anchored (split : String → List String) (M : Model)
    (p : String) (hp : ∃ h t, split p = h :: t ∧ h ≠ "") :
    parameters_with_extension split M ("^" ++ p) =
      .ok ((List.range M.n_parameters).filter fun i =>
        decide ((split (M.parameter_name i)).length = (split p).length) &&
        decide ((split (M.parameter_name i)).dropLast = (split p).dropLast) &&
        string_match ((split (M.parameter_name i)).getLastD "") ((split p).getLastD "")) ∧
    List.Pairwise (fun a b => a < b) ((List.range M.n_parameters).filter fun i =>
        decide ((split (M.parameter_name i)).length = (split p).length) &&
        decide ((split (M.parameter_name i)).dropLast = (split p).dropLast) &&
        string_match ((split (M.parameter_name i)).getLastD "") ((split p).getLastD "")) := by
  refine ⟨?_, List.Pairwise.filter _ (List.pairwise_lt_range _)⟩
  have hc : (("^" ++ p).data.length ≠ 0 ∧ ("^" ++ p).data.getD 0 default = '^') := by
    rw [String.data_append]
    exact ⟨by simp, rfl⟩
  have hd : decide (("^" ++ p).data.length ≠ 0 ∧ ("^" ++ p).data.getD 0 default = '^') = true :=
    decide_eq_true hc
  unfold parameters_with_extension
  simp only [hd, if_true, drop_caret]
  have hl : ¬ (split p).length = 0 := by
    obtain ⟨h, t, h1, _⟩ := hp
    rw [h1]; simp
  rw [if_neg hl]
  exact foldlM_filter _ _ (fun indices i => extension_step_anchored split M (split p) hp indices i) _

/-- The instance of C18 at the pattern `^HKY::kappa*`. -/
theorem parameters_with_extension_anchored_witness :
    parameters_with_extension (fun s => split_colons s.data []) five_parameters
        ("^" ++ "HKY::kappa*") =
      .ok ((List.range five_parameters.n_parameters).filter fun i =>
        decide ((split_colons (five_parameters.parameter_name i).data []).length =
          (split_colons "HKY::kappa*".data []).length) &&
        decide ((split_colons (five_parameters.parameter_name i).data []).dropLast =
          (split_colons "HKY::kappa*".data []).dropLast) &&
        string_match ((split_colons (five_parameters.parameter_name i).data []).getLastD "")
          ((split_colons "HKY::kappa*".data []).getLastD "")) ∧
    List.Pairwise (fun a b => a < b) ((List.range five_parameters.n_parameters).filter fun i =>
        decide ((split_colons (five_parameters.parameter_name i).data []).length =
          (split_colons "HKY::kappa*".data []).length) &&
        decide ((split_colons (five_parameters.parameter_name i).data []).dropLast =
          (split_colons "HKY::kappa*".data []).dropLast) &&
        string_match ((split_colons (five_parameters.parameter_name i).data []).getLastD "")
          ((split_colons "HKY::kappa*".data []).getLastD "")) :=
  parameters_with_extension_anchored (fun s => split_colons s.data []) five_parameters
    "HKY::kappa*" ⟨"HKY", ["kappa*"], by decide, by decide⟩

/-- C19. For a pattern `p` without a leading `^`, with `k` components of which the first is
not empty, `parameters_with_extension` returns exactly the indices of the parameters whose
name has at least `k` components, of which the last `k` agree with `p` on all but the last
one, and whose last component matches the last component of `p`. A parameter with fewer
than `k` components is not returned. -/
theorem parameters_with_extension_unanchored (split : String → List String) (M : Model)
    (p : String) (hc : p.data.head? ≠ some '^') (hp : ∃ h t, split p = h :: t ∧ h ≠ "") :
    parameters_with_extension split M p =
      .ok ((List.range M.n_parameters).filter fun i =>
        decide ((split p).length ≤ (split (M.parameter_name i)).length) &&
        decide (((split (M.parameter_name i)).drop
          ((split (M.parameter_name i)).length - (split p).length)).dropLast =
            (split p).dropLast) &&
        string_match ((split (M.parameter_name i)).getLastD "") ((split p).getLastD "")) ∧
    ∀ r, parameters_with_extension split M p = .ok r →
      ∀ i, (split (M.parameter_name i)).length < (split p).length → i ∉ r := by
  have hc2 : ¬ (p.data.length ≠ 0 ∧ p.data.getD 0 default = '^') := by
    intro ⟨h1, h2⟩
    apply hc
    cases hd : p.data with
    | nil => rw [hd] at h1; exact absurd rfl h1
    | cons a l =>
      rw [hd] at h2
      simp only [List.getD_cons_zero] at h2
      rw [h2]
      rfl
  have hl : ¬ (split p).length = 0 := by
    obtain ⟨h, t, h1, _⟩ := hp
    rw [h1]; simp
  have main : parameters_with_extension split M p =
      .ok ((List.range M.n_parameters).filter fun i =>
        decide ((split p).length ≤ (split (M.parameter_name i)).length) &&
        decide (((split (M.parameter_name i)).drop
          ((split (M.parameter_name i)).length - (split p).length)).dropLast =
            (split p).dropLast) &&
        string_match ((split (M.parameter_name i)).getLastD "") ((split p).getLastD "")) := by
    have hd : decide (p.data.length ≠ 0 ∧ p.data.getD 0 default = '^') = false :=
      decide_eq_false hc2
    unfold parameters_with_extension
    simp only [hd, Bool.false_eq_true, if_false]
    rw [if_neg hl]
    exact foldlM_filter _ _
      (fun indices i => extension_step_unanchored split M (split p) hp indices i) _
  refine ⟨main, ?_⟩
  intro r hr i hi hmem
  rw [main] at hr
  cases hr
  rw [List.mem_filter] at hmem
  simp only [Bool.and_eq_true, decide_eq_true_eq] at hmem
  omega

/-- The instance of C19 at the pattern `HKY::kappa*`. -/
theorem parameters_with_extension_unanchored_witness :
    parameters_with_extension (fun s => split_colons s.data []) five_parameters "HKY::kappa*" =
      .ok ((List.range five_parameters.n_parameters).filter fun i =>
        decide ((split_colons "HKY::kappa*".data []).length ≤
          (split_colons (five_parameters.parameter_name i).data []).length) &&
        decide (((split_colons (five_parameters.parameter_name i).data []).drop
          ((split_colons (five_parameters.parameter_name i).data []).length -
            (split_colons "HKY::kappa*".data []).length)).dropLast =
            (split_colons "HKY::kappa*".data []).dropLast) &&
        string_match ((split_colons (five_parameters.parameter_name i).data []).getLastD "")
          ((split_colons "HKY::kappa*".data []).getLastD "")) ∧
    ∀ r, parameters_with_extension (fun s => split_colons s.data []) five_parameters
        "HKY::kappa*" = .ok r →
      ∀ i, (split_colons (five_parameters.parameter_name i).data []).length <
        (split_colons "HKY::kappa*".data []).length → i ∉ r :=
  parameters_with_extension_unanchored (fun s => split_colons s.data []) five_parameters
    "HKY::kappa*" (by decide) ⟨"HKY", ["kappa*"], by decide, by decide⟩

/-! ## Lemmas and theorems on the parameters of the command line (C20) -/

/-- A loop whose iterations keep `Inv`, whether they throw or not, ends in a state with
`Inv`, and what it throws is what an iteration throws. -/
theorem for_state_inv {σ : Type} (Inv : σ → Prop) (Q : Failure → Prop)
    (body : σ → Nat → σ × Option Failure) (l : List Nat) (s : σ) (hs : Inv s)
    (hstep : ∀ s x, x ∈ l → Inv s → Inv (body s x).1 ∧ ∀ e, (body s x).2 = some e → Q e) :
    Inv (for_state l body s).1 ∧ ∀ e, (for_state l body s).2 = some e → Q e := by
  induction l generalizing s with
  | nil => exact ⟨hs, fun e he => by cases he⟩
  | cons x xs ih =>
    have h1 := hstep s x (List.mem_cons_self x xs) hs
    unfold for_state
    cases hb : (body s x).2 with
    | some e =>
      dsimp only
      exact ⟨h1.1, fun e2 he2 => h1.2 e2 (by rw [hb]; exact he2)⟩
    | none =>
      dsimp only
      exact ih _ h1.1 (fun s y hy hi => hstep s y (List.mem_cons_of_mem x hy) hi)

/-- A loop with an iteration that throws in every state with `Inv` throws. -/
theorem for_state_fails {σ : Type} (Inv : σ → Prop)
    (body : σ → Nat → σ × Option Failure) (l : List Nat) (s : σ) (hs : Inv s)
    (hstep : ∀ s x, x ∈ l → Inv s → Inv (body s x).1)
    (hbad : ∃ x, x ∈ l ∧ ∀ s, Inv s → (body s x).2 ≠ none) :
    (for_state l body s).2 ≠ none := by
  induction l generalizing s with
  | nil =>
    obtain ⟨x, hx, _⟩ := hbad
    cases hx
  | cons x xs ih =>
    unfold for_state
    cases hb : (body s x).2 with
    | some e =>
      dsimp only
      exact fun h => by cases h
    | none =>
      dsimp only
      obtain ⟨y, hy, hy2⟩ := hbad
      rcases List.mem_cons.mp hy with hxy | hxy
      · subst hxy
        exact absurd hb (hy2 s hs)
      · exact ih _ (hstep s x (List.mem_cons_self x xs) hs)
          (fun s z hz hi => hstep s z (List.mem_cons_of_mem x hz) hi) ⟨y, hxy, hy2⟩

/-- A loop whose iterations do not throw and keep `Inv` does not throw. -/
theorem for_state_ok {σ : Type} (Inv : σ → Prop)
    (body : σ → Nat → σ × Option Failure) (l : List Nat) (s : σ) (hs : Inv s)
    (hstep : ∀ s x, x ∈ l → Inv s → Inv (body s x).1 ∧ (body s x).2 = none) :
    Inv (for_state l body s).1 ∧ (for_state l body s).2 = none := by
  induction l generalizing s with
  | nil => exact ⟨hs, rfl⟩
  | cons x xs ih =>
    have h1 := hstep s x (List.mem_cons_self x xs) hs
    unfold for_state
    rw [h1.2]
    dsimp only
    exact ih _ h1.1 (fun s y hy hi => hstep s y (List.mem_cons_of_mem x hy) hi)

theorem getD_set_string (l : List String) (i j : Nat) (v : String) (hi : i < l.length) :
    (l.set i v).getD j "" = if j = i then v else l.getD j "" := by
  rw [List.getD_eq_getElem?_getD, List.getD_eq_getElem?_getD, List.getElem?_set]
  by_cases h : i = j
  · subst h
    simp [hi]
  · rw [if_neg h, if_neg (fun h2 => h h2.symm)]

/-- The loop of `set_parameters` that moves the entries with a `=` to the initial
conditions and leaves their names. -/
theorem separate_loop_inv (split : String → List String) (l d : List String) (n : Nat)
    (hn : n ≤ l.length) :
    ((List.range n).foldl (separate_step split) (l, d)).1.length = l.length ∧
    (∀ i, ((List.range n).foldl (separate_step split) (l, d)).1.getD i "" =
      if i < n then option_name split (l.getD i "") else l.getD i "") ∧
    ((List.range n).foldl (separate_step split) (l, d)).2 =
      d ++ ((l.take n).filter fun s => decide ((split s).length > 1)) := by
  refine foldl_range_inv (separate_step split)
    (fun t st => st.1.length = l.length ∧
      (∀ i, st.1.getD i "" = if i < t then option_name split (l.getD i "") else l.getD i "") ∧
      st.2 = d ++ ((l.take t).filter fun s => decide ((split s).length > 1)))
    (l, d) n ⟨rfl, fun i => by rw [if_neg (Nat.not_lt_zero i)], by simp⟩ ?_
  intro k st hk ⟨h1, h2, h3⟩
  have hk1 : k < st.1.length := by omega
  have hk2 : st.1.getD k "" = l.getD k "" := by rw [h2, if_neg (lt_irrefl k)]
  have htake : l.take (k + 1) = l.take k ++ [l.getD k ""] := by
    rw [List.take_succ, List.getD_eq_getElem?_getD]
    have : l[k]? = some (l[k]) := List.getElem?_eq_getElem (by omega)
    rw [this]
    rfl
  unfold separate_step
  dsimp only
  rw [hk2]
  by_cases hp : (split (l.getD k "")).length > 1
  · rw [if_pos hp]
    refine ⟨by dsimp only; rw [List.length_set]; exact h1, fun i => ?_, ?_⟩
    · dsimp only
      rw [getD_set_string _ _ _ _ hk1]
      by_cases hik : i = k
      · subst hik
        rw [if_pos rfl, if_pos (show i < i + 1 by omega), option_name, if_pos hp]
      · rw [if_neg hik, h2]
        by_cases hlt : i < k
        · rw [if_pos hlt, if_pos (show i < k + 1 by omega)]
        · rw [if_neg hlt, if_neg (show ¬ i < k + 1 by omega)]
    · dsimp only
      have hf : List.filter (fun s => decide ((split s).length > 1)) [l.getD k ""] =
          [l.getD k ""] := by
        simp only [List.filter, decide_eq_true hp]
      rw [h3, htake, List.filter_append, List.append_assoc, hf]
  · rw [if_neg hp]
    refine ⟨h1, fun i => ?_, ?_⟩
    · rw [h2]
      by_cases hik : i = k
      · subst hik
        rw [if_neg (lt_irrefl i), if_pos (show i < i + 1 by omega), option_name, if_neg hp]
      · by_cases hlt : i < k
        · rw [if_pos hlt, if_pos (show i < k + 1 by omega)]
        · rw [if_neg hlt, if_neg (show ¬ i < k + 1 by omega)]
    · have hf : List.filter (fun s => decide ((split s).length > 1)) [l.getD k ""] = [] := by
        simp only [List.filter, decide_eq_false hp]
      rw [h3, htake, List.filter_append, hf, List.append_nil]

theorem separate_loop_names (split : String → List String) (l d : List String) :
    ((List.range l.length).foldl (separate_step split) (l, d)).1 = l.map (option_name split) := by
  obtain ⟨h1, h2, _⟩ := separate_loop_inv split l d l.length (le_refl _)
  apply List.ext_getElem
  · rw [h1, List.length_map]
  · intro i hi1 hi2
    have h3 := h2 i
    rw [List.getD_eq_getElem _ _ hi1, if_pos (by omega), List.getD_eq_getElem _ _ (by omega)] at h3
    rw [h3, List.getElem_map]

theorem separate_loop_doset (split : String → List String) (l d : List String) :
    ((List.range l.length).foldl (separate_step split) (l, d)).2 =
      d ++ (l.filter fun s => decide ((split s).length > 1)) := by
  obtain ⟨_, _, h3⟩ := separate_loop_inv split l d l.length (le_refl _)
  rw [h3, List.take_length]

theorem find_parameter_missing (M : Model) (name : String)
    (h : ∀ q, q ∈ M.parameters_ → q.name ≠ name) : find_parameter M name = -1 := by
  unfold find_parameter
  rw [for_return_none]
  intro i hi
  rw [List.mem_range] at hi
  rw [if_neg]
  unfold Model.parameter_name
  rw [List.getD_eq_getElem _ _ hi]
  exact h _ (List.getElem_mem hi)

theorem map_modify_same {α β : Type} (g : α → β) (f : α → α) (hf : ∀ x, g (f x) = g x)
    (l : List α) (p : Nat) : (l.modify f p).map g = l.map g := by
  induction l generalizing p with
  | nil => cases p <;> rfl
  | cons a t ih =>
    cases p with
    | zero => rw [List.modify_zero_cons, List.map_cons, List.map_cons, hf]
    | succ p => rw [List.modify_succ_cons, List.map_cons, List.map_cons, ih]

theorem set_fixed_names_and_values (P : Parameters) (p : Nat) (f : Bool) :
    (P.set_fixed p f).names_and_values = P.names_and_values := by
  unfold Parameters.names_and_values Parameters.set_fixed
  exact map_modify_same (fun q : Parameter => (q.name, q.value))
    (fun x => ⟨x.name, x.value, f⟩) (fun _ => rfl) P.parameters_ p

theorem names_of_names_and_values (P P1 : Parameters)
    (h : P1.names_and_values = P.names_and_values) :
    P1.parameters_.map (fun q => q.name) = P.parameters_.map (fun q => q.name) := by
  have := congrArg (List.map Prod.fst) h
  unfold Parameters.names_and_values at this
  rw [List.map_map, List.map_map] at this
  exact this

theorem find_parameter_found (M : Model) (name : String)
    (h : ∃ q, q ∈ M.parameters_ ∧ q.name = name) : find_parameter M name ≠ -1 := by
  obtain ⟨q, hq, hname⟩ := h
  obtain ⟨i, hi, hget⟩ := List.getElem_of_mem hq
  have hp : M.parameter_name i = name := by
    unfold Model.parameter_name
    rw [List.getD_eq_getElem _ _ hi, hget, hname]
  have key : ∀ l : List Nat, i ∈ l →
      (match for_return l
          (fun i => if M.parameter_name i = name then .ok (some (i : Int)) else .ok none) with
        | .ok (some i) => i
        | _ => -1) ≠ (-1 : Int) := by
    intro l
    induction l with
    | nil => intro h; cases h
    | cons x xs ih =>
      intro hmem
      unfold for_return
      by_cases hx : M.parameter_name x = name
      · rw [if_pos hx]
        dsimp only
        intro h
        have h2 := Int.natCast_nonneg x
        rw [h] at h2
        exact absurd h2 (by decide)
      · rw [if_neg hx]
        dsimp only
        rcases List.mem_cons.mp hmem with h1 | h1
        · exact absurd (h1 ▸ hp) hx
        · exact ih h1
  exact key _ (List.mem_range.mpr hi)

theorem fix_step_keeps (names : List String) (f : Bool) (what : String) (P : Parameters)
    (i : Nat) :
    (fix_step names f what P i).1.names_and_values = P.names_and_values ∧
    ∀ e, (fix_step names f what P i).2 = some e →
      e = Failure.exception (cannot_find_message (names.getD i "") what) := by
  unfold fix_step
  dsimp only
  by_cases h : find_parameter P.toModel (names.getD i "") ≠ -1
  · rw [if_pos h]
    exact ⟨set_fixed_names_and_values _ _ _, fun e he => by cases he⟩
  · rw [if_neg h]
    exact ⟨rfl, fun e he => by cases he; rfl⟩

/-- The loops of `set_parameters` over `fix` and over `unfix`: the names and the values of
the parameters stay, and what is thrown is the exception on a name that is not found. -/
theorem fix_loop_keeps (names : List String) (f : Bool) (what : String) (P0 P : Parameters)
    (hP : P.names_and_values = P0.names_and_values) (l : List Nat) :
    (for_state l (fix_step names f what) P).1.names_and_values = P0.names_and_values ∧
    ∀ e, (for_state l (fix_step names f what) P).2 = some e →
      ∃ name, e = Failure.exception (cannot_find_message name what) :=
  for_state_inv (fun P1 => P1.names_and_values = P0.names_and_values)
    (fun e => ∃ name, e = Failure.exception (cannot_find_message name what))
    (fix_step names f what) l P hP
    (fun s x _ hs => ⟨((fix_step_keeps names f what s x).1).trans hs,
      fun e he => ⟨_, (fix_step_keeps names f what s x).2 e he⟩⟩)

theorem missing_of_names_and_values (P0 P : Parameters)
    (hP : P.names_and_values = P0.names_and_values) (name : String)
    (h : ∀ q, q ∈ P0.parameters_ → q.name ≠ name) :
    ∀ q, q ∈ P.parameters_ → q.name ≠ name := by
  intro q hq hname
  have h1 : q.name ∈ P.parameters_.map (fun q => q.name) := List.mem_map_of_mem _ hq
  rw [names_of_names_and_values P0 P hP, List.mem_map] at h1
  obtain ⟨q0, hq0, h2⟩ := h1
  exact h q0 hq0 (h2.trans hname)

theorem found_of_names_and_values (P0 P : Parameters)
    (hP : P.names_and_values = P0.names_and_values) (name : String)
    (h : ∃ q, q ∈ P0.parameters_ ∧ q.name = name) :
    ∃ q, q ∈ P.parameters_ ∧ q.name = name := by
  obtain ⟨q0, hq0, hname⟩ := h
  have h1 : q0.name ∈ P0.parameters_.map (fun q => q.name) := List.mem_map_of_mem _ hq0
  rw [← names_of_names_and_values P0 P hP, List.mem_map] at h1
  obtain ⟨q, hq, h2⟩ := h1
  exact ⟨q, hq, h2.trans hname⟩

theorem fix_loop_fails (names : List String) (f : Bool) (what : String) (P0 P : Parameters)
    (hP : P.names_and_values = P0.names_and_values) (name : String) (hn : name ∈ names)
    (h : ∀ q, q ∈ P0.parameters_ → q.name ≠ name) :
    (for_state (List.range names.length) (fix_step names f what) P).2 ≠ none := by
  obtain ⟨i, hi, hget⟩ := List.getElem_of_mem hn
  refine for_state_fails (fun P1 => P1.names_and_values = P0.names_and_values)
    (fix_step names f what) _ P hP
    (fun s x _ hs => ((fix_step_keeps names f what s x).1).trans hs)
    ⟨i, List.mem_range.mpr hi, ?_⟩
  intro s hs
  have hfind : find_parameter s.toModel (names.getD i "") = -1 := by
    rw [List.getD_eq_getElem _ _ hi, hget]
    exact find_parameter_missing _ _ (missing_of_names_and_values P0 s hs name h)
  unfold fix_step
  dsimp only
  rw [if_neg (not_not.mpr hfind)]
  exact fun h => by cases h

theorem fix_loop_ok (names : List String) (f : Bool) (what : String) (P0 P : Parameters)
    (hP : P.names_and_values = P0.names_and_values)
    (h : ∀ name, name ∈ names → ∃ q, q ∈ P0.parameters_ ∧ q.name = name) :
    (for_state (List.range names.length) (fix_step names f what) P).1.names_and_values =
      P0.names_and_values ∧
    (for_state (List.range names.length) (fix_step names f what) P).2 = none := by
  refine for_state_ok (fun P1 => P1.names_and_values = P0.names_and_values)
    (fix_step names f what) _ P hP ?_
  intro s x hx hs
  refine ⟨((fix_step_keeps names f what s x).1).trans hs, ?_⟩
  rw [List.mem_range] at hx
  have hfind : find_parameter s.toModel (names.getD x "") ≠ -1 := by
    apply find_parameter_found
    apply found_of_names_and_values P0 s hs
    apply h
    rw [List.getD_eq_getElem _ _ hx]
    exact List.getElem_mem hx
  unfold fix_step
  dsimp only
  rw [if_pos hfind]

theorem set_step_ok (split : String → List String) (convertTo : String → Except Failure ℚ)
    (doset : List String) (st : List ℚ × Parameters) (i : Nat)
    (h1 : (split (doset.getD i "")).length = 2)
    (h2 : ∃ v, convertTo ((split (doset.getD i "")).getD 1 "") = .ok v) :
    (set_step split convertTo doset st i).2 = none ∧
    (set_step split convertTo doset st i).1.1.length = st.1.length ∧
    (set_step split convertTo doset st i).1.2.parameters_ = st.2.parameters_ := by
  obtain ⟨v, hv⟩ := h2
  unfold set_step
  simp only [h1, ne_eq, not_true_eq_false, if_false, hv]
  by_cases hp : find_parameter st.2.toModel ((split (doset.getD i "")).getD 0 "") ≠ -1
  · simp only [hp, not_false_eq_true, if_true, List.length_set, and_self]
  · simp only [hp, if_false, Parameters.set_key, and_self]

/-- The loop of `set_parameters` over the initial conditions, when each of them has a name
and a value that can be read: it does not throw, whether the names are found or not. -/
theorem set_loop_ok (split : String → List String) (convertTo : String → Except Failure ℚ)
    (doset : List String) (P : Parameters)
    (h : ∀ s, s ∈ doset → (split s).length = 2 ∧ ∃ v, convertTo ((split s).getD 1 "") = .ok v) :
    (for_state (List.range doset.length) (set_step split convertTo doset)
      (P.get_parameter_values, P)).2 = none ∧
    (for_state (List.range doset.length) (set_step split convertTo doset)
      (P.get_parameter_values, P)).1.1.length =
    (for_state (List.range doset.length) (set_step split convertTo doset)
      (P.get_parameter_values, P)).1.2.parameters_.length := by
  have := for_state_ok
    (fun st : List ℚ × Parameters => st.1.length = P.parameters_.length ∧
      st.2.parameters_ = P.parameters_)
    (set_step split convertTo doset) (List.range doset.length) (P.get_parameter_values, P)
    ⟨by simp [Model.get_parameter_values, Model.n_parameters], rfl⟩ ?_
  · obtain ⟨⟨h1, h2⟩, h3⟩ := this
    exact ⟨h3, by rw [h1, h2]⟩
  · intro st x hx ⟨h1, h2⟩
    rw [List.mem_range] at hx
    have hmem : doset.getD x "" ∈ doset := by
      rw [List.getD_eq_getElem _ _ hx]
      exact List.getElem_mem hx
    obtain ⟨g1, g2, g3⟩ := set_step_ok split convertTo doset st x (h _ hmem).1 (h _ hmem).2
    exact ⟨⟨g2.trans h1, g3.trans h2⟩, g1⟩

/-- C20, with the `set` options as the code has them. When a name given in a `fix` or
`unfix` option (the part before `=`, if there is one) is not the name of a parameter,
`set_parameters` throws the exception "Can't find parameter ... to fix." or "... to unfix.",
and the names and the values of the parameters are as before. A name given in a `set` option
raises no error when it is not found: when every name of `fix` and `unfix` is a parameter
name and every initial condition has the form `name=value` with a value that can be read,
`set_parameters` returns without an error. -/
theorem set_parameters_unknown_names (split : String → List String)
    (convertTo : String → Except Failure ℚ) (P : Parameters) (fix unfix doset : List String) :
    (∀ name, name ∈ fix.map (option_name split) ++ unfix.map (option_name split) →
      (∀ q, q ∈ P.parameters_ → q.name ≠ name) →
      (∃ name1 what, (what = "fix" ∨ what = "unfix") ∧
        (set_parameters split convertTo P fix unfix doset).2 =
          some (Failure.exception (cannot_find_message name1 what))) ∧
      (set_parameters split convertTo P fix unfix doset).1.names_and_values =
        P.names_and_values) ∧
    ((∀ name, name ∈ fix.map (option_name split) ++ unfix.map (option_name split) →
        ∃ q, q ∈ P.parameters_ ∧ q.name = name) →
      (∀ s, s ∈ all_doset split fix unfix doset →
        (split s).length = 2 ∧ ∃ v, convertTo ((split s).getD 1 "") = .ok v) →
      (set_parameters split convertTo P fix unfix doset).2 = none) := by
  have hF := fix_loop_keeps (fix.map (option_name split)) true "fix" P P rfl
    (List.range (fix.map (option_name split)).length)
  constructor
  · intro name hname hmiss
    unfold set_parameters
    dsimp only
    rw [separate_loop_names, separate_loop_names]
    rcases List.mem_append.mp hname with hin | hin
    · have hbad := fix_loop_fails (fix.map (option_name split)) true "fix" P P rfl name hin hmiss
      revert hF hbad
      generalize for_state (List.range (fix.map (option_name split)).length)
        (fix_step (fix.map (option_name split)) true "fix") P = F
      intro hF hbad
      rcases F with ⟨P1, _ | e⟩
      · exact absurd rfl hbad
      · obtain ⟨n1, hn1⟩ := hF.2 e rfl
        exact ⟨⟨n1, "fix", Or.inl rfl, by rw [hn1]⟩, hF.1⟩
    · revert hF
      generalize for_state (List.range (fix.map (option_name split)).length)
        (fix_step (fix.map (option_name split)) true "fix") P = F
      intro hF
      rcases F with ⟨P1, _ | e⟩
      · have hU := fix_loop_keeps (unfix.map (option_name split)) false "unfix" P P1 hF.1
          (List.range (unfix.map (option_name split)).length)
        have hbad := fix_loop_fails (unfix.map (option_name split)) false "unfix" P P1 hF.1
          name hin hmiss
        dsimp only
        revert hU hbad
        generalize for_state (List.range (unfix.map (option_name split)).length)
          (fix_step (unfix.map (option_name split)) false "unfix") P1 = U
        intro hU hbad
        rcases U with ⟨P2, _ | e⟩
        · exact absurd rfl hbad
        · obtain ⟨n1, hn1⟩ := hU.2 e rfl
          exact ⟨⟨n1, "unfix", Or.inr rfl, by rw [hn1]⟩, hU.1⟩
      · obtain ⟨n1, hn1⟩ := hF.2 e rfl
        exact ⟨⟨n1, "fix", Or.inl rfl, by rw [hn1]⟩, hF.1⟩
  · intro hfound hwf
    have hF2 := fix_loop_ok (fix.map (option_name split)) true "fix" P P rfl
      (fun name hn => hfound name (List.mem_append_left _ hn))
    unfold set_parameters
    dsimp only
    rw [separate_loop_names, separate_loop_names, separate_loop_doset, separate_loop_doset]
    revert hF2
    generalize for_state (List.range (fix.map (option_name split)).length)
      (fix_step (fix.map (option_name split)) true "fix") P = F
    intro hF2
    rcases F with ⟨P1, _ | e⟩
    · have hU2 := fix_loop_ok (unfix.map (option_name split)) false "unfix" P P1 hF2.1
        (fun name hn => hfound name (List.mem_append_right _ hn))
      dsimp only
      revert hU2
      generalize for_state (List.range (unfix.map (option_name split)).length)
        (fix_step (unfix.map (option_name split)) false "unfix") P1 = U
      intro hU2
      rcases U with ⟨P2, _ | e⟩
      · have hS := set_loop_ok split convertTo
          (doset ++ (fix.filter fun s => decide ((split s).length > 1)) ++
            (unfix.filter fun s => decide ((split s).length > 1))) P2 hwf
        dsimp only
        revert hS
        generalize for_state _ (set_step split convertTo
          (doset ++ (fix.filter fun s => decide ((split s).length > 1)) ++
            (unfix.filter fun s => decide ((split s).length > 1))))
          (P2.get_parameter_values, P2) = S
        intro hS
        rcases S with ⟨st, _ | e⟩
        · dsimp only
          have hlen : ¬ st.2.parameters_.length ≠ st.1.length := by
            have := hS.2
            dsimp only at this
            omega
          unfold Parameters.set_parameter_values
          rw [if_neg hlen]
        · exact absurd hS.1 (fun h => by cases h)
      · exact absurd hU2.2 (fun h => by cases h)
    · exact absurd hF2.2 (fun h => by cases h)

/-- The instance of C20 at the `fix` option `zz`, which is not the name of a parameter. -/
theorem set_parameters_unknown_names_witness :
    (∃ name1 what, (what = "fix" ∨ what = "unfix") ∧
      (set_parameters split_equals read_three two_parameters ["zz"] [] []).2 =
        some (Failure.exception (cannot_find_message name1 what))) ∧
    (set_parameters split_equals read_three two_parameters ["zz"] [] []).1.names_and_values =
      two_parameters.names_and_values :=
  (set_parameters_unknown_names split_equals read_three two_parameters ["zz"] [] []).1 "zz"
    (by decide) (by decide)

/-- The name `foo` of a `set` option is not the name of a parameter, and `set_parameters`
returns without an error, with the value under the key `foo`: the claim C20 as it stands
says that it fails. -/
theorem set_parameters_accepts_unknown_set :
    (∀ q, q ∈ two_parameters.parameters_ → q.name ≠ "foo") ∧
    (set_parameters split_equals read_three two_parameters [] [] ["foo=3"]).2 = none ∧
    (set_parameters split_equals read_three two_parameters [] [] ["foo=3"]).1.keys =
      [("foo", 3)] := by
  refine ⟨by decide, by decide, by decide⟩

/-! ## The caches (C21, C22) -/

theorem vec_at_length {α : Type} (v : List α) : vec_at v (v.length : Int) =
    .error Failure.out_of_range := by
  unfold vec_at
  simp

/-- C21. A query of `transition_P(b,r)` at the boundary `b = n_branches()` does not return
the matrix of branch `n_branches() - 1`: the assertion `b < n_branches()` stands before the
line that lowers `b` and fails; in a build with `NDEBUG` neither line is compiled, and the
query reads `transition_P_[n_branches()]`, outside a cache with one entry for each branch.
For `b < n_branches()` the two builds read the same entry `transition_P_[b][r]`. -/
theorem transition_P_boundary {Matrix : Type} (C : MatCache Matrix) (r : Int) :
    C.transition_P C.n_branches r = .error Failure.assertion ∧
    ((C.transition_P_.length : Int) = C.n_branches →
      C.transition_P_NDEBUG C.n_branches r = .error Failure.out_of_range) ∧
    ∀ b, b < C.n_branches → C.transition_P b r = C.transition_P_NDEBUG b r := by
  refine ⟨?_, ?_, ?_⟩
  · unfold MatCache.transition_P
    rw [if_pos (lt_irrefl _)]
  · intro h
    unfold MatCache.transition_P_NDEBUG
    rw [← h, vec_at_length]
  · intro b hb
    unfold MatCache.transition_P MatCache.transition_P_NDEBUG
    rw [if_neg (not_not.mpr hb)]
    dsimp only
    rw [if_neg (ne_of_lt hb)]

theorem reachable_row0 (I : matrix) (h : subA_index_t.reachable I) :
    0 < I.size1 ∧ ∀ b, I.data 0 b = -1 ∨ 0 ≤ I.data 0 b := by
  induction h with
  | construct s1 s2 h => exact ⟨h, fun b => Or.inl rfl⟩
  | invalidate I b _ ih =>
    refine ⟨ih.1, fun b' => ?_⟩
    simp only [subA_index_t.invalidate_one_branch, matrix.set]
    split
    · exact Or.inl rfl
    · exact ih.2 b'
  | update I b l names _ ih =>
    refine ⟨ih.1, fun b' => ?_⟩
    simp only [subA_index_t.update_one_branch]
    split
    · right
      rw [if_pos trivial]
      exact Int.natCast_nonneg l
    · exact ih.2 b'

/-- C22. In an index that the constructor and the updates and invalidations of branches
have built, `branch_index_valid(b)` is true exactly when the entry of row 0 for `b` is not
`-1`, and when it is true `branch_index_length(b)` returns a number that is not negative. -/
theorem branch_index_valid_length (I : matrix) (h : subA_index_t.reachable I) (b : Nat)
    (hb : b < I.size2) :
    (∃ v, subA_index_t.branch_index_valid I b = .ok v) ∧
    (subA_index_t.branch_index_valid I b = .ok true ↔ I.data 0 b ≠ -1) ∧
    (subA_index_t.branch_index_valid I b = .ok true →
      ∃ l, subA_index_t.branch_index_length I b = .ok l ∧ 0 ≤ l) := by
  obtain ⟨h1, h2⟩ := reachable_row0 I h
  have hrow : subA_index_t.row0 I b = .ok (I.data 0 b) := by
    unfold subA_index_t.row0 matrix.read
    rw [if_pos (Int.natCast_nonneg b), Int.toNat_ofNat, if_pos ⟨h1, hb⟩]
  have hvalid : subA_index_t.branch_index_valid I b = .ok (I.data 0 b != -1) := by
    unfold subA_index_t.branch_index_valid
    rw [hrow]
  have hiff : subA_index_t.branch_index_valid I b = .ok true ↔ I.data 0 b ≠ -1 := by
    rw [hvalid]
    constructor
    · intro hv
      have := Except.ok.inj hv
      simpa using this
    · intro hne
      have : (I.data 0 b != -1) = true := by simpa using hne
      rw [this]
  refine ⟨⟨_, hvalid⟩, hiff, fun hv => ?_⟩
  refine ⟨I.data 0 b, ?_, ?_⟩
  · unfold subA_index_t.branch_index_length
    rw [if_neg (not_not.mpr ⟨Int.natCast_nonneg b, by exact_mod_cast hb⟩), hv]
    exact hrow
  · rcases h2 b with h3 | h3
    · exact absurd h3 (hiff.mp hv)
    · exact h3

/-- The instance of C22 at branch 1 of an index in which that branch has been updated. -/
theorem branch_index_valid_length_witness :
    (∃ v, subA_index_t.branch_index_valid index_example (1 : Nat) = .ok v) ∧
    (subA_index_t.branch_index_valid index_example (1 : Nat) = .ok true ↔
      index_example.data 0 1 ≠ -1) ∧
    (subA_index_t.branch_index_valid index_example (1 : Nat) = .ok true →
      ∃ l, subA_index_t.branch_index_length index_example (1 : Nat) = .ok l ∧ 0 ≤ l) :=
  branch_index_valid_length index_example
    (subA_index_t.reachable.update _ 1 2 _ (subA_index_t.reachable.construct 4 2 (by decide)))
    1 (by decide)

/-! ## The names of the parameters of a `SuperModel` (C23) -/

theorem SuperModel.add_parameters_eq (S1 : SuperModel) (M : Model)
    (h : S1.short_parameter_names.length = S1.parameters_.length) :
    (List.range M.n_parameters).foldlM (fun S2 i => S2.add_parameter (M.get_parameter i)) S1 =
      .ok ⟨⟨S1.parameters_ ++ M.parameters_⟩,
        S1.short_parameter_names ++ M.parameters_.map (fun p => p.name),
        S1.model_of_index ++
          List.replicate M.n_parameters ((S1.first_index_of_model.length : Int) - 1),
        S1.first_index_of_model, S1.model_prefix⟩ := by
  obtain ⟨r, hr, hP⟩ := foldlM_range_inv
    (fun (S2 : SuperModel) i => S2.add_parameter (M.get_parameter i))
    (fun t S2 => S2 = ⟨⟨S1.parameters_ ++ M.parameters_.take t⟩,
        S1.short_parameter_names ++ (M.parameters_.take t).map (fun p => p.name),
        S1.model_of_index ++ List.replicate t ((S1.first_index_of_model.length : Int) - 1),
        S1.first_index_of_model, S1.model_prefix⟩)
    M.n_parameters S1 (by simp)
    (by
      intro k S2 hk hS2
      subst hS2
      have hk' : k < M.parameters_.length := hk
      have hget : M.get_parameter k = M.parameters_.get ⟨k, hk'⟩ := by
        unfold Model.get_parameter
        rw [List.getD_eq_getElem _ _ hk']
        rfl
      have htake : M.parameters_.take (k + 1) =
          M.parameters_.take k ++ [M.parameters_.get ⟨k, hk'⟩] := by
        rw [List.take_succ, List.getElem?_eq_getElem hk']
        rfl
      refine ⟨_, ?_, rfl⟩
      unfold SuperModel.add_parameter
      dsimp only
      rw [if_pos (by simp [h])]
      rw [hget, htake, List.map_append, List.replicate_succ', List.append_assoc,
        List.append_assoc, List.append_assoc]
      rfl)
  rw [hr, hP]
  unfold Model.n_parameters
  rw [List.take_length]

theorem SuperModel.add_submodel_parameters_eq (S : SuperModel) (pre : String) (M : Model)
    (h : S.short_parameter_names.length = S.parameters_.length) :
    S.add_submodel_parameters pre M = .ok (S.with_parameters pre M) := by
  unfold SuperModel.add_submodel_parameters SuperModel.with_parameters
  dsimp only
  rw [SuperModel.add_parameters_eq ⟨S.toModel, S.short_parameter_names, S.model_of_index,
    S.first_index_of_model ++ [S.n_parameters], S.model_prefix ++ [pre ++ "::"]⟩ M h]
  simp [SuperModel.n_submodels]

theorem getD_replicate_int (k : Nat) (v : Int) (i : Nat) (h : i < k) :
    (List.replicate k v).getD i 0 = v := by
  rw [List.getD_eq_getElem _ _ (by simpa using h), List.getElem_replicate]

theorem SuperModel.parameter_name_append (S : SuperModel) (pre : String) (M : Model) (i : Nat) :
    (S.with_parameters pre M).parameter_name i =
      if i < S.parameters_.length then S.parameter_name i
      else (M.parameters_.getD (i - S.parameters_.length) ⟨"", 0, false⟩).name := by
  unfold SuperModel.with_parameters Model.parameter_name
  dsimp only
  by_cases h : i < S.parameters_.length
  · rw [if_pos h, List.getD_append _ _ _ _ h]
  · rw [if_neg h, List.getD_append_right _ _ _ _ (by omega)]

theorem SuperModel.short_name_append (S : SuperModel) (pre : String) (M : Model) (i : Nat)
    (hs : S.short_parameter_names.length = S.parameters_.length) :
    (S.with_parameters pre M).short_parameter_names.getD i "" =
      if i < S.parameters_.length then S.short_parameter_names.getD i ""
      else (M.parameters_.getD (i - S.parameters_.length) ⟨"", 0, false⟩).name := by
  unfold SuperModel.with_parameters
  dsimp only
  by_cases h : i < S.parameters_.length
  · rw [if_pos h, List.getD_append _ _ _ _ (by omega)]
  · rw [if_neg h, List.getD_append_right _ _ _ _ (by omega), hs]
    exact List.getD_map M.parameters_ ⟨"", 0, false⟩ (fun p => p.name)

theorem SuperModel.model_of_index_append (S : SuperModel) (pre : String) (M : Model) (i : Nat)
    (hs : S.model_of_index.length = S.parameters_.length)
    (hi : i < S.parameters_.length + M.n_parameters) :
    (S.with_parameters pre M).model_of_index.getD i 0 =
      if i < S.parameters_.length then S.model_of_index.getD i 0 else (S.n_submodels : Int) := by
  unfold SuperModel.with_parameters
  dsimp only
  by_cases h : i < S.parameters_.length
  · rw [if_pos h, List.getD_append _ _ _ _ (by omega)]
  · rw [if_neg h, List.getD_append_right _ _ _ _ (by omega),
      getD_replicate_int _ _ _ (by omega)]

theorem SuperModel.first_index_append (S : SuperModel) (pre : String) (M : Model) (m : Nat)
    (hm : m < S.n_submodels + 1) :
    (S.with_parameters pre M).first_index_of_model.getD m 0 =
      if m < S.n_submodels then S.first_index_of_model.getD m 0 else S.parameters_.length := by
  unfold SuperModel.with_parameters
  dsimp only
  unfold SuperModel.n_submodels at hm ⊢
  by_cases h : m < S.first_index_of_model.length
  · rw [if_pos h, List.getD_append _ _ _ _ h]
  · rw [if_neg h, List.getD_append_right _ _ _ _ (by omega)]
    have : m - S.first_index_of_model.length = 0 := by omega
    rw [this]
    rfl

/-- The state in which `add_submodel` calls `prefix_names()` is well formed. -/
theorem SuperModel.well_formed_with_parameters (SubModels : Nat → Nat) (S : SuperModel)
    (pre : String) (M : Model) (hS : S.well_formed SubModels)
    (hM : SubModels S.n_submodels = M.n_parameters) :
    (S.with_parameters pre M).well_formed SubModels := by
  obtain ⟨w1, w2, w3, w4, w5⟩ := hS
  have hn : (S.with_parameters pre M).parameters_.length =
      S.parameters_.length + M.n_parameters := by
    simp [SuperModel.with_parameters, Model.n_parameters]
  have hsub : (S.with_parameters pre M).n_submodels = S.n_submodels + 1 := by
    simp [SuperModel.with_parameters, SuperModel.n_submodels]
  refine ⟨?_, ?_, ?_, ?_, ?_⟩
  · simp [SuperModel.with_parameters, w1]
  · simp [SuperModel.with_parameters, w2, Model.n_parameters]
  · simp [SuperModel.with_parameters, w3]
  · intro i hi
    rw [hn] at hi
    rw [SuperModel.model_of_index_append S pre M i w2 hi, SuperModel.parameter_name_append,
      SuperModel.short_name_append S pre M i w1, hsub]
    by_cases h : i < S.parameters_.length
    · simp only [h, if_true]
      rcases w4 i h with h4 | ⟨m, hm1, hm2, hm3, hm4⟩
      · exact Or.inl h4
      · right
        refine ⟨m, by omega, hm2, ?_, ?_⟩
        · rw [SuperModel.first_index_append S pre M m (by omega), if_pos hm1]; exact hm3
        · rw [SuperModel.first_index_append S pre M m (by omega), if_pos hm1]; exact hm4
    · simp only [h, if_false]
      right
      refine ⟨S.n_submodels, by omega, rfl, ?_, ?_⟩
      · rw [SuperModel.first_index_append S pre M _ (by omega), if_neg (lt_irrefl _)]; omega
      · rw [SuperModel.first_index_append S pre M _ (by omega), if_neg (lt_irrefl _), hM]; omega
  · intro m hm i hi
    rw [hsub] at hm
    rw [hn, SuperModel.first_index_append S pre M m hm]
    by_cases h : m < S.n_submodels
    · simp only [h, if_true]
      obtain ⟨h5, h6⟩ := w5 m h i hi
      refine ⟨by omega, ?_⟩
      rw [SuperModel.model_of_index_append S pre M _ w2 (by omega), if_pos h5]
      exact h6
    · simp only [h, if_false]
      have hm' : m = S.n_submodels := by omega
      subst hm'
      rw [hM] at hi
      refine ⟨by omega, ?_⟩
      rw [SuperModel.model_of_index_append S pre M _ w2 (by omega), if_neg (by omega)]

/-- When `S` has no sub-model, every parameter carries its short name when `add_submodel`
calls `prefix_names()`. -/
theorem SuperModel.with_parameters_short (SubModels : Nat → Nat) (S : SuperModel)
    (pre : String) (M : Model) (hS : S.well_formed SubModels) (h0 : S.n_submodels = 0) :
    ∀ i, i < (S.with_parameters pre M).parameters_.length →
      (S.with_parameters pre M).parameter_name i =
        (S.with_parameters pre M).short_parameter_names.getD i "" := by
  obtain ⟨w1, w2, w3, w4, w5⟩ := hS
  intro i _
  rw [SuperModel.parameter_name_append, SuperModel.short_name_append S pre M i w1]
  by_cases h : i < S.parameters_.length
  · simp only [h, if_true]
    rcases w4 i h with h4 | ⟨m, hm1, _⟩
    · exact h4.2
    · omega
  · simp only [h, if_false]

theorem SuperModel.set_name_same (S : SuperModel) (i : Nat) (s : String) :
    (S.set_name i s).same_but_names S :=
  ⟨rfl, rfl, rfl, rfl, by simp [SuperModel.set_name]⟩

theorem SuperModel.same_but_names_trans (A B C : SuperModel) (h1 : A.same_but_names B)
    (h2 : B.same_but_names C) : A.same_but_names C :=
  ⟨h1.1.trans h2.1, h1.2.1.trans h2.2.1, h1.2.2.1.trans h2.2.2.1,
    h1.2.2.2.1.trans h2.2.2.2.1, h1.2.2.2.2.trans h2.2.2.2.2⟩

theorem SuperModel.parameter_name_set_name (S : SuperModel) (i : Nat) (s : String) (k : Nat) :
    (S.set_name i s).parameter_name k =
      if k = i ∧ i < S.parameters_.length then s else S.parameter_name k := by
  unfold SuperModel.set_name Model.parameter_name
  dsimp only
  rw [List.getD_eq_getElem?_getD, List.getD_eq_getElem?_getD, List.getElem?_modify]
  by_cases hk : k < S.parameters_.length
  · rw [List.getElem?_eq_getElem hk]
    by_cases hi : i = k
    · subst hi
      simp [hk]
    · have : ¬ (k = i ∧ i < S.parameters_.length) := fun h => hi h.1.symm
      simp [hi, this]
  · rw [List.getElem?_eq_none (by omega)]
    have : ¬ (k = i ∧ i < S.parameters_.length) := fun h => hk (h.1 ▸ h.2)
    simp [this]

theorem SuperModel.mark_model_spec (prefix_marks : List Int) (m : Int) :
    (SuperModel.mark_model prefix_marks m).length = prefix_marks.length ∧
    ∀ k, (SuperModel.mark_model prefix_marks m).getD k 0 ≠ 0 →
      prefix_marks.getD k 0 ≠ 0 ∨ (m ≠ -1 ∧ k = m.toNat) := by
  unfold SuperModel.mark_model
  by_cases h : m ≠ -1
  · rw [if_pos h]
    refine ⟨List.length_set _ _ _, fun k hk => ?_⟩
    by_cases hkm : k = m.toNat
    · exact Or.inr ⟨h, hkm⟩
    · left
      rw [List.getD_eq_getElem?_getD, List.getElem?_set_ne (fun e => hkm e.symm)] at hk
      rw [List.getD_eq_getElem?_getD]
      exact hk
  · rw [if_neg h]
    exact ⟨rfl, fun k hk => Or.inl hk⟩

/-- The first loop of `prefix_names` marks a sub-model only for a collision of short names
in which one of its parameters takes part. -/
theorem SuperModel.prefix_marks_spec (SubModels : Nat → Nat) (S : SuperModel)
    (hW : S.well_formed SubModels) :
    ∀ k, ((List.range S.n_parameters).foldl (SuperModel.prefix_i_step S)
        (List.replicate S.n_submodels 0)).getD k 0 ≠ 0 → S.collides k := by
  obtain ⟨w1, w2, w3, w4, w5⟩ := hW
  have hmark : ∀ (AP : List Int) (i j : Nat), j < i → i < S.parameters_.length →
      S.short_parameter_names.getD i "" = S.short_parameter_names.getD j "" →
      (∀ k, AP.getD k 0 ≠ 0 → S.collides k) → ∀ (x : Nat), x = i ∨ x = j →
      ∀ k, (SuperModel.mark_model AP (S.model_of_index.getD x 0)).getD k 0 ≠ 0 →
        S.collides k := by
    intro AP i j hji hi hshort hAP x hx k hk
    rcases (SuperModel.mark_model_spec AP (S.model_of_index.getD x 0)).2 k hk with h | ⟨h1, h2⟩
    · exact hAP k h
    · have hxn : x < S.parameters_.length := by rcases hx with hx | hx <;> omega
      have hmk : S.model_of_index.getD x 0 = (k : Int) := by
        rcases w4 x hxn with h4 | ⟨m, _, hm2, _⟩
        · exact absurd h4.1 h1
        · rw [hm2] at h2 ⊢
          rw [Int.toNat_ofNat] at h2
          rw [h2]
      refine ⟨i, j, hji, hi, hshort, ?_⟩
      rcases hx with hx | hx
      · left; rw [← hx]; exact hmk
      · right; rw [← hx]; exact hmk
  refine foldl_range_inv (SuperModel.prefix_i_step S)
    (fun _ AP => ∀ k, AP.getD k 0 ≠ 0 → S.collides k) _ S.n_parameters ?_ ?_
  · intro k hk
    exfalso
    apply hk
    rw [List.getD_eq_getElem?_getD, List.getElem?_replicate]
    split <;> rfl
  · intro i AP hi hAP
    unfold SuperModel.prefix_i_step
    refine foldl_range_inv (SuperModel.prefix_j_step S i)
      (fun _ AP' => ∀ k, AP'.getD k 0 ≠ 0 → S.collides k) AP i hAP ?_
    intro j AP' hj hAP'
    unfold SuperModel.prefix_j_step
    by_cases hs : S.short_parameter_names.getD i "" = S.short_parameter_names.getD j ""
    · rw [if_pos hs]
      dsimp only
      exact hmark _ i j hj hi hs (hmark AP' i j hj hi hs hAP' i (Or.inl rfl)) j (Or.inr rfl)
    · rw [if_neg hs]
      exact hAP'

theorem SuperModel.prefix_name_step_eq (prefix_marks : List Int) (S2 R : SuperModel) (m u : Nat)
    (hsame : R.same_but_names S2) :
    SuperModel.prefix_name_step prefix_marks m R u =
      R.set_name (S2.first_index_of_model.getD m 0 + u)
        (SuperModel.new_name prefix_marks S2 m (S2.first_index_of_model.getD m 0 + u)) := by
  obtain ⟨s1, s2, s3, s4, s5⟩ := hsame
  unfold SuperModel.prefix_name_step SuperModel.new_name
  dsimp only
  rw [s1, s3, s4]
  by_cases h : prefix_marks.getD m 0 ≠ 0
  · rw [if_pos h, if_pos h]
  · rw [if_neg h, if_neg h]

/-- The loop of `prefix_names` over the parameters of the sub-model `m` writes the names
of its block. -/
theorem SuperModel.prefix_m_step_spec (SubModels : Nat → Nat) (prefix_marks : List Int)
    (S2 R : SuperModel) (m : Nat) (hsame : R.same_but_names S2)
    (hblock : ∀ i, i < SubModels m →
      S2.first_index_of_model.getD m 0 + i < S2.parameters_.length) :
    (SuperModel.prefix_m_step SubModels prefix_marks R m).same_but_names S2 ∧
    ∀ k, (SuperModel.prefix_m_step SubModels prefix_marks R m).parameter_name k =
      if S2.first_index_of_model.getD m 0 ≤ k ∧
          k < S2.first_index_of_model.getD m 0 + SubModels m
      then SuperModel.new_name prefix_marks S2 m k else R.parameter_name k := by
  unfold SuperModel.prefix_m_step
  refine foldl_range_inv (SuperModel.prefix_name_step prefix_marks m)
    (fun u R' => R'.same_but_names S2 ∧ ∀ k, R'.parameter_name k =
      if S2.first_index_of_model.getD m 0 ≤ k ∧ k < S2.first_index_of_model.getD m 0 + u
      then SuperModel.new_name prefix_marks S2 m k else R.parameter_name k)
    R (SubModels m) ⟨hsame, fun k => by rw [if_neg (by omega)]⟩ ?_
  intro u R' hu ⟨h1, h2⟩
  rw [SuperModel.prefix_name_step_eq prefix_marks S2 R' m u h1]
  refine ⟨SuperModel.same_but_names_trans _ _ _ (SuperModel.set_name_same _ _ _) h1, ?_⟩
  intro k
  rw [SuperModel.parameter_name_set_name, h2, h1.2.2.2.2]
  by_cases hk : k = S2.first_index_of_model.getD m 0 + u
  · subst hk
    rw [if_pos ⟨rfl, hblock u hu⟩,
      if_pos (show S2.first_index_of_model.getD m 0 ≤ S2.first_index_of_model.getD m 0 + u ∧
        S2.first_index_of_model.getD m 0 + u < S2.first_index_of_model.getD m 0 + (u + 1) from
        ⟨by omega, by omega⟩)]
  · rw [if_neg (fun h => hk h.1)]
    by_cases hq : S2.first_index_of_model.getD m 0 ≤ k ∧
        k < S2.first_index_of_model.getD m 0 + u
    · rw [if_pos hq, if_pos (show S2.first_index_of_model.getD m 0 ≤ k ∧
        k < S2.first_index_of_model.getD m 0 + (u + 1) from ⟨hq.1, by omega⟩)]
    · rw [if_neg hq, if_neg (show ¬ (S2.first_index_of_model.getD m 0 ≤ k ∧
        k < S2.first_index_of_model.getD m 0 + (u + 1)) from fun h => hq ⟨h.1, by omega⟩)]

/-- The second loop of `prefix_names`: a parameter of a sub-model gets the name that the
mark of its sub-model asks for, a parameter of the `SuperModel` itself keeps its name. -/
theorem SuperModel.prefix_loop_spec (SubModels : Nat → Nat) (prefix_marks : List Int)
    (S2 : SuperModel) (hW : S2.well_formed SubModels) :
    ((List.range S2.n_submodels).foldl (SuperModel.prefix_m_step SubModels prefix_marks)
        S2).same_but_names S2 ∧
    (∀ (k m : Nat), k < S2.parameters_.length → S2.model_of_index.getD k 0 = (m : Int) →
      m < S2.n_submodels →
      ((List.range S2.n_submodels).foldl (SuperModel.prefix_m_step SubModels prefix_marks)
        S2).parameter_name k = SuperModel.new_name prefix_marks S2 m k) ∧
    (∀ k, S2.model_of_index.getD k 0 = -1 →
      ((List.range S2.n_submodels).foldl (SuperModel.prefix_m_step SubModels prefix_marks)
        S2).parameter_name k = S2.parameter_name k) := by
  obtain ⟨w1, w2, w3, w4, w5⟩ := hW
  have hin : ∀ t k, t < S2.n_submodels → S2.first_index_of_model.getD t 0 ≤ k →
      k < S2.first_index_of_model.getD t 0 + SubModels t →
      S2.model_of_index.getD k 0 = (t : Int) := by
    intro t k ht hk1 hk2
    have := (w5 t ht (k - S2.first_index_of_model.getD t 0) (by omega)).2
    rw [show S2.first_index_of_model.getD t 0 + (k - S2.first_index_of_model.getD t 0) = k
      by omega] at this
    exact this
  have h := foldl_range_inv (SuperModel.prefix_m_step SubModels prefix_marks)
    (fun t R => R.same_but_names S2 ∧
      (∀ (k m : Nat), k < S2.parameters_.length → S2.model_of_index.getD k 0 = (m : Int) →
        m < t → R.parameter_name k = SuperModel.new_name prefix_marks S2 m k) ∧
      (∀ (k : Nat), (∀ (m : Nat), m < t → S2.model_of_index.getD k 0 ≠ (m : Int)) →
        R.parameter_name k = S2.parameter_name k))
    S2 S2.n_submodels
    ⟨⟨rfl, rfl, rfl, rfl, rfl⟩, fun k m _ _ hm => absurd hm (Nat.not_lt_zero m),
      fun k _ => rfl⟩
    (by
      intro t R ht ⟨h1, h2, h3⟩
      obtain ⟨g1, g2⟩ := SuperModel.prefix_m_step_spec SubModels prefix_marks S2 R t h1
        (fun i hi => (w5 t ht i hi).1)
      refine ⟨g1, ?_, ?_⟩
      · intro k m hkn hkm hm
        rw [g2]
        by_cases hq : S2.first_index_of_model.getD t 0 ≤ k ∧
            k < S2.first_index_of_model.getD t 0 + SubModels t
        · rw [if_pos hq]
          have := hin t k ht hq.1 hq.2
          rw [hkm] at this
          have hmt : m = t := by exact_mod_cast this
          rw [hmt]
        · rw [if_neg hq]
          have hmt : m ≠ t := by
            intro hmt
            subst hmt
            rcases w4 k hkn with h4 | ⟨m', _, hm2, hm3, hm4⟩
            · rw [hkm] at h4
              have := h4.1
              omega
            · rw [hkm] at hm2
              have hmm : m = m' := by exact_mod_cast hm2
              subst hmm
              exact hq ⟨hm3, hm4⟩
          exact h2 k m hkn hkm (by omega)
      · intro k hk
        rw [g2]
        by_cases hq : S2.first_index_of_model.getD t 0 ≤ k ∧
            k < S2.first_index_of_model.getD t 0 + SubModels t
        · exact absurd (hin t k ht hq.1 hq.2) (hk t (by omega))
        · rw [if_neg hq]
          exact h3 k (fun m hm => hk m (by omega)))
  refine ⟨h.1, fun k m hkn hkm hm => h.2.1 k m hkn hkm hm, fun k hk => h.2.2 k ?_⟩
  intro m _ hm
  rw [hk] at hm
  omega

/-- `prefix_names()` returns on a well-formed state; it changes names only, and a
parameter carries its short name unless its sub-model takes part in a collision of short
names. -/
theorem SuperModel.prefix_names_spec (SubModels : Nat → Nat) (S2 : SuperModel)
    (hW : S2.well_formed SubModels)
    (h1 : S2.n_submodels ≤ 1 → ∀ i, i < S2.parameters_.length →
      S2.parameter_name i = S2.short_parameter_names.getD i "") :
    ∃ S3, SuperModel.prefix_names SubModels S2 = .ok S3 ∧ S3.same_but_names S2 ∧
      ∀ i, i < S2.parameters_.length →
        S3.parameter_name i = S2.short_parameter_names.getD i "" ∨
        ∃ m : Nat, S2.model_of_index.getD i 0 = (m : Int) ∧ S2.collides m := by
  have hassert : ¬ S2.n_parameters ≠ S2.short_parameter_names.length := by
    rw [not_not, hW.1]
    rfl
  unfold SuperModel.prefix_names
  rw [if_neg hassert]
  by_cases hn : S2.n_submodels ≤ 1
  · rw [if_pos hn]
    exact ⟨S2, rfl, ⟨rfl, rfl, rfl, rfl, rfl⟩, fun i hi => Or.inl (h1 hn i hi)⟩
  · rw [if_neg hn]
    obtain ⟨g1, g2, g3⟩ := SuperModel.prefix_loop_spec SubModels
      ((List.range S2.n_parameters).foldl (SuperModel.prefix_i_step S2)
        (List.replicate S2.n_submodels 0)) S2 hW
    refine ⟨_, rfl, g1, ?_⟩
    intro i hi
    rcases hW.2.2.2.1 i hi with h4 | ⟨m, hm1, hm2, _, _⟩
    · left
      rw [g3 i h4.1]
      exact h4.2
    · rw [g2 i m hi hm2 hm1]
      unfold SuperModel.new_name
      by_cases hf : ((List.range S2.n_parameters).foldl (SuperModel.prefix_i_step S2)
          (List.replicate S2.n_submodels 0)).getD m 0 ≠ 0
      · right
        exact ⟨m, hm2, SuperModel.prefix_marks_spec SubModels S2 hW m hf⟩
      · left
        rw [if_neg hf]

theorem SuperModel.duplicate_j_step_same (i : Nat) (S : SuperModel) (j : Nat) :
    (SuperModel.duplicate_j_step i S j).same_but_names S := by
  unfold SuperModel.duplicate_j_step
  split
  · dsimp only
    split <;> split
    · exact SuperModel.same_but_names_trans _ _ _ (SuperModel.set_name_same _ _ _)
        (SuperModel.set_name_same _ _ _)
    · exact SuperModel.set_name_same _ _ _
    · exact SuperModel.set_name_same _ _ _
    · exact ⟨rfl, rfl, rfl, rfl, rfl⟩
  · exact ⟨rfl, rfl, rfl, rfl, rfl⟩

/-- The check for duplicate names changes names only. -/
theorem SuperModel.duplicate_loop_same (first len : Nat) (S : SuperModel) :
    ((List.range' first len).foldl (SuperModel.duplicate_i_step first) S).same_but_names S := by
  have h := foldl_range'_inv (SuperModel.duplicate_i_step first)
    (fun _ R => R.same_but_names S) len first S ⟨rfl, rfl, rfl, rfl, rfl⟩
    (by
      intro i R _ _ hR
      unfold SuperModel.duplicate_i_step
      exact foldl_range_inv (SuperModel.duplicate_j_step i) (fun _ R' => R'.same_but_names S) R
        first hR
        (fun j R' _ hR' => SuperModel.same_but_names_trans _ _ _
          (SuperModel.duplicate_j_step_same i R' j) hR'))
  exact h

/-- The check for duplicate names changes nothing when no new name is the name of an
earlier parameter. -/
theorem SuperModel.duplicate_loop_id (first len : Nat) (S : SuperModel)
    (h : ∀ i j, first ≤ i → i < first + len → j < first →
      S.parameter_name i ≠ S.parameter_name j) :
    (List.range' first len).foldl (SuperModel.duplicate_i_step first) S = S := by
  have hfold := foldl_range'_inv (SuperModel.duplicate_i_step first)
    (fun _ R => R = S) len first S rfl
    (by
      intro i R hi1 hi2 hR
      subst hR
      unfold SuperModel.duplicate_i_step
      exact foldl_range_inv (SuperModel.duplicate_j_step i) (fun _ R' => R' = R) R
        first rfl
        (by
          intro j R' hj hR'
          subst hR'
          unfold SuperModel.duplicate_j_step
          rw [if_neg (h i j hi1 hi2 hj)]))
  exact hfold

theorem nodup_getD_ne (l : List String) (hl : l.Nodup) (a b : Nat) (ha : a < l.length)
    (hb : b < l.length) (hab : a ≠ b) : l.getD a "" ≠ l.getD b "" := by
  rw [List.getD_eq_getElem _ _ ha, List.getD_eq_getElem _ _ hb]
  intro h
  exact hab ((List.Nodup.getElem_inj_iff hl).mp h)

/-- C23, with the check for duplicate names as the code has it. On a well-formed
`SuperModel`, `add_submodel` returns, and the names are these. If no two parameters share a
short name, every parameter name equals its short name. A sub-model none of whose short
names is the short name of another parameter has all its names without prefix when
`prefix_names()` has run; and the check for duplicate names that follows changes nothing
when no name of the added sub-model is then the name of an earlier parameter. -/
theorem add_submodel_prefixes (SubModels : Nat → Nat) (S : SuperModel) (pre : String)
    (M : Model) (hS : S.well_formed SubModels)
    (hM : SubModels S.n_submodels = M.n_parameters) :
    ∃ S3 S4, SuperModel.before_duplicate_check SubModels S pre M = .ok S3 ∧
      SuperModel.add_submodel SubModels S pre M = .ok S4 ∧
      S4.short_parameter_names =
        S.short_parameter_names ++ M.parameters_.map (fun p => p.name) ∧
      S3.short_parameter_names = S4.short_parameter_names ∧
      S4.first_index_of_model = S.first_index_of_model ++ [S.n_parameters] ∧
      S4.parameters_.length = S.parameters_.length + M.n_parameters ∧
      (S4.short_parameter_names.Nodup → ∀ i, i < S4.parameters_.length →
        S4.parameter_name i = S4.short_parameter_names.getD i "") ∧
      (∀ m, m < S.n_submodels + 1 →
        (∀ i k, i < SubModels m → k < S4.parameters_.length →
          k ≠ S4.first_index_of_model.getD m 0 + i →
          S4.short_parameter_names.getD k "" ≠
            S4.short_parameter_names.getD (S4.first_index_of_model.getD m 0 + i) "") →
        ∀ i, i < SubModels m →
          S3.parameter_name (S4.first_index_of_model.getD m 0 + i) =
            S4.short_parameter_names.getD (S4.first_index_of_model.getD m 0 + i) "") ∧
      ((∀ i j, S.n_parameters ≤ i → i < S4.parameters_.length → j < S.n_parameters →
          S3.parameter_name i ≠ S3.parameter_name j) → S4 = S3) := by
  have hW2 := SuperModel.well_formed_with_parameters SubModels S pre M hS hM
  have hsub : (S.with_parameters pre M).n_submodels = S.n_submodels + 1 := by
    simp [SuperModel.with_parameters, SuperModel.n_submodels]
  have hn2 : (S.with_parameters pre M).parameters_.length =
      S.parameters_.length + M.n_parameters := by
    simp [SuperModel.with_parameters, Model.n_parameters]
  obtain ⟨S3, hS3, hsame3, hnames⟩ := SuperModel.prefix_names_spec SubModels
    (S.with_parameters pre M) hW2
    (fun h => SuperModel.with_parameters_short SubModels S pre M hS (by omega))
  have hpar := SuperModel.add_submodel_parameters_eq S pre M hS.1
  obtain ⟨t1, t2, t3, t4, t5⟩ := hsame3
  have hfirst : S3.first_index_of_model.getLastD 0 = S.n_parameters := by
    rw [t3]
    exact List.getLastD_concat _ _ _
  have hlen3 : S3.n_parameters = S.n_parameters + M.n_parameters := by
    show S3.parameters_.length = _
    rw [t5, hn2]
    rfl
  obtain ⟨u1, u2, u3, u4, u5⟩ := SuperModel.duplicate_loop_same S.n_parameters
    (S3.n_parameters - S.n_parameters) S3
  have hS4 : SuperModel.add_submodel SubModels S pre M =
      .ok ((List.range' S.n_parameters (S3.n_parameters - S.n_parameters)).foldl
        (SuperModel.duplicate_i_step S.n_parameters) S3) := by
    unfold SuperModel.add_submodel
    rw [hpar]
    dsimp only
    rw [hS3]
    dsimp only
    rw [hfirst]
  have hid : (∀ i j, S.n_parameters ≤ i → i < S3.parameters_.length → j < S.n_parameters →
      S3.parameter_name i ≠ S3.parameter_name j) →
      (List.range' S.n_parameters (S3.n_parameters - S.n_parameters)).foldl
        (SuperModel.duplicate_i_step S.n_parameters) S3 = S3 := by
    intro h
    apply SuperModel.duplicate_loop_id
    intro i j hi1 hi2 hj
    exact h i j hi1 (by
      have : S3.n_parameters = S3.parameters_.length := rfl
      omega) hj
  have hshort2 : (S.with_parameters pre M).short_parameter_names.length =
      (S.with_parameters pre M).parameters_.length := hW2.1
  refine ⟨S3, _, ?_, hS4, ?_, ?_, ?_, ?_, ?_, ?_, ?_⟩
  · unfold SuperModel.before_duplicate_check
    rw [hpar]
    exact hS3
  · rw [u1, t1]
    rfl
  · rw [u1]
  · rw [u3, t3]
    rfl
  · rw [u5, t5, hn2]
  · intro hnd i hi
    rw [u1, t1] at hnd
    rw [u5, t5] at hi
    have hall : ∀ k, k < (S.with_parameters pre M).parameters_.length →
        S3.parameter_name k = (S.with_parameters pre M).short_parameter_names.getD k "" := by
      intro k hk
      rcases hnames k hk with h | ⟨m, _, a, b, hba, ha, hab, _⟩
      · exact h
      · exact absurd hab (nodup_getD_ne _ hnd a b (by omega) (by omega) (by omega))
    rw [hid (by
      intro a b ha1 ha2 hb
      rw [t5] at ha2
      have hb2 : b < (S.with_parameters pre M).parameters_.length := by
        have : S.n_parameters = S.parameters_.length := rfl
        omega
      rw [hall a ha2, hall b hb2]
      exact nodup_getD_ne _ hnd a b (by omega) (by omega) (by omega))]
    rw [hall i hi, t1]
  · intro m hm hfree i hi
    rw [u1, u3, u5, t1, t3, t5] at hfree
    rw [u3, u1, t3, t1]
    obtain ⟨hk1, hk2⟩ := hW2.2.2.2.2 m (by omega) i hi
    rcases hnames _ hk1 with h | ⟨m', hm', a, b, hba, ha, hab, hor⟩
    · exact h
    · exfalso
      rw [hk2] at hm'
      have hmm : m = m' := by exact_mod_cast hm'
      subst hmm
      have hblock : ∀ x, x < (S.with_parameters pre M).parameters_.length →
          (S.with_parameters pre M).model_of_index.getD x 0 = (m : Int) →
          ∃ i', i' < SubModels m ∧
            x = (S.with_parameters pre M).first_index_of_model.getD m 0 + i' := by
        intro x hx hxm
        rcases hW2.2.2.2.1 x hx with h4 | ⟨m2, _, h42, h43, h44⟩
        · rw [hxm] at h4
          have := h4.1
          omega
        · rw [hxm] at h42
          have hm2 : m = m2 := by exact_mod_cast h42
          subst hm2
          exact ⟨x - (S.with_parameters pre M).first_index_of_model.getD m 0, by omega,
            by omega⟩
      rcases hor with hor | hor
      · obtain ⟨i', hi', hx⟩ := hblock a ha hor
        exact hfree i' b hi' (by omega) (by omega) (hx ▸ hab.symm)
      · obtain ⟨i', hi', hx⟩ := hblock b (by omega) hor
        exact hfree i' a hi' ha (by omega) (hx ▸ hab)
  · intro h
    exact hid (fun i j hi1 hi2 hj => h i j hi1 (by rw [u5]; exact hi2) hj)

/-- The instance of C23 at a `SuperModel` with a parameter `mu` and a sub-model `S` with the
parameter `x`, to which the sub-model `T` with the parameter `y` is added. -/
theorem add_submodel_prefixes_witness :
    ∃ S3 S4, SuperModel.before_duplicate_check (fun _ => 1) one_submodel "T"
        (one_parameter "y") = .ok S3 ∧
      SuperModel.add_submodel (fun _ => 1) one_submodel "T" (one_parameter "y") = .ok S4 ∧
      S4.short_parameter_names =
        one_submodel.short_parameter_names ++
          (one_parameter "y").parameters_.map (fun p => p.name) ∧
      S3.short_parameter_names = S4.short_parameter_names ∧
      S4.first_index_of_model =
        one_submodel.first_index_of_model ++ [one_submodel.n_parameters] ∧
      S4.parameters_.length = one_submodel.parameters_.length +
        (one_parameter "y").n_parameters ∧
      (S4.short_parameter_names.Nodup → ∀ i, i < S4.parameters_.length →
        S4.parameter_name i = S4.short_parameter_names.getD i "") ∧
      (∀ m, m < one_submodel.n_submodels + 1 →
        (∀ i k, i < (fun _ => 1) m → k < S4.parameters_.length →
          k ≠ S4.first_index_of_model.getD m 0 + i →
          S4.short_parameter_names.getD k "" ≠
            S4.short_parameter_names.getD (S4.first_index_of_model.getD m 0 + i) "") →
        ∀ i, i < (fun _ => 1) m →
          S3.parameter_name (S4.first_index_of_model.getD m 0 + i) =
            S4.short_parameter_names.getD (S4.first_index_of_model.getD m 0 + i) "") ∧
      ((∀ i j, one_submodel.n_parameters ≤ i → i < S4.parameters_.length →
          j < one_submodel.n_parameters →
          S3.parameter_name i ≠ S3.parameter_name j) → S4 = S3) :=
  add_submodel_prefixes (fun _ => 1) one_submodel "T" (one_parameter "y") (by
    unfold SuperModel.well_formed
    decide) (by decide)

/-- The sub-model `U` has the one parameter `S::x`, whose short name is the short name of
no other parameter, and its name is `U::S::x`: the check for duplicate names finds it equal
to the name `S::x` that the parameter `x` of the sub-model `S` has got, and gives both their
prefix. The claim C23 as it stands says that such a sub-model keeps its names unprefixed. -/
theorem add_submodel_prefixes_without_collision :
    SuperModel.names_of three_submodels =
      some (["S::S::x", "T::x", "U::S::x"], ["x", "x", "S::x"]) := by
  decide

/-! ## The moves of the sampler (C24, C25) -/

theorem Move.moves_add (g : Move) (l : ℚ) (m : Move) : (g.add l m).moves = g.moves ++ [m] := rfl

theorem Move.moves_create (s : String) : (Move.create s).moves = [] := rfl

/-- The groups of the sampler that `do_sampling` constructs. -/
theorem do_sampling_construct_moves (P : Parameters) (n_imodels : Nat)
    (alignment_moves tree_moves MH_but_no_slice_moves slice_moves MH_moves : Move)
    (log_n_branches : ℚ) :
    (do_sampling_construct P n_imodels alignment_moves tree_moves MH_but_no_slice_moves
        slice_moves MH_moves log_n_branches).moves =
      (if n_imodels > 0 then [alignment_moves] else []) ++
        [tree_moves, MH_but_no_slice_moves, MH_moves] ++
        (if P.key "disable_slice_sampling" < 1 / 2 then [slice_moves] else []) := by
  unfold do_sampling_construct
  by_cases h1 : n_imodels > 0 <;> by_cases h2 : P.key "enable_MH_sampling" > 1 / 2 <;>
    by_cases h3 : P.key "disable_slice_sampling" < 1 / 2 <;>
    simp only [h1, h2, h3, decide_True, decide_False, if_true, if_false, Move.moves_add,
      Move.moves_create, List.nil_append, List.cons_append, List.append_nil,
      Bool.false_eq_true]


theorem foldl_range_getD {σ : Type} (g : σ → String → σ) (l : List String) (s0 : σ) :
    (List.range l.length).foldl (fun s i => g s (l.getD i "")) s0 = l.foldl g s0 := by
  induction l using List.reverseRecOn generalizing s0 with
  | nil => rfl
  | append_singleton l x ih =>
    rw [List.length_append, List.length_singleton, List.range_succ, List.foldl_append,
      List.foldl_append]
    simp only [List.foldl_cons, List.foldl_nil]
    have h1 : (l ++ [x]).getD l.length "" = x := by
      rw [List.getD_eq_getElem?_getD, List.getElem?_append_right (le_refl _)]
      simp
    have h2 : (List.range l.length).foldl (fun s i => g s ((l ++ [x]).getD i "")) s0 =
        (List.range l.length).foldl (fun s i => g s (l.getD i "")) s0 := by
      apply List.foldl_ext
      intro s i hi
      rw [List.mem_range] at hi
      rw [List.getD_eq_getElem?_getD, List.getD_eq_getElem?_getD,
        List.getElem?_append_left hi]
    rw [h1, h2, ih]

theorem Move.name_set_enabled (f : Bool) (s : String) (m : Move) :
    (m.set_enabled f s).name = m.name := by
  cases m; rfl

theorem Move.attributes_set_enabled (f : Bool) (s : String) (m : Move) :
    (m.set_enabled f s).attributes = m.attributes := by
  cases m; rfl

theorem Move.enabled_set_enabled (f : Bool) (s : String) (m : Move) :
    (m.set_enabled f s).enabled = if m.name = s ∨ s ∈ m.attributes then f else m.enabled := by
  cases m; rfl

theorem Move.moves_set_enabled (f : Bool) (s : String) (m : Move) :
    (m.set_enabled f s).moves = Move.set_enabled_all f s m.moves := by
  cases m; rfl

theorem Move.set_enabled_all_eq_map (f : Bool) (s : String) (ms : List Move) :
    Move.set_enabled_all f s ms = ms.map (Move.set_enabled f s) := by
  induction ms with
  | nil => rfl
  | cons m ms ih => rw [Move.set_enabled_all, ih, List.map_cons]

mutual
/-- The moves of a tree after `enable(s)` or `disable(s)` are the moves of the tree, each
after `enable(s)` or `disable(s)`. -/
theorem Move.all_moves_set_enabled (f : Bool) (s : String) :
    ∀ m : Move, (m.set_enabled f s).all_moves = m.all_moves.map (Move.set_enabled f s)
  | .mk n a e ms l => by
    rw [Move.set_enabled, Move.all_moves, Move.all_moves, List.map_cons,
      Move.all_moves_list_set_enabled f s ms]
    rfl
theorem Move.all_moves_list_set_enabled (f : Bool) (s : String) :
    ∀ ms : List Move, Move.all_moves_list (Move.set_enabled_all f s ms) =
      (Move.all_moves_list ms).map (Move.set_enabled f s)
  | [] => rfl
  | m :: ms => by
    rw [Move.set_enabled_all, Move.all_moves_list, Move.all_moves_list, List.map_append,
      Move.all_moves_set_enabled f s m, Move.all_moves_list_set_enabled f s ms]
end

theorem Move.all_moves_foldl (f : Bool) (l : List String) (m : Move) :
    (l.foldl (fun t s => t.set_enabled f s) m).all_moves =
      m.all_moves.map (fun x => l.foldl (fun t s => t.set_enabled f s) x) := by
  induction l generalizing m with
  | nil => simp
  | cons s l ih =>
    rw [List.foldl_cons, ih, Move.all_moves_set_enabled, List.map_map]
    rfl

theorem Move.foldl_set_enabled_name (f : Bool) (l : List String) (m : Move) :
    (l.foldl (fun t s => t.set_enabled f s) m).name = m.name ∧
    (l.foldl (fun t s => t.set_enabled f s) m).attributes = m.attributes := by
  induction l generalizing m with
  | nil => exact ⟨rfl, rfl⟩
  | cons s l ih =>
    rw [List.foldl_cons]
    exact ⟨(ih _).1.trans (Move.name_set_enabled f s m),
      (ih _).2.trans (Move.attributes_set_enabled f s m)⟩

/-- After the loop over `enable`, a move whose name or attribute is in the list is
enabled. -/
theorem Move.foldl_enable (l : List String) (m : Move) :
    (m.enabled = true ∨ ∃ s, s ∈ l ∧ (m.name = s ∨ s ∈ m.attributes)) →
    (l.foldl (fun t s => t.set_enabled true s) m).enabled = true := by
  induction l generalizing m with
  | nil =>
    intro h
    rcases h with h | ⟨s, hs, _⟩
    · exact h
    · cases hs
  | cons x l ih =>
    intro h
    rw [List.foldl_cons]
    apply ih
    by_cases hx : m.name = x ∨ x ∈ m.attributes
    · left
      rw [Move.enabled_set_enabled, if_pos hx]
    · rcases h with h | ⟨s, hs, hm⟩
      · left
        rw [Move.enabled_set_enabled, if_neg hx]
        exact h
      · right
        rcases List.mem_cons.mp hs with h1 | h1
        · subst h1
          exact absurd hm hx
        · refine ⟨s, h1, ?_⟩
          rw [Move.name_set_enabled, Move.attributes_set_enabled]
          exact hm

theorem Move.moves_names_set_enabled (f : Bool) (s : String) (m : Move) :
    (m.set_enabled f s).moves.map Move.name = m.moves.map Move.name := by
  rw [Move.moves_set_enabled, Move.set_enabled_all_eq_map, List.map_map]
  apply List.map_congr_left
  intro x _
  exact Move.name_set_enabled f s x

theorem Move.moves_names_foldl (f : Bool) (l : List String) (m : Move) :
    (l.foldl (fun t s => t.set_enabled f s) m).moves.map Move.name = m.moves.map Move.name := by
  induction l generalizing m with
  | nil => rfl
  | cons s l ih => rw [List.foldl_cons, ih, Move.moves_names_set_enabled]

/-- The loops over `disable` and `enable` leave the groups of the sampler in their places. -/
theorem do_sampling_sampler_names (split : String → List String)
    (disable_arg enable_arg : Option String) (P : Parameters) (n_imodels : Nat)
    (alignment_moves tree_moves MH_but_no_slice_moves slice_moves MH_moves : Move)
    (log_n_branches : ℚ) :
    (do_sampling_sampler split disable_arg enable_arg P n_imodels alignment_moves tree_moves
        MH_but_no_slice_moves slice_moves MH_moves log_n_branches).moves.map Move.name =
      (do_sampling_construct P n_imodels alignment_moves tree_moves MH_but_no_slice_moves
        slice_moves MH_moves log_n_branches).moves.map Move.name := by
  unfold do_sampling_sampler
  dsimp only
  rw [foldl_range_getD (fun t s => Move.set_enabled true s t),
    foldl_range_getD (fun t s => Move.set_enabled false s t),
    Move.moves_names_foldl, Move.moves_names_foldl]

/-- C24, with the slice moves as the code has them. The groups of the sampler that
`do_sampling` constructs are, in this order: the alignment moves, present exactly when the
model has an indel model; the tree moves; the parameter MH moves without a slice
counterpart; the parameter MH moves with slice counterparts; and the parameter slice moves,
present exactly when the key `disable_slice_sampling` is below 0.5. The tree moves and the
two groups of MH moves are always added, and the loops over `disable` and `enable` leave
the groups in their places. -/
theorem do_sampling_groups (P : Parameters) (n_imodels : Nat)
    (alignment_moves tree_moves MH_but_no_slice_moves slice_moves MH_moves : Move)
    (log_n_branches : ℚ) :
    (do_sampling_construct P n_imodels alignment_moves tree_moves MH_but_no_slice_moves
        slice_moves MH_moves log_n_branches).moves =
      (if n_imodels > 0 then [alignment_moves] else []) ++
        [tree_moves, MH_but_no_slice_moves, MH_moves] ++
        (if P.key "disable_slice_sampling" < 1 / 2 then [slice_moves] else []) ∧
    ∀ (split : String → List String) (disable_arg enable_arg : Option String),
      (do_sampling_sampler split disable_arg enable_arg P n_imodels alignment_moves tree_moves
          MH_but_no_slice_moves slice_moves MH_moves log_n_branches).moves.map Move.name =
        (do_sampling_construct P n_imodels alignment_moves tree_moves MH_but_no_slice_moves
          slice_moves MH_moves log_n_branches).moves.map Move.name :=
  ⟨do_sampling_construct_moves P n_imodels alignment_moves tree_moves MH_but_no_slice_moves
    slice_moves MH_moves log_n_branches,
   fun split disable_arg enable_arg => do_sampling_sampler_names split disable_arg enable_arg P
    n_imodels alignment_moves tree_moves MH_but_no_slice_moves slice_moves MH_moves
    log_n_branches⟩

/-- With the key `disable_slice_sampling` set to 1 the sampler has no group of slice moves:
the claim C24 as it stands says that every group but the alignment moves is always
added. -/
theorem do_sampling_without_slice_moves :
    no_slice_parameters.key "disable_slice_sampling" = 1 ∧
    (do_sampling_construct no_slice_parameters 1 (example_group "alignment")
        (example_group "tree") (example_group "MH_but_no_slice") (example_group "slice")
        (example_group "MH") 3).moves.map Move.name =
      ["alignment", "tree", "MH_but_no_slice", "MH"] := by
  have hk : no_slice_parameters.key "disable_slice_sampling" = 1 := by decide
  refine ⟨hk, ?_⟩
  rw [do_sampling_construct_moves, hk, if_pos (by decide), if_neg (by norm_num)]
  decide

/-- C25. The sampler of `do_sampling` is the constructed sampler, with all its groups,
after `disable(s)` for every entry of the option `disable` in the order of the list and
then `enable(s)` for every entry of the option `enable` in the order of the list. A move of
its tree whose name (or one of whose attributes) is listed in both options is enabled. -/
theorem do_sampling_disable_then_enable (split : String → List String)
    (disable_arg enable_arg : String) (P : Parameters) (n_imodels : Nat)
    (alignment_moves tree_moves MH_but_no_slice_moves slice_moves MH_moves : Move)
    (log_n_branches : ℚ) :
    do_sampling_sampler split (some disable_arg) (some enable_arg) P n_imodels alignment_moves
        tree_moves MH_but_no_slice_moves slice_moves MH_moves log_n_branches =
      (split enable_arg).foldl (fun t s => t.set_enabled true s)
        ((split disable_arg).foldl (fun t s => t.set_enabled false s)
          (do_sampling_construct P n_imodels alignment_moves tree_moves MH_but_no_slice_moves
            slice_moves MH_moves log_n_branches)) ∧
    ∀ s, s ∈ split disable_arg → s ∈ split enable_arg →
      ∀ m, m ∈ (do_sampling_sampler split (some disable_arg) (some enable_arg) P n_imodels
          alignment_moves tree_moves MH_but_no_slice_moves slice_moves MH_moves
          log_n_branches).all_moves →
        (m.name = s ∨ s ∈ m.attributes) → m.enabled = true := by
  have h : do_sampling_sampler split (some disable_arg) (some enable_arg) P n_imodels
      alignment_moves tree_moves MH_but_no_slice_moves slice_moves MH_moves log_n_branches =
      (split enable_arg).foldl (fun t s => t.set_enabled true s)
        ((split disable_arg).foldl (fun t s => t.set_enabled false s)
          (do_sampling_construct P n_imodels alignment_moves tree_moves MH_but_no_slice_moves
            slice_moves MH_moves log_n_branches)) := by
    unfold do_sampling_sampler
    dsimp only
    rw [foldl_range_getD (fun t s => Move.set_enabled true s t),
      foldl_range_getD (fun t s => Move.set_enabled false s t)]
  refine ⟨h, ?_⟩
  intro s _ hs m hm hname
  rw [h, Move.all_moves_foldl, List.mem_map] at hm
  obtain ⟨x, _, hx⟩ := hm
  subst hx
  obtain ⟨h1, h2⟩ := Move.foldl_set_enabled_name true (split enable_arg) x
  rw [h1, h2] at hname
  exact Move.foldl_enable (split enable_arg) x (Or.inr ⟨s, hs, hname⟩)

/-! ## The branches toward a node (C26) -/

theorem vec_at_nat {α : Type} (v : List α) (k : Nat) (hk : k < v.length) :
    vec_at v (k : Int) = .ok (v.get ⟨k, hk⟩) := by
  unfold vec_at
  rw [if_pos (Int.natCast_nonneg k), Int.toNat_ofNat, List.get?_eq_get hk]

theorem toward_push_loop (R : List const_branchview) :
    (List.range R.length).foldlM toward_push_step R = .ok (R ++ R) := by
  obtain ⟨r, hr, hP⟩ := foldlM_range_inv toward_push_step
    (fun t br => br = R ++ R.take t) R.length R (by simp)
    (by
      intro k br hk hbr
      subst hbr
      have hk2 : k < (R ++ R.take k).length := by
        rw [List.length_append]; omega
      refine ⟨R ++ R.take k ++ [R.get ⟨k, hk⟩], ?_, ?_⟩
      · unfold toward_push_step
        rw [vec_at_nat _ k hk2]
        dsimp only
        congr 3
        simp only [List.get_eq_getElem]
        exact List.getElem_append_left hk
      · rw [List.append_assoc]
        congr 1
        rw [List.take_succ, List.getElem?_eq_getElem hk]
        rfl)
  rw [hr, hP, List.take_length]

theorem toward_reverse_loop (F : List const_branchview) :
    (List.range F.length).foldlM toward_reverse_step (F.reverse ++ F.reverse) =
      .ok (F.map const_branchview.reverse ++ F.reverse) := by
  obtain ⟨r, hr, hP⟩ := foldlM_range_inv toward_reverse_step
    (fun t br => br = (F.take t).map const_branchview.reverse ++ (F.reverse.drop t ++ F.reverse))
    F.length (F.reverse ++ F.reverse) (by simp)
    (by
      intro k br hk hbr
      subst hbr
      have hlen : ((F.take k).map const_branchview.reverse ++
          (F.reverse.drop k ++ F.reverse)).length = 2 * F.length := by
        simp only [List.length_append, List.length_map, List.length_take, List.length_drop,
          List.length_reverse]
        omega
      have hidx : 2 * F.length - 1 - k < ((F.take k).map const_branchview.reverse ++
          (F.reverse.drop k ++ F.reverse)).length := by omega
      have hread : ((F.take k).map const_branchview.reverse ++
          (F.reverse.drop k ++ F.reverse)).get ⟨2 * F.length - 1 - k, hidx⟩ =
          F.get ⟨k, hk⟩ := by
        simp only [List.get_eq_getElem]
        rw [List.getElem_append_right (by simp; omega)]
        rw [List.getElem_append_right (by simp; omega)]
        rw [List.getElem_reverse]
        congr 1
        simp only [List.length_map, List.length_take, List.length_drop, List.length_reverse]
        omega
      refine ⟨((F.take k).map const_branchview.reverse ++
          (F.reverse.drop k ++ F.reverse)).set k (F.get ⟨k, hk⟩).reverse, ?_, ?_⟩
      · unfold toward_reverse_step
        have hcast : ((((F.take k).map const_branchview.reverse ++
            (F.reverse.drop k ++ F.reverse)).length : Nat) : Int) - 1 - (k : Int) =
            ((2 * F.length - 1 - k : Nat) : Int) := by
          rw [hlen]; omega
        rw [hcast, vec_at_nat _ _ hidx, hread]
        dsimp only
        rw [if_pos (by rw [hlen]; omega)]
      · have hk2 : k < F.reverse.length := by rw [List.length_reverse]; exact hk
        show _ = List.map const_branchview.reverse (List.take (k + 1) F) ++
          (List.drop (k + 1) F.reverse ++ F.reverse)
        rw [List.take_succ, List.getElem?_eq_getElem hk, List.map_append]
        have hdrop : F.reverse.drop k = F.reverse.get ⟨k, hk2⟩ :: F.reverse.drop (k + 1) := by
          simp only [List.get_eq_getElem]
          exact List.drop_eq_getElem_cons hk2
        rw [hdrop]
        have hl : ((F.take k).map const_branchview.reverse).length = k := by
          simp only [List.length_map, List.length_take]
          omega
        rw [List.set_append_right _ _ (by rw [hl])]
        rw [hl, Nat.sub_self]
        simp)
  rw [hr, hP]
  simp

/-- For a list `from_node` with one entry for each branch, `branches_toward_from_node`
returns the reversed branches in the order of `from_node`, followed by `from_node` in
reverse order. -/
theorem branches_toward_from_node_eq (F : List const_branchview) :
    branches_toward_from_node F F.length =
      .ok (F.map const_branchview.reverse ++ F.reverse) := by
  unfold branches_toward_from_node
  have h := toward_push_loop F.reverse
  rw [List.length_reverse] at h
  rw [h]
  exact toward_reverse_loop F

/-- C26. `branches_toward_from_node` returns each branch of `from_node` and its reverse
once, but not every branch after its children: the branches toward the node come in the
order of `from_node`, in which a branch stands before the branches that continue it, so
their reverses stand before their children. From node 4 of the tree with four leaves, the
branch from 5 to 4 is at place 2 and its children, the branches from 2 to 5 and from 3 to 5,
at the places 3 and 4. -/
theorem branches_toward_from_node_order :
    (∀ F : List const_branchview, branches_toward_from_node F F.length =
      .ok (F.map const_branchview.reverse ++ F.reverse)) ∧
    branches_toward_from_node from_node_4 5 =
      .ok [⟨0, 4⟩, ⟨1, 4⟩, ⟨5, 4⟩, ⟨2, 5⟩, ⟨3, 5⟩, ⟨5, 3⟩, ⟨5, 2⟩, ⟨4, 5⟩, ⟨4, 1⟩, ⟨4, 0⟩] ∧
    const_branchview.is_child ⟨2, 5⟩ ⟨5, 4⟩ = true ∧
    const_branchview.is_child ⟨3, 5⟩ ⟨5, 4⟩ = true :=
  ⟨branches_toward_from_node_eq, rfl, rfl, rfl⟩

/-! ## The pairs distance as a count of ordered pairs (C27) -/

theorem filter_range_nodup (p : Nat → Bool) (L : Nat) : ((List.range L).filter p).Nodup :=
  (List.nodup_range L).filter _

/-- The `k`-th column with a feature of row `j` is the column `x` exactly when `M` writes
`k` into the cell of `x` and `j`. -/
theorem M_value_eq_count_iff (A : alignment) (j x k : Nat) (hx : x < A.length) :
    M_value A x j = (k : Int) ↔
      ((List.range A.length).filter fun c => A.character c j).get? k = some x := by
  constructor
  · intro h
    by_cases hf : A.character x j = true
    · have hk : feature_count A j x = k := by
        unfold M_value at h
        rw [if_pos hf] at h
        exact_mod_cast h
      rw [← hk]
      exact filter_range_get (fun c => A.character c j) A.length x hx hf
    · exfalso
      unfold M_value at h
      rw [if_neg hf] at h
      have hcell : ¬ (A.cell x j ≠ alphabet.gap ∧ A.cell x j ≠ alphabet.unknown) :=
        fun hc => hf ((feature_cell A x j).mpr hc)
      have hk : (0 : Int) ≤ (k : Int) := Int.natCast_nonneg k
      rw [← h] at hk
      by_cases hg : A.cell x j = alphabet.gap
      · rw [hg] at hk; exact absurd hk (by decide)
      · have hu : A.cell x j = alphabet.unknown := by
          by_contra hu
          exact hcell ⟨hg, hu⟩
        rw [hu] at hk; exact absurd hk (by decide)
  · intro h
    have hmem : x ∈ (List.range A.length).filter fun c => A.character c j := List.get?_mem h
    have hf : A.character x j = true := (List.mem_filter.mp hmem).2
    have h2 := filter_range_get (fun c => A.character c j) A.length x hx hf
    have hk : ((List.range x).filter fun c => A.character c j).length = k := by
      obtain ⟨hlt1, he1⟩ := List.get?_eq_some.mp h2
      obtain ⟨hlt2, he2⟩ := List.get?_eq_some.mp h
      have := (List.Nodup.get_inj_iff (filter_range_nodup (fun c => A.character c j) A.length)
        (i := ⟨_, hlt1⟩) (j := ⟨k, hlt2⟩)).mp (he1.trans he2.symm)
      exact congrArg Fin.val this
    unfold M_value
    rw [if_pos hf]
    unfold feature_count
    rw [hk]

/-- On the matrices of two alignments with the same sequence lengths, `A_match` gives the
same answer for the rows `(s1, s2)` and `(s2, s1)` when neither cell is unknown. -/
theorem A_match_symm (A1 A2 : alignment) (c s1 s2 : Nat)
    (hN : A1.n_sequences = A2.n_sequences)
    (hlen : ∀ i, i < A1.n_sequences → A1.seqlength i = A2.seqlength i)
    (hc : c < A1.length) (h1 : s1 < A1.n_sequences) (h2 : s2 < A1.n_sequences)
    (hu1 : A1.cell c s1 ≠ alphabet.unknown) (hu2 : A1.cell c s2 ≠ alphabet.unknown) :
    A_match (M A1) c s1 s2 (M A2) (column_lookup A2 (-1)) =
      A_match (M A1) c s2 s1 (M A2) (column_lookup A2 (-1)) := by
  by_cases hg1 : A1.cell c s1 = alphabet.gap
  · have ha : (M A1).read c s1 = .ok alphabet.gap := by
      rw [M_read A1 c s1 hc h1, (M_value_eq_gap A1 c s1).mpr hg1]
    by_cases hg2 : A1.cell c s2 = alphabet.gap
    · have hb : (M A1).read c s2 = .ok alphabet.gap := by
        rw [M_read A1 c s2 hc h2, (M_value_eq_gap A1 c s2).mpr hg2]
      rw [A_match_both_gap _ _ _ _ _ _ ha hb, A_match_both_gap _ _ _ _ _ _ hb ha]
    · have hb := M_read A1 c s2 hc h2
      have hbg : M_value A1 c s2 ≠ alphabet.gap := fun h => hg2 ((M_value_eq_gap A1 c s2).mp h)
      exact A_match_gap_swap _ _ _ _ _ _ _ ha hb hbg
  · by_cases hg2 : A1.cell c s2 = alphabet.gap
    · have hb : (M A1).read c s2 = .ok alphabet.gap := by
        rw [M_read A1 c s2 hc h2, (M_value_eq_gap A1 c s2).mpr hg2]
      have ha := M_read A1 c s1 hc h1
      have hag : M_value A1 c s1 ≠ alphabet.gap := fun h => hg1 ((M_value_eq_gap A1 c s1).mp h)
      exact (A_match_gap_swap _ _ _ _ _ _ _ hb ha hag).symm
    · have hf1 : A1.character c s1 = true := (feature_cell A1 c s1).mpr ⟨hg1, hu1⟩
      have hf2 : A1.character c s2 = true := (feature_cell A1 c s2).mpr ⟨hg2, hu2⟩
      obtain ⟨c2, hc2, hget, hm⟩ := A_match_feature A1 A2 c s1 s2 hN (hlen s1 h1) hc h1 h2 hf1
      obtain ⟨d2, hd2, hget', hm'⟩ := A_match_feature A1 A2 c s2 s1 hN (hlen s2 h2) hc h2 h1 hf2
      rw [hm, hm']
      have hv1 : M_value A1 c s1 = (feature_count A1 s1 c : Int) := by simp [M_value, hf1]
      have hv2 : M_value A1 c s2 = (feature_count A1 s2 c : Int) := by simp [M_value, hf2]
      have e1 : M_value A2 c2 s2 = M_value A1 c s2 ↔ c2 = d2 := by
        rw [hv2, M_value_eq_count_iff A2 s2 c2 _ hc2, hget']
        exact ⟨fun h => (Option.some.inj h).symm, fun h => by rw [h]⟩
      have e2 : M_value A2 d2 s1 = M_value A1 c s1 ↔ c2 = d2 := by
        rw [hv1, M_value_eq_count_iff A2 s1 d2 _ hd2, hget]
        exact ⟨fun h => Option.some.inj h, fun h => by rw [h]⟩
      congr 1
      rw [Bool.eq_iff_iff, beq_iff_eq, beq_iff_eq, e1, e2]

theorem sum_range_succ_map (f : Nat → Int) (n : Nat) :
    ((List.range (n + 1)).map f).sum = ((List.range n).map f).sum + f n := by
  rw [List.range_succ, List.map_append, List.sum_append]
  simp

theorem sum_map_add_int (f g : Nat → Int) (l : List Nat) :
    (l.map fun x => f x + g x).sum = (l.map f).sum + (l.map g).sum := by
  induction l with
  | nil => rfl
  | cons x xs ih =>
    simp only [List.map_cons, List.sum_cons, ih]
    ring

theorem sum_map_congr_int (f g : Nat → Int) (l : List Nat) (h : ∀ x, x ∈ l → f x = g x) :
    (l.map f).sum = (l.map g).sum := by
  rw [List.map_congr_left h]

/-- The sum over the pairs `j < i` of both orders is the sum over all ordered pairs, when
the pairs `(i, i)` count 0. -/
theorem sum_pairs_both_orders (g : Nat → Nat → Int) (hg : ∀ i, g i i = 0) (n : Nat) :
    ((List.range n).map fun i => ((List.range i).map fun j => g i j + g j i).sum).sum =
      ((List.range n).map fun i => ((List.range n).map fun j => g i j).sum).sum := by
  induction n with
  | zero => rfl
  | succ n ih =>
    rw [sum_range_succ_map, ih, sum_range_succ_map]
    have h1 : ((List.range n).map fun i => ((List.range (n + 1)).map fun j => g i j).sum).sum =
        ((List.range n).map fun i => ((List.range n).map fun j => g i j).sum).sum +
          ((List.range n).map fun i => g i n).sum := by
      rw [← sum_map_add_int]
      apply sum_map_congr_int
      intro i _
      exact sum_range_succ_map (fun j => g i j) n
    rw [h1, sum_range_succ_map (fun j => g n j) n, hg n, sum_map_add_int]
    ring

theorem mismatched_pair_self (M1 M2 : matrix) (idx2 : List (List Nat)) (c i : Nat) :
    mismatched_pair M1 M2 idx2 c i i = 0 := by
  unfold mismatched_pair
  rw [if_neg (fun h => h.1 rfl)]

theorem int_wrap_add (a b : Int) : int_wrap (int_wrap a + b) = int_wrap (a + b) := by
  unfold int_wrap
  norm_num
  omega

theorem int_wrap_zero : int_wrap 0 = 0 := by
  decide

theorem int_wrap_small (x : Int) (h0 : 0 ≤ x) (h1 : x ≤ 2147483647) : int_wrap x = x := by
  unfold int_wrap
  norm_num
  omega

/-- A loop that adds `g x` to a 32-bit counter for each `x` in `l`, wrapping around, ends
with the wrapped sum. -/
theorem foldlM_sum_wrap (f : Int → Nat → Except Failure Int) (g : Nat → Int) (l : List Nat)
    (s0 : Int) (h : ∀ s x, x ∈ l → f (int_wrap s) x = .ok (int_wrap (s + g x))) :
    l.foldlM f (int_wrap s0) = .ok (int_wrap (s0 + (l.map g).sum)) := by
  induction l generalizing s0 with
  | nil => simp [pure, Except.pure]
  | cons x xs ih =>
    rw [List.foldlM_cons, h s0 x (List.mem_cons_self x xs)]
    show xs.foldlM f (int_wrap (s0 + g x)) = _
    rw [ih (s0 + g x) (fun s y hy => h s y (List.mem_cons_of_mem x hy))]
    simp only [List.map_cons, List.sum_cons, add_assoc]

/-- One step of `asymmetric_pairs_distance` adds what the two ordered pairs of its rows
count to the 32-bit counter. -/
theorem pairs_j_step_count (A1 A2 : alignment) (c i j : Nat) (s : Int)
    (hN : A1.n_sequences = A2.n_sequences)
    (hlen : ∀ i, i < A1.n_sequences → A1.seqlength i = A2.seqlength i)
    (hc : c < A1.length) (hi : i < A1.n_sequences) (hj : j < A1.n_sequences) (hij : i ≠ j) :
    pairs_j_step (M A1) (M A2) (column_lookup A2 (-1)) c i (int_wrap s) j =
      .ok (int_wrap (s + (mismatched_pair (M A1) (M A2) (column_lookup A2 (-1)) c i j +
        mismatched_pair (M A1) (M A2) (column_lookup A2 (-1)) c j i))) := by
  unfold pairs_j_step mismatched_pair
  rw [M_data A1 c i hc hi, M_data A1 c j hc hj]
  by_cases hu : M_value A1 c i = alphabet.unknown ∨ M_value A1 c j = alphabet.unknown
  · rw [if_pos hu, if_neg (fun h => by rcases hu with hu | hu; exact h.2.2.1 hu; exact h.2.2.2 hu),
      if_neg (fun h => by rcases hu with hu | hu; exact h.2.2.2 hu; exact h.2.2.1 hu)]
    simp
  · rw [if_neg hu]
    push_neg at hu
    obtain ⟨hu1, hu2⟩ := hu
    obtain ⟨b, hb⟩ := A_match_ok A1 A2 c i j hN hlen hc hi hj
      (fun h => hu1 ((M_value_eq_unknown A1 c i).mpr h))
      (fun h => hu2 ((M_value_eq_unknown A1 c j).mpr h))
    have hb' : A_match (M A1) c j i (M A2) (column_lookup A2 (-1)) = .ok b := by
      rw [← A_match_symm A1 A2 c i j hN hlen hc hi hj
        (fun h => hu1 ((M_value_eq_unknown A1 c i).mpr h))
        (fun h => hu2 ((M_value_eq_unknown A1 c j).mpr h))]
      exact hb
    rw [hb, hb']
    by_cases hgi : M_value A1 c i = alphabet.gap <;>
      by_cases hgj : M_value A1 c j = alphabet.gap <;>
      cases b <;>
      simp [hgi, hgj, hu1, hu2, hij, Ne.symm hij, int_wrap_add, add_assoc,
        show alphabet.gap ≠ alphabet.unknown by decide]

theorem asymmetric_pairs_distance_wraps (A1 A2 : alignment)
    (hN : A1.n_sequences = A2.n_sequences)
    (hseq : ∀ i, i < A1.n_sequences → ungapped A1 i = ungapped A2 i) :
    asymmetric_pairs_distance A1 A2 =
      .ok (int_wrap (mismatched_ordered_pairs (M A1) (M A2) (column_lookup A2 (-1)))) := by
  have hlen : ∀ i, i < A1.n_sequences → A1.seqlength i = A2.seqlength i := by
    intro i hi
    rw [seqlength_eq_ungapped, seqlength_eq_ungapped, hseq i hi]
  have hi_step : ∀ c, c < A1.length → ∀ (s : Int) (i : Nat), i ∈ List.range (M A1).size2 →
      pairs_i_step (M A1) (M A2) (column_lookup A2 (-1)) c (int_wrap s) i =
        .ok (int_wrap (s + ((List.range i).map fun j =>
          mismatched_pair (M A1) (M A2) (column_lookup A2 (-1)) c i j +
          mismatched_pair (M A1) (M A2) (column_lookup A2 (-1)) c j i).sum)) := by
    intro c hc s i hi
    rw [List.mem_range, M_size2] at hi
    unfold pairs_i_step
    apply foldlM_sum_wrap
    intro s' j hj
    rw [List.mem_range] at hj
    exact pairs_j_step_count A1 A2 c i j s' hN hlen hc hi (by omega) (by omega)
  have hc_step : ∀ (s : Int) (c : Nat), c ∈ List.range (M A1).size1 →
      pairs_column_step (M A1) (M A2) (column_lookup A2 (-1)) (int_wrap s) c =
        .ok (int_wrap (s + ((List.range (M A1).size2).map fun i =>
          ((List.range (M A1).size2).map fun j =>
            mismatched_pair (M A1) (M A2) (column_lookup A2 (-1)) c i j).sum).sum)) := by
    intro s c hc
    rw [List.mem_range, M_size1] at hc
    unfold pairs_column_step
    rw [foldlM_sum_wrap _ _ _ s (hi_step c hc),
      sum_pairs_both_orders (fun i j => mismatched_pair (M A1) (M A2) (column_lookup A2 (-1)) c i j)
        (fun i => mismatched_pair_self _ _ _ c i)]
  unfold asymmetric_pairs_distance asymmetric_pairs_distance_M mismatched_ordered_pairs
  have h0 := foldlM_sum_wrap _ _ _ 0 hc_step
  rw [int_wrap_zero, zero_add] at h0
  exact h0

theorem mismatched_pair_nonneg (M1 M2 : matrix) (idx2 : List (List Nat)) (c i j : Nat) :
    0 ≤ mismatched_pair M1 M2 idx2 c i j := by
  unfold mismatched_pair
  split
  · split <;> decide
  · decide

theorem sum_map_nonneg_int (f : Nat → Int) (l : List Nat) (h : ∀ x, 0 ≤ f x) :
    0 ≤ (l.map f).sum := by
  induction l with
  | nil => simp
  | cons x xs ih =>
    simp only [List.map_cons, List.sum_cons]
    have := h x
    omega

theorem mismatched_ordered_pairs_nonneg (M1 M2 : matrix) (idx2 : List (List Nat)) :
    0 ≤ mismatched_ordered_pairs M1 M2 idx2 := by
  unfold mismatched_ordered_pairs
  apply sum_map_nonneg_int
  intro c
  apply sum_map_nonneg_int
  intro i
  apply sum_map_nonneg_int
  intro j
  exact mismatched_pair_nonneg M1 M2 idx2 c i j

/-- While the number of mismatched ordered pairs fits into an `int`,
`asymmetric_pairs_distance` returns it. -/
theorem asymmetric_pairs_distance_small (A1 A2 : alignment)
    (hN : A1.n_sequences = A2.n_sequences)
    (hseq : ∀ i, i < A1.n_sequences → ungapped A1 i = ungapped A2 i)
    (hsmall : mismatched_ordered_pairs (M A1) (M A2) (column_lookup A2 (-1)) ≤ 2147483647) :
    asymmetric_pairs_distance A1 A2 =
      .ok (mismatched_ordered_pairs (M A1) (M A2) (column_lookup A2 (-1))) := by
  rw [asymmetric_pairs_distance_wraps A1 A2 hN hseq,
    int_wrap_small _ (mismatched_ordered_pairs_nonneg _ _ _) hsmall]

theorem full_rows_character (n L c i : Nat) : (full_rows n L).character c i = true := by
  rfl

theorem full_rows_feature_count (n L i c : Nat) : feature_count (full_rows n L) i c = c := by
  unfold feature_count
  rw [List.filter_eq_self.2 (fun k _ => full_rows_character n L k i), List.length_range]

theorem full_rows_M_value (n L c i : Nat) : M_value (full_rows n L) c i = (c : Int) := by
  unfold M_value
  rw [if_pos (full_rows_character n L c i), full_rows_feature_count]

theorem shifted_rows_character (n L c i : Nat) :
    (shifted_rows n L).character c i = decide (i ≤ c ∧ c < i + L) := by
  unfold alignment.character shifted_rows
  dsimp only
  by_cases h : i ≤ c ∧ c < i + L
  · rw [if_pos h]; simp [h]; rfl
  · rw [if_neg h]; simp only [h, decide_False]; rfl

theorem filter_window_range (a L N : Nat) :
    (List.range N).filter (fun c => decide (a ≤ c ∧ c < a + L)) =
      List.range' a (min (N - a) L) := by
  induction N with
  | zero => simp
  | succ N ih =>
    rw [List.range_succ, List.filter_append, ih]
    by_cases h : a ≤ N ∧ N < a + L
    · have e1 : min (N - a) L = N - a := by omega
      have e2 : min (N + 1 - a) L = N - a + 1 := by omega
      rw [List.filter_cons_of_pos (by simpa using h), List.filter_nil, e1, e2,
        List.range'_concat]
      congr 2
      omega
    · have e : min (N + 1 - a) L = min (N - a) L := by omega
      rw [List.filter_cons_of_neg (by simpa using h), List.filter_nil, List.append_nil, e]

theorem shifted_rows_features (n L i : Nat) (hi : i < n) :
    ((List.range (shifted_rows n L).length).filter fun c => (shifted_rows n L).character c i)
      = List.range' i L := by
  have e : (fun c => (shifted_rows n L).character c i) = fun c => decide (i ≤ c ∧ c < i + L) := by
    funext c; exact shifted_rows_character n L c i
  rw [e, filter_window_range]
  congr 1
  show min (n + L - 1 - i) L = L
  omega

theorem shifted_rows_feature_count (n L i c : Nat) :
    feature_count (shifted_rows n L) i c = min (c - i) L := by
  unfold feature_count
  have e : (fun k => (shifted_rows n L).character k i) = fun k => decide (i ≤ k ∧ k < i + L) := by
    funext k; exact shifted_rows_character n L k i
  rw [e, filter_window_range, List.length_range']

theorem full_rows_ungapped (n L i : Nat) : ungapped (full_rows n L) i = List.replicate L 0 := by
  unfold ungapped
  rw [List.filter_eq_self.2 (fun k _ => full_rows_character n L k i)]
  rw [List.eq_replicate_iff]
  refine ⟨by simp [full_rows], ?_⟩
  intro b hb
  rw [List.mem_map] at hb
  obtain ⟨c, -, rfl⟩ := hb
  rfl

theorem shifted_rows_ungapped (n L i : Nat) (hi : i < n) :
    ungapped (shifted_rows n L) i = List.replicate L 0 := by
  unfold ungapped
  rw [shifted_rows_features n L i hi, List.eq_replicate_iff]
  refine ⟨by simp, ?_⟩
  intro b hb
  rw [List.mem_map] at hb
  obtain ⟨c, hc, rfl⟩ := hb
  rw [List.mem_range'_1] at hc
  unfold shifted_rows
  dsimp only
  rw [if_pos hc]

theorem shifted_rows_match (n L c i j : Nat) (hc : c < L) (hi : i < n)
    (hj : j < n) (hij : i ≠ j) :
    A_match (M (full_rows n L)) c i j (M (shifted_rows n L))
      (column_lookup (shifted_rows n L) (-1)) = .ok false := by
  have hlen : (full_rows n L).seqlength i = (shifted_rows n L).seqlength i := by
    rw [seqlength_eq_ungapped, seqlength_eq_ungapped, full_rows_ungapped,
      shifted_rows_ungapped n L i hi]
  obtain ⟨c2, -, hget, hm⟩ := A_match_feature (full_rows n L) (shifted_rows n L) c i j rfl hlen
    hc hi hj (full_rows_character n L c i)
  rw [shifted_rows_features n L i hi, full_rows_feature_count] at hget
  have hc2 : c2 = i + c := by
    rw [List.get?_eq_getElem?, List.getElem?_range' _ _ hc] at hget
    simpa using hget.symm
  rw [hm, full_rows_M_value]
  have hv : M_value (shifted_rows n L) c2 j ≠ (c : Int) := by
    unfold M_value
    rw [shifted_rows_character, shifted_rows_feature_count]
    by_cases h : j ≤ c2 ∧ c2 < j + L
    · rw [if_pos (by simpa using h)]
      have : min (c2 - j) L ≠ c := by omega
      exact_mod_cast this
    · rw [if_neg (by simpa using h)]
      unfold shifted_rows
      dsimp only
      rw [if_neg h]
      have h0 : (0 : Int) ≤ (c : Int) := Int.natCast_nonneg c
      simp only [alphabet.gap, ne_eq]
      omega
  rw [beq_eq_false_iff_ne.2 hv]

theorem shifted_rows_mismatched_pair (n L c i j : Nat) (hc : c < L)
    (hi : i < n) (hj : j < n) :
    mismatched_pair (M (full_rows n L)) (M (shifted_rows n L))
      (column_lookup (shifted_rows n L) (-1)) c i j = if i ≠ j then 1 else 0 := by
  by_cases hij : i = j
  · subst hij
    rw [mismatched_pair_self]; simp
  · unfold mismatched_pair
    rw [M_data _ c i hc hi, M_data _ c j hc hj, full_rows_M_value, full_rows_M_value,
      shifted_rows_match n L c i j hc hi hj hij, if_pos hij]
    rw [if_pos]
    have h0 : (0 : Int) ≤ (c : Int) := Int.natCast_nonneg c
    refine ⟨hij, ?_, ?_, ?_⟩ <;> simp only [alphabet.gap, alphabet.unknown, ne_eq] <;> omega

theorem sum_other_rows (n i : Nat) :
    (i < n → ((List.range n).map fun j => if i ≠ j then (1 : Int) else 0).sum = (n : Int) - 1) ∧
    (n ≤ i → ((List.range n).map fun j => if i ≠ j then (1 : Int) else 0).sum = (n : Int)) := by
  induction n with
  | zero => exact ⟨fun h => absurd h (Nat.not_lt_zero i), fun _ => rfl⟩
  | succ n ih =>
    rw [sum_range_succ_map (fun j => if i ≠ j then (1 : Int) else 0) n]
    constructor
    · intro h
      by_cases hin : i < n
      · rw [ih.1 hin, if_pos (by omega)]; push_cast; ring
      · have e : i = n := by omega
        rw [ih.2 (by omega), if_neg (by simp [e])]; push_cast; ring
    · intro h
      rw [ih.2 (by omega), if_pos (by omega)]; push_cast; ring

theorem sum_map_const_int (k : Int) (l : List Nat) :
    (l.map fun _ => k).sum = (l.length : Int) * k := by
  induction l with
  | nil => simp
  | cons x xs ih =>
    simp only [List.map_cons, List.sum_cons, ih, List.length_cons]
    push_cast; ring

/-- The number of mismatched ordered pairs between `n` aligned sequences of `L` letters and
the same sequences with no two of them aligned: `L * n * (n - 1)`. -/
theorem shifted_rows_count (n L : Nat) :
    mismatched_ordered_pairs (M (full_rows n L)) (M (shifted_rows n L))
      (column_lookup (shifted_rows n L) (-1)) = (L : Int) * ((n : Int) * ((n : Int) - 1)) := by
  unfold mismatched_ordered_pairs
  rw [M_size1, M_size2]
  show ((List.range L).map fun c => ((List.range n).map fun i =>
      ((List.range n).map fun j => mismatched_pair (M (full_rows n L)) (M (shifted_rows n L))
        (column_lookup (shifted_rows n L) (-1)) c i j).sum).sum).sum = _
  have h1 : ∀ c, c ∈ List.range L → ((List.range n).map fun i =>
      ((List.range n).map fun j => mismatched_pair (M (full_rows n L)) (M (shifted_rows n L))
        (column_lookup (shifted_rows n L) (-1)) c i j).sum).sum = (n : Int) * ((n : Int) - 1) := by
    intro c hc
    rw [List.mem_range] at hc
    have h2 : ∀ i, i ∈ List.range n →
        ((List.range n).map fun j => mismatched_pair (M (full_rows n L)) (M (shifted_rows n L))
          (column_lookup (shifted_rows n L) (-1)) c i j).sum = (n : Int) - 1 := by
      intro i hi
      rw [List.mem_range] at hi
      rw [sum_map_congr_int _ (fun j => if i ≠ j then (1 : Int) else 0) _
        (fun j hj => shifted_rows_mismatched_pair n L c i j hc hi (List.mem_range.1 hj))]
      exact (sum_other_rows n i).1 hi
    rw [sum_map_congr_int _ (fun _ => (n : Int) - 1) _ h2, sum_map_const_int, List.length_range]
  rw [sum_map_congr_int _ (fun _ => (n : Int) * ((n : Int) - 1)) _ h1, sum_map_const_int,
    List.length_range]

/-- C27. `asymmetric_pairs_distance` does not return the number of mismatched ordered pairs
for every two alignments of the same sequences. For 1000 sequences of 2200 letters, aligned
column by column in the first alignment and each shifted by one more column in the second
(3199 columns, no two sequences aligned), the count of the triples `(c, i, j)` with `i ≠ j`
in which cell `(c, i)` of `M(A1)` is a letter position, neither cell is unknown and `A_match`
is false is 2197800000, more than the largest `int`, and the function returns what its
`int` counter holds, -2097167296 (below that bound it returns the count, see
`asymmetric_pairs_distance_small`). -/
theorem asymmetric_pairs_distance_overflows :
    (full_rows 1000 2200).n_sequences = (shifted_rows 1000 2200).n_sequences ∧
    (shifted_rows 1000 2200).length = 3199 ∧
    (∀ i, i < 1000 →
      ungapped (full_rows 1000 2200) i = ungapped (shifted_rows 1000 2200) i) ∧
    mismatched_ordered_pairs (M (full_rows 1000 2200)) (M (shifted_rows 1000 2200))
      (column_lookup (shifted_rows 1000 2200) (-1)) = 2197800000 ∧
    asymmetric_pairs_distance (full_rows 1000 2200) (shifted_rows 1000 2200) =
      .ok (-2097167296) := by
  have hseq : ∀ i, i < 1000 →
      ungapped (full_rows 1000 2200) i = ungapped (shifted_rows 1000 2200) i := by
    intro i hi
    rw [full_rows_ungapped, shifted_rows_ungapped 1000 2200 i hi]
  have hc := shifted_rows_count 1000 2200
  have hw := asymmetric_pairs_distance_wraps (full_rows 1000 2200) (shifted_rows 1000 2200)
    rfl hseq
  rw [hc] at hw
  refine ⟨rfl, rfl, hseq, by rw [hc]; norm_num, ?_⟩
  rw [hw]
  congr 1

/-! ## The splits distance and the preserved homologies (C28, C29) -/

/-- C28. The assertion `delta >= 0` of `asymmetric_splits_distance` fails on a column of
the first alignment without a letter: no column of the second alignment is reached, the
number of groups is 0 and `delta` is `-1`. The alignments are `A-` over `C-` and `A` over
`C`, with the same sequences; `asymmetric_splits_distance2` adds `0 * (0 - 1) / 2 = 0` for
the same column and returns. -/
theorem asymmetric_splits_distance_empty_column :
    asymmetric_splits_distance empty_column one_column = .error Failure.assertion ∧
    asymmetric_splits_distance2 empty_column one_column = .ok 0 ∧
    get_splitgroup_columns (M empty_column) 1 (M one_column) (column_lookup one_column (-1)) =
      .ok [alphabet.gap, alphabet.gap] ∧
    (∀ i, i < 2 → ungapped empty_column i = ungapped one_column i) :=
  ⟨rfl, rfl, rfl, by decide⟩

/-- C29. The assertion `homologies_total(M1) == match + mismatch` of `homologies_preserved`
fails on an alignment of three rows compared with itself: the three letters of its column
are each examined with the two other rows, so that `match + mismatch` is 6 and the total
is 3. -/
theorem homologies_preserved_three_rows :
    homologies_preserved (M three_rows) (M three_rows) (column_lookup three_rows (-1)) =
      .error Failure.assertion ∧
    homologies_total (M three_rows) = 3 ∧
    (List.range (M three_rows).size1).foldlM
      (preserved_column_step (M three_rows) (M three_rows) (column_lookup three_rows (-1)))
      (0, 0) = .ok (6, 0) :=
  ⟨rfl, rfl, rfl⟩

/-! ## The two ways to connect the leaf characters (C30) -/

theorem minimally_connect_write (T : Tree) (present : dynamic_bitset) (column : Nat)
    (A : alignment) (hle : T.n_leaves ≤ T.n_nodes) :
    ((List.range' T.n_leaves (T.n_nodes - T.n_leaves)).foldl
        (minimally_connect_write_step present column) A).n_sequences = A.n_sequences ∧
    ((List.range' T.n_leaves (T.n_nodes - T.n_leaves)).foldl
        (minimally_connect_write_step present column) A).length = A.length ∧
    ((List.range' T.n_leaves (T.n_nodes - T.n_leaves)).foldl
        (minimally_connect_write_step present column) A).name = A.name ∧
    ((List.range' T.n_leaves (T.n_nodes - T.n_leaves)).foldl
        (minimally_connect_write_step present column) A).get_alphabet = A.get_alphabet ∧
    ∀ c i, ((List.range' T.n_leaves (T.n_nodes - T.n_leaves)).foldl
        (minimally_connect_write_step present column) A).cell c i =
      if c = column ∧ T.n_leaves ≤ i ∧ i < T.n_nodes
      then (if bit present i = true then alphabet.not_gap else alphabet.gap)
      else A.cell c i := by
  have h := foldl_range'_inv (minimally_connect_write_step present column)
    (fun t B => B.n_sequences = A.n_sequences ∧ B.length = A.length ∧ B.name = A.name ∧
      B.get_alphabet = A.get_alphabet ∧
      ∀ c i, B.cell c i =
        if c = column ∧ T.n_leaves ≤ i ∧ i < t
        then (if bit present i = true then alphabet.not_gap else alphabet.gap)
        else A.cell c i)
    (T.n_nodes - T.n_leaves) T.n_leaves A
    ⟨rfl, rfl, rfl, rfl, fun c i => by rw [if_neg (by omega)]⟩
    (by
      rintro t B ht1 - ⟨h1, h2, h3, h4, h5⟩
      have key : ∀ v : Int, ∀ c i, (B.set column t v).cell c i =
          if c = column ∧ i = t then v else B.cell c i := fun v c i => rfl
      unfold minimally_connect_write_step
      by_cases hb : bit present t = true
      · rw [if_pos hb]
        refine ⟨h1, h2, h3, h4, ?_⟩
        intro c i
        rw [key, h5]
        by_cases hq : c = column ∧ i = t
        · obtain ⟨hq1, hq2⟩ := hq
          subst hq2
          rw [if_pos ⟨hq1, rfl⟩, if_pos (show c = column ∧ T.n_leaves ≤ i ∧ i < i + 1 from
            ⟨hq1, ht1, by omega⟩), if_pos hb]
        · rw [if_neg hq]
          by_cases hq2 : c = column ∧ T.n_leaves ≤ i ∧ i < t
          · rw [if_pos hq2, if_pos (show c = column ∧ T.n_leaves ≤ i ∧ i < t + 1 from
              ⟨hq2.1, hq2.2.1, by omega⟩)]
          · rw [if_neg hq2, if_neg]
            rintro ⟨g1, g2, g3⟩
            by_cases hit : i = t
            · exact hq ⟨g1, hit⟩
            · exact hq2 ⟨g1, g2, by omega⟩
      · rw [if_neg hb]
        refine ⟨h1, h2, h3, h4, ?_⟩
        intro c i
        rw [key, h5]
        by_cases hq : c = column ∧ i = t
        · obtain ⟨hq1, hq2⟩ := hq
          subst hq2
          rw [if_pos ⟨hq1, rfl⟩, if_pos (show c = column ∧ T.n_leaves ≤ i ∧ i < i + 1 from
            ⟨hq1, ht1, by omega⟩), if_neg hb]
        · rw [if_neg hq]
          by_cases hq2 : c = column ∧ T.n_leaves ≤ i ∧ i < t
          · rw [if_pos hq2, if_pos (show c = column ∧ T.n_leaves ≤ i ∧ i < t + 1 from
              ⟨hq2.1, hq2.2.1, by omega⟩)]
          · rw [if_neg hq2, if_neg]
            rintro ⟨g1, g2, g3⟩
            by_cases hit : i = t
            · exact hq ⟨g1, hit⟩
            · exact hq2 ⟨g1, g2, by omega⟩)
  have e : T.n_leaves + (T.n_nodes - T.n_leaves) = T.n_nodes := by omega
  rw [e] at h
  exact h

/-- The loop of `minimally_connect_leaf_characters` returns, and each column of its result
is the column of `A` with `not_gap` in the internal cells that `connect_all_characters`
marks and a gap in the other internal cells. -/
theorem minimally_connect_cells (A : alignment) (T : Tree) (hT : T.is_binary)
    (hN : A.n_sequences = T.n_nodes) :
    ∃ B, minimally_connect_loop A T = .ok B ∧ B.n_sequences = A.n_sequences ∧
      B.length = A.length ∧ B.name = A.name ∧ B.get_alphabet = A.get_alphabet ∧
      ∀ c i, B.cell c i =
        if c < A.length ∧ T.n_leaves ≤ i ∧ i < T.n_nodes
        then (if bit (connected_mask T A c) i = true then alphabet.not_gap else alphabet.gap)
        else A.cell c i := by
  unfold minimally_connect_loop
  rw [if_neg (not_not.mpr hN)]
  obtain ⟨B, hB, h1, h2, h3, h4, h5⟩ := foldlM_range_inv (minimally_connect_column_step T)
    (fun k B => B.n_sequences = A.n_sequences ∧ B.length = A.length ∧ B.name = A.name ∧
      B.get_alphabet = A.get_alphabet ∧
      ∀ c i, B.cell c i =
        if c < k ∧ T.n_leaves ≤ i ∧ i < T.n_nodes
        then (if bit (connected_mask T A c) i = true then alphabet.not_gap else alphabet.gap)
        else A.cell c i)
    A.length A ⟨rfl, rfl, rfl, rfl, fun c i => by rw [if_neg (by omega)]⟩
    (by
      rintro k B - ⟨h1, h2, h3, h4, h5⟩
      have hcol : column_present B T k = column_present A T k :=
        column_present_congr A B T k (fun i => by rw [h5, if_neg (by omega)])
      obtain ⟨r, hr, -, -⟩ := connect_all_characters_mono T hT (column_present A T k)
        (column_present_length A T k)
      have hmask : connected_mask T A k = r := by
        unfold connected_mask; rw [hr]
      obtain ⟨w1, w2, w3, w4, w5⟩ := minimally_connect_write T r k B hT.1
      refine ⟨_, by unfold minimally_connect_column_step; rw [hcol, hr], w1.trans h1,
        w2.trans h2, w3.trans h3, w4.trans h4, ?_⟩
      intro c i
      rw [w5, h5]
      by_cases hck : c = k
      · subst hck
        rw [hmask]
        by_cases hq : T.n_leaves ≤ i ∧ i < T.n_nodes
        · rw [if_pos ⟨rfl, hq⟩, if_pos (show c < c + 1 ∧ T.n_leaves ≤ i ∧ i < T.n_nodes from
            ⟨by omega, hq⟩)]
        · rw [if_neg (fun h => hq h.2),
            if_neg (show ¬ (c < c ∧ T.n_leaves ≤ i ∧ i < T.n_nodes) from fun h => hq h.2),
            if_neg (show ¬ (c < c + 1 ∧ T.n_leaves ≤ i ∧ i < T.n_nodes) from fun h => hq h.2)]
      · rw [if_neg (fun h => hck h.1)]
        by_cases hq : c < k ∧ T.n_leaves ≤ i ∧ i < T.n_nodes
        · rw [if_pos hq, if_pos (show c < k + 1 ∧ T.n_leaves ≤ i ∧ i < T.n_nodes from
            ⟨by omega, hq.2⟩)]
        · rw [if_neg hq, if_neg]
          rintro ⟨g1, g2⟩
          exact hq ⟨by omega, g2⟩)
  exact ⟨B, hB, h1, h2, h3, h4, h5⟩

/-- C30. On a binary tree and an alignment with `T.n_nodes()` rows, the loop of
`minimally_connect_leaf_characters` and `connect_leaf_characters` both return, and they
return alignments with the same rows, columns and cells: an internal cell that
`connect_all_characters` leaves unmarked held a gap, so writing a gap there changes nothing.
This holds whatever the internal cells of `A` are, gap and `not_gap` included. -/
theorem minimally_connect_same_cells (A : alignment) (T : Tree) (hT : T.is_binary)
    (hN : A.n_sequences = T.n_nodes) :
    ∃ B1 B2, minimally_connect_loop A T = .ok B1 ∧ connect_leaf_characters A T = .ok B2 ∧
      B1.n_sequences = B2.n_sequences ∧ B1.length = B2.length ∧
      ∀ c i, c < B1.length → B1.cell c i = B2.cell c i := by
  obtain ⟨B1, hB1, m1, m2, -, -, m5⟩ := minimally_connect_cells A T hT hN
  obtain ⟨B2, hB2, c1, c2, c3⟩ := connect_leaf_characters_cells A T hT hN
  refine ⟨B1, B2, hB1, hB2, m1.trans c1.symm, m2.trans c2.symm, ?_⟩
  intro c i hc
  rw [m2] at hc
  rw [m5, c3 c i hc]
  by_cases hi : T.n_leaves ≤ i ∧ i < T.n_nodes
  · rw [if_pos ⟨hc, hi⟩]
    by_cases hb : bit (connected_mask T A c) i = true
    · rw [if_pos hb, if_pos ⟨hi.1, hi.2, hb⟩]
    · rw [if_neg hb, if_neg (fun h => hb h.2.2)]
      obtain ⟨r, hr, -, hmono⟩ := connect_all_characters_mono T hT (column_present A T c)
        (column_present_length A T c)
      have hmask : connected_mask T A c = r := by
        unfold connected_mask; rw [hr]
      have hp : bit (column_present A T c) i = false := by
        by_contra hne
        rw [Bool.not_eq_false] at hne
        exact hb (hmask ▸ hmono i hne)
      unfold column_present at hp
      rw [bit_map_range] at hp
      have hg : A.gap c i = true := by simpa [hi.2] using hp
      unfold alignment.gap at hg
      exact (beq_iff_eq.mp hg).symm
  · rw [if_neg (fun h => hi h.2), if_neg (fun h => hi ⟨h.1, h.2.1⟩)]

/-- The instance of C30 at the tree with four leaves and an alignment in which two leaves
hold a letter. -/
theorem minimally_connect_same_cells_witness :
    ∃ B1 B2, minimally_connect_loop two_leaves_present four_leaf_tree = .ok B1 ∧
      connect_leaf_characters two_leaves_present four_leaf_tree = .ok B2 ∧
      B1.n_sequences = B2.n_sequences ∧ B1.length = B2.length ∧
      ∀ c i, c < B1.length → B1.cell c i = B2.cell c i :=
  minimally_connect_same_cells two_leaves_present four_leaf_tree (by decide) (by decide)
/-! ## The path of a parameter in `parameters_with_extension` (C35) -/

theorem foldlM_error_of_mem {σ : Type} (f : σ → Nat → Except Failure σ) (e : Failure)
    (hf : ∀ s i e2, f s i = .error e2 → e2 = e) (l : List Nat) (s : σ)
    (h : ∃ i, i ∈ l ∧ ∀ s2, f s2 i = .error e) :
    l.foldlM f s = .error e := by
  induction l generalizing s with
  | nil => obtain ⟨i, hi, _⟩ := h; simp at hi
  | cons x xs ih =>
    rw [List.foldlM_cons]
    cases hx : f s x with
    | error e2 => rw [hf s x e2 hx]; rfl
    | ok s2 =>
      obtain ⟨i, hi, h2⟩ := h
      rcases List.mem_cons.mp hi with h3 | h3
      · subst h3; rw [h2 s] at hx; cases hx
      · exact ih s2 ⟨i, h3, h2⟩

theorem extension_tail_error (path2 : List String) (indices : List Nat) (i : Nat)
    (path1 : List String) (e : Failure)
    (h : extension_tail path2 indices i path1 = .error e) : e = Failure.out_of_range := by
  unfold extension_tail at h
  cases hp : path1.getLast? with
  | none => rw [hp] at h; cases h; rfl
  | some b =>
    rw [hp] at h
    dsimp only at h
    split at h
    · cases h
    · split at h <;> cases h

theorem extension_step_error (split : String → List String) (M : Model) (cm : Bool)
    (path2 : List String) (indices : List Nat) (i : Nat) (e : Failure)
    (h : extension_step split M cm path2 indices i = .error e) : e = Failure.out_of_range := by
  unfold extension_step at h
  dsimp only at h
  split at h
  · split at h
    · cases h; rfl
    · exact extension_tail_error _ _ _ _ _ h
  · split at h
    · cases h
    · split at h
      · exact extension_tail_error _ _ _ _ _ h
      · exact extension_tail_error _ _ _ _ _ h

/-- C35 at the failing input: with the pattern `::kappa`, whose first component is empty,
and a parameter `mu` whose name has one component, `path1.erase(path1.begin())` leaves
`path1` empty and `path1.back()` is then evaluated on the empty vector. In general: when
the first component of the pattern is empty and the name of some parameter has at most one
component, `parameters_with_extension` reads outside `path1`. -/
theorem parameters_with_extension_empty_path :
    split_colons "::kappa".data [] = ["", "kappa"] ∧
    split_colons (five_parameters.parameter_name 0).data [] = ["mu"] ∧
    extension_tail ["", "kappa"] [] 0 (["mu"].drop 1) = .error Failure.out_of_range ∧
    parameters_with_extension (fun s => split_colons s.data []) five_parameters "::kappa" =
      .error Failure.out_of_range ∧
    ∀ (split : String → List String) (M : Model) (name : String),
      name.data.head? ≠ some '^' → (∃ t, split name = "" :: t) →
      (∃ i, i < M.n_parameters ∧ (split (M.parameter_name i)).length ≤ 1) →
      parameters_with_extension split M name = .error Failure.out_of_range := by
  refine ⟨by decide, by decide, rfl, rfl, ?_⟩
  intro split M name hc ⟨t, ht⟩ ⟨i, hi, hlen⟩
  have hcm : decide (name.data.length ≠ 0 ∧ name.data.getD 0 default = '^') = false := by
    rw [decide_eq_false_iff_not]
    intro ⟨h1, h2⟩
    apply hc
    cases hd : name.data with
    | nil => rw [hd] at h1; simp at h1
    | cons a l => rw [hd] at h2; simp at h2; simp [h2]
  unfold parameters_with_extension
  simp only [hcm, Bool.false_eq_true, if_false, ht, List.length_cons]
  rw [if_neg (by omega)]
  apply foldlM_error_of_mem _ _ (fun s i e2 h => extension_step_error _ _ _ _ _ _ _ h)
  refine ⟨i, List.mem_range.mpr hi, fun s2 => ?_⟩
  unfold extension_step
  simp only [List.getD_cons_zero]
  rw [if_pos (by decide)]
  match hs : split (M.parameter_name i) with
  | [] => rfl
  | [a] => rfl
  | a :: b :: r => rw [hs] at hlen; simp at hlen

/-! ## The bit helpers (C39) -/

theorem int_eq_of_testBit (x y : Int) (h : ∀ k, x.testBit k = y.testBit k) : x = y := by
  have hf : ∀ a b : Nat, a.testBit (max a b) = false ∧ b.testBit (max a b) = false := by
    intro a b
    constructor
    · apply Nat.testBit_lt_two_pow
      exact lt_of_lt_of_le (Nat.lt_two_pow a) (Nat.pow_le_pow_right (by decide) (le_max_left a b))
    · apply Nat.testBit_lt_two_pow
      exact lt_of_lt_of_le (Nat.lt_two_pow b)
        (Nat.pow_le_pow_right (by decide) (le_max_right a b))
  cases x with
  | ofNat a =>
    cases y with
    | ofNat b =>
      congr 1
      exact Nat.eq_of_testBit_eq h
    | negSucc b =>
      exfalso
      have h1 := h (max a b)
      simp only [Int.testBit] at h1
      rw [(hf a b).1, (hf a b).2] at h1
      cases h1
  | negSucc a =>
    cases y with
    | ofNat b =>
      exfalso
      have h1 := h (max a b)
      simp only [Int.testBit] at h1
      rw [(hf a b).1, (hf a b).2] at h1
      cases h1
    | negSucc b =>
      congr 1
      apply Nat.eq_of_testBit_eq
      intro k
      have h1 := h k
      simp only [Int.testBit] at h1
      cases ha : a.testBit k <;> cases hb : b.testBit k <;> simp_all

theorem testBit_one_shiftLeft (b k : Nat) :
    ((1 : Int) <<< (b : Int)).testBit k = decide (b = k) := by
  rw [Int.one_shiftLeft]
  show (2 ^ b).testBit k = decide (b = k)
  exact Nat.testBit_two_pow

theorem testBit_zero_int (k : Nat) : (0 : Int).testBit k = false := by
  show Nat.testBit 0 k = false
  exact Nat.zero_testBit k

theorem land_one_shiftLeft (m : Int) (b : Nat) :
    Int.land m (1 <<< (b : Int)) = if m.testBit b = true then 1 <<< (b : Int) else 0 := by
  apply int_eq_of_testBit
  intro k
  rw [Int.testBit_land, testBit_one_shiftLeft]
  by_cases h : m.testBit b = true
  · rw [if_pos h, testBit_one_shiftLeft]
    by_cases hk : b = k
    · subst hk; simp [h]
    · simp [hk]
  · rw [if_neg h]
    by_cases hk : b = k
    · subst hk
      simp only [Bool.not_eq_true] at h
      rw [h, testBit_zero_int]
      rfl
    · simp only [hk, decide_False, Bool.and_false]
      rw [testBit_zero_int]

theorem bitset_eq_testBit (m : Int) (b : Nat) : bitset m b = m.testBit b := by
  unfold bitset
  rw [land_one_shiftLeft]
  have hne : (1 : Int) <<< (b : Int) ≠ 0 := by
    rw [Int.one_shiftLeft]
    exact_mod_cast (Nat.pos_pow_of_pos b (by decide)).ne'
  by_cases h : m.testBit b = true
  · rw [if_pos h, h]
    exact decide_eq_true hne
  · rw [if_neg h]
    simp only [Bool.not_eq_true] at h
    rw [h]
    decide

theorem num_bits_count (n : Int) (k : Nat) :
    (List.range k).foldl (num_bits_step n) 0 =
      (((List.range k).filter fun i => bitset n i).length : Int) := by
  induction k with
  | zero => rfl
  | succ k ih =>
    rw [List.range_succ, List.foldl_append, ih, List.filter_append, List.length_append]
    by_cases h : bitset n k = true
    · simp [num_bits_step, h]
    · simp [num_bits_step, h]

theorem bitset_small (n : Int) (h0 : 0 ≤ n) (h1 : n < 64) (k : Nat) (hk : 6 ≤ k) :
    bitset n k = false := by
  rw [bitset_eq_testBit]
  obtain ⟨a, rfl⟩ := Int.eq_ofNat_of_zero_le h0
  show a.testBit k = false
  apply Nat.testBit_lt_two_pow
  have ha : a < 2 ^ 6 := by omega
  exact lt_of_lt_of_le ha (Nat.pow_le_pow_right (by decide) hk)

theorem filter_range_small (p : Nat → Bool) (n K : Nat) (hK : n ≤ K)
    (hp : ∀ k, n ≤ k → p k = false) :
    (List.range K).filter p = (List.range n).filter p := by
  induction K with
  | zero =>
    have : n = 0 := by omega
    rw [this]
  | succ K ih =>
    by_cases h : n = K + 1
    · rw [h]
    · rw [List.range_succ, List.filter_append, ih (by omega)]
      simp [hp K (by omega)]

/-- C39. For every `int` `m` and `0 <= b < 31`: `bitset(setbit(m,b),b)` is true,
`bitset(clearbit(m,b),b)` is false, and `setbit` and `clearbit` leave every other bit as it
is. `bits_present(i,m)` holds exactly when every set bit of `m` is set in `i`. `num_bits(n)`
is the number of set bits among the six lowest bits of `n`, which for `0 <= n < 64` are all
the set bits of `n` (the bits from 6 on are clear, so the count over any longer range of
bits is the same); for a larger `n` such as 64 or 255 the higher bits are not counted. -/
theorem bit_helpers :
    (∀ (m : Int) (b : Nat), b < 31 →
      bitset (setbit m b) b = true ∧ bitset (clearbit m b) b = false ∧
      ∀ k, k ≠ b →
        bitset (setbit m b) k = bitset m k ∧ bitset (clearbit m b) k = bitset m k) ∧
    (∀ i m : Int, bits_present i m = true ↔ ∀ k, bitset m k = true → bitset i k = true) ∧
    (∀ n : Int, num_bits n = (((List.range 6).filter fun k => bitset n k).length : Int)) ∧
    (∀ n : Int, 0 ≤ n → n < 64 →
      (∀ k, 6 ≤ k → bitset n k = false) ∧
      ∀ K, 6 ≤ K → num_bits n = (((List.range K).filter fun k => bitset n k).length : Int)) ∧
    num_bits 64 = 0 ∧ bitset 64 6 = true ∧ num_bits 255 = 6 := by
  refine ⟨?_, ?_, ?_, ?_, ?_, ?_, ?_⟩
  · intro m b _
    refine ⟨?_, ?_, ?_⟩
    · rw [bitset_eq_testBit, setbit, Int.testBit_lor, testBit_one_shiftLeft]
      simp
    · rw [bitset_eq_testBit, clearbit, Int.testBit_land, Int.testBit_lnot,
        testBit_one_shiftLeft]
      simp
    · intro k hk
      constructor
      · rw [bitset_eq_testBit, bitset_eq_testBit, setbit, Int.testBit_lor,
          testBit_one_shiftLeft]
        simp [Ne.symm hk]
      · rw [bitset_eq_testBit, bitset_eq_testBit, clearbit, Int.testBit_land,
          Int.testBit_lnot, testBit_one_shiftLeft]
        simp [Ne.symm hk]
  · intro i m
    unfold bits_present
    rw [decide_eq_true_iff]
    constructor
    · intro h k hk
      rw [bitset_eq_testBit] at hk ⊢
      rw [← h, Int.testBit_land] at hk
      simp only [Bool.and_eq_true] at hk
      exact hk.1
    · intro h
      apply int_eq_of_testBit
      intro k
      rw [Int.testBit_land]
      have hk := h k
      rw [bitset_eq_testBit, bitset_eq_testBit] at hk
      cases hm : m.testBit k
      · simp
      · simp [hk hm]
  · intro n
    exact num_bits_count n 6
  · intro n h0 h1
    refine ⟨bitset_small n h0 h1, fun K hK => ?_⟩
    unfold num_bits
    rw [num_bits_count, filter_range_small (fun k => bitset n k) 6 K hK (bitset_small n h0 h1)]
  · unfold num_bits
    rw [num_bits_count]
    simp only [bitset_eq_testBit]
    decide
  · rw [bitset_eq_testBit]
    decide
  · unfold num_bits
    rw [num_bits_count]
    simp only [bitset_eq_testBit]
    decide

/-! ## Random shuffles (C36) -/

theorem set_cons_perm {T : Type} (t : List T) (i : Nat) (a b : T) (h : t[i]? = some b) :
    (b :: t.set i a).Perm (a :: t) := by
  induction t generalizing i with
  | nil => simp at h
  | cons c t ih =>
    cases i with
    | zero =>
      simp only [List.getElem?_cons_zero, Option.some.injEq] at h
      subst h
      exact List.Perm.swap _ _ _
    | succ i =>
      simp only [List.getElem?_cons_succ] at h
      rw [List.set_cons_succ]
      exact ((List.Perm.swap c b _).trans ((ih i h).cons c)).trans (List.Perm.swap a c t)

theorem swap_perm {T : Type} (v : List T) (l i : Nat) (a b : T) (hli : l < i)
    (ha : v[l]? = some a) (hb : v[i]? = some b) : ((v.set l b).set i a).Perm v := by
  induction v generalizing l i with
  | nil => simp at ha
  | cons c t ih =>
    cases i with
    | zero => omega
    | succ i =>
      simp only [List.getElem?_cons_succ] at hb
      cases l with
      | zero =>
        simp only [List.getElem?_cons_zero, Option.some.injEq] at ha
        subst ha
        rw [List.set_cons_zero, List.set_cons_succ]
        exact set_cons_perm t i c b hb
      | succ l =>
        simp only [List.getElem?_cons_succ] at ha
        rw [List.set_cons_succ, List.set_cons_succ]
        exact (ih l i (by omega) ha hb).cons c

theorem vec_at_some {α : Type} (v : List α) (k : Int) (h0 : 0 ≤ k) (h1 : k < v.length) :
    ∃ x, vec_at v k = .ok x ∧ v[k.toNat]? = some x := by
  have hk : k.toNat < v.length := by omega
  refine ⟨v[k.toNat], ?_, List.getElem?_eq_getElem hk⟩
  unfold vec_at
  rw [if_pos h0, List.get?_eq_getElem?, List.getElem?_eq_getElem hk]

/-- C36. Whatever the draws are, provided each draw `myrandom(i+1)` lies in `[0, i]`:
`random_shuffle(v)` reads and writes `v` inside its range only and ends with a permutation
of `v` (the same elements with the same multiplicities); `randomize(v)` returns that
permutation and leaves `v` as it was. -/
theorem random_shuffle_permutation {T : Type} (myrandom : Nat → Int) (v : List T)
    (h : ∀ i, 1 ≤ i → i < v.length → 0 ≤ myrandom i ∧ myrandom i ≤ i) :
    ∃ w, random_shuffle myrandom v = .ok w ∧ w.Perm v ∧ w.length = v.length ∧
      randomize myrandom v = .ok (v, w) := by
  obtain ⟨w, hw, hP⟩ := foldlM_range'_inv (random_shuffle_step myrandom)
    (fun _ s => s.Perm v ∧ s.length = v.length) (v.length - 1) 1 v ⟨List.Perm.refl v, rfl⟩
    (by
      intro k s hk1 hk2 ⟨hs1, hs2⟩
      obtain ⟨h0, h1⟩ := h k hk1 (by omega)
      unfold random_shuffle_step
      dsimp only
      by_cases hl : myrandom k < k
      · rw [if_pos hl]
        obtain ⟨a, ha1, ha2⟩ := vec_at_some s (myrandom k) h0 (by omega)
        obtain ⟨b, hb1, hb2⟩ := vec_at_some s (k : Int) (by omega) (by omega)
        rw [ha1, hb1]
        refine ⟨_, rfl, ?_, by simp [hs2]⟩
        simp only [Int.toNat_ofNat] at hb2
        exact (swap_perm s (myrandom k).toNat k a b (by omega) ha2 hb2).trans hs1
      · rw [if_neg hl]
        exact ⟨s, rfl, hs1, hs2⟩)
  have hr : random_shuffle myrandom v = .ok w := hw
  refine ⟨w, hr, hP.1, hP.2, ?_⟩
  unfold randomize
  dsimp only
  rw [hr]

/-- The instance of C36 at the vector `[10, 20, 30]` with the draws 0 and 1. -/
theorem random_shuffle_permutation_witness :
    ∃ w : List Nat, random_shuffle (fun i => (i : Int) - 1) [10, 20, 30] = .ok w ∧
      w.Perm [10, 20, 30] ∧ w.length = [10, 20, 30].length ∧
      randomize (fun i => (i : Int) - 1) [10, 20, 30] = .ok ([10, 20, 30], w) :=
  random_shuffle_permutation (fun i => (i : Int) - 1) ([10, 20, 30] : List Nat)
    (by intro i h1 h2; dsimp only; constructor <;> omega)

/-! ## `chop_internal` after `add_internal` (C31) -/

/-- The alignment that `add_internal` returns. -/
theorem add_internal_rows (A : alignment) (T : Tree) (hA : A.n_sequences = T.n_leaves) :
    ∃ B, add_internal A T = .ok B ∧
      B.n_sequences = T.n_leaves + (T.n_nodes - T.n_leaves) ∧ B.length = A.length ∧
      B.get_alphabet = A.get_alphabet ∧
      (∀ i, i < T.n_leaves → B.name i = A.name i ∧ ∀ c, B.cell c i = A.cell c i) ∧
      ∀ i, T.n_leaves ≤ i → i < T.n_leaves + (T.n_nodes - T.n_leaves) →
        B.name i = "A" ++ toString i ∧ ∀ c, c < B.length → B.cell c i = alphabet.gap := by
  obtain ⟨h1, h2, h3, h4, h5⟩ :=
    add_internal_names_inv A T.n_leaves (T.n_nodes - T.n_leaves) hA
  obtain ⟨g1, g2, g3, g4, g5⟩ := add_internal_gaps_inv T
    ((List.range' T.n_leaves (T.n_nodes - T.n_leaves)).foldl add_internal_name_step A)
    ((List.range' T.n_leaves (T.n_nodes - T.n_leaves)).foldl add_internal_name_step A).length
  refine ⟨_, by rw [add_internal, if_neg (by simpa using hA)], ?_, ?_, ?_, ?_, ?_⟩
  · dsimp only
    rw [g1, h1]
  · dsimp only
    rw [g2, h2]
  · dsimp only
    rw [g3, h3]
  · intro i hi
    rw [g4, h5, if_neg (by omega)]
    refine ⟨rfl, fun c => ?_⟩
    rw [g5, if_neg (by omega), h4]
  · intro i hi1 hi2
    rw [g4, h5, if_pos (by omega)]
    refine ⟨rfl, fun c hc => ?_⟩
    rw [g2] at hc
    rw [g5, if_pos ⟨hc, by omega, by omega⟩]

/-- C31. For every tree `T` with `n_nodes = 2*n_leaves - 2` and every alignment `A` with
`n_leaves` rows, `add_internal(A,T)` returns an alignment `B`, and
`chop_internal(B, keep_empty_columns = true)` has the rows of `A`: as many rows and columns,
the same alphabet, and in each row the name and the cells of `A`. -/
theorem chop_internal_add_internal (remove_empty_columns : alignment → alignment)
    (A : alignment) (T : Tree) (hA : A.n_sequences = T.n_leaves)
    (hn : T.n_nodes = 2 * T.n_leaves - 2) :
    ∃ B, add_internal A T = .ok B ∧
      (chop_internal remove_empty_columns B true).n_sequences = A.n_sequences ∧
      (chop_internal remove_empty_columns B true).length = A.length ∧
      (chop_internal remove_empty_columns B true).get_alphabet = A.get_alphabet ∧
      ∀ i, i < A.n_sequences →
        (chop_internal remove_empty_columns B true).name i = A.name i ∧
        ∀ c, (chop_internal remove_empty_columns B true).cell c i = A.cell c i := by
  obtain ⟨B, hB, b1, b2, b3, b4, b5⟩ := add_internal_rows A T hA
  refine ⟨B, hB, ?_⟩
  have hb : for_break (List.range' ((B.n_sequences + 2) / 2)
      (B.n_sequences - (B.n_sequences + 2) / 2)) (chop_row_step B) true = true := by
    rw [for_break_row, Bool.true_and, List.all_eq_true]
    intro i hi
    rw [List.mem_range'_1] at hi
    obtain ⟨h1, h2⟩ := b5 i (by omega) (by omega)
    simp only [chop_row_ok, Bool.and_eq_true, decide_eq_true_eq, List.all_eq_true,
      List.mem_range, Bool.not_eq_true', alphabet.is_letter_class, decide_eq_false_iff_not]
    refine ⟨?_, fun c hc => ?_⟩
    · rw [h1, String.data_append]
      rfl
    · rw [h2 c hc]
      decide
  obtain ⟨g1, g2, g3, g4⟩ :=
    chop_delete_inv B ((B.n_sequences + 2) / 2) (B.n_sequences - (B.n_sequences + 2) / 2)
  have hc : chop_internal remove_empty_columns B true =
      (List.range (B.n_sequences - (B.n_sequences + 2) / 2)).foldl
        (fun (D : alignment) _ => D.del_sequence ((B.n_sequences + 2) / 2)) B := by
    simp only [chop_internal, hb, not_true_eq_false, if_false]
  rw [hc]
  refine ⟨?_, ?_, ?_, ?_⟩
  · rw [g1, b1]; omega
  · rw [g2, b2]
  · rw [g3, b3]
  · intro i hi
    obtain ⟨k1, k2⟩ := g4 i (by rw [b1]; omega)
    obtain ⟨k3, k4⟩ := b4 i (by omega)
    exact ⟨k1.trans k3, fun c => (k2 c).trans (k4 c)⟩

/-- The instance of C31 at an alignment of four rows and the tree with four leaves and two
internal nodes. -/
theorem chop_internal_add_internal_witness :
    ∃ B, add_internal four_rows four_leaf_tree = .ok B ∧
      (chop_internal id B true).n_sequences = four_rows.n_sequences ∧
      (chop_internal id B true).length = four_rows.length ∧
      (chop_internal id B true).get_alphabet = four_rows.get_alphabet ∧
      ∀ i, i < four_rows.n_sequences →
        (chop_internal id B true).name i = four_rows.name i ∧
        ∀ c, (chop_internal id B true).cell c i = four_rows.cell c i :=
  chop_internal_add_internal id four_rows four_leaf_tree (by decide) (by decide)

/-! ## The sample of alignments that `load_alignments` keeps (C37, C38) -/

theorem remove_every_other_spec (n : Nat) :
    ∀ (l kept : List alignment) (total : Int), l.length ≤ n →
      (remove_every_other l kept total).1.length = kept.length + l.length / 2 ∧
      (remove_every_other l kept total).2 = total - ((l.length + 1) / 2 : Nat) := by
  induction n with
  | zero =>
    intro l kept total hl
    have : l = [] := List.length_eq_zero.mp (by omega)
    subst this
    simp [remove_every_other]
  | succ n ih =>
    intro l kept total hl
    match l with
    | [] => simp [remove_every_other]
    | [_] => simp [remove_every_other]
    | _ :: b :: rest =>
      rw [remove_every_other]
      obtain ⟨h1, h2⟩ := ih rest (kept ++ [b]) (total - 1)
        (by simp only [List.length_cons] at hl; omega)
      rw [h1, h2]
      simp only [List.length_append, List.length_cons, List.length_nil]
      constructor
      · omega
      · have : (rest.length + 1 + 1 + 1) / 2 = (rest.length + 1) / 2 + 1 := by omega
        rw [this]
        push_cast
        omega

theorem load_store_counted (remove_empty_columns : alignment → alignment)
    (compute_mapping : List String → List String → Except Failure (List Nat))
    (maxalignments : Int) (hm : 1 ≤ maxalignments) (s s3 : load_state) (A : alignment)
    (hs : s.counted maxalignments)
    (h : load_store remove_empty_columns compute_mapping maxalignments s A = .ok s3) :
    s3.counted maxalignments := by
  obtain ⟨hs1, hs2⟩ := hs
  unfold load_store at h
  dsimp only at h
  split at h
  · cases h
  · split at h
    · cases h
    · rename_i B _
      split at h
      · obtain ⟨g1, g2⟩ := remove_every_other_spec (s.alignments ++ [B]).length
          (s.alignments ++ [B]) [] (s.total + 1) (le_refl _)
        cases h
        refine ⟨?_, ?_⟩
        · show (remove_every_other (s.alignments ++ [B]) [] (s.total + 1)).2 =
            ((remove_every_other (s.alignments ++ [B]) [] (s.total + 1)).1.length : Int)
          rw [g1, g2]
          simp only [List.length_append, List.length_cons, List.length_nil]
          push_cast
          omega
        · show (remove_every_other (s.alignments ++ [B]) [] (s.total + 1)).2 ≤ _
          rw [g2]
          simp only [List.length_append, List.length_cons, List.length_nil]
          push_cast
          omega
      · cases h
        refine ⟨?_, ?_⟩
        · show s.total + 1 = ((s.alignments ++ [B]).length : Int)
          simp [hs1]
        · show s.total + 1 ≤ _
          omega

theorem load_step_counted (remove_empty_columns : alignment → alignment)
    (compute_mapping : List String → List String → Except Failure (List Nat))
    (maxalignments : Int) (hm : 1 ≤ maxalignments) (s s3 : load_state)
    (block : Option alignment) (b : Bool) (hs : s.counted maxalignments)
    (h : load_step remove_empty_columns compute_mapping maxalignments s block = .ok (s3, b)) :
    s3.counted maxalignments := by
  unfold load_step at h
  dsimp only at h
  split at h
  · cases h; exact hs
  · split at h
    · cases h; exact hs
    · cases block with
      | none => cases h; exact hs
      | some A =>
        dsimp only at h
        split at h
        · cases h
        · rename_i s4 h4
          cases h
          refine load_store_counted remove_empty_columns compute_mapping maxalignments hm _ _ A
            ?_ h4
          split
          · exact hs
          · exact hs

theorem load_loop_counted (remove_empty_columns : alignment → alignment)
    (compute_mapping : List String → List String → Except Failure (List Nat))
    (maxalignments : Int) (hm : 1 ≤ maxalignments) (ifile : List (Option alignment)) :
    ∀ (s r : load_state), s.counted maxalignments →
      load_loop remove_empty_columns compute_mapping maxalignments ifile s = .ok r →
      r.counted maxalignments := by
  induction ifile with
  | nil => intro s r hs h; cases h; exact hs
  | cons block rest ih =>
    intro s r hs h
    rw [load_loop] at h
    split at h
    · cases h
    · rename_i s1 h1
      cases h
      exact load_step_counted _ _ _ hm _ _ _ _ hs h1
    · rename_i s1 h1
      exact ih s1 r (load_step_counted _ _ _ hm _ _ _ _ hs h1) h

theorem thinning_loop_count (rest : List alignment) :
    ∀ (kept : List alignment) (kill : List Int) (i total : Int)
      (r : List alignment × List Int × Int),
      thinning_loop rest kept kill i total = .ok r →
      r.1.length + kill.length = kept.length + rest.length + r.2.1.length := by
  induction rest with
  | nil => intro kept kill i total r h; cases h; simp
  | cons a rest ih =>
    intro kept kill i total r h
    rw [thinning_loop] at h
    split at h
    · cases h
    · rename_i back hback
      have hk : kill.length = kill.dropLast.length + 1 := by
        cases hn : kill with
        | nil => rw [hn] at hback; simp at hback
        | cons c t => simp
      split at h
      · have := ih _ _ _ _ _ h
        simp only [List.length_cons]
        omega
      · have := ih _ _ _ _ _ h
        simp only [List.length_append, List.length_cons, List.length_nil] at this ⊢
        omega

/-- C37 at the failing input: a stream of three alignments with `skip = 0` and
`maxalignments = 2`. The reading loop stores the three alignments without halving
(`total = 3 <= 4`), the thinning has `extra = 1` and `kill = [1]`, and after the deletion
of the alignment 1 the loop goes on to the alignment 2 with `kill` empty, where it
evaluates `kill.back()`: the call does not return a list of two alignments. What holds for
every stream and every `maxalignments >= 1`: the reading loop ends with `total` stored
alignments and `total <= 2*maxalignments`, and a call that returns, returns at most
`maxalignments` alignments. -/
theorem load_alignments_three_of_two :
    load_loop id (fun _ _ => .ok []) 2 [some two_rows_a, some two_rows_a, some two_rows_a]
        ⟨[], 1, 0, 0, 0, []⟩ =
      .ok ⟨[two_rows_a, two_rows_a, two_rows_a], 1, 3, 3, 0, sequence_names two_rows_a⟩ ∧
    ((List.range ((3 : Int) - 2).toNat).map (kill_index 3 (3 - 2))).reverse = [1] ∧
    load_alignments id (fun _ _ => .ok [])
        [some two_rows_a, some two_rows_a, some two_rows_a] 0 2 =
      .error Failure.out_of_range ∧
    (∀ (remove_empty_columns : alignment → alignment)
      (compute_mapping : List String → List String → Except Failure (List Nat))
      (ifile : List (Option alignment)) (skip maxalignments : Int), 1 ≤ maxalignments →
      (∀ s, load_loop remove_empty_columns compute_mapping maxalignments ifile
          ⟨[], 1, 0, 0, skip, []⟩ = .ok s →
        s.total = (s.alignments.length : Int) ∧ s.total ≤ 2 * maxalignments) ∧
      ∀ l, load_alignments remove_empty_columns compute_mapping ifile skip maxalignments =
          .ok l → (l.length : Int) ≤ maxalignments) := by
  refine ⟨rfl, by decide, rfl, ?_⟩
  intro rec cm ifile skip m hm
  have hloop : ∀ s, load_loop rec cm m ifile ⟨[], 1, 0, 0, skip, []⟩ = .ok s →
      s.total = (s.alignments.length : Int) ∧ s.total ≤ 2 * m := by
    intro s hs
    exact load_loop_counted rec cm m hm ifile ⟨[], 1, 0, 0, skip, []⟩ s
      ⟨rfl, by show (0 : Int) ≤ 2 * m; omega⟩ hs
  refine ⟨hloop, ?_⟩
  intro l hl
  unfold load_alignments at hl
  split at hl
  · cases hl
  · rename_i s hs
    obtain ⟨c1, c2⟩ := hloop s hs
    split at hl
    · rename_i hgt
      split at hl
      · cases hl
      · dsimp only at hl
        split at hl
        · cases hl
        · rename_i r hr
          split at hl
          · rename_i hk
            cases hl
            have := thinning_loop_count _ _ _ _ _ _ hr
            simp only [List.length_reverse, List.length_map, List.length_range,
              List.length_nil, hk] at this
            omega
          · cases hl
    · cases hl
      omega

theorem kill_index_lt (total extra : Int) (hx : 0 < extra) (hxt : extra ≤ total) (i j : Nat)
    (hij : i < j) : kill_index total extra i < kill_index total extra j := by
  unfold kill_index
  have h1 : (2 * (i : Int) + 1) * total + 1 * (2 * extra) ≤ (2 * (j : Int) + 1) * total := by
    have hj : (i : Int) + 1 ≤ j := by exact_mod_cast hij
    have ht : 0 ≤ total := by omega
    nlinarith
  have h2 := Int.ediv_le_ediv (show (0 : Int) < 2 * extra by omega) h1
  rw [Int.add_mul_ediv_right _ _ (by omega)] at h2
  omega

theorem kill_index_nonneg (total extra : Int) (hx : 0 < extra) (ht : 0 ≤ total) (i : Nat) :
    0 ≤ kill_index total extra i := by
  unfold kill_index
  apply Int.ediv_nonneg
  · have : (0 : Int) ≤ i := Int.natCast_nonneg i
    nlinarith
  · omega

theorem kill_index_le (total extra : Int) (hx : 0 < extra) (hxt : 2 * extra ≤ total)
    (i : Nat) (hi : (i : Int) < extra) : kill_index total extra i < total := by
  unfold kill_index
  apply Int.ediv_lt_of_lt_mul (by omega)
  nlinarith

theorem kill_index_lt_last (total extra : Int) (hx : 0 < extra) (hxt : 2 * extra < total)
    (i : Nat) (hi : (i : Int) < extra) : kill_index total extra i < total - 1 := by
  unfold kill_index
  apply Int.ediv_lt_of_lt_mul (by omega)
  nlinarith

/-- The thinning loop reads `kill.back()` on the empty vector when the indices still in
`kill` all lie before the last alignment. `R` is `kill` read from its back. -/
theorem thinning_loop_fails (rest : List alignment) :
    ∀ (kept : List alignment) (R : List Int) (i total : Int), rest ≠ [] →
      R.Pairwise (fun a b => a < b) →
      (∀ b, b ∈ R → i ≤ b ∧ b < i + (rest.length : Int) - 1) →
      thinning_loop rest kept R.reverse i total = .error Failure.out_of_range := by
  induction rest with
  | nil => intro _ _ _ _ h; exact absurd rfl h
  | cons a rest ih =>
    intro kept R i total _ hR hb
    cases R with
    | nil => rfl
    | cons b R =>
      have hlast : (b :: R).reverse.getLast? = some b := by simp
      have hdrop : (b :: R).reverse.dropLast = R.reverse := by simp
      obtain ⟨hb1, hb2⟩ := hb b (List.mem_cons_self b R)
      simp only [List.length_cons, Nat.cast_add, Nat.cast_one] at hb2
      rw [thinning_loop, hlast]
      dsimp only
      have hR2 := List.pairwise_cons.mp hR
      by_cases hib : i = b
      · rw [if_pos hib, hdrop]
        apply ih kept R (i + 1) (total - 1)
        · intro h
          rw [h] at hb2
          simp at hb2
          omega
        · exact hR2.2
        · intro c hc
          have h1 := hR2.1 c hc
          have h2 := (hb c (List.mem_cons_of_mem b hc)).2
          simp only [List.length_cons, Nat.cast_add, Nat.cast_one] at h2
          omega
      · rw [if_neg hib]
        apply ih (kept ++ [a]) (b :: R) (i + 1) total
        · intro h
          rw [h] at hb2
          simp at hb2
          omega
        · exact hR
        · intro c hc
          have h2 := (hb c hc).2
          simp only [List.length_cons, Nat.cast_add, Nat.cast_one] at h2
          rcases List.mem_cons.mp hc with h3 | h3
          · omega
          · have h1 := hR2.1 c h3
            omega

/-- C38 at the failing inputs. For `total = 3` alignments and `maxalignments = 2` the
vector `kill` is `[1]`, and when the loop reaches the alignment 2 it evaluates
`kill.back()` on the vector that the deletion of the alignment 1 has emptied. The same
happens for every `1 <= maxalignments < total < 2*maxalignments`: all indices in `kill` lie
before the last alignment. Whenever the body of the loop runs with `kill` empty it reads
`kill.back()`. The second half of the claim holds: for `total <= 2*maxalignments` the
indices in `kill` are increasing from its back, hence pairwise distinct, and lie in
`0 .. total-1`. -/
theorem thinning_reads_empty_kill :
    thinning_loop [two_rows_a, two_rows_a, two_rows_a] []
        ((List.range ((3 : Int) - 2).toNat).map (kill_index 3 (3 - 2))).reverse 0 3 =
      .error Failure.out_of_range ∧
    (∀ a rest kept i total,
      thinning_loop (a :: rest) kept [] i total = .error Failure.out_of_range) ∧
    (∀ (total maxalignments : Int) (l : List alignment), 1 ≤ maxalignments →
      maxalignments < total → total < 2 * maxalignments → (l.length : Int) = total →
      thinning_loop l []
          ((List.range (total - maxalignments).toNat).map
            (kill_index total (total - maxalignments))).reverse 0 total =
        .error Failure.out_of_range) ∧
    ∀ (total maxalignments : Int), 1 ≤ maxalignments → maxalignments < total →
      total ≤ 2 * maxalignments →
      ((List.range (total - maxalignments).toNat).map
        (kill_index total (total - maxalignments))).Pairwise (fun a b => a < b) ∧
      ∀ b, b ∈ ((List.range (total - maxalignments).toNat).map
          (kill_index total (total - maxalignments))).reverse → 0 ≤ b ∧ b < total := by
  have hpair : ∀ (total maxalignments : Int), 1 ≤ maxalignments → maxalignments < total →
      ((List.range (total - maxalignments).toNat).map
        (kill_index total (total - maxalignments))).Pairwise (fun a b => a < b) := by
    intro total m h1 h2
    rw [List.pairwise_map]
    exact List.Pairwise.imp (fun {i j} hij => kill_index_lt total (total - m) (by omega)
      (by omega) i j hij) (List.pairwise_lt_range _)
  refine ⟨rfl, fun _ _ _ _ _ => rfl, ?_, ?_⟩
  · intro total m l h1 h2 h3 hl
    apply thinning_loop_fails l [] _ 0 total
    · intro h
      rw [h] at hl
      simp at hl
      omega
    · exact hpair total m h1 h2
    · intro b hb
      obtain ⟨i, hi, rfl⟩ := List.mem_map.mp hb
      rw [List.mem_range] at hi
      refine ⟨by simpa using kill_index_nonneg total (total - m) (by omega) (by omega) i, ?_⟩
      have := kill_index_lt_last total (total - m) (by omega) (by omega) i (by omega)
      omega
  · intro total m h1 h2 h3
    refine ⟨hpair total m h1 h2, ?_⟩
    intro b hb
    rw [List.mem_reverse] at hb
    obtain ⟨i, hi, rfl⟩ := List.mem_map.mp hb
    rw [List.mem_range] at hi
    exact ⟨kill_index_nonneg total (total - m) (by omega) (by omega) i,
      kill_index_le total (total - m) (by omega) (by omega) i (by omega)⟩

/-! ## The layout of the indices of a `SuperModel` (C33) -/

theorem getD_insert {α : Type} (v : List α) (I : Nat) (x d : α) (hI : I ≤ v.length) (i : Nat) :
    (v.take I ++ x :: v.drop I).getD i d =
      if i < I then v.getD i d else if i = I then x else v.getD (i - 1) d := by
  have hlen : (v.take I).length = I := by simp [hI]
  by_cases h1 : i < I
  · rw [if_pos h1, List.getD_append _ _ _ _ (by omega), List.getD_eq_getElem?_getD,
      List.getD_eq_getElem?_getD, List.getElem?_take_of_lt h1]
  · rw [if_neg h1, List.getD_append_right _ _ _ _ (by omega), hlen]
    by_cases h2 : i = I
    · rw [if_pos h2, h2, Nat.sub_self]
      rfl
    · rw [if_neg h2]
      obtain ⟨k, hk⟩ : ∃ k, i - I = k + 1 := ⟨i - I - 1, by omega⟩
      rw [hk, List.getD_cons_succ, List.getD_eq_getElem?_getD, List.getD_eq_getElem?_getD,
        List.getElem?_drop]
      congr 2
      omega

theorem length_insert {α : Type} (v : List α) (I : Nat) (x : α) (hI : I ≤ v.length) :
    (v.take I ++ x :: v.drop I).length = v.length + 1 := by
  simp only [List.length_append, List.length_take, List.length_cons, List.length_drop]
  omega

theorem first_index_loop (l : List Nat) (n : Nat) (hn : n ≤ l.length) :
    ((List.range n).foldl SuperModel.first_index_step l).length = l.length ∧
    ∀ m, ((List.range n).foldl SuperModel.first_index_step l).getD m 0 =
      if m < n then l.getD m 0 + 1 else l.getD m 0 := by
  refine foldl_range_inv SuperModel.first_index_step
    (fun t v => v.length = l.length ∧
      ∀ m, v.getD m 0 = if m < t then l.getD m 0 + 1 else l.getD m 0) l n
    ⟨rfl, fun m => by rw [if_neg (by omega)]⟩ ?_
  intro k v hk ⟨h1, h2⟩
  refine ⟨by simp [SuperModel.first_index_step, h1], ?_⟩
  intro m
  unfold SuperModel.first_index_step
  rw [List.getD_eq_getElem?_getD, List.getElem?_set]
  by_cases hm : k = m
  · subst hm
    rw [if_pos rfl, if_pos (by omega), if_pos (by omega), h2, if_neg (by omega)]
    rfl
  · rw [if_neg hm, ← List.getD_eq_getElem?_getD, h2]
    by_cases hm2 : m < k
    · rw [if_pos hm2, if_pos (by omega)]
    · rw [if_neg hm2, if_neg (by omega)]

/-- The state that `add_super_parameter` builds: the parameter, its name and `-1` are put
in at the index `n_super_parameters()`, and every entry of `first_index_of_model` goes up
by one. -/
theorem SuperModel.add_super_parameter_eq (S : SuperModel) (P : Parameter)
    (h1 : S.short_parameter_names.length = S.parameters_.length)
    (h2 : S.model_of_index.length = S.parameters_.length)
    (h3 : S.n_super_parameters ≤ S.parameters_.length) :
    ∃ S1, S.add_super_parameter P = .ok S1 ∧
      S1.parameters_ = S.parameters_.take S.n_super_parameters ++
        P :: S.parameters_.drop S.n_super_parameters ∧
      S1.short_parameter_names = S.short_parameter_names.take S.n_super_parameters ++
        P.name :: S.short_parameter_names.drop S.n_super_parameters ∧
      S1.model_of_index = S.model_of_index.take S.n_super_parameters ++
        (-1) :: S.model_of_index.drop S.n_super_parameters ∧
      S1.first_index_of_model.length = S.first_index_of_model.length ∧
      (∀ m, m < S.first_index_of_model.length →
        S1.first_index_of_model.getD m 0 = S.first_index_of_model.getD m 0 + 1) ∧
      S1.model_prefix = S.model_prefix := by
  obtain ⟨g1, g2⟩ := first_index_loop S.first_index_of_model S.first_index_of_model.length
    (le_refl _)
  refine ⟨⟨⟨S.parameters_.take S.n_super_parameters ++
      P :: S.parameters_.drop S.n_super_parameters⟩,
    S.short_parameter_names.take S.n_super_parameters ++
      P.name :: S.short_parameter_names.drop S.n_super_parameters,
    S.model_of_index.take S.n_super_parameters ++
      (-1) :: S.model_of_index.drop S.n_super_parameters,
    (List.range S.first_index_of_model.length).foldl SuperModel.first_index_step
      S.first_index_of_model, S.model_prefix⟩, ?_, rfl, rfl, rfl, g1, fun m hm => ?_, rfl⟩
  · unfold SuperModel.add_super_parameter vector_insert
    dsimp only
    rw [if_pos h3, if_pos (by omega), if_pos (by omega)]
  · dsimp only
    rw [g2, if_pos hm]

theorem SuperModel.supers_append (a b : List SuperModel.Call) :
    SuperModel.supers (a ++ b) = SuperModel.supers a ++ SuperModel.supers b := by
  induction a with
  | nil => rfl
  | cons c cs ih => cases c <;> simp [SuperModel.supers, ih]

theorem SuperModel.sub_models_append (a b : List SuperModel.Call) :
    SuperModel.sub_models (a ++ b) = SuperModel.sub_models a ++ SuperModel.sub_models b := by
  induction a with
  | nil => rfl
  | cons c cs ih => cases c <;> simp [SuperModel.sub_models, ih]

theorem SuperModel.prefixes_append (a b : List SuperModel.Call) :
    SuperModel.prefixes (a ++ b) = SuperModel.prefixes a ++ SuperModel.prefixes b := by
  induction a with
  | nil => rfl
  | cons c cs ih => cases c <;> simp [SuperModel.prefixes, ih]

theorem getD_concat {α : Type} (l : List α) (x d : α) (i : Nat) :
    (l ++ [x]).getD i d = if i < l.length then l.getD i d else if i = l.length then x else d := by
  by_cases h1 : i < l.length
  · rw [if_pos h1, List.getD_append _ _ _ _ h1]
  · rw [if_neg h1, List.getD_append_right _ _ _ _ (by omega)]
    by_cases h2 : i = l.length
    · rw [if_pos h2, h2, Nat.sub_self]
      rfl
    · rw [if_neg h2]
      obtain ⟨k, hk⟩ : ∃ k, i - l.length = k + 1 := ⟨i - l.length - 1, by omega⟩
      rw [hk]
      rfl

/-- `add_super_parameter` keeps the states that the calls build. -/
theorem SuperModel.built_add_super_parameter (SubModels : Nat → Nat)
    (done : List SuperModel.Call) (S : SuperModel) (P : Parameter)
    (hS : S.built SubModels done) :
    ∃ S1, S.add_super_parameter P = .ok S1 ∧
      S1.built SubModels (done ++ [SuperModel.Call.add_super_parameter P]) := by
  obtain ⟨⟨l1, l2, l3, l4, l5, l6, l7, l8⟩, n0, p1, p1b, p2, p2b, p3⟩ := hS
  obtain ⟨S1, hS1, e1, e2, e3, e4, e5, e6⟩ := S.add_super_parameter_eq P l1 l2 l4
  refine ⟨S1, hS1, ?_⟩
  have hlen : S1.parameters_.length = S.parameters_.length + 1 := by
    rw [e1]; exact length_insert _ _ _ l4
  have hsub : S1.n_submodels = S.n_submodels := e4
  have hsuper : S1.n_super_parameters = S.n_super_parameters + 1 := by
    unfold SuperModel.n_super_parameters
    rw [hsub]
    by_cases h0 : S.n_submodels = 0
    · rw [if_pos h0, if_pos h0]
      exact hlen
    · rw [if_neg h0, if_neg h0]
      exact e5 0 (by unfold SuperModel.n_submodels at h0; omega)
  have hmoi : ∀ i, S1.model_of_index.getD i 0 =
      if i < S.n_super_parameters then S.model_of_index.getD i 0
      else if i = S.n_super_parameters then -1 else S.model_of_index.getD (i - 1) 0 := by
    intro i
    rw [e3]
    exact getD_insert _ _ _ _ (by omega) i
  have hshort : ∀ i, S1.short_parameter_names.getD i "" =
      if i < S.n_super_parameters then S.short_parameter_names.getD i ""
      else if i = S.n_super_parameters then P.name
      else S.short_parameter_names.getD (i - 1) "" := by
    intro i
    rw [e2]
    exact getD_insert _ _ _ _ (by omega) i
  have hname : ∀ i, S1.parameter_name i =
      if i < S.n_super_parameters then S.parameter_name i
      else if i = S.n_super_parameters then P.name else S.parameter_name (i - 1) := by
    intro i
    unfold Model.parameter_name
    rw [e1, getD_insert _ _ _ _ l4 i]
    by_cases h1 : i < S.n_super_parameters
    · rw [if_pos h1, if_pos h1]
    · rw [if_neg h1, if_neg h1]
      by_cases h2 : i = S.n_super_parameters
      · rw [if_pos h2, if_pos h2]
      · rw [if_neg h2, if_neg h2]
  have hfirst : ∀ m, m < S.n_submodels →
      S1.first_index_of_model.getD m 0 = S.first_index_of_model.getD m 0 + 1 := e5
  refine ⟨⟨?_, ?_, ?_, ?_, ?_, ?_, ?_, ?_⟩, ?_, ?_, ?_, ?_, ?_, ?_⟩
  · rw [e2, length_insert _ _ _ (by omega), hlen, l1]
  · rw [e3, length_insert _ _ _ (by omega), hlen, l2]
  · rw [e6, e4, l3]
  · omega
  · intro i hi
    rw [hmoi, hsuper]
    by_cases h1 : i < S.n_super_parameters
    · rw [if_pos h1, l5 i (by omega)]
      omega
    · rw [if_neg h1]
      by_cases h2 : i = S.n_super_parameters
      · rw [if_pos h2]
        omega
      · rw [if_neg h2, l5 (i - 1) (by omega)]
        omega
  · intro m hm i hi
    rw [hsub] at hm
    rw [hmoi, hfirst m hm]
    have h7 := l7 m hm
    by_cases h1 : i < S.n_super_parameters
    · rw [if_pos h1]
      have := (l5 i (by omega)).mpr h1
      rw [this]
      constructor
      · intro h
        have h2 := Int.natCast_nonneg m
        rw [← h] at h2
        exact absurd h2 (by decide)
      · intro h
        omega
    · rw [if_neg h1]
      by_cases h2 : i = S.n_super_parameters
      · rw [if_pos h2]
        constructor
        · intro h
          have h2 := Int.natCast_nonneg m
          rw [← h] at h2
          exact absurd h2 (by decide)
        · intro h
          omega
      · rw [if_neg h2, l6 m hm (i - 1) (by omega)]
        omega
  · intro m hm
    rw [hsub] at hm
    rw [hfirst m hm, hsuper, hlen]
    have h7 := l7 m hm
    omega
  · intro i hi
    rw [hmoi, hsub]
    by_cases h1 : i < S.n_super_parameters
    · rw [if_pos h1]
      exact l8 i (by omega)
    · rw [if_neg h1]
      by_cases h2 : i = S.n_super_parameters
      · rw [if_pos h2]
        exact Or.inl rfl
      · rw [if_neg h2]
        exact l8 (i - 1) (by omega)
  · intro i hi
    rw [hname, hshort]
    by_cases h1 : i < S.n_super_parameters
    · rw [if_pos h1, if_pos h1]
      exact n0 i h1
    · rw [if_neg h1, if_neg h1, if_pos (by omega), if_pos (by omega)]
  · rw [hsuper, SuperModel.supers_append, List.length_append, p1]
    rfl
  · intro i hi
    rw [hshort, SuperModel.supers_append]
    show _ = ((SuperModel.supers done ++ [P]).getD i _).name
    rw [getD_concat, ← p1]
    by_cases h1 : i < S.n_super_parameters
    · rw [if_pos h1, if_pos h1]
      exact p1b i h1
    · rw [if_neg h1, if_neg h1, if_pos (by omega), if_pos (by omega)]
  · rw [hsub, SuperModel.sub_models_append, p2]
    simp [SuperModel.sub_models]
  · intro m hm
    rw [hsub] at hm
    have hsm : SuperModel.sub_models (done ++ [SuperModel.Call.add_super_parameter P]) =
        SuperModel.sub_models done := by
      rw [SuperModel.sub_models_append]
      simp [SuperModel.sub_models]
    rw [hsm]
    refine ⟨(p2b m hm).1, fun j hj => ?_⟩
    have h7 := l7 m hm
    rw [hfirst m hm, hshort, if_neg (by omega), if_neg (by omega)]
    have : S.first_index_of_model.getD m 0 + 1 + j - 1 = S.first_index_of_model.getD m 0 + j := by
      omega
    rw [this]
    exact (p2b m hm).2 j hj
  · intro m hm
    rw [hsub] at hm
    have hpm : SuperModel.prefixes (done ++ [SuperModel.Call.add_super_parameter P]) =
        SuperModel.prefixes done := by
      rw [SuperModel.prefixes_append]
      simp [SuperModel.prefixes]
    rw [hpm, e6]
    exact p3 m hm

theorem SuperModel.layout_well_formed (SubModels : Nat → Nat) (S : SuperModel)
    (hL : S.layout SubModels)
    (hN : ∀ i, i < S.n_super_parameters →
      S.parameter_name i = S.short_parameter_names.getD i "") :
    S.well_formed SubModels := by
  obtain ⟨l1, l2, l3, l4, l5, l6, l7, l8⟩ := hL
  refine ⟨l1, l2, l3, ?_, ?_⟩
  · intro i hi
    rcases l8 i hi with h | ⟨m, hm, h⟩
    · exact Or.inl ⟨h, hN i ((l5 i hi).mp h)⟩
    · exact Or.inr ⟨m, hm, h, (l6 m hm i hi).mp h⟩
  · intro m hm i hi
    have h7 := l7 m hm
    refine ⟨by omega, (l6 m hm _ (by omega)).mpr ⟨by omega, by omega⟩⟩

theorem SuperModel.layout_same_but_names (SubModels : Nat → Nat) (R S : SuperModel)
    (h : R.same_but_names S) (hL : S.layout SubModels) : R.layout SubModels := by
  obtain ⟨s1, s2, s3, s4, s5⟩ := h
  have hsub : R.n_submodels = S.n_submodels := by
    unfold SuperModel.n_submodels; rw [s3]
  have hsuper : R.n_super_parameters = S.n_super_parameters := by
    unfold SuperModel.n_super_parameters Model.n_parameters
    rw [hsub, s3, s5]
  unfold SuperModel.layout at hL ⊢
  rw [s1, s2, s3, s4, s5, hsub, hsuper]
  exact hL

theorem SuperModel.n_super_with_parameters (S : SuperModel) (pre : String) (M : Model) :
    (S.with_parameters pre M).n_super_parameters = S.n_super_parameters := by
  unfold SuperModel.n_super_parameters SuperModel.n_submodels SuperModel.with_parameters
  dsimp only
  rw [if_neg (by simp)]
  by_cases h : S.first_index_of_model.length = 0
  · rw [if_pos h]
    have : S.first_index_of_model = [] := List.length_eq_zero.mp h
    rw [this]
    rfl
  · rw [if_neg h, List.getD_append _ _ _ _ (by omega)]

theorem SuperModel.layout_with_parameters (SubModels : Nat → Nat) (S : SuperModel)
    (pre : String) (M : Model) (hL : S.layout SubModels)
    (hM : SubModels S.n_submodels = M.n_parameters) :
    (S.with_parameters pre M).layout SubModels := by
  obtain ⟨l1, l2, l3, l4, l5, l6, l7, l8⟩ := hL
  have hn : (S.with_parameters pre M).parameters_.length =
      S.parameters_.length + M.n_parameters := by
    simp [SuperModel.with_parameters, Model.n_parameters]
  have hsub : (S.with_parameters pre M).n_submodels = S.n_submodels + 1 := by
    simp [SuperModel.with_parameters, SuperModel.n_submodels]
  have hsuper := SuperModel.n_super_with_parameters S pre M
  have hmoi := fun i hi => SuperModel.model_of_index_append S pre M i l2 hi
  have hfirst := fun m hm => SuperModel.first_index_append S pre M m hm
  refine ⟨?_, ?_, ?_, ?_, ?_, ?_, ?_, ?_⟩
  · simp [SuperModel.with_parameters, l1]
  · simp [SuperModel.with_parameters, l2, Model.n_parameters]
  · simp [SuperModel.with_parameters, l3]
  · rw [hsuper, hn]; omega
  · intro i hi
    rw [hn] at hi
    rw [hmoi i hi, hsuper]
    by_cases h : i < S.parameters_.length
    · rw [if_pos h]
      exact l5 i h
    · rw [if_neg h]
      constructor
      · intro h2
        have h3 := Int.natCast_nonneg S.n_submodels
        rw [h2] at h3
        exact absurd h3 (by decide)
      · intro h2
        omega
  · intro m hm i hi
    rw [hsub] at hm
    rw [hn] at hi
    rw [hmoi i hi, hfirst m hm]
    by_cases hm2 : m < S.n_submodels
    · rw [if_pos hm2]
      have h7 := l7 m hm2
      by_cases h : i < S.parameters_.length
      · rw [if_pos h]
        exact l6 m hm2 i h
      · rw [if_neg h]
        constructor
        · intro h2
          have : S.n_submodels = m := by exact_mod_cast h2
          omega
        · intro h2
          omega
    · rw [if_neg hm2]
      have hmeq : m = S.n_submodels := by omega
      rw [hmeq, hM]
      by_cases h : i < S.parameters_.length
      · rw [if_pos h]
        constructor
        · intro h2
          rcases l8 i h with h3 | ⟨m', hm', h3⟩
          · rw [h3] at h2
            have h4 := Int.natCast_nonneg S.n_submodels
            rw [← h2] at h4
            exact absurd h4 (by decide)
          · rw [h3] at h2
            have : m' = S.n_submodels := by exact_mod_cast h2
            omega
        · intro h2
          omega
      · rw [if_neg h]
        constructor
        · intro _
          omega
        · intro _
          rfl
  · intro m hm
    rw [hsub] at hm
    rw [hfirst m hm, hsuper, hn]
    by_cases hm2 : m < S.n_submodels
    · rw [if_pos hm2]
      have h7 := l7 m hm2
      omega
    · rw [if_neg hm2]
      have hmeq : m = S.n_submodels := by omega
      rw [hmeq, hM]
      omega
  · intro i hi
    rw [hn] at hi
    rw [hmoi i hi, hsub]
    by_cases h : i < S.parameters_.length
    · rw [if_pos h]
      rcases l8 i h with h3 | ⟨m', hm', h3⟩
      · exact Or.inl h3
      · exact Or.inr ⟨m', by omega, h3⟩
    · rw [if_neg h]
      exact Or.inr ⟨S.n_submodels, by omega, rfl⟩

/-- What `prefix_names()` returns on a well-formed state. -/
theorem SuperModel.prefix_names_result (SubModels : Nat → Nat) (S2 : SuperModel)
    (hW : S2.well_formed SubModels) :
    ∃ S3, SuperModel.prefix_names SubModels S2 = .ok S3 ∧ S3.same_but_names S2 ∧
      (∀ k, S2.model_of_index.getD k 0 = -1 → S3.parameter_name k = S2.parameter_name k) ∧
      (S2.n_submodels ≤ 1 → S3 = S2) ∧
      (¬ S2.n_submodels ≤ 1 → ∀ (k m : Nat), k < S2.parameters_.length →
        S2.model_of_index.getD k 0 = (m : Int) → m < S2.n_submodels →
        S3.parameter_name k = SuperModel.new_name
          ((List.range S2.n_parameters).foldl (SuperModel.prefix_i_step S2)
            (List.replicate S2.n_submodels 0)) S2 m k) := by
  have hassert : ¬ S2.n_parameters ≠ S2.short_parameter_names.length := by
    rw [not_not, hW.1]
    rfl
  unfold SuperModel.prefix_names
  rw [if_neg hassert]
  by_cases hn : S2.n_submodels ≤ 1
  · rw [if_pos hn]
    exact ⟨S2, rfl, ⟨rfl, rfl, rfl, rfl, rfl⟩, fun _ _ => rfl, fun _ => rfl,
      fun h => absurd hn h⟩
  · rw [if_neg hn]
    obtain ⟨g1, g2, g3⟩ := SuperModel.prefix_loop_spec SubModels
      ((List.range S2.n_parameters).foldl (SuperModel.prefix_i_step S2)
        (List.replicate S2.n_submodels 0)) S2 hW
    exact ⟨_, rfl, g1, g3, fun h => absurd h hn, fun _ => g2⟩

theorem SuperModel.duplicate_j_step_super (i : Nat) (S : SuperModel) (j k : Nat)
    (hk : S.model_of_index.getD k 0 = -1) :
    (SuperModel.duplicate_j_step i S j).parameter_name k = S.parameter_name k := by
  unfold SuperModel.duplicate_j_step
  split
  · dsimp only
    split
    · rename_i hi
      have hki : k ≠ i := fun h => hi (h ▸ hk)
      split
      · rename_i hj
        have hkj : k ≠ j := fun h => hj (h ▸ hk)
        rw [SuperModel.parameter_name_set_name, if_neg (fun h => hkj h.1),
          SuperModel.parameter_name_set_name, if_neg (fun h => hki h.1)]
      · rw [SuperModel.parameter_name_set_name, if_neg (fun h => hki h.1)]
    · split
      · rename_i hj
        have hkj : k ≠ j := fun h => hj (h ▸ hk)
        rw [SuperModel.parameter_name_set_name, if_neg (fun h => hkj h.1)]
      · rfl
  · rfl

/-- The check for duplicate names leaves the names of the parameters of the `SuperModel`
itself as they are. -/
theorem SuperModel.duplicate_loop_super (first len : Nat) (S : SuperModel) (k : Nat)
    (hk : S.model_of_index.getD k 0 = -1) :
    ((List.range' first len).foldl (SuperModel.duplicate_i_step first) S).parameter_name k =
      S.parameter_name k := by
  have h := foldl_range'_inv (SuperModel.duplicate_i_step first)
    (fun _ R => R.same_but_names S ∧ R.parameter_name k = S.parameter_name k) len first S
    ⟨⟨rfl, rfl, rfl, rfl, rfl⟩, rfl⟩
    (by
      intro i R _ _ hR
      unfold SuperModel.duplicate_i_step
      exact foldl_range_inv (SuperModel.duplicate_j_step i)
        (fun _ R' => R'.same_but_names S ∧ R'.parameter_name k = S.parameter_name k) R
        first hR
        (fun j R' _ hR' => ⟨SuperModel.same_but_names_trans _ _ _
          (SuperModel.duplicate_j_step_same i R' j) hR'.1,
          (SuperModel.duplicate_j_step_super i R' j k (by rw [hR'.1.2.1]; exact hk)).trans
            hR'.2⟩))
  exact h.2

theorem SuperModel.n_super_same_but_names (R S : SuperModel) (h : R.same_but_names S) :
    R.n_super_parameters = S.n_super_parameters := by
  obtain ⟨s1, s2, s3, s4, s5⟩ := h
  unfold SuperModel.n_super_parameters SuperModel.n_submodels Model.n_parameters
  rw [s3, s5]

theorem SuperModel.prefixes_length (calls : List SuperModel.Call) :
    (SuperModel.prefixes calls).length = (SuperModel.sub_models calls).length := by
  induction calls with
  | nil => rfl
  | cons c cs ih => cases c <;> simp [SuperModel.prefixes, SuperModel.sub_models, ih]

/-- `add_submodel` returns on the states that the calls build, and keeps them. `S3` is the
state after `prefix_names()` and `S4` the state after the check for duplicate names. -/
theorem SuperModel.built_add_submodel (SubModels : Nat → Nat) (done : List SuperModel.Call)
    (S : SuperModel) (pre : String) (M : Model) (hS : S.built SubModels done)
    (hM : SubModels S.n_submodels = M.n_parameters) :
    ∃ S3 S4, SuperModel.prefix_names SubModels (S.with_parameters pre M) = .ok S3 ∧
      SuperModel.add_submodel SubModels S pre M = .ok S4 ∧
      S4 = (List.range' S.n_parameters M.n_parameters).foldl
        (SuperModel.duplicate_i_step S.n_parameters) S3 ∧
      S3.same_but_names (S.with_parameters pre M) ∧
      S4.same_but_names (S.with_parameters pre M) ∧
      S4.built SubModels (done ++ [SuperModel.Call.add_submodel pre M]) := by
  obtain ⟨hL, n0, p1, p1b, p2, p2b, p3⟩ := hS
  have hW := SuperModel.layout_well_formed SubModels S hL n0
  have hW2 := SuperModel.well_formed_with_parameters SubModels S pre M hW hM
  have hL2 := SuperModel.layout_with_parameters SubModels S pre M hL hM
  obtain ⟨l1, l2, l3, l4, l5, l6, l7, l8⟩ := hL
  have hsub : (S.with_parameters pre M).n_submodels = S.n_submodels + 1 := by
    simp [SuperModel.with_parameters, SuperModel.n_submodels]
  have hn2 : (S.with_parameters pre M).parameters_.length =
      S.parameters_.length + M.n_parameters := by
    simp [SuperModel.with_parameters, Model.n_parameters]
  obtain ⟨S3, hS3, hsame3, hsuper3, _, _⟩ := SuperModel.prefix_names_result SubModels
    (S.with_parameters pre M) hW2
  have hpar := SuperModel.add_submodel_parameters_eq S pre M l1
  have hfirst : S3.first_index_of_model.getLastD 0 = S.n_parameters := by
    rw [hsame3.2.2.1]
    exact List.getLastD_concat _ _ _
  have hlen3 : S3.n_parameters - S.n_parameters = M.n_parameters := by
    show S3.parameters_.length - S.parameters_.length = _
    rw [hsame3.2.2.2.2, hn2]
    omega
  have hsame4 := SuperModel.same_but_names_trans _ _ _
    (SuperModel.duplicate_loop_same S.n_parameters M.n_parameters S3) hsame3
  have hS4 : SuperModel.add_submodel SubModels S pre M =
      .ok ((List.range' S.n_parameters M.n_parameters).foldl
        (SuperModel.duplicate_i_step S.n_parameters) S3) := by
    unfold SuperModel.add_submodel
    rw [hpar]
    dsimp only
    rw [hS3]
    dsimp only
    rw [hfirst, hlen3]
  refine ⟨S3, _, hS3, hS4, rfl, hsame3, hsame4, ?_⟩
  obtain ⟨u1, u2, u3, u4, u5⟩ := hsame4
  have hsub4 : ((List.range' S.n_parameters M.n_parameters).foldl
      (SuperModel.duplicate_i_step S.n_parameters) S3).n_submodels = S.n_submodels + 1 := by
    unfold SuperModel.n_submodels
    rw [u3]
    exact hsub
  have hsuper4 : ((List.range' S.n_parameters M.n_parameters).foldl
      (SuperModel.duplicate_i_step S.n_parameters) S3).n_super_parameters =
      S.n_super_parameters := by
    rw [← SuperModel.n_super_with_parameters S pre M]
    exact SuperModel.n_super_same_but_names _ _ ⟨u1, u2, u3, u4, u5⟩
  have hsm : SuperModel.sub_models (done ++ [SuperModel.Call.add_submodel pre M]) =
      SuperModel.sub_models done ++ [M] := by
    rw [SuperModel.sub_models_append]
    rfl
  have hpm : SuperModel.prefixes (done ++ [SuperModel.Call.add_submodel pre M]) =
      SuperModel.prefixes done ++ [pre] := by
    rw [SuperModel.prefixes_append]
    rfl
  have hsp : SuperModel.supers (done ++ [SuperModel.Call.add_submodel pre M]) =
      SuperModel.supers done := by
    rw [SuperModel.supers_append]
    simp [SuperModel.supers]
  refine ⟨SuperModel.layout_same_but_names SubModels _ _ ⟨u1, u2, u3, u4, u5⟩ hL2,
    ?_, ?_, ?_, ?_, ?_, ?_⟩
  · intro i hi
    rw [hsuper4] at hi
    have hmoi : S.model_of_index.getD i 0 = -1 := (l5 i (by omega)).mpr hi
    have hmoi2 : (S.with_parameters pre M).model_of_index.getD i 0 = -1 := by
      rw [SuperModel.model_of_index_append S pre M i l2 (by omega), if_pos (by omega)]
      exact hmoi
    rw [SuperModel.duplicate_loop_super _ _ S3 i (by rw [hsame3.2.1]; exact hmoi2),
      hsuper3 i hmoi2, SuperModel.parameter_name_append, if_pos (by omega), u1,
      SuperModel.short_name_append S pre M i l1, if_pos (by omega)]
    exact n0 i hi
  · rw [hsuper4, hsp]
    exact p1
  · intro i hi
    rw [hsuper4] at hi
    rw [u1, SuperModel.short_name_append S pre M i l1, if_pos (by omega), hsp]
    exact p1b i hi
  · rw [hsub4, hsm, List.length_append, p2]
    rfl
  · intro m hm
    rw [hsub4] at hm
    rw [hsm, getD_concat, ← p2, u1, u3, SuperModel.first_index_append S pre M m hm]
    by_cases hm2 : m < S.n_submodels
    · rw [if_pos hm2, if_pos hm2]
      refine ⟨(p2b m hm2).1, fun j hj => ?_⟩
      have h7 := l7 m hm2
      rw [SuperModel.short_name_append S pre M _ l1, if_pos (by omega)]
      exact (p2b m hm2).2 j hj
    · rw [if_neg hm2, if_neg hm2, if_pos (by omega)]
      have hmeq : m = S.n_submodels := by omega
      rw [hmeq]
      refine ⟨hM, fun j _ => ?_⟩
      rw [SuperModel.short_name_append S pre M _ l1, if_neg (by omega)]
      congr 2
      omega
  · intro m hm
    rw [hsub4] at hm
    rw [hpm, getD_concat, SuperModel.prefixes_length, ← p2, u4]
    unfold SuperModel.with_parameters
    dsimp only
    have hpl : S.model_prefix.length = S.n_submodels := l3
    by_cases hm2 : m < S.n_submodels
    · rw [if_pos hm2, List.getD_append _ _ _ _ (by omega)]
      exact p3 m hm2
    · rw [if_neg hm2, if_pos (by omega), List.getD_append_right _ _ _ _ (by omega)]
      have : m - S.model_prefix.length = 0 := by omega
      rw [this]
      rfl

/-- Every sequence of calls returns and builds a state with the layout of the indices. -/
theorem SuperModel.run_built (SubModels : Nat → Nat) (calls : List SuperModel.Call) :
    ∀ (done : List SuperModel.Call) (S : SuperModel), S.built SubModels done →
      (∀ m, m < (SuperModel.sub_models (done ++ calls)).length →
        SubModels m = ((SuperModel.sub_models (done ++ calls)).getD m ⟨[]⟩).n_parameters) →
      ∃ S1, SuperModel.run SubModels calls S = .ok S1 ∧ S1.built SubModels (done ++ calls) := by
  induction calls with
  | nil =>
    intro done S hS _
    exact ⟨S, rfl, by rw [List.append_nil]; exact hS⟩
  | cons c rest ih =>
    intro done S hS hsizes
    have hassoc : done ++ c :: rest = (done ++ [c]) ++ rest := by simp
    have hstep : ∃ S1, SuperModel.call SubModels S c = .ok S1 ∧
        S1.built SubModels (done ++ [c]) := by
      cases c with
      | add_super_parameter P => exact SuperModel.built_add_super_parameter SubModels done S P hS
      | add_submodel pre M =>
        have hM : SubModels S.n_submodels = M.n_parameters := by
          have h1 := hsizes S.n_submodels (by
            rw [SuperModel.sub_models_append, List.length_append, hS.2.2.2.2.1]
            simp [SuperModel.sub_models])
          rw [h1, SuperModel.sub_models_append, hS.2.2.2.2.1,
            List.getD_append_right _ _ _ _ (le_refl _), Nat.sub_self]
          rfl
        obtain ⟨S3, S4, _, h4, _, _, _, hb⟩ :=
          SuperModel.built_add_submodel SubModels done S pre M hS hM
        exact ⟨S4, h4, hb⟩
    obtain ⟨S1, hS1, hb1⟩ := hstep
    obtain ⟨S2, hS2, hb2⟩ := ih (done ++ [c]) S1 hb1 (by rw [← hassoc]; exact hsizes)
    refine ⟨S2, ?_, by rw [hassoc]; exact hb2⟩
    unfold SuperModel.run
    rw [List.foldlM_cons, hS1]
    exact hS2

theorem SuperModel.built_empty (SubModels : Nat → Nat) :
    SuperModel.empty.built SubModels [] := by
  refine ⟨⟨rfl, rfl, rfl, le_refl _, ?_, ?_, ?_, ?_⟩, ?_, rfl, ?_, rfl, ?_, ?_⟩ <;>
    intro i hi <;> exact absurd hi (Nat.not_lt_zero _)

/-- Every sequence of calls on a new `SuperModel` returns, in a state built by it. -/
theorem SuperModel.after_built (calls : List SuperModel.Call) :
    ∃ S, SuperModel.after calls = .ok S ∧ S.built (SuperModel.sizes calls) calls := by
  have h := SuperModel.run_built (SuperModel.sizes calls) calls [] SuperModel.empty
    (SuperModel.built_empty _) (fun m _ => rfl)
  simpa using h

/-- C33. After any sequence of `add_super_parameter` and `add_submodel` calls on a new
`SuperModel`: `model_of_index`, `short_parameter_names` and the list of parameters have the
same length; `model_of_index[i]` is `-1` exactly for `i < n_super_parameters()`, and it is
`m` exactly for `first_index_of_model[m] <= i < first_index_of_model[m] + n`, where `n` is
the number of parameters of the sub-model `m`. A further `add_super_parameter(P)` returns,
puts `P`, its name and `-1` in at the index `n_super_parameters()` and adds one to every
entry of `first_index_of_model`. -/
theorem supermodel_index_layout (calls : List SuperModel.Call) :
    ∃ S, SuperModel.after calls = .ok S ∧
      S.model_of_index.length = S.parameters_.length ∧
      S.short_parameter_names.length = S.parameters_.length ∧
      S.n_submodels = (SuperModel.sub_models calls).length ∧
      (∀ i, i < S.parameters_.length →
        (S.model_of_index.getD i 0 = -1 ↔ i < S.n_super_parameters)) ∧
      (∀ m, m < S.n_submodels → ∀ i, i < S.parameters_.length →
        (S.model_of_index.getD i 0 = (m : Int) ↔
          S.first_index_of_model.getD m 0 ≤ i ∧
          i < S.first_index_of_model.getD m 0 +
            ((SuperModel.sub_models calls).getD m ⟨[]⟩).n_parameters)) ∧
      ∀ P, ∃ S1, S.add_super_parameter P = .ok S1 ∧
        SuperModel.after (calls ++ [SuperModel.Call.add_super_parameter P]) = .ok S1 ∧
        S1.parameters_ = S.parameters_.take S.n_super_parameters ++
          P :: S.parameters_.drop S.n_super_parameters ∧
        S1.short_parameter_names = S.short_parameter_names.take S.n_super_parameters ++
          P.name :: S.short_parameter_names.drop S.n_super_parameters ∧
        S1.model_of_index = S.model_of_index.take S.n_super_parameters ++
          (-1) :: S.model_of_index.drop S.n_super_parameters ∧
        S1.first_index_of_model.length = S.first_index_of_model.length ∧
        ∀ m, m < S.n_submodels →
          S1.first_index_of_model.getD m 0 = S.first_index_of_model.getD m 0 + 1 := by
  obtain ⟨S, hS, hb⟩ := SuperModel.after_built calls
  obtain ⟨⟨l1, l2, l3, l4, l5, l6, l7, l8⟩, n0, p1, p1b, p2, p2b, p3⟩ := hb
  refine ⟨S, hS, l2, l1, p2, l5, l6, ?_⟩
  intro P
  obtain ⟨S1, hS1, e1, e2, e3, e4, e5, e6⟩ := S.add_super_parameter_eq P l1 l2 l4
  refine ⟨S1, hS1, ?_, e1, e2, e3, e4, e5⟩
  have hsz : SuperModel.sizes (calls ++ [SuperModel.Call.add_super_parameter P]) =
      SuperModel.sizes calls := by
    funext m
    unfold SuperModel.sizes
    rw [SuperModel.sub_models_append]
    simp [SuperModel.sub_models]
  unfold SuperModel.after at hS ⊢
  unfold SuperModel.run at hS ⊢
  rw [hsz, List.foldlM_append, hS]
  show List.foldlM (SuperModel.call (SuperModel.sizes calls)) S
    [SuperModel.Call.add_super_parameter P] = .ok S1
  rw [List.foldlM_cons]
  show (S.add_super_parameter P >>= fun S2 => List.foldlM _ S2 []) = .ok S1
  rw [hS1]
  rfl

/-! ## The names of the parameters of a `SuperModel` are distinct (C32) -/

theorem colon_split_aux (p1 p2 s1 s2 a : List Char) (hp : p2 = p1 ++ a)
    (hs : ':' :: ':' :: s1 = a ++ ':' :: ':' :: s2) (c2 : ¬ [':', ':'] <:+: p2)
    (e2 : p2.getLast? ≠ some ':') : p1 = p2 := by
  match a, hp, hs with
  | [], hp, _ => simpa using hp.symm
  | [x], hp, hs =>
    exfalso
    simp only [List.singleton_append, List.cons.injEq] at hs
    apply e2
    rw [hp, ← hs.1]
    simp
  | x :: y :: r, hp, hs =>
    exfalso
    simp only [List.cons_append, List.cons.injEq] at hs
    apply c2
    rw [hp, ← hs.1, ← hs.2.1]
    exact ⟨p1, r, by simp⟩

theorem colon_split (p1 p2 s1 s2 : List Char)
    (h : p1 ++ ':' :: ':' :: s1 = p2 ++ ':' :: ':' :: s2)
    (c1 : ¬ [':', ':'] <:+: p1) (c2 : ¬ [':', ':'] <:+: p2)
    (e1 : p1.getLast? ≠ some ':') (e2 : p2.getLast? ≠ some ':') : p1 = p2 := by
  rcases List.append_eq_append_iff.mp h with ⟨a, hp, hs⟩ | ⟨a, hp, hs⟩
  · exact colon_split_aux p1 p2 s1 s2 a hp hs c2 e2
  · exact (colon_split_aux p2 p1 s2 s1 a hp hs c1 e1).symm

/-- A name with a prefix contains `::`. -/
theorem contains_colons_prefixed (pre s : String) : contains_colons (pre ++ "::" ++ s) := by
  unfold contains_colons
  rw [String.data_append, String.data_append]
  exact ⟨pre.data, s.data, by simp⟩

/-- Two names with a prefix are equal only if the prefixes are, when no prefix contains
`::` or ends with `:`. -/
theorem prefixed_eq (p1 p2 s1 s2 : String) (h : p1 ++ "::" ++ s1 = p2 ++ "::" ++ s2)
    (c1 : ¬ contains_colons p1) (c2 : ¬ contains_colons p2)
    (e1 : ¬ ends_with_colon p1) (e2 : ¬ ends_with_colon p2) : p1 = p2 := by
  have hd := congrArg String.data h
  simp only [String.data_append, List.append_assoc] at hd
  exact String.ext (colon_split p1.data p2.data s1.data s2.data hd c1 c2 e1 e2)

theorem append_left_ne (p s1 s2 : String) (h : s1 ≠ s2) : p ++ s1 ≠ p ++ s2 := by
  intro h2
  apply h
  have hd := congrArg String.data h2
  simp only [String.data_append] at hd
  exact String.ext (List.append_cancel_left hd)

theorem foldl_sets {σ : Type} (f : σ → Nat → σ) (I P : σ → Prop)
    (hI : ∀ s x, I s → I (f s x)) (hkeep : ∀ s x, I s → P s → P (f s x)) (x0 : Nat)
    (hset : ∀ s, I s → P (f s x0)) (l : List Nat) (hx : x0 ∈ l) (s0 : σ) (h0 : I s0) :
    P (l.foldl f s0) ∧ I (l.foldl f s0) := by
  have hkeepI : ∀ (l : List Nat) (s : σ), I s → I (l.foldl f s) := by
    intro l
    induction l with
    | nil => intro s h; exact h
    | cons y ys ih => intro s h; exact ih _ (hI s y h)
  have hkeepP : ∀ (l : List Nat) (s : σ), I s → P s → P (l.foldl f s) := by
    intro l
    induction l with
    | nil => intro s _ h; exact h
    | cons y ys ih => intro s h1 h2; exact ih _ (hI s y h1) (hkeep s y h1 h2)
  refine ⟨?_, hkeepI l s0 h0⟩
  induction l generalizing s0 with
  | nil => simp at hx
  | cons y ys ih =>
    rw [List.foldl_cons]
    rcases List.mem_cons.mp hx with h | h
    · subst h
      exact hkeepP ys _ (hI s0 x0 h0) (hset s0 h0)
    · exact ih h _ (hI s0 y h0)

theorem SuperModel.mark_model_keeps (prefix_marks : List Int) (m : Int) (k : Nat)
    (h : prefix_marks.getD k 0 ≠ 0) : (SuperModel.mark_model prefix_marks m).getD k 0 ≠ 0 := by
  unfold SuperModel.mark_model
  split
  · rw [List.getD_eq_getElem?_getD, List.getElem?_set]
    rw [List.getD_eq_getElem?_getD] at h
    by_cases hk : m.toNat = k
    · rw [if_pos hk]
      by_cases hl : m.toNat < prefix_marks.length
      · rw [if_pos hl]
        decide
      · exfalso
        apply h
        rw [List.getElem?_eq_none (by omega)]
        rfl
    · rw [if_neg hk]
      exact h
  · exact h

theorem SuperModel.mark_model_sets (prefix_marks : List Int) (k : Nat)
    (hk : k < prefix_marks.length) :
    (SuperModel.mark_model prefix_marks (k : Int)).getD k 0 ≠ 0 := by
  unfold SuperModel.mark_model
  have hne : (k : Int) ≠ -1 := by
    intro h
    have h2 := Int.natCast_nonneg k
    rw [h] at h2
    exact absurd h2 (by decide)
  rw [if_pos hne, Int.toNat_ofNat, List.getD_eq_getElem?_getD, List.getElem?_set, if_pos rfl,
    if_pos hk]
  decide

theorem SuperModel.prefix_j_step_length (S : SuperModel) (i : Nat) (prefix_marks : List Int)
    (j : Nat) : (SuperModel.prefix_j_step S i prefix_marks j).length = prefix_marks.length := by
  unfold SuperModel.prefix_j_step
  split
  · dsimp only
    rw [(SuperModel.mark_model_spec _ _).1, (SuperModel.mark_model_spec _ _).1]
  · rfl

theorem SuperModel.prefix_j_step_keeps (S : SuperModel) (i : Nat) (prefix_marks : List Int)
    (j k : Nat) (h : prefix_marks.getD k 0 ≠ 0) :
    (SuperModel.prefix_j_step S i prefix_marks j).getD k 0 ≠ 0 := by
  unfold SuperModel.prefix_j_step
  split
  · exact SuperModel.mark_model_keeps _ _ k (SuperModel.mark_model_keeps _ _ k h)
  · exact h

theorem SuperModel.prefix_i_step_inv (S : SuperModel) (n : Nat) (prefix_marks : List Int)
    (i : Nat) (h : prefix_marks.length = n) :
    (SuperModel.prefix_i_step S prefix_marks i).length = n ∧
    ∀ k, prefix_marks.getD k 0 ≠ 0 → (SuperModel.prefix_i_step S prefix_marks i).getD k 0 ≠ 0 := by
  unfold SuperModel.prefix_i_step
  refine foldl_range_inv (SuperModel.prefix_j_step S i)
    (fun _ AP => AP.length = n ∧ ∀ k, prefix_marks.getD k 0 ≠ 0 → AP.getD k 0 ≠ 0)
    prefix_marks i ⟨h, fun _ hk => hk⟩ ?_
  intro j AP _ ⟨h1, h2⟩
  exact ⟨by rw [SuperModel.prefix_j_step_length, h1],
    fun k hk => SuperModel.prefix_j_step_keeps S i AP j k (h2 k hk)⟩

/-- The first loop of `prefix_names` marks every sub-model of which a parameter shares its
short name with another parameter. -/
theorem SuperModel.prefix_marks_complete (S : SuperModel) (k : Nat) (hk : k < S.n_submodels)
    (hc : S.collides k) :
    ((List.range S.n_parameters).foldl (SuperModel.prefix_i_step S)
      (List.replicate S.n_submodels 0)).getD k 0 ≠ 0 := by
  obtain ⟨a, b, hba, ha, hshort, hor⟩ := hc
  refine (foldl_sets (SuperModel.prefix_i_step S) (fun AP => AP.length = S.n_submodels)
    (fun AP => AP.getD k 0 ≠ 0)
    (fun AP i h => (SuperModel.prefix_i_step_inv S _ AP i h).1)
    (fun AP i h hP => (SuperModel.prefix_i_step_inv S _ AP i h).2 k hP)
    a ?_ (List.range S.n_parameters) (List.mem_range.mpr ha) _ (by simp)).1
  intro AP hAP
  unfold SuperModel.prefix_i_step
  refine (foldl_sets (SuperModel.prefix_j_step S a) (fun AP => AP.length = S.n_submodels)
    (fun AP => AP.getD k 0 ≠ 0)
    (fun AP' j h => (SuperModel.prefix_j_step_length S a AP' j).trans h)
    (fun AP' j _ hP => SuperModel.prefix_j_step_keeps S a AP' j k hP)
    b ?_ (List.range a) (List.mem_range.mpr hba) _ hAP).1
  intro AP' hAP'
  unfold SuperModel.prefix_j_step
  rw [if_pos hshort]
  dsimp only
  rcases hor with h | h
  · apply SuperModel.mark_model_keeps
    rw [h]
    exact SuperModel.mark_model_sets AP' k (by omega)
  · rw [h]
    exact SuperModel.mark_model_sets _ k
      (by rw [(SuperModel.mark_model_spec _ _).1]; omega)

/-- The loop over `j` of the check for duplicate names, for a parameter `i` of the first
sub-model, when every earlier parameter belongs to the `SuperModel` itself and carries a
short name without `::`: the name of `i` gets the prefix exactly when its short name is
the name of an earlier parameter, and no other name changes. -/
theorem SuperModel.duplicate_j_loop_single (first : Nat) (S0 R : SuperModel) (pre : String)
    (i : Nat) (hi1 : first ≤ i) (hi2 : i < S0.parameters_.length)
    (hR : R.same_but_names S0)
    (hsup : ∀ j, j < first → S0.model_of_index.getD j 0 = -1)
    (hblk : S0.model_of_index.getD i 0 = 0)
    (hpre : S0.model_prefix.getD 0 "" = pre ++ "::")
    (hcol : ∀ j, j < first → ¬ contains_colons (S0.short_parameter_names.getD j ""))
    (hnj : ∀ j, j < first → R.parameter_name j = S0.short_parameter_names.getD j "")
    (hni : R.parameter_name i = S0.short_parameter_names.getD i "") :
    ((List.range first).foldl (SuperModel.duplicate_j_step i) R).same_but_names S0 ∧
    (∀ k, k ≠ i →
      ((List.range first).foldl (SuperModel.duplicate_j_step i) R).parameter_name k =
        R.parameter_name k) ∧
    ((((List.range first).foldl (SuperModel.duplicate_j_step i) R).parameter_name i =
        S0.short_parameter_names.getD i "" ∧
      ∀ j, j < first →
        S0.short_parameter_names.getD j "" ≠ S0.short_parameter_names.getD i "") ∨
     ((List.range first).foldl (SuperModel.duplicate_j_step i) R).parameter_name i =
        pre ++ "::" ++ S0.short_parameter_names.getD i "") := by
  refine foldl_range_inv (SuperModel.duplicate_j_step i)
    (fun u R' => R'.same_but_names S0 ∧
      (∀ k, k ≠ i → R'.parameter_name k = R.parameter_name k) ∧
      ((R'.parameter_name i = S0.short_parameter_names.getD i "" ∧
        ∀ j, j < u →
          S0.short_parameter_names.getD j "" ≠ S0.short_parameter_names.getD i "") ∨
       R'.parameter_name i = pre ++ "::" ++ S0.short_parameter_names.getD i ""))
    R first ⟨hR, fun _ _ => rfl, Or.inl ⟨hni, fun j hj => absurd hj (Nat.not_lt_zero _)⟩⟩ ?_
  intro j R' hj ⟨h1, h2, h3⟩
  have hji : j ≠ i := by omega
  have hnamej : R'.parameter_name j = S0.short_parameter_names.getD j "" := by
    rw [h2 j hji]
    exact hnj j hj
  have hmi : R'.model_of_index.getD i 0 ≠ -1 := by
    rw [h1.2.1, hblk]
    decide
  have hstep : ∀ (hm : R'.parameter_name i = R'.parameter_name j),
      SuperModel.duplicate_j_step i R' j =
        R'.set_name i (pre ++ "::" ++ R'.parameter_name i) := by
    intro hm
    unfold SuperModel.duplicate_j_step
    rw [if_pos hm]
    dsimp only
    rw [if_pos hmi]
    have hmj : ¬ (R'.set_name i (R'.model_prefix.getD (R'.model_of_index.getD i 0).toNat "" ++
        R'.parameter_name i)).model_of_index.getD j 0 ≠ -1 := by
      rw [not_not]
      show R'.model_of_index.getD j 0 = -1
      rw [h1.2.1]
      exact hsup j hj
    rw [if_neg hmj, h1.2.1, hblk, h1.2.2.2.1]
    show R'.set_name i (S0.model_prefix.getD 0 "" ++ R'.parameter_name i) = _
    rw [hpre]
  have hstep2 : ¬ R'.parameter_name i = R'.parameter_name j →
      SuperModel.duplicate_j_step i R' j = R' := by
    intro hm
    unfold SuperModel.duplicate_j_step
    rw [if_neg hm]
  rcases h3 with ⟨h3a, h3b⟩ | h3
  · by_cases hm : R'.parameter_name i = R'.parameter_name j
    · rw [hstep hm]
      refine ⟨SuperModel.same_but_names_trans _ _ _ (SuperModel.set_name_same _ _ _) h1, ?_, ?_⟩
      · intro k hk
        rw [SuperModel.parameter_name_set_name, if_neg (fun h => hk h.1)]
        exact h2 k hk
      · right
        rw [SuperModel.parameter_name_set_name, if_pos ⟨rfl, by rw [h1.2.2.2.2]; exact hi2⟩, h3a]
    · rw [hstep2 hm]
      refine ⟨h1, h2, Or.inl ⟨h3a, ?_⟩⟩
      intro j' hj'
      by_cases hjj : j' = j
      · rw [hjj]
        intro he
        apply hm
        rw [h3a, hnamej, he]
      · exact h3b j' (by omega)
  · have hm : ¬ R'.parameter_name i = R'.parameter_name j := by
      rw [h3, hnamej]
      intro he
      apply hcol j hj
      rw [← he]
      exact contains_colons_prefixed _ _
    rw [hstep2 hm]
    exact ⟨h1, h2, Or.inr h3⟩

/-- The check for duplicate names after the first sub-model was added: a parameter of the
sub-model gets the prefix exactly when its short name is the name of a parameter of the
`SuperModel` itself. -/
theorem SuperModel.duplicate_loop_single (first len : Nat) (S0 : SuperModel) (pre : String)
    (hlen : S0.parameters_.length = first + len)
    (hsup : ∀ j, j < first → S0.model_of_index.getD j 0 = -1)
    (hblk : ∀ i, first ≤ i → i < first + len → S0.model_of_index.getD i 0 = 0)
    (hpre : S0.model_prefix.getD 0 "" = pre ++ "::")
    (hcol : ∀ j, j < first → ¬ contains_colons (S0.short_parameter_names.getD j ""))
    (hnames : ∀ k, k < first + len →
      S0.parameter_name k = S0.short_parameter_names.getD k "") :
    (∀ j, j < first →
      ((List.range' first len).foldl (SuperModel.duplicate_i_step first) S0).parameter_name j =
        S0.short_parameter_names.getD j "") ∧
    ∀ i, first ≤ i → i < first + len →
      ((((List.range' first len).foldl (SuperModel.duplicate_i_step first)
          S0).parameter_name i = S0.short_parameter_names.getD i "" ∧
        ∀ j, j < first →
          S0.short_parameter_names.getD j "" ≠ S0.short_parameter_names.getD i "") ∨
       ((List.range' first len).foldl (SuperModel.duplicate_i_step first)
          S0).parameter_name i = pre ++ "::" ++ S0.short_parameter_names.getD i "") := by
  have h := foldl_range'_inv (SuperModel.duplicate_i_step first)
    (fun t R => R.same_but_names S0 ∧
      (∀ j, j < first → R.parameter_name j = S0.short_parameter_names.getD j "") ∧
      (∀ i, first ≤ i → i < t →
        ((R.parameter_name i = S0.short_parameter_names.getD i "" ∧
          ∀ j, j < first →
            S0.short_parameter_names.getD j "" ≠ S0.short_parameter_names.getD i "") ∨
         R.parameter_name i = pre ++ "::" ++ S0.short_parameter_names.getD i "")) ∧
      ∀ i, t ≤ i → i < first + len →
        R.parameter_name i = S0.short_parameter_names.getD i "")
    len first S0
    ⟨⟨rfl, rfl, rfl, rfl, rfl⟩, fun j hj => hnames j (by omega),
      fun i h1 h2 => absurd h2 (by omega), fun i _ h2 => hnames i h2⟩
    (by
      intro i R hi1 hi2 ⟨h1, h2, h3, h4⟩
      obtain ⟨g1, g2, g3⟩ := SuperModel.duplicate_j_loop_single first S0 R pre i hi1
        (by omega) h1 hsup (hblk i hi1 hi2) hpre hcol h2 (h4 i (le_refl _) hi2)
      refine ⟨g1, ?_, ?_, ?_⟩
      · intro j hj
        show ((List.range first).foldl (SuperModel.duplicate_j_step i) R).parameter_name j = _
        rw [g2 j (by omega)]
        exact h2 j hj
      · intro k hk1 hk2
        show (((List.range first).foldl (SuperModel.duplicate_j_step i) R).parameter_name k =
            _ ∧ _) ∨ ((List.range first).foldl (SuperModel.duplicate_j_step i)
              R).parameter_name k = _
        by_cases hki : k = i
        · rw [hki]
          exact g3
        · rw [g2 k hki]
          exact h3 k hk1 (by omega)
      · intro k hk1 hk2
        show ((List.range first).foldl (SuperModel.duplicate_j_step i) R).parameter_name k = _
        rw [g2 k (by omega)]
        exact h4 k (by omega) hk2)
  exact ⟨h.2.1, fun i hi1 hi2 => h.2.2.1 i hi1 hi2⟩

theorem SuperModel.built_same_but_names (SubModels : Nat → Nat) (done : List SuperModel.Call)
    (R T : SuperModel) (hT : T.built SubModels done) (h : R.same_but_names T)
    (hn : ∀ k, k < T.n_super_parameters → R.parameter_name k = T.parameter_name k) :
    R.built SubModels done := by
  obtain ⟨hL, n0, p1, p1b, p2, p2b, p3⟩ := hT
  have hsuper := SuperModel.n_super_same_but_names R T h
  have hL2 := SuperModel.layout_same_but_names SubModels R T h hL
  obtain ⟨s1, s2, s3, s4, s5⟩ := h
  have hsub : R.n_submodels = T.n_submodels := by
    unfold SuperModel.n_submodels; rw [s3]
  unfold SuperModel.built
  rw [hsuper, hsub, s1, s3, s4]
  exact ⟨hL2, fun i hi => (hn i hi).trans (n0 i hi), p1, p1b, p2, p2b, p3⟩

theorem nodup_of_getD_ne (l : List String)
    (h : ∀ i j, i < j → j < l.length → l.getD i "" ≠ l.getD j "") : l.Nodup := by
  rw [List.nodup_iff_getElem?_ne_getElem?]
  intro i j hij hj
  have h1 := h i j hij hj
  rw [List.getD_eq_getElem _ _ (by omega), List.getD_eq_getElem _ _ hj] at h1
  rw [List.getElem?_eq_getElem (by omega), List.getElem?_eq_getElem hj]
  intro h2
  exact h1 (Option.some.inj h2)

theorem getD_mem {α : Type} (l : List α) (d : α) (i : Nat) (h : i < l.length) :
    l.getD i d ∈ l := by
  rw [List.getD_eq_getElem _ _ h]
  exact List.getElem_mem _

theorem getD_map_name (l : List Parameter) (i : Nat) :
    (l.map fun p => p.name).getD i "" = (l.getD i ⟨"", 0, false⟩).name :=
  List.getD_map l ⟨"", 0, false⟩ (fun p => p.name)

/-- The short names and the prefixes of a state that calls with distinct names build. -/
theorem SuperModel.built_short_names (SubModels : Nat → Nat) (done : List SuperModel.Call)
    (T : SuperModel) (hT : T.built SubModels done) (hd : SuperModel.distinct_names done)
    (he : SuperModel.plain_prefixes done) :
    (∀ k k', k < T.n_super_parameters → k' < T.n_super_parameters → k ≠ k' →
      T.short_parameter_names.getD k "" ≠ T.short_parameter_names.getD k' "") ∧
    (∀ m j j', m < T.n_submodels → j < SubModels m → j' < SubModels m → j ≠ j' →
      T.short_parameter_names.getD (T.first_index_of_model.getD m 0 + j) "" ≠
        T.short_parameter_names.getD (T.first_index_of_model.getD m 0 + j') "") ∧
    (∀ k, k < T.n_super_parameters → ¬ contains_colons (T.short_parameter_names.getD k "")) ∧
    (∀ m j, m < T.n_submodels → j < SubModels m →
      ¬ contains_colons
        (T.short_parameter_names.getD (T.first_index_of_model.getD m 0 + j) "")) ∧
    (∀ m, m < T.n_submodels →
      T.model_prefix.getD m "" = (SuperModel.prefixes done).getD m "" ++ "::" ∧
      ¬ contains_colons ((SuperModel.prefixes done).getD m "") ∧
      ¬ ends_with_colon ((SuperModel.prefixes done).getD m "")) ∧
    (∀ m m', m < T.n_submodels → m' < T.n_submodels → m ≠ m' →
      (SuperModel.prefixes done).getD m "" ≠ (SuperModel.prefixes done).getD m' "") := by
  obtain ⟨hL, n0, p1, p1b, p2, p2b, p3⟩ := hT
  obtain ⟨d1, d2, d3, d4, d5, d6⟩ := hd
  have hpl := SuperModel.prefixes_length done
  refine ⟨?_, ?_, ?_, ?_, ?_, ?_⟩
  · intro k k' hk hk' hne
    rw [p1b k hk, p1b k' hk', ← getD_map_name, ← getD_map_name]
    exact nodup_getD_ne _ d1 k k' (by rw [List.length_map]; omega) (by rw [List.length_map]; omega) hne
  · intro m j j' hm hj hj' hne
    obtain ⟨q1, q2⟩ := p2b m hm
    rw [q2 j hj, q2 j' hj', ← getD_map_name, ← getD_map_name]
    have hmem := getD_mem (SuperModel.sub_models done) ⟨[]⟩ m (by omega)
    have hlen : ((SuperModel.sub_models done).getD m ⟨[]⟩).parameters_.length = SubModels m :=
      q1.symm
    exact nodup_getD_ne _ (d2 _ hmem) j j' (by rw [List.length_map]; omega) (by rw [List.length_map]; omega) hne
  · intro k hk
    rw [p1b k hk]
    exact d4 _ (getD_mem _ _ k (by omega))
  · intro m j hm hj
    obtain ⟨q1, q2⟩ := p2b m hm
    rw [q2 j hj]
    have hlen : ((SuperModel.sub_models done).getD m ⟨[]⟩).parameters_.length = SubModels m :=
      q1.symm
    exact d5 _ (getD_mem (SuperModel.sub_models done) ⟨[]⟩ m (by omega)) _
      (getD_mem _ _ j (by omega))
  · intro m hm
    have hmem := getD_mem (SuperModel.prefixes done) "" m (by omega)
    exact ⟨p3 m hm, d6 _ hmem, he _ hmem⟩
  · intro m m' hm hm' hne
    exact nodup_getD_ne _ d3 m m' (by omega) (by omega) hne

/-- After `prefix_names()` on a state with two sub-models or more, built by calls with
distinct names, no two parameters have the same name. -/
theorem SuperModel.names_distinct_many (SubModels : Nat → Nat) (done : List SuperModel.Call)
    (S2 S3 : SuperModel) (hb : S2.built SubModels done) (hd : SuperModel.distinct_names done)
    (he : SuperModel.plain_prefixes done) (hn : ¬ S2.n_submodels ≤ 1)
    (hS3 : SuperModel.prefix_names SubModels S2 = .ok S3) :
    ∀ a b, a < S2.parameters_.length → b < S2.parameters_.length → a ≠ b →
      S3.parameter_name a ≠ S3.parameter_name b := by
  obtain ⟨f1, f2, f3, f4, f5, f6⟩ := SuperModel.built_short_names SubModels done S2 hb hd he
  obtain ⟨hL, n0, p1, p1b, p2, p2b, p3⟩ := hb
  have hW := SuperModel.layout_well_formed SubModels S2 hL n0
  obtain ⟨l1, l2, l3, l4, l5, l6, l7, l8⟩ := hL
  obtain ⟨S3', hS3', _, hsuper, _, hmodel⟩ := SuperModel.prefix_names_result SubModels S2 hW
  rw [hS3] at hS3'
  cases hS3'
  have hmodel := hmodel hn
  have hcoll : ∀ (a b m : Nat), a < S2.parameters_.length → b < S2.parameters_.length → a ≠ b →
      S2.short_parameter_names.getD a "" = S2.short_parameter_names.getD b "" →
      S2.model_of_index.getD a 0 = (m : Int) → S2.collides m := by
    intro a b m ha hb hab hs hm
    rcases Nat.lt_or_gt_of_ne hab with h | h
    · exact ⟨b, a, h, hb, hs.symm, Or.inr hm⟩
    · exact ⟨a, b, h, ha, hs, Or.inl hm⟩
  have hsup : ∀ k, k < S2.parameters_.length → S2.model_of_index.getD k 0 = -1 →
      k < S2.n_super_parameters ∧ S3.parameter_name k = S2.short_parameter_names.getD k "" ∧
      ¬ contains_colons (S2.short_parameter_names.getD k "") := by
    intro k hk hm
    have hks := (l5 k hk).mp hm
    exact ⟨hks, (hsuper k hm).trans (n0 k hks), f3 k hks⟩
  have hmod : ∀ (k m : Nat), k < S2.parameters_.length → m < S2.n_submodels →
      S2.model_of_index.getD k 0 = (m : Int) →
      (∃ j, j < SubModels m ∧ k = S2.first_index_of_model.getD m 0 + j) ∧
      ¬ contains_colons (S2.short_parameter_names.getD k "") ∧
      ((S3.parameter_name k = S2.short_parameter_names.getD k "" ∧ ¬ S2.collides m) ∨
       S3.parameter_name k = (SuperModel.prefixes done).getD m "" ++ "::" ++
         S2.short_parameter_names.getD k "") := by
    intro k m hk hm hkm
    obtain ⟨g1, g2⟩ := (l6 m hm k hk).mp hkm
    have hj : ∃ j, j < SubModels m ∧ k = S2.first_index_of_model.getD m 0 + j :=
      ⟨k - S2.first_index_of_model.getD m 0, by omega, by omega⟩
    refine ⟨hj, ?_, ?_⟩
    · obtain ⟨j, hj1, hj2⟩ := hj
      rw [hj2]
      exact f4 m j hm hj1
    · rw [hmodel k m hk hkm hm]
      unfold SuperModel.new_name
      by_cases hmark : ((List.range S2.n_parameters).foldl (SuperModel.prefix_i_step S2)
          (List.replicate S2.n_submodels 0)).getD m 0 ≠ 0
      · rw [if_pos hmark, (f5 m hm).1]
        exact Or.inr rfl
      · rw [if_neg hmark]
        exact Or.inl ⟨rfl, fun hc => hmark (SuperModel.prefix_marks_complete S2 m hm hc)⟩
  intro a b ha hb hab
  rcases l8 a ha with hma | ⟨m, hm, hma⟩
  · obtain ⟨a1, a2, a3⟩ := hsup a ha hma
    rcases l8 b hb with hmb | ⟨m', hm', hmb⟩
    · obtain ⟨b1, b2, b3⟩ := hsup b hb hmb
      rw [a2, b2]
      exact f1 a b a1 b1 hab
    · obtain ⟨_, b3, b4⟩ := hmod b m' hb hm' hmb
      rcases b4 with ⟨b4, b5⟩ | b4
      · rw [a2, b4]
        intro hs
        exact b5 (hcoll b a m' hb ha (Ne.symm hab) hs.symm hmb)
      · rw [a2, b4]
        intro hs
        apply a3
        rw [hs]
        exact contains_colons_prefixed _ _
  · obtain ⟨⟨j, hj1, hj2⟩, a3, a4⟩ := hmod a m ha hm hma
    rcases l8 b hb with hmb | ⟨m', hm', hmb⟩
    · obtain ⟨b1, b2, b3⟩ := hsup b hb hmb
      rcases a4 with ⟨a4, a5⟩ | a4
      · rw [a4, b2]
        intro hs
        exact a5 (hcoll a b m ha hb hab hs hma)
      · rw [a4, b2]
        intro hs
        apply b3
        rw [← hs]
        exact contains_colons_prefixed _ _
    · obtain ⟨⟨j', hj1', hj2'⟩, b3, b4⟩ := hmod b m' hb hm' hmb
      rcases a4 with ⟨a4, a5⟩ | a4
      · rcases b4 with ⟨b4, b5⟩ | b4
        · rw [a4, b4]
          intro hs
          exact a5 (hcoll a b m ha hb hab hs hma)
        · rw [a4, b4]
          intro hs
          apply a3
          rw [hs]
          exact contains_colons_prefixed _ _
      · rcases b4 with ⟨b4, b5⟩ | b4
        · rw [a4, b4]
          intro hs
          apply b3
          rw [← hs]
          exact contains_colons_prefixed _ _
        · rw [a4, b4]
          by_cases hmm : m = m'
          · subst hmm
            apply append_left_ne
            rw [hj2, hj2']
            exact f2 m j j' hm hj1 hj1' (by omega)
          · intro hs
            exact f6 m m' hm hm' hmm
              (prefixed_eq _ _ _ _ hs (f5 m hm).2.1 (f5 m' hm').2.1 (f5 m hm).2.2
                (f5 m' hm').2.2)

/-- After the check for duplicate names on a state with one sub-model, built by calls with
distinct names, no two parameters have the same name. -/
theorem SuperModel.names_distinct_single (SubModels : Nat → Nat) (done : List SuperModel.Call)
    (S2 : SuperModel) (hb : S2.built SubModels done) (hd : SuperModel.distinct_names done)
    (he : SuperModel.plain_prefixes done) (h1 : S2.n_submodels = 1)
    (hnames : ∀ k, k < S2.parameters_.length →
      S2.parameter_name k = S2.short_parameter_names.getD k "")
    (first len : Nat) (hfirst : S2.first_index_of_model.getD 0 0 = first)
    (hsz : SubModels 0 = len) (hlen : S2.parameters_.length = first + len) :
    ∀ a b, a < S2.parameters_.length → b < S2.parameters_.length → a ≠ b →
      ((List.range' first len).foldl (SuperModel.duplicate_i_step first) S2).parameter_name a ≠
      ((List.range' first len).foldl (SuperModel.duplicate_i_step first) S2).parameter_name b := by
  obtain ⟨f1, f2, f3, f4, f5, f6⟩ := SuperModel.built_short_names SubModels done S2 hb hd he
  obtain ⟨hL, n0, p1, p1b, p2, p2b, p3⟩ := hb
  obtain ⟨l1, l2, l3, l4, l5, l6, l7, l8⟩ := hL
  have hsuper : S2.n_super_parameters = first := by
    unfold SuperModel.n_super_parameters
    rw [if_neg (by omega)]
    exact hfirst
  rw [hsuper] at f1 f3 l5
  have hsup : ∀ j, j < first → S2.model_of_index.getD j 0 = -1 :=
    fun j hj => (l5 j (by omega)).mpr hj
  have hblk : ∀ i, first ≤ i → i < first + len → S2.model_of_index.getD i 0 = 0 := by
    intro i hi1 hi2
    rcases l8 i (by omega) with h | ⟨m, hm, h⟩
    · have := (l5 i (by omega)).mp h
      omega
    · have hm0 : m = 0 := by omega
      rw [h, hm0]
      rfl
  obtain ⟨g1, g2⟩ := SuperModel.duplicate_loop_single first len S2
    ((SuperModel.prefixes done).getD 0 "") hlen hsup hblk (f5 0 (by omega)).1
    (fun j hj => f3 j hj) (fun k hk => hnames k (by omega))
  have hshort : ∀ a b, first ≤ a → a < first + len → first ≤ b → b < first + len → a ≠ b →
      S2.short_parameter_names.getD a "" ≠ S2.short_parameter_names.getD b "" := by
    intro a b ha1 ha2 hb1 hb2 hab
    have h := f2 0 (a - first) (b - first) (by omega) (by omega) (by omega) (by omega)
    rw [hfirst] at h
    rw [show a = first + (a - first) by omega, show b = first + (b - first) by omega]
    exact h
  have hcol : ∀ a, first ≤ a → a < first + len →
      ¬ contains_colons (S2.short_parameter_names.getD a "") := by
    intro a ha1 ha2
    have h := f4 0 (a - first) (by omega) (by omega)
    rw [hfirst] at h
    rw [show a = first + (a - first) by omega]
    exact h
  intro a b ha hb hab
  by_cases ha1 : a < first
  · rw [g1 a ha1]
    by_cases hb1 : b < first
    · rw [g1 b hb1]
      exact f1 a b ha1 hb1 hab
    · rcases g2 b (by omega) (by omega) with ⟨h2, h3⟩ | h2
      · rw [h2]
        exact h3 a ha1
      · rw [h2]
        intro hs
        apply f3 a ha1
        rw [hs]
        exact contains_colons_prefixed _ _
  · by_cases hb1 : b < first
    · rw [g1 b hb1]
      rcases g2 a (by omega) (by omega) with ⟨h2, h3⟩ | h2
      · rw [h2]
        exact (h3 b hb1).symm
      · rw [h2]
        intro hs
        apply f3 b hb1
        rw [← hs]
        exact contains_colons_prefixed _ _
    · have hs := hshort a b (by omega) (by omega) (by omega) (by omega) hab
      rcases g2 a (by omega) (by omega) with ⟨h2, _⟩ | h2
      · rcases g2 b (by omega) (by omega) with ⟨h4, _⟩ | h4
        · rw [h2, h4]
          exact hs
        · rw [h2, h4]
          intro hs2
          apply hcol a (by omega) (by omega)
          rw [hs2]
          exact contains_colons_prefixed _ _
      · rcases g2 b (by omega) (by omega) with ⟨h4, _⟩ | h4
        · rw [h2, h4]
          intro hs2
          apply hcol b (by omega) (by omega)
          rw [← hs2]
          exact contains_colons_prefixed _ _
        · rw [h2, h4]
          exact append_left_ne _ _ _ hs

theorem SuperModel.same_but_names_symm (A B : SuperModel) (h : A.same_but_names B) :
    B.same_but_names A :=
  ⟨h.1.symm, h.2.1.symm, h.2.2.1.symm, h.2.2.2.1.symm, h.2.2.2.2.symm⟩

/-- C32, with the condition on the prefixes that the code needs. If the names of the
parameters of the `SuperModel` itself are distinct, the names of the parameters of each
sub-model are distinct, the prefixes are distinct, no name and no prefix contains `::`, and
no prefix ends with `:`, then every call of `add_submodel` returns, and after it no two
parameters of the `SuperModel` have the same name. -/
theorem supermodel_names_distinct (calls : List SuperModel.Call) (pre : String) (M : Model)
    (hd : SuperModel.distinct_names (calls ++ [SuperModel.Call.add_submodel pre M]))
    (he : SuperModel.plain_prefixes (calls ++ [SuperModel.Call.add_submodel pre M])) :
    ∃ S, SuperModel.after (calls ++ [SuperModel.Call.add_submodel pre M]) = .ok S ∧
      (S.parameters_.map fun p => p.name).Nodup := by
  have hsm : SuperModel.sub_models (calls ++ [SuperModel.Call.add_submodel pre M]) =
      SuperModel.sub_models calls ++ [M] := by
    rw [SuperModel.sub_models_append]
    rfl
  have hsizes : ∀ m, m < (SuperModel.sub_models ([] ++ calls)).length →
      SuperModel.sizes (calls ++ [SuperModel.Call.add_submodel pre M]) m =
        ((SuperModel.sub_models ([] ++ calls)).getD m ⟨[]⟩).n_parameters := by
    intro m hm
    rw [List.nil_append] at hm ⊢
    unfold SuperModel.sizes
    rw [hsm, List.getD_append _ _ _ _ hm]
  obtain ⟨S, hS, hbS⟩ := SuperModel.run_built
    (SuperModel.sizes (calls ++ [SuperModel.Call.add_submodel pre M])) calls []
    SuperModel.empty (SuperModel.built_empty _) hsizes
  rw [List.nil_append] at hbS
  have hM : SuperModel.sizes (calls ++ [SuperModel.Call.add_submodel pre M]) S.n_submodels =
      M.n_parameters := by
    unfold SuperModel.sizes
    rw [hsm, hbS.2.2.2.2.1, List.getD_append_right _ _ _ _ (le_refl _), Nat.sub_self]
    rfl
  obtain ⟨S3, S4, hS3, hS4, hS4eq, hsame3, hsame4, hb4⟩ := SuperModel.built_add_submodel
    (SuperModel.sizes (calls ++ [SuperModel.Call.add_submodel pre M])) calls S pre M hbS hM
  have hafter : SuperModel.after (calls ++ [SuperModel.Call.add_submodel pre M]) = .ok S4 := by
    unfold SuperModel.after SuperModel.run
    unfold SuperModel.run at hS
    rw [List.foldlM_append, hS]
    show List.foldlM
      (SuperModel.call (SuperModel.sizes (calls ++ [SuperModel.Call.add_submodel pre M]))) S
      [SuperModel.Call.add_submodel pre M] = Except.ok S4
    rw [List.foldlM_cons]
    show (SuperModel.add_submodel _ S pre M >>= fun S2 => List.foldlM _ S2 []) = Except.ok S4
    rw [hS4]
    rfl
  refine ⟨S4, hafter, ?_⟩
  have hWS := SuperModel.layout_well_formed _ S hbS.1 hbS.2.1
  have hlen2 : (S.with_parameters pre M).parameters_.length =
      S.parameters_.length + M.n_parameters := by
    simp [SuperModel.with_parameters, Model.n_parameters]
  have hsub2 : (S.with_parameters pre M).n_submodels = S.n_submodels + 1 := by
    simp [SuperModel.with_parameters, SuperModel.n_submodels]
  have hsuper4 := SuperModel.n_super_same_but_names _ _ hsame4
  rw [SuperModel.n_super_with_parameters] at hsuper4
  have hb2 : (S.with_parameters pre M).built
      (SuperModel.sizes (calls ++ [SuperModel.Call.add_submodel pre M]))
      (calls ++ [SuperModel.Call.add_submodel pre M]) := by
    refine SuperModel.built_same_but_names _ _ _ S4 hb4
      (SuperModel.same_but_names_symm _ _ hsame4) ?_
    intro k hk
    have hk2 : k < S.n_super_parameters := by omega
    have hk3 : k < S.parameters_.length := lt_of_lt_of_le hk2 hbS.1.2.2.2.1
    rw [hb4.2.1 k hk, hsame4.1, SuperModel.parameter_name_append, if_pos hk3,
      SuperModel.short_name_append S pre M k hbS.1.1, if_pos hk3]
    exact hbS.2.1 k hk2
  have hlen4 : S4.parameters_.length = (S.with_parameters pre M).parameters_.length :=
    hsame4.2.2.2.2
  have hdistinct : ∀ a b, a < S4.parameters_.length → b < S4.parameters_.length → a ≠ b →
      S4.parameter_name a ≠ S4.parameter_name b := by
    rw [hlen4]
    by_cases hn : (S.with_parameters pre M).n_submodels ≤ 1
    · have h0 : S.n_submodels = 0 := by omega
      have hW2 := SuperModel.well_formed_with_parameters _ S pre M hWS hM
      obtain ⟨S3', hS3', _, _, hid, _⟩ := SuperModel.prefix_names_result _ _ hW2
      rw [hS3] at hS3'
      cases hS3'
      rw [hid hn] at hS4eq
      rw [hS4eq]
      refine SuperModel.names_distinct_single _ _ _ hb2 hd he (by omega)
        (SuperModel.with_parameters_short _ S pre M hWS h0) S.n_parameters M.n_parameters ?_
        (by rw [← h0]; exact hM) hlen2
      rw [SuperModel.first_index_append S pre M 0 (by omega), if_neg (by omega)]
      rfl
    · have hmany := SuperModel.names_distinct_many _ _ _ S3 hb2 hd he hn hS3
      have hid : S4 = S3 := by
        rw [hS4eq]
        apply SuperModel.duplicate_loop_id
        intro i j hi1 hi2 hj
        have hSn : S.n_parameters = S.parameters_.length := rfl
        exact hmany i j (by omega) (by omega) (by omega)
      rw [hid]
      exact hmany
  apply nodup_of_getD_ne
  intro i j hij hj
  rw [List.length_map] at hj
  rw [getD_map_name, getD_map_name]
  exact hdistinct i j (by omega) hj (by omega)

/-- The instance of C32 at a `SuperModel` with the parameter `mu` and the sub-model `S`
with the parameters `mu` and `x`, to which the sub-model `T` with the parameter `x` is
added. -/
theorem supermodel_names_distinct_witness :
    SuperModel.distinct_names
      (plain_calls ++ [SuperModel.Call.add_submodel "T" ⟨[⟨"x", 0, false⟩]⟩]) ∧
    SuperModel.plain_prefixes
      (plain_calls ++ [SuperModel.Call.add_submodel "T" ⟨[⟨"x", 0, false⟩]⟩]) ∧
    ∃ S, SuperModel.after
        (plain_calls ++ [SuperModel.Call.add_submodel "T" ⟨[⟨"x", 0, false⟩]⟩]) = .ok S ∧
      (S.parameters_.map fun p => p.name).Nodup :=
  ⟨by unfold SuperModel.distinct_names; decide, by unfold SuperModel.plain_prefixes; decide,
    supermodel_names_distinct plain_calls "T" ⟨[⟨"x", 0, false⟩]⟩
      (by unfold SuperModel.distinct_names; decide)
      (by unfold SuperModel.plain_prefixes; decide)⟩

/-- The claim C32 as it stands fails for the sub-models with the prefixes `a:`, `a` and
`c`: no name and no prefix contains `::` and all the conditions hold, but with the prefixes
the parameter `b` of the first sub-model and the parameter `:b` of the second one are both
called `a:::b` after the third call of `add_submodel`, whose check for duplicate names looks
at the names of the third sub-model only. -/
theorem supermodel_names_colon_clash :
    SuperModel.distinct_names colon_calls ∧
    SuperModel.parameter_names (SuperModel.after colon_calls) =
      some ["a:::b", "a:::x", "a:::b", "a::x", "y"] ∧
    ¬ (["a:::b", "a:::x", "a:::b", "a::x", "y"] : List String).Nodup ∧
    ¬ SuperModel.plain_prefixes colon_calls := by
  refine ⟨by unfold SuperModel.distinct_names; decide, by decide, by decide, ?_⟩
  unfold SuperModel.plain_prefixes
  decide

/-! ## The values of a `SuperModel` and of its sub-models (C34) -/

theorem Model.set_value_spec (M : Model) (i : Nat) (v : ℚ) (hi : i < M.parameters_.length) :
    ∃ M1, M.set_value i v = .ok M1 ∧ M1.parameters_.length = M.parameters_.length ∧
      ∀ x, M1.get_parameter_value x = if x = i then v else M.get_parameter_value x := by
  refine ⟨_, by rw [Model.set_value, if_pos hi], by simp, ?_⟩
  intro x
  unfold Model.get_parameter_value Model.get_parameter
  dsimp only
  rw [List.getD_eq_getElem?_getD, List.getD_eq_getElem?_getD, List.getElem?_modify]
  by_cases hx : x = i
  · subst hx
    rw [if_pos rfl, List.getElem?_eq_getElem hi]
    simp
  · rw [if_neg hx]
    have hix : ¬ i = x := fun h => hx h.symm
    cases M.parameters_[x]? <;> simp [hix]

/-- A function that keeps the list of the values keeps the value of every parameter. -/
theorem Model.values_eq (M N : Model) (h : M.get_parameter_values = N.get_parameter_values) :
    M.parameters_.length = N.parameters_.length ∧
    ∀ x, M.get_parameter_value x = N.get_parameter_value x := by
  have hlen : M.parameters_.length = N.parameters_.length := by
    have := congrArg List.length h
    simpa [Model.get_parameter_values, Model.n_parameters] using this
  refine ⟨hlen, fun x => ?_⟩
  unfold Model.get_parameter_value Model.get_parameter
  by_cases hx : x < M.parameters_.length
  · have h1 := congrArg (fun l => l.getD x 0) h
    simp only [Model.get_parameter_values, Model.n_parameters] at h1
    rw [List.getD_eq_getElem _ _ (by simpa using hx),
      List.getD_eq_getElem _ _ (by simpa using (hlen ▸ hx))] at h1
    simpa using h1
  · rw [List.getD_eq_default _ _ (by omega), List.getD_eq_default _ _ (by omega)]

/-- One write of the loops that set values: after the writes at the first `t` indices the
parameters at these indices hold the values `val` of their indices. -/
theorem Model.set_value_inv (M0 M : Model) (indices : List Nat) (val : Nat → ℚ) (t : Nat)
    (ht : t < indices.length) (hr : indices.getD t 0 < M0.parameters_.length)
    (h1 : M.parameters_.length = M0.parameters_.length)
    (h2 : ∀ x, M.get_parameter_value x =
      if x ∈ indices.take t then val x else M0.get_parameter_value x) :
    ∃ M1, M.set_value (indices.getD t 0) (val (indices.getD t 0)) = .ok M1 ∧
      M1.parameters_.length = M0.parameters_.length ∧
      ∀ x, M1.get_parameter_value x =
        if x ∈ indices.take (t + 1) then val x else M0.get_parameter_value x := by
  obtain ⟨M1, g1, g2, g3⟩ := M.set_value_spec (indices.getD t 0) (val (indices.getD t 0))
    (by omega)
  refine ⟨M1, g1, g2.trans h1, ?_⟩
  intro x
  have htake : indices.take (t + 1) = indices.take t ++ [indices.getD t 0] := by
    rw [List.take_succ, List.getD_eq_getElem?_getD, List.getElem?_eq_getElem ht]
    rfl
  have hmem : x ∈ indices.take (t + 1) ↔ x ∈ indices.take t ∨ x = indices.getD t 0 := by
    rw [htake, List.mem_append, List.mem_singleton]
  rw [g3, h2]
  by_cases hx : x = indices.getD t 0
  · rw [if_pos hx, if_pos (hmem.mpr (Or.inr hx)), hx]
  · rw [if_neg hx]
    by_cases hx2 : x ∈ indices.take t
    · rw [if_pos hx2, if_pos (hmem.mpr (Or.inl hx2))]
    · rw [if_neg hx2, if_neg (fun h => (hmem.mp h).elim hx2 hx)]

/-- `Model::set_parameter_values(indices,p)` returns when the indices lie in the model and
the iterator has enough values; it has then written the value `val x` to each parameter `x`
among the indices, where `val` is a function that gives for each index the value that the
iterator holds for it, and it has moved the iterator by the number of the indices. -/
theorem Model.set_parameter_values_spec (recalc : List Nat → Model → Model)
    (hrec : ∀ idx M, (recalc idx M).get_parameter_values = M.get_parameter_values)
    (M : Model) (indices : List Nat) (values : List ℚ) (p : Nat) (val : Nat → ℚ)
    (hlen : indices.length ≤ M.parameters_.length)
    (hr : ∀ x, x ∈ indices → x < M.parameters_.length)
    (hv : ∀ k, k < indices.length → values.get? (p + k) = some (val (indices.getD k 0))) :
    ∃ M1, M.set_parameter_values recalc indices values p = .ok (M1, p + indices.length) ∧
      M1.parameters_.length = M.parameters_.length ∧
      ∀ x, M1.get_parameter_value x =
        if x ∈ indices then val x else M.get_parameter_value x := by
  obtain ⟨st, hst, h1, h2, h3⟩ := foldlM_range_inv
    (Model.set_parameter_values_step indices values)
    (fun t st => st.2 = p + t ∧ st.1.parameters_.length = M.parameters_.length ∧
      ∀ x, st.1.get_parameter_value x =
        if x ∈ indices.take t then val x else M.get_parameter_value x)
    indices.length (M, p) ⟨rfl, rfl, fun x => by simp⟩
    (by
      intro t st ht ⟨g1, g2, g3⟩
      obtain ⟨M1, k1, k2, k3⟩ := Model.set_value_inv M st.1 indices val t ht
        (hr _ (getD_mem indices 0 t ht)) g2 g3
      refine ⟨(M1, st.2 + 1), ?_, by rw [g1]; rfl, k2, k3⟩
      unfold Model.set_parameter_values_step
      rw [g1, hv t ht]
      dsimp only
      rw [k1])
  obtain ⟨r1, r2⟩ := Model.values_eq _ _ (hrec indices st.1)
  refine ⟨recalc indices st.1, ?_, r1.trans h2, ?_⟩
  · unfold Model.set_parameter_values
    rw [if_neg (by omega), hst]
    dsimp only
    rw [h1]
  · intro x
    rw [r2 x, h3 x, List.take_length]

theorem SuperModel.set_value_lift (S : SuperModel) (i : Nat) (v : ℚ) (M1 : Model)
    (h : S.toModel.set_value i v = .ok M1) :
    S.set_value i v = .ok ⟨M1, S.short_parameter_names, S.model_of_index,
      S.first_index_of_model, S.model_prefix⟩ := by
  unfold SuperModel.set_value
  rw [h]

/-- The first loop of `write_values` passes its assertions when the indices are increasing
and lie in the `SuperModel`, and writes the value `val x` to each parameter `x` among the
indices. -/
theorem SuperModel.write_values_loop_spec (S : SuperModel) (indices : List Nat)
    (values : List ℚ) (p : Nat) (val : Nat → ℚ)
    (hinc : ∀ i j, i < j → j < indices.length → indices.getD i 0 < indices.getD j 0)
    (hr : ∀ x, x ∈ indices → x < S.parameters_.length)
    (hv : ∀ k, k < indices.length → values.get? (p + k) = some (val (indices.getD k 0))) :
    ∃ S1, (List.range indices.length).foldlM (SuperModel.write_values_step indices values p)
        S = .ok S1 ∧
      S1.short_parameter_names = S.short_parameter_names ∧
      S1.model_of_index = S.model_of_index ∧
      S1.first_index_of_model = S.first_index_of_model ∧
      S1.model_prefix = S.model_prefix ∧
      S1.parameters_.length = S.parameters_.length ∧
      ∀ x, S1.toModel.get_parameter_value x =
        if x ∈ indices then val x else S.toModel.get_parameter_value x := by
  obtain ⟨S1, hS1, h1, h2, h3, h4, h5, h6⟩ := foldlM_range_inv
    (SuperModel.write_values_step indices values p)
    (fun t S1 => S1.short_parameter_names = S.short_parameter_names ∧
      S1.model_of_index = S.model_of_index ∧
      S1.first_index_of_model = S.first_index_of_model ∧
      S1.model_prefix = S.model_prefix ∧
      S1.parameters_.length = S.parameters_.length ∧
      ∀ x, S1.toModel.get_parameter_value x =
        if x ∈ indices.take t then val x else S.toModel.get_parameter_value x)
    indices.length S ⟨rfl, rfl, rfl, rfl, rfl, fun x => by simp⟩
    (by
      intro t R ht ⟨g1, g2, g3, g4, g5, g6⟩
      have hrt := hr _ (getD_mem indices 0 t ht)
      obtain ⟨M1, k1, k2, k3⟩ := Model.set_value_inv S.toModel R.toModel indices val t ht
        hrt g5 g6
      refine ⟨⟨M1, R.short_parameter_names, R.model_of_index, R.first_index_of_model,
        R.model_prefix⟩, ?_, g1, g2, g3, g4, k2, k3⟩
      unfold SuperModel.write_values_step
      have ha1 : ¬ ¬ indices.getD t 0 < R.n_parameters := by
        rw [not_not]
        show _ < R.parameters_.length
        omega
      have ha2 : ¬ (t > 0 ∧ ¬ indices.getD (t - 1) 0 < indices.getD t 0) := by
        intro ⟨h0, hn⟩
        exact hn (hinc (t - 1) t (by omega) ht)
      rw [if_neg ha1, if_neg ha2, hv t ht]
      dsimp only
      exact SuperModel.set_value_lift R _ _ M1 k1)
  refine ⟨S1, hS1, h1, h2, h3, h4, h5, ?_⟩
  intro x
  rw [h6 x, List.take_length]

theorem SuperModel.write_values_skip_spec (S : SuperModel) (rest : List Nat) :
    ∀ (i p : Nat), ∃ c, SuperModel.write_values_skip S rest i p = (i + c, p + c) ∧
      c ≤ rest.length ∧ (∀ x, x ∈ rest.take c → S.model_of_index.getD x 0 = -1) ∧
      ∀ y, (rest.drop c).head? = some y → S.model_of_index.getD y 0 ≠ -1 := by
  induction rest with
  | nil => intro i p; exact ⟨0, rfl, le_refl _, by simp, by simp⟩
  | cons x rest ih =>
    intro i p
    by_cases h : S.model_of_index.getD x 0 = -1
    · obtain ⟨c, h1, h2, h3, h4⟩ := ih (i + 1) (p + 1)
      refine ⟨c + 1, ?_, by simp; omega, ?_, ?_⟩
      · rw [SuperModel.write_values_skip, if_pos h, h1]
        congr 1 <;> omega
      · intro y hy
        rw [List.take_succ_cons] at hy
        rcases List.mem_cons.mp hy with hy | hy
        · rw [hy]; exact h
        · exact h3 y hy
      · intro y hy
        rw [List.drop_succ_cons] at hy
        exact h4 y hy
    · refine ⟨0, ?_, by simp, by simp, ?_⟩
      · rw [SuperModel.write_values_skip, if_neg h]
        rfl
      · intro y hy
        simp only [List.drop_zero, List.head?_cons, Option.some.injEq] at hy
        rw [← hy]
        exact h

theorem SuperModel.write_values_collect_spec (S : SuperModel) (m : Int) (offset : Nat)
    (l : List Nat) :
    ∀ acc : List Nat, ∃ g r, SuperModel.write_values_collect S m offset l acc =
        (acc ++ g.map (fun x => x - offset), r) ∧ l = g ++ r ∧
      (∀ x, x ∈ g → S.model_of_index.getD x 0 = m) ∧
      ∀ y, r.head? = some y → S.model_of_index.getD y 0 ≠ m := by
  induction l with
  | nil => intro acc; exact ⟨[], [], by simp [SuperModel.write_values_collect], rfl, by simp,
      by simp⟩
  | cons x rest ih =>
    intro acc
    by_cases h : S.model_of_index.getD x 0 = m
    · obtain ⟨g, r, h1, h2, h3, h4⟩ := ih (acc ++ [x - offset])
      refine ⟨x :: g, r, ?_, by rw [h2]; rfl, ?_, h4⟩
      · rw [SuperModel.write_values_collect, if_pos h, h1]
        simp
      · intro y hy
        rcases List.mem_cons.mp hy with hy | hy
        · rw [hy]; exact h
        · exact h3 y hy
    · refine ⟨[], x :: rest, ?_, rfl, by simp, ?_⟩
      · rw [SuperModel.write_values_collect, if_neg h]
        simp
      · intro y hy
        simp only [List.head?_cons, Option.some.injEq] at hy
        rw [← hy]
        exact h

theorem getD_set_any {α : Type} (l : List α) (i j : Nat) (a d : α) :
    (l.set i a).getD j d = if i = j ∧ i < l.length then a else l.getD j d := by
  rw [List.getD_eq_getElem?_getD, List.getD_eq_getElem?_getD, List.getElem?_set]
  by_cases h : i = j
  · subst h
    by_cases h2 : i < l.length
    · simp [h2]
    · simp [h2, List.getElem?_eq_none (not_lt.mp h2)]
  · simp [h]

theorem length_le_of_increasing (l : List Nat) (n : Nat) (hl : l.Pairwise (fun a b => a < b))
    (hn : ∀ x, x ∈ l → x < n) : l.length ≤ n := by
  have hnd : l.Nodup := List.Pairwise.imp (fun h => Nat.ne_of_lt h) hl
  have hsub : l ⊆ List.range n := fun x hx => List.mem_range.mpr (hn x hx)
  have := (List.Nodup.subperm hnd hsub).length_le
  simpa using this

theorem vec_at_getD {α : Type} (v : List α) (k : Nat) (d : α) (h : k < v.length) :
    vec_at v (k : Int) = .ok (v.getD k d) := by
  unfold vec_at
  rw [if_pos (Int.natCast_nonneg k), Int.toNat_ofNat, List.get?_eq_getElem?,
    List.getElem?_eq_getElem h, List.getD_eq_getElem _ _ h]

/-- The loop of `write_values` that pushes the values down: on increasing indices that
belong to sub-models it returns, moves the iterator by the number of the indices, and has
written the value `val x` of each index `x` to the parameter `x - first_index_of_model[m]`
of the sub-model `m` of `x`, and nothing else. -/
theorem SuperModel.write_values_push_spec (recalc : List Nat → Model → Model)
    (hrec : ∀ idx M, (recalc idx M).get_parameter_values = M.get_parameter_values)
    (S : SuperModel) (sizes : Nat → Nat) (hL : S.layout sizes) (values : List ℚ)
    (val : Nat → ℚ) (fuel : Nat) :
    ∀ (rest : List Nat) (SubModels : List Model) (q : Nat),
      SubModels.length = S.n_submodels →
      (∀ m, m < S.n_submodels → (SubModels.getD m ⟨[]⟩).parameters_.length = sizes m) →
      rest.Pairwise (fun a b => a < b) →
      (∀ x, x ∈ rest → x < S.parameters_.length ∧ S.model_of_index.getD x 0 ≠ -1) →
      rest.length ≤ fuel →
      (∀ k, k < rest.length → values.get? (q + k) = some (val (rest.getD k 0))) →
      ∃ SubModels1, SuperModel.write_values_push recalc S values fuel rest SubModels q =
          .ok (SubModels1, q + rest.length) ∧
        SubModels1.length = SubModels.length ∧
        ∀ m, m < S.n_submodels →
          (SubModels1.getD m ⟨[]⟩).parameters_.length = sizes m ∧
          ∀ j, j < sizes m →
            (SubModels1.getD m ⟨[]⟩).get_parameter_value j =
              if S.first_index_of_model.getD m 0 + j ∈ rest then
                val (S.first_index_of_model.getD m 0 + j)
              else (SubModels.getD m ⟨[]⟩).get_parameter_value j := by
  obtain ⟨l1, l2, l3, l4, l5, l6, l7, l8⟩ := hL
  induction fuel with
  | zero =>
    intro rest subs q hsubs hsz hinc hr hfuel hv
    have : rest = [] := List.length_eq_zero.mp (by omega)
    subst this
    exact ⟨subs, rfl, rfl, fun m hm => ⟨hsz m hm, fun j _ => by simp⟩⟩
  | succ fuel ih =>
    intro rest subs q hsubs hsz hinc hr hfuel hv
    match hrest : rest with
    | [] => exact ⟨subs, rfl, rfl, fun m hm => ⟨hsz m hm, fun j _ => by simp⟩⟩
    | x :: r =>
      obtain ⟨hx1, hx2⟩ := hr x (List.mem_cons_self x r)
      obtain ⟨m0, hm0, hmx⟩ : ∃ m0, m0 < S.n_submodels ∧
          S.model_of_index.getD x 0 = (m0 : Int) := by
        rcases l8 x hx1 with h | h
        · exact absurd h hx2
        · exact h
      obtain ⟨g, r', hc1, hc2, hc3, hc4⟩ := SuperModel.write_values_collect_spec S (m0 : Int)
        (S.first_index_of_model.getD m0 0) (x :: r) []
      have hg : g ≠ [] := by
        intro hg
        rw [hg, List.nil_append] at hc2
        exact hc4 x (by rw [← hc2]; rfl) hmx
      have hglen : 1 ≤ g.length := by
        cases g with
        | nil => exact absurd rfl hg
        | cons _ _ => simp
      have hlen : (x :: r).length = g.length + r'.length := by
        rw [hc2, List.length_append]
      have hgmem : ∀ y, y ∈ g → y ∈ x :: r := fun y hy => by
        rw [hc2]; exact List.mem_append_left _ hy
      have hrmem : ∀ y, y ∈ r' → y ∈ x :: r := fun y hy => by
        rw [hc2]; exact List.mem_append_right _ hy
      have hblock : ∀ y, y ∈ g → S.first_index_of_model.getD m0 0 ≤ y ∧
          y < S.first_index_of_model.getD m0 0 + sizes m0 :=
        fun y hy => (l6 m0 hm0 y (hr y (hgmem y hy)).1).mp (hc3 y hy)
      have hpair := hinc
      rw [hc2, List.pairwise_append] at hpair
      obtain ⟨hpg, hpr, _⟩ := hpair
      have hsubinc : (g.map fun y => y - S.first_index_of_model.getD m0 0).Pairwise
          (fun a b => a < b) := by
        rw [List.pairwise_map]
        refine List.Pairwise.imp_of_mem ?_ hpg
        intro a b ha hb hab
        have := (hblock a ha).1
        have := (hblock b hb).1
        omega
      have hsubr : ∀ j, j ∈ g.map (fun y => y - S.first_index_of_model.getD m0 0) →
          j < (subs.getD m0 ⟨[]⟩).parameters_.length := by
        intro j hj
        obtain ⟨y, hy, rfl⟩ := List.mem_map.mp hj
        rw [hsz m0 hm0]
        have := hblock y hy
        omega
      have hgetg : ∀ k, k < g.length → g.getD k 0 = (x :: r).getD k 0 := by
        intro k hk
        rw [hc2, List.getD_append _ _ _ _ hk]
      have hgetr : ∀ k, k < r'.length → r'.getD k 0 = (x :: r).getD (g.length + k) 0 := by
        intro k hk
        rw [hc2, List.getD_append_right _ _ _ _ (by omega)]
        congr 1
        omega
      obtain ⟨M1, hM1, hM1len, hM1val⟩ := Model.set_parameter_values_spec recalc hrec
        (subs.getD m0 ⟨[]⟩) (g.map fun y => y - S.first_index_of_model.getD m0 0) values q
        (fun j => val (S.first_index_of_model.getD m0 0 + j))
        (length_le_of_increasing _ _ hsubinc hsubr) hsubr
        (by
          intro k hk
          rw [List.length_map] at hk
          have hmapget : (g.map fun y => y - S.first_index_of_model.getD m0 0).getD k 0 =
              g.getD k 0 - S.first_index_of_model.getD m0 0 := by
            rw [List.getD_eq_getElem _ _ (by rw [List.length_map]; exact hk), List.getElem_map,
              List.getD_eq_getElem _ _ hk]
          have hb := (hblock (g.getD k 0) (getD_mem g 0 k hk)).1
          rw [hv k (by omega), ← hgetg k hk, hmapget]
          congr 2
          omega)
      rw [List.length_map] at hM1
      obtain ⟨subs1, hp1, hp2, hp3⟩ := ih r' (subs.set m0 M1) (q + g.length)
        (by rw [List.length_set]; exact hsubs)
        (by
          intro m hm
          rw [getD_set_any]
          by_cases hmm : m0 = m ∧ m0 < subs.length
          · rw [if_pos hmm, hM1len, ← hmm.1]
            exact hsz m0 hm0
          · rw [if_neg hmm]
            exact hsz m hm)
        hpr (fun y hy => hr y (hrmem y hy)) (by omega)
        (by
          intro k hk
          rw [hgetr k hk, ← hv (g.length + k) (by omega)]
          congr 1
          omega)
      refine ⟨subs1, ?_, by rw [hp2, List.length_set], ?_⟩
      · rw [SuperModel.write_values_push]
        dsimp only
        rw [hmx, vec_at_getD S.first_index_of_model m0 0 hm0,
          vec_at_getD subs m0 ⟨[]⟩ (by omega)]
        dsimp only
        rw [hc1, List.nil_append]
        dsimp only
        rw [hM1]
        dsimp only
        rw [Int.toNat_ofNat, hp1]
        congr 2
        omega
      · intro m hm
        obtain ⟨k1, k2⟩ := hp3 m hm
        refine ⟨k1, fun j hj => ?_⟩
        rw [k2 j hj]
        have h7 := l7 m hm
        by_cases hr' : S.first_index_of_model.getD m 0 + j ∈ r'
        · rw [if_pos hr', if_pos (hrmem _ hr')]
        · rw [if_neg hr', getD_set_any]
          have hiff : S.first_index_of_model.getD m 0 + j ∈ x :: r ↔
              S.first_index_of_model.getD m 0 + j ∈ g := by
            rw [hc2, List.mem_append]
            exact ⟨fun h => h.elim id (fun h => absurd h hr'), Or.inl⟩
          by_cases hmm : m0 = m
          · subst hmm
            rw [if_pos ⟨rfl, by omega⟩, hM1val]
            have hiff2 : j ∈ g.map (fun y => y - S.first_index_of_model.getD m0 0) ↔
                S.first_index_of_model.getD m0 0 + j ∈ g := by
              rw [List.mem_map]
              constructor
              · rintro ⟨y, hy, rfl⟩
                have := (hblock y hy).1
                rw [show S.first_index_of_model.getD m0 0 +
                  (y - S.first_index_of_model.getD m0 0) = y by omega]
                exact hy
              · intro h
                exact ⟨_, h, by omega⟩
            by_cases hin : S.first_index_of_model.getD m0 0 + j ∈ g
            · rw [if_pos (hiff2.mpr hin), if_pos (hiff.mpr hin)]
            · rw [if_neg (fun h => hin (hiff2.mp h)), if_neg (fun h => hin (hiff.mp h))]
          · rw [if_neg (fun h => hmm h.1)]
            have hnot : ¬ S.first_index_of_model.getD m 0 + j ∈ x :: r := by
              intro h
              have hin := hiff.mp h
              have h1 := hc3 _ hin
              have h2 := (l6 m hm (S.first_index_of_model.getD m 0 + j) (by omega)).mpr
                ⟨by omega, by omega⟩
              rw [h1] at h2
              exact hmm (by exact_mod_cast h2)
            rw [if_neg hnot]

theorem submodels_values_eq (A B : List Model)
    (h : A.map Model.get_parameter_values = B.map Model.get_parameter_values) (m : Nat) :
    ∀ x, (A.getD m ⟨[]⟩).get_parameter_value x = (B.getD m ⟨[]⟩).get_parameter_value x := by
  have hlen : A.length = B.length := by
    have := congrArg List.length h
    simpa using this
  by_cases hm : m < A.length
  · have h1 := congrArg (fun l => l[m]?) h
    simp only [List.getElem?_map, List.getElem?_eq_getElem hm,
      List.getElem?_eq_getElem (hlen ▸ hm), Option.map_some', Option.some.injEq] at h1
    rw [List.getD_eq_getElem _ _ hm, List.getD_eq_getElem _ _ (hlen ▸ hm)]
    exact (Model.values_eq _ _ h1).2
  · rw [List.getD_eq_default _ _ (by omega), List.getD_eq_default _ _ (by omega)]
    exact fun _ => rfl

theorem getD_drop_nat (l : List Nat) (c k : Nat) : (l.drop c).getD k 0 = l.getD (c + k) 0 := by
  rw [List.getD_eq_getElem?_getD, List.getD_eq_getElem?_getD, List.getElem?_drop]

/-- C34. Assume that `recalc` changes no parameter value, in the sub-models and in the
`SuperModel`. On a `SuperModel` with the layout of its indices and in-range, strictly
increasing `indices`, `set_parameter_values(indices,p)` returns and has moved the iterator
by the number of the indices. After it the parameter `indices[k]` of the `SuperModel` has
the value `p[k]` for every `k`, and every parameter that is not listed has its old value.
The value `p[k]` has also been pushed to the parameter `indices[k] - first_index_of_model[m]`
of the sub-model `m` that `indices[k]` belongs to, and every other parameter of a
sub-model has its old value; so when each parameter `j` of each sub-model `m` had the value
of the parameter `first_index_of_model[m] + j` of the `SuperModel` before the call, it has
it after the call as well. -/
theorem supermodel_values_synchronised (recalc : List Nat → Model → Model)
    (recalc_all : List Nat → SuperModel × List Model → SuperModel × List Model)
    (S : SuperModel) (SubModels : List Model) (indices : List Nat) (values : List ℚ) (p : Nat)
    (hrec : ∀ idx M, (recalc idx M).get_parameter_values = M.get_parameter_values)
    (hrec_all : ∀ idx r,
      (recalc_all idx r).1.get_parameter_values = r.1.get_parameter_values ∧
      (recalc_all idx r).2.map Model.get_parameter_values =
        r.2.map Model.get_parameter_values)
    (hL : S.layout fun m => (SubModels.getD m ⟨[]⟩).n_parameters)
    (hsubs : SubModels.length = S.n_submodels)
    (hinc : indices.Pairwise fun a b => a < b)
    (hrange : ∀ x, x ∈ indices → x < S.n_parameters)
    (hvalues : p + indices.length ≤ values.length) :
    ∃ S1 SubModels1,
      S.set_parameter_values recalc recalc_all SubModels indices values p =
        .ok (S1, SubModels1, p + indices.length) ∧
      (∀ k, k < indices.length →
        S1.get_parameter_value (indices.getD k 0) = values.getD (p + k) 0) ∧
      (∀ i, i ∉ indices → S1.get_parameter_value i = S.get_parameter_value i) ∧
      (∀ k m, k < indices.length → m < S.n_submodels →
        S.model_of_index.getD (indices.getD k 0) 0 = (m : Int) →
        (SubModels1.getD m ⟨[]⟩).get_parameter_value
            (indices.getD k 0 - S.first_index_of_model.getD m 0) =
          values.getD (p + k) 0) ∧
      (∀ m j, m < S.n_submodels → j < (SubModels.getD m ⟨[]⟩).n_parameters →
        S.first_index_of_model.getD m 0 + j ∉ indices →
        (SubModels1.getD m ⟨[]⟩).get_parameter_value j =
          (SubModels.getD m ⟨[]⟩).get_parameter_value j) ∧
      ((∀ m j, m < S.n_submodels → j < (SubModels.getD m ⟨[]⟩).n_parameters →
          (SubModels.getD m ⟨[]⟩).get_parameter_value j =
            S.get_parameter_value (S.first_index_of_model.getD m 0 + j)) →
        ∀ m j, m < S.n_submodels → j < (SubModels.getD m ⟨[]⟩).n_parameters →
          (SubModels1.getD m ⟨[]⟩).get_parameter_value j =
            S1.get_parameter_value (S.first_index_of_model.getD m 0 + j)) := by
  have hnd : indices.Nodup := List.Pairwise.imp (fun h => Nat.ne_of_lt h) hinc
  have hv : ∀ k, k < indices.length → values.get? (p + k) =
      some ((fun x => values.getD (p + indices.indexOf x) 0) (indices.getD k 0)) := by
    intro k hk
    dsimp only
    rw [List.getD_eq_getElem _ _ hk, List.indexOf_getElem hnd k hk, List.get?_eq_getElem?,
      List.getElem?_eq_getElem (by omega), List.getD_eq_getElem _ _ (by omega)]
  have hval : ∀ k, k < indices.length →
      (fun x => values.getD (p + indices.indexOf x) 0) (indices.getD k 0) =
        values.getD (p + k) 0 := by
    intro k hk
    dsimp only
    rw [List.getD_eq_getElem _ _ hk, List.indexOf_getElem hnd k hk]
  generalize (fun x => values.getD (p + indices.indexOf x) 0) = val at hv hval
  have hincp : ∀ i j, i < j → j < indices.length → indices.getD i 0 < indices.getD j 0 := by
    intro i j hij hj
    rw [List.getD_eq_getElem _ _ (by omega), List.getD_eq_getElem _ _ hj]
    exact List.pairwise_iff_getElem.mp hinc i j (by omega) hj hij
  obtain ⟨S1, hS1, e1, e2, e3, e4, e5, e6⟩ := SuperModel.write_values_loop_spec S indices
    values p val hincp hrange hv
  have hL1 : S1.layout fun m => (SubModels.getD m ⟨[]⟩).n_parameters :=
    SuperModel.layout_same_but_names _ S1 S ⟨e1, e2, e3, e4, e5⟩ hL
  obtain ⟨l1, l2, l3, l4, l5, l6, l7, l8⟩ := hL
  beta_reduce at l6 l7
  obtain ⟨c, hc1, hc2, hc3, hc4⟩ := SuperModel.write_values_skip_spec S1 indices 0 p
  rw [e2] at hc3 hc4
  rw [Nat.zero_add] at hc1
  have hsplit : indices = indices.take c ++ indices.drop c := (List.take_append_drop c _).symm
  have hpair := hinc
  rw [hsplit, List.pairwise_append] at hpair
  obtain ⟨_, hpd, _⟩ := hpair
  have hdropmem : ∀ x, x ∈ indices.drop c → x < S.parameters_.length ∧
      S.model_of_index.getD x 0 ≠ -1 := by
    intro x hx
    have hxr : x < S.parameters_.length := hrange x (List.mem_of_mem_drop hx)
    refine ⟨hxr, ?_⟩
    cases hd : indices.drop c with
    | nil => rw [hd] at hx; simp at hx
    | cons y ys =>
      have hy := hc4 y (by rw [hd]; rfl)
      have hyr : y < S.parameters_.length :=
        hrange y (List.mem_of_mem_drop (by rw [hd]; exact List.mem_cons_self y ys))
      have hyn : ¬ y < S.n_super_parameters := fun h => hy ((l5 y hyr).mpr h)
      rw [hd] at hx hpd
      intro hxm
      have hxs := (l5 x hxr).mp hxm
      rcases List.mem_cons.mp hx with h | h
      · rw [h] at hxs; exact hyn hxs
      · have := (List.pairwise_cons.mp hpd).1 x h
        omega
  have hsz : ∀ m, m < S1.n_submodels →
      (SubModels.getD m ⟨[]⟩).parameters_.length = (SubModels.getD m ⟨[]⟩).n_parameters :=
    fun _ _ => rfl
  have hsub1 : S1.n_submodels = S.n_submodels := by
    unfold SuperModel.n_submodels; rw [e3]
  obtain ⟨subs1, hp1, hp2, hp3⟩ := SuperModel.write_values_push_spec recalc hrec S1 _ hL1
    values val indices.length (indices.drop c) SubModels (p + c) (by rw [hsub1]; exact hsubs)
    hsz hpd (by rw [e2, e5]; exact hdropmem) (by simp)
    (by
      intro k hk
      rw [List.length_drop] at hk
      rw [getD_drop_nat, ← hv (c + k) (by omega)]
      congr 1
      omega)
  rw [e3, hsub1] at hp3
  have hplen : p + c + (indices.drop c).length = p + indices.length := by
    rw [List.length_drop]; omega
  rw [hplen] at hp1
  obtain ⟨r1, r2⟩ := hrec_all indices (S1, subs1)
  obtain ⟨_, v1⟩ := Model.values_eq _ _ r1
  have v2 := submodels_values_eq _ _ r2
  have hmem : ∀ m j, m < S.n_submodels → j < (SubModels.getD m ⟨[]⟩).n_parameters →
      (S.first_index_of_model.getD m 0 + j ∈ indices.drop c ↔
        S.first_index_of_model.getD m 0 + j ∈ indices) := by
    intro m j hm hj
    refine ⟨List.mem_of_mem_drop, fun h => ?_⟩
    rw [hsplit, List.mem_append] at h
    rcases h with h | h
    · exfalso
      have h1 := hc3 _ h
      have h7 := l7 m hm
      have h2 := (l6 m hm (S.first_index_of_model.getD m 0 + j) (by omega)).mpr
        ⟨by omega, by omega⟩
      rw [h1] at h2
      have h3 := Int.natCast_nonneg m
      rw [← h2] at h3
      exact absurd h3 (by decide)
    · exact h
  have hsubval : ∀ m j, m < S.n_submodels → j < (SubModels.getD m ⟨[]⟩).n_parameters →
      ((recalc_all indices (S1, subs1)).2.getD m ⟨[]⟩).get_parameter_value j =
        if S.first_index_of_model.getD m 0 + j ∈ indices then
          val (S.first_index_of_model.getD m 0 + j)
        else (SubModels.getD m ⟨[]⟩).get_parameter_value j := by
    intro m j hm hj
    rw [v2 m j, (hp3 m hm).2 j hj]
    by_cases h : S.first_index_of_model.getD m 0 + j ∈ indices
    · rw [if_pos h, if_pos ((hmem m j hm hj).mpr h)]
    · rw [if_neg h, if_neg (fun h2 => h ((hmem m j hm hj).mp h2))]
  have hsupval : ∀ x, (recalc_all indices (S1, subs1)).1.get_parameter_value x =
      if x ∈ indices then val x else S.get_parameter_value x := fun x => (v1 x).trans (e6 x)
  refine ⟨(recalc_all indices (S1, subs1)).1, (recalc_all indices (S1, subs1)).2,
    ?_, ?_, ?_, ?_, ?_, ?_⟩
  · unfold SuperModel.set_parameter_values
    have hle : indices.length ≤ S.n_parameters :=
      length_le_of_increasing indices _ hinc hrange
    rw [if_neg (by omega)]
    unfold SuperModel.write_values
    rw [hS1]
    dsimp only
    rw [hc1]
    dsimp only
    rw [hp1]
  · intro k hk
    rw [hsupval, if_pos (getD_mem indices 0 k hk)]
    exact hval k hk
  · intro i hi
    rw [hsupval, if_neg hi]
  · intro k m hk hm hmoi
    have hx := hrange _ (getD_mem indices 0 k hk)
    obtain ⟨b1, b2⟩ := (l6 m hm _ hx).mp hmoi
    have hj : indices.getD k 0 - S.first_index_of_model.getD m 0 <
        (SubModels.getD m ⟨[]⟩).n_parameters := by omega
    have hadd : S.first_index_of_model.getD m 0 +
        (indices.getD k 0 - S.first_index_of_model.getD m 0) = indices.getD k 0 := by omega
    rw [hsubval m _ hm hj, hadd, if_pos (getD_mem indices 0 k hk)]
    exact hval k hk
  · intro m j hm hj hnot
    rw [hsubval m j hm hj, if_neg hnot]
  · intro hsync m j hm hj
    rw [hsubval m j hm hj, hsupval, hsync m j hm hj]

/-- The instance of C34 at a `SuperModel` with two parameters of its own and two sub-models
of two parameters each, for the indices 1, 3 and 4 and the values 10, 20 and 30. -/
theorem supermodel_values_synchronised_witness :
    ∃ S1 SubModels1,
      two_submodels.set_parameter_values (fun _ M => M) (fun _ r => r) two_submodels_models
          [1, 3, 4] [10, 20, 30] 0 = .ok (S1, SubModels1, 0 + [1, 3, 4].length) ∧
      (∀ k, k < [1, 3, 4].length →
        S1.get_parameter_value ([1, 3, 4].getD k 0) = [10, 20, 30].getD (0 + k) 0) ∧
      (∀ i, i ∉ [1, 3, 4] → S1.get_parameter_value i = two_submodels.get_parameter_value i) ∧
      (∀ k m, k < [1, 3, 4].length → m < two_submodels.n_submodels →
        two_submodels.model_of_index.getD ([1, 3, 4].getD k 0) 0 = (m : Int) →
        (SubModels1.getD m ⟨[]⟩).get_parameter_value
            ([1, 3, 4].getD k 0 - two_submodels.first_index_of_model.getD m 0) =
          [10, 20, 30].getD (0 + k) 0) ∧
      (∀ m j, m < two_submodels.n_submodels →
        j < (two_submodels_models.getD m ⟨[]⟩).n_parameters →
        two_submodels.first_index_of_model.getD m 0 + j ∉ [1, 3, 4] →
        (SubModels1.getD m ⟨[]⟩).get_parameter_value j =
          (two_submodels_models.getD m ⟨[]⟩).get_parameter_value j) ∧
      ((∀ m j, m < two_submodels.n_submodels →
          j < (two_submodels_models.getD m ⟨[]⟩).n_parameters →
          (two_submodels_models.getD m ⟨[]⟩).get_parameter_value j =
            two_submodels.get_parameter_value
              (two_submodels.first_index_of_model.getD m 0 + j)) →
        ∀ m j, m < two_submodels.n_submodels →
          j < (two_submodels_models.getD m ⟨[]⟩).n_parameters →
          (SubModels1.getD m ⟨[]⟩).get_parameter_value j =
            S1.get_parameter_value (two_submodels.first_index_of_model.getD m 0 + j)) :=
  supermodel_values_synchronised (fun _ M => M) (fun _ r => r) two_submodels
    two_submodels_models [1, 3, 4] [10, 20, 30] 0 (fun _ _ => rfl) (fun _ _ => ⟨rfl, rfl⟩)
    (by unfold SuperModel.layout; decide) (by decide) (by decide) (by decide) (by decide)

end BaliPhy
